import Mathlib

/-!
# Magnitude algebra of mp-units: shallow embedding and verified properties

Source files embedded here:
* `src/core/include/mp-units/bits/unit_magnitude.h` (the magnitude algebra),
* `src/core/include/mp-units/framework/unit_magnitude.h` (`mag`, `mag_ratio`),
* `src/core/include/mp-units/bits/sudo_cast.h` (the conversion engine).

A `unit_magnitude<Ms...>` pack is a list of elements.  An element is either a bare
base `V` (implicit exponent `1`) or `power_v<V, Num, Den>`; `power_v` excludes the
exponents `0` and `1`, so a pair (base, exponent) determines the C++ element type, and
`is_same_v` on magnitudes is equality of lists.  A program the compiler rejects (failed
`static_assert`, unsatisfied `requires`, missing `return`) is the value `none`.
-/

namespace MpUnits

/-- Modelled from the spec: `bits/ratio.h` is not among the sources.  A `ratio` is an exact
fraction kept in lowest terms with a positive denominator (spec section 3,
RationalExponent); `ℚ` stores exactly that pair `num`, `den`. -/
abbrev ratio := ℚ

/-- The value `ratio{Num, Den}` builds (lowest terms, positive denominator). -/
def ratio.make (Num Den : Int) : ratio := Rat.divInt Num Den

/-- A tag type derived from `mag_constant<Symbol, Value>`: `tag` stands for the identity
of the C++ type, `value` for `_value_` (a finite `long double` is a rational number). -/
structure mag_constant where
  tag : Nat
  value : ℚ
deriving DecidableEq, Repr

/-- What `get_base` can return: the sentinel `negative_tag`, an integer
(`std::intmax_t`) or a `mag_constant` tag. -/
inductive Base where
  | negative_tag : Base
  | integral (v : Int) : Base
  | constant (c : mag_constant) : Base
deriving DecidableEq, Repr

/-- One template argument of `unit_magnitude`: the bare base when `exponent = 1`,
`power_v<base, exponent.num, exponent.den>` otherwise. -/
structure Element where
  base : Base
  exponent : ratio
deriving DecidableEq, Repr

/-- The pack `Ms...` of `unit_magnitude<Ms...>`. -/
abbrev unit_magnitude := List Element

/-- Source `get_base_value`, on the base of an element. -/
def get_base_value : Base → ℚ
  | Base.negative_tag => -1
  | Base.integral v => (v : ℚ)
  | Base.constant c => c.value

/-- Source `is_negative_tag<decltype(M)>` for an element `M`: the bare sentinel. -/
def Element.is_negative_tag (e : Element) : Bool :=
  decide (e.base = Base.negative_tag ∧ e.exponent = 1)

/-- Source `is_same_v<decltype(get_base(H)), decltype(get_base(H2))>`: integer bases all
have type `std::intmax_t`, the sentinels all have type `negative_tag`, and two constants
have the same type when they are the same tag. -/
def same_base_type : Base → Base → Bool
  | Base.negative_tag, Base.negative_tag => true
  | Base.integral _, Base.integral _ => true
  | Base.constant c, Base.constant d => decide (c = d)
  | _, _ => false

/-- Source `power_v_or_T<V, R>`: the bare `V` for `R = 1`, `power_v<V, R.num, R.den>`
otherwise; `power_v` requires a valid ratio, which rejects the exponent `0`.  The exponent
is kept here as the exact ratio `R`.  The conversion of `R.num` and `R.den` to the `int`
template parameters of `power_v` is embedded in `power_v` and `IntExponent.power_v_or_T`
below, which agree with this function whenever `int` holds `R.num` and `R.den`. -/
def power_v_or_T (V : Base) (R : ratio) : Option Element :=
  if R.num = 0 then none else some ⟨V, R⟩

/-- Source `mag_less`: compares the base values in their common type. -/
def mag_less (lhs rhs : Element) : Bool :=
  decide (get_base_value lhs.base < get_base_value rhs.base)

/-- Source `multiply_impl` (the case of two non-empty packs), with the dispatch of
`operator*` on an empty operand folded in (the first two cases).  The first argument bounds
the depth of nested `multiply_impl` instantiations; `none` is an ill-formed product (or an
exhausted depth). -/
def multiply_impl : Nat → unit_magnitude → unit_magnitude → Option unit_magnitude
  | _, [], rhs => some rhs
  | _, H :: T, [] => some (H :: T)
  | 0, _ :: _, _ :: _ => none
  | n + 1, H :: T, H2 :: T2 =>
    if mag_less H H2 then
      if T.isEmpty then some (H :: H2 :: T2)
      else (multiply_impl n T (H2 :: T2)).bind (fun r => multiply_impl n [H] r)
    else if mag_less H2 H then
      (multiply_impl n (H :: T) T2).bind (fun r => multiply_impl n [H2] r)
    else if same_base_type H.base H2.base then
      (multiply_impl n T T2).bind (fun partial_product =>
        if H.base = Base.negative_tag then some partial_product
        else if H.exponent + H2.exponent = 0 then some partial_product
        else
          (power_v_or_T H.base (H.exponent + H2.exponent)).bind (fun new_head =>
            if new_head.exponent = 0 then some partial_product
            else multiply_impl n [new_head] partial_product))
    else none

/-- Source `operator*`: the product `lhs * rhs`.  The depth allowance is symmetric in the
operands and, as proved below, is enough for every pair of canonical magnitudes. -/
def mul (lhs rhs : unit_magnitude) : Option unit_magnitude :=
  multiply_impl (lhs.length + rhs.length + 1) lhs rhs


/-- Source `pow_magnitude`, last branch: `power_v_or_T<get_base(E), get_exponent(E) * R>()`
for every element of the pack. -/
def pow_elements (R : ratio) : unit_magnitude → Option unit_magnitude
  | [] => some []
  | e :: es =>
    match power_v_or_T e.base (e.exponent * R), pow_elements R es with
    | some x, some xs => some (x :: xs)
    | _, _ => none

/-- Source `pow_magnitude<Num, Den>`.  `ratio{Num, Den}` is rejected for `Den = 0` (spec
section 4.1); the `static_assert` on the parity of the denominator rejects even roots of a
negative magnitude. -/
def pow_magnitude (Num Den : Int) : unit_magnitude → Option unit_magnitude
  | [] => some []
  | H :: Rest =>
    if Den = 0 then none
    else if H.is_negative_tag then
      if (ratio.make Num Den).den % 2 = 1 then
        (pow_magnitude Num Den Rest).bind (fun rest_powered =>
          if Int.tmod (ratio.make Num Den).num 2 = 0 then some rest_powered
          else mul [H] rest_powered)
      else none
    else pow_elements (ratio.make Num Den) (H :: Rest)

/-- Source `pow<Num, Den>(unit_magnitude)`, with exact exponents; `IntExponent.pow` below
takes `Num` and `Den` as values of type `int` and makes the elements with `int` exponent
parameters. -/
def pow (Num Den : Int) (m : unit_magnitude) : Option unit_magnitude :=
  if Num = 0 then some [] else pow_magnitude Num Den m

/-- Source `operator/`: `lhs * pow<-1>(rhs)`. -/
def div (lhs rhs : unit_magnitude) : Option unit_magnitude :=
  (pow (-1) 1 rhs).bind (fun inv => mul lhs inv)

/-- Source `abs_magnitude`. -/
def abs_magnitude : unit_magnitude → unit_magnitude
  | [] => []
  | H :: Rest => if H.is_negative_tag then Rest else H :: Rest

/-- Source `check_magnitude_is_positive` (`magnitude_is_positive`). -/
def check_magnitude_is_positive : unit_magnitude → Bool
  | [] => true
  | H :: _ => !H.is_negative_tag

/-- Source `std::is_integral_v<decltype(get_base(M))>`. -/
def Base.is_integral_type : Base → Bool
  | Base.integral _ => true
  | _ => false

/-- Source `is_mag_constant<decltype(get_base(M))>`. -/
def Base.is_mag_constant : Base → Bool
  | Base.constant _ => true
  | _ => false

/-- Source `is_rational_impl`. -/
def is_rational_impl (element : Element) : Bool :=
  if element.is_negative_tag then true
  else element.base.is_integral_type && decide (element.exponent.den = 1)

/-- Source `is_integral_impl`. -/
def is_integral_impl (element : Element) : Bool :=
  if element.is_negative_tag then true
  else is_rational_impl element && decide (element.exponent.num > 0)

/-- Source `is_positive_integral_power_impl`. -/
def is_positive_integral_power_impl (element : Element) : Bool :=
  if element.is_negative_tag then false
  else decide (element.exponent.den = 1) && decide (element.exponent.num > 0)

/-- Source `is_integral(unit_magnitude)`. -/
def is_integral (m : unit_magnitude) : Bool := m.all is_integral_impl

/-- Source `is_rational(unit_magnitude)`. -/
def is_rational (m : unit_magnitude) : Bool := m.all is_rational_impl

/-- Source `is_positive_integral_power(unit_magnitude)`. -/
def is_positive_integral_power (m : unit_magnitude) : Bool :=
  m.all is_positive_integral_power_impl

/-- Source `integer_part(unit_magnitude<M>)`: the largest integer power of one element.
The quotient `power_num / power_den` is the truncating integer division of C++. -/
def integer_part (M : Element) : Option unit_magnitude :=
  if M.is_negative_tag then some [M]
  else if M.base.is_integral_type && decide (M.exponent.num ≥ (M.exponent.den : Int)) then
    (power_v_or_T M.base ((Int.tdiv M.exponent.num (M.exponent.den : Int) : Int) : ℚ)).map
      (fun e => [e])
  else some []

/-- Source `numerator`: the right fold `(integer_part(Ms) * ... * unit_magnitude<>{})`. -/
def numerator (m : unit_magnitude) : Option unit_magnitude :=
  m.foldr (fun M acc => (integer_part M).bind (fun i => acc.bind (fun a => mul i a))) (some [])

/-- Source `denominator`: `numerator(pow<-1>(abs_magnitude(m)))`. -/
def denominator (m : unit_magnitude) : Option unit_magnitude :=
  (pow (-1) 1 (abs_magnitude m)).bind numerator

/-- Source `remove_positive_power(unit_magnitude<M>)`. -/
def remove_positive_power (M : Element) : unit_magnitude :=
  if M.is_negative_tag then []
  else if M.exponent.num < 0 then [M]
  else []

/-- Source `remove_positive_powers`: the left fold
`(unit_magnitude<>{} * ... * remove_positive_power(Ms))`. -/
def remove_positive_powers (m : unit_magnitude) : Option unit_magnitude :=
  m.foldl (fun acc M => acc.bind (fun a => mul a (remove_positive_power M))) (some [])

/-- Source `common_magnitude`: the three overloads with an empty operand and the friend
defined in `magnitude_base` for two non-empty packs. -/
def common_magnitude : unit_magnitude → unit_magnitude → Option unit_magnitude
  | [], [] => some []
  | [], H2 :: T2 => remove_positive_powers (H2 :: T2)
  | H :: T, [] => remove_positive_powers (H :: T)
  | H :: T, H2 :: T2 =>
    if get_base_value H.base < get_base_value H2.base then
      (common_magnitude T (H2 :: T2)).bind (fun r => mul (remove_positive_power H) r)
    else if get_base_value H2.base < get_base_value H.base then
      (common_magnitude (H :: T) T2).bind (fun r => mul (remove_positive_power H2) r)
    else
      (common_magnitude T T2).bind (fun common_tail =>
        if H.exponent < H2.exponent then mul [H] common_tail else mul [H2] common_tail)
termination_by m1 m2 => m1.length + m2.length

/-! ### Construction: `mag<V>`, `mag_ratio<N, D>` -/

/-- Modelled from the spec: `find_first_factor` of `ext/prime.h` is not among the sources.
The deterministic prime search returns the first (smallest) prime factor (spec section
4.2). -/
def find_first_factor (n : Nat) : Nat := Nat.minFac n

/-- Counts how often `factor` divides `n`, with at most `fuel` divisions. -/
def multiplicity_loop : Nat → Nat → Nat → Nat
  | 0, _, _ => 0
  | fuel + 1, factor, n =>
    if n % factor = 0 then 1 + multiplicity_loop fuel factor (n / factor) else 0

/-- Modelled from the spec: `multiplicity` of `ext/prime.h` is not among the sources.  It
is the count of the factor `factor` in `n` (spec section 4.2, "count in numerator"). -/
def multiplicity (factor n : Nat) : Nat := multiplicity_loop n factor n

/-- Modelled from the spec: `remove_power` of `ext/prime.h` is not among the sources.  It
divides `n` by `base ^ pow`. -/
def remove_power (base pow n : Nat) : Nat := n / base ^ pow

/-- Source `prime_factorization<N>::value` (`requires N > 0`, specialisation for `1`).  The
first argument bounds the number of nested instantiations. -/
def prime_factorization_depth : Nat → Nat → Option unit_magnitude
  | 0, N => if N = 1 then some [] else none
  | d + 1, N =>
    if N = 1 then some []
    else if N = 0 then none
    else
      let first_base := find_first_factor N
      let first_power := multiplicity first_base N
      let remainder := remove_power first_base first_power N
      (power_v_or_T (Base.integral (first_base : Int)) ((first_power : Int) : ℚ)).bind
        (fun head => (prime_factorization_depth d remainder).bind (fun rest => mul [head] rest))

/-- Source `prime_factorization_v<N>`; each instantiation removes a prime factor, so `N`
levels are never exhausted. -/
def prime_factorization_v (N : Nat) : Option unit_magnitude := prime_factorization_depth N N

/-- Source `mag<V>` for an integer `V` (`requires is_nonzero_mag_arg<V>`), through the
integer branch of `make_magnitude`, the absolute value `abs_v` taken exactly.  The type of
the argument `V`, in which the source computes `-V`, is embedded in `make_magnitude`
below, which agrees with this function whenever the type of `V` holds `-V`. -/
def mag (V : Int) : Option unit_magnitude :=
  if V = 0 then none
  else
    (prime_factorization_v V.natAbs).bind (fun abs_mag =>
      if V < 0 then mul [⟨Base.negative_tag, 1⟩] abs_mag else some abs_mag)

/-- Source `mag_ratio<N, D>` (`requires N != 0`), through the `ratio` branch of
`make_magnitude`; `ratio{N, D}` is in lowest terms with a positive denominator and is
rejected for `D = 0`. -/
def mag_ratio (N D : Int) : Option unit_magnitude :=
  if N = 0 then none
  else if D = 0 then none
  else
    let V := ratio.make N D
    (prime_factorization_v V.num.natAbs).bind (fun n =>
      (prime_factorization_v V.den).bind (fun d =>
        (div n d).bind (fun abs_mag =>
          if V.num < 0 then mul [⟨Base.negative_tag, 1⟩] abs_mag else some abs_mag)))

/-- Source `mag<C>` for a `mag_constant` tag `C`: `unit_magnitude<C>`. -/
def mag_of_constant (c : mag_constant) : unit_magnitude := [⟨Base.constant c, 1⟩]

/-! ### Numeric value and the conversion engine (`sudo_cast.h`) -/

/-- An integral representation type (`std::integral`): signedness and width in bits. -/
structure IntRep where
  is_signed : Bool
  bits : Nat
deriving DecidableEq, Repr

/-- Source `std::intmax_t` (64-bit signed). -/
def intmax_t : IntRep := ⟨true, 64⟩

/-- Source `std::uintmax_t` (64-bit unsigned). -/
def uintmax_t : IntRep := ⟨false, 64⟩

/-- Least value of the type. -/
def IntRep.min_value (T : IntRep) : Int := if T.is_signed then -(2 ^ (T.bits - 1)) else 0

/-- Greatest value of the type. -/
def IntRep.max_value (T : IntRep) : Int :=
  if T.is_signed then 2 ^ (T.bits - 1) - 1 else 2 ^ T.bits - 1

/-- Whether the type represents the integer `x`. -/
def IntRep.holds (T : IntRep) (x : Int) : Bool :=
  decide (T.min_value ≤ x) && decide (x ≤ T.max_value)

/-- The value of `static_cast<T>(x)`: reduction modulo `2 ^ bits` into the range of `T`. -/
def IntRep.wrap (T : IntRep) (x : Int) : Int :=
  if T.is_signed then (x + 2 ^ (T.bits - 1)) % 2 ^ T.bits - 2 ^ (T.bits - 1)
  else x % 2 ^ T.bits

/-- Source `widen_t<T>` on integral types: `std::intmax_t` or `std::uintmax_t`. -/
def widen_t (T : IntRep) : IntRep := if T.is_signed then intmax_t else uintmax_t

/-- Integral promotion: types narrower than `int` (32 bits) are promoted to `int`. -/
def IntRep.promote (T : IntRep) : IntRep := if T.bits < 32 then ⟨true, 32⟩ else T

/-- Source `std::common_type_t` on two integral types (usual arithmetic conversions, the
conversion rank taken to be the width). -/
def common_type (A B : IntRep) : IntRep :=
  let a := A.promote
  let b := B.promote
  if a.is_signed = b.is_signed then (if b.bits ≤ a.bits then a else b)
  else if a.is_signed then (if a.bits ≤ b.bits then b else a)
  else (if b.bits ≤ a.bits then a else b)

/-- Binary `*` evaluated in the integral type `T`: both operands are converted to `T`;
signed overflow is undefined (no value), unsigned arithmetic wraps. -/
def arith_mul (T : IntRep) (a b : Int) : Option Int :=
  if T.is_signed then
    (if T.holds (T.wrap a * T.wrap b) then some (T.wrap a * T.wrap b) else none)
  else some (T.wrap (T.wrap a * T.wrap b))

/-- Binary `/` evaluated in the integral type `T`: truncation toward zero; division by
zero and signed overflow are undefined (no value). -/
def arith_div (T : IntRep) (a b : Int) : Option Int :=
  if T.wrap b = 0 then none
  else if T.holds (Int.tdiv (T.wrap a) (T.wrap b)) then some (Int.tdiv (T.wrap a) (T.wrap b))
  else none

/-- Source `silent_cast<To>`: a plain `static_cast`. -/
def silent_cast (To : IntRep) (value : Int) : Int := To.wrap value

/-- Modelled from the spec: `checked_int_pow` of `bits/constexpr_math.h` is not among the
sources.  It is the exact integer power, with no value when the power does not fit the
type. -/
def checked_int_pow (T : IntRep) (base : Int) (exp : Nat) : Option Int :=
  if T.holds (base ^ exp) then some (base ^ exp) else none

/-- Source `compute_base_power<T>` for an integral `T`, computed in `widen_t<T>`.  The
sentinel is `-1` (rejected for an unsigned `T`), a negative exponent aborts; a root
(`exp.den > 1`) or a named-constant base is only reached with a floating-point `T` and has
no value here. -/
def compute_base_power (T : IntRep) (el : Element) : Option Int :=
  if el.base = Base.negative_tag then (if T.is_signed then some (-1) else none)
  else if el.exponent.num < 0 then none
  else
    match el.base with
    | Base.integral v =>
      (checked_int_pow (widen_t T) v el.exponent.num.toNat).bind (fun pow_result =>
        if el.exponent.den > 1 then none else some pow_result)
    | _ => none

/-- Modelled from the spec: `checked_static_cast` of `bits/constexpr_math.h` is not among
the sources.  The converted value, with no value when the target type cannot hold it. -/
def checked_static_cast (T : IntRep) (x : Int) : Option Int :=
  if T.holds x then some x else none

/-- Source `get_value<T>` for an integral `T`: `requires (is_integral_impl(Ms) && ...)`,
then the right fold `(compute_base_power<T>(Ms) * ... * T{1})` in `widen_t<T>`. -/
def get_value (T : IntRep) (m : unit_magnitude) : Option Int :=
  if is_integral m then
    (m.foldr (fun M acc => (compute_base_power T M).bind (fun c =>
        acc.bind (fun a => arith_mul (widen_t T) c a))) (some 1)).bind
      (fun r => checked_static_cast T r)
  else none

/-- The type of a conversion multiplier: an integral type, or a floating-point type. -/
inductive NumType where
  | integral (T : IntRep) : NumType
  | floating : NumType
deriving DecidableEq, Repr

/-- Source `common_magnitude_type<M>`: the type of
`(std::intmax_t{} * ... * decltype(get_base_value(Ms)){})`, which is `std::intmax_t` unless a
named constant (of value type `long double`) occurs. -/
def common_magnitude_type (M : unit_magnitude) : NumType :=
  if M.any (fun e => e.base.is_mag_constant) then NumType.floating
  else NumType.integral intmax_t

/-- Source `magnitude_traits<M>::irr`: `M * (den / num)`. -/
def magnitude_traits_irr (M num den : unit_magnitude) : Option unit_magnitude :=
  (div den num).bind (fun r => mul M r)

/-- Source `conversion_type_traits<M, Rep1, Rep2>::multiplier_type` for integral
representation types: `treat_as_floating_point<c_rep_type>` is false, so it is
`c_mag_type`. -/
def multiplier_type (M : unit_magnitude) : NumType := common_magnitude_type M

/-- Source `conversion_type_traits<M, Rep1, Rep2>::c_type` for integral representation
types and an integral multiplier type. -/
def c_type (Rep1 Rep2 multiplier : IntRep) : IntRep :=
  common_type (common_type Rep1 Rep2) multiplier

/-- Source `sudo_cast_value<FromUnit, FromRep, ToUnit, ToRep>` for integral representation
types; `from_mag` and `to_mag` are the magnitudes of the canonical units.  There is no
value when the program is rejected, when the arithmetic is undefined, or when the
multiplier type is a floating-point type (arithmetic this embedding does not evaluate). -/
def sudo_cast_value (from_mag to_mag : unit_magnitude) (FromRep ToRep : IntRep) (value : Int) :
    Option Int :=
  (div from_mag to_mag).bind (fun c_mag =>
    match multiplier_type c_mag with
    | NumType.floating => none
    | NumType.integral mult =>
      let arg := (c_type FromRep ToRep mult).wrap value
      if is_integral c_mag then
        (numerator c_mag).bind (fun num => (get_value mult num).bind (fun k =>
          (arith_mul (c_type FromRep ToRep mult) arg k).map (silent_cast ToRep)))
      else
        (pow (-1) 1 c_mag).bind (fun inverse =>
          if is_integral inverse then
            (denominator c_mag).bind (fun den => (get_value mult den).bind (fun k =>
              (arith_div (c_type FromRep ToRep mult) arg k).map (silent_cast ToRep)))
          else
            (numerator c_mag).bind (fun num => (denominator c_mag).bind (fun den =>
              (magnitude_traits_irr c_mag num den).bind (fun irr =>
                (get_value mult num).bind (fun num_mult =>
                  (get_value mult den).bind (fun den_mult =>
                    (get_value mult irr).bind (fun irr_mult =>
                      (arith_mul (c_type FromRep ToRep mult) arg num_mult).bind (fun x =>
                        (arith_div (c_type FromRep ToRep mult) x den_mult).bind (fun y =>
                          (arith_mul (c_type FromRep ToRep mult) y irr_mult).map
                            (silent_cast ToRep)))))))))))

/-- The rational number a rational magnitude denotes: the product of `base ^ exponent`
over its elements, the sentinel counting as `-1`. -/
def magnitude_value (m : unit_magnitude) : ℚ :=
  (m.map (fun e => get_base_value e.base ^ e.exponent.num)).prod

/-- The integer a base stands for in an integral magnitude. -/
def base_int : Base → Int
  | Base.negative_tag => -1
  | Base.integral v => v
  | Base.constant _ => 0

/-- The integer an integral magnitude denotes (unbounded product of the integer powers). -/
def int_value (m : unit_magnitude) : Int :=
  (m.map (fun e => base_int e.base ^ e.exponent.num.toNat)).prod

/-- Truncation of a rational number toward zero. -/
def trunc_toward_zero (x : ℚ) : Int := Int.tdiv x.num (x.den : Int)

/-! ### Canonical form (spec section 3) -/

/-- A base a canonical magnitude may hold: the sentinel, a prime, or a named constant
with a positive value (`requires(Value > 0)`). -/
def Base.Valid : Base → Prop
  | Base.negative_tag => True
  | Base.integral v => 0 ≤ v ∧ Nat.Prime v.toNat
  | Base.constant c => 0 < c.value

instance (b : Base) : Decidable b.Valid := by
  cases b <;> unfold Base.Valid <;> infer_instance

/-- A stored element of a canonical magnitude: valid base, exponent not zero, and the
sentinel only bare. -/
def Element.Valid (e : Element) : Prop :=
  e.base.Valid ∧ e.exponent ≠ 0 ∧ (e.base = Base.negative_tag → e.exponent = 1)

instance (e : Element) : Decidable e.Valid := by
  unfold Element.Valid; infer_instance

/-- The order of the pack: strictly increasing base values. -/
def key_lt (x y : Element) : Prop := get_base_value x.base < get_base_value y.base

instance : DecidableRel key_lt := fun x y => by unfold key_lt; infer_instance

/-- Canonical magnitude: strictly increasing base values (hence no duplicate base and
the sentinel, of value `-1`, only in first position), every element valid. -/
def Canonical (m : unit_magnitude) : Prop :=
  m.Pairwise key_lt ∧ ∀ e ∈ m, e.Valid

instance (m : unit_magnitude) : Decidable (Canonical m) := by
  unfold Canonical; infer_instance

/-- Two magnitudes over one basis: the order of bases by value is a strict total order
(spec sections 3 and 4.3), so bases of equal value are the same base. -/
def Coherent (a b : unit_magnitude) : Prop :=
  ∀ x ∈ a, ∀ y ∈ b, get_base_value x.base = get_base_value y.base → x.base = y.base

instance (a b : unit_magnitude) : Decidable (Coherent a b) := by
  unfold Coherent; infer_instance

/-- A family of canonical magnitudes over one basis. -/
def CanonicalFamily (ms : List unit_magnitude) : Prop :=
  (∀ m ∈ ms, Canonical m) ∧ ∀ a ∈ ms, ∀ b ∈ ms, Coherent a b

instance (ms : List unit_magnitude) : Decidable (CanonicalFamily ms) := by
  unfold CanonicalFamily; infer_instance

/-- The exponent a magnitude carries on the base `b` (`0` for an absent base). -/
def expo (m : unit_magnitude) (b : Base) : ℚ :=
  (m.map (fun e => if e.base = b then e.exponent else 0)).sum

/-- Whether the pack holds the sentinel. -/
def has_sentinel (m : unit_magnitude) : Bool :=
  m.any (fun e => decide (e.base = Base.negative_tag))

/-- The largest integer power `integer_part` extracts from an exponent `q` on the base
`b`: the truncated quotient of `q` on an integer base when `q >= 1`, nothing otherwise. -/
def integer_power (b : Base) (q : ℚ) : ℚ :=
  if b.is_integral_type && decide (q.num ≥ (q.den : Int)) then
    ((Int.tdiv q.num (q.den : Int) : Int) : ℚ)
  else 0

/-- What the common magnitude of `A` and `B` must be: canonical, over the bases of the
operands, on every base the smaller of the two exponents (an absent base counting as `0`),
and the sentinel only when both operands hold it. -/
def IsCommon (A B C : unit_magnitude) : Prop :=
  Canonical C ∧ (∀ e ∈ C, ∃ x ∈ A ++ B, x.base = e.base) ∧
  (∀ b, b ≠ Base.negative_tag → expo C b = min (expo A b) (expo B b)) ∧
  has_sentinel C = (has_sentinel A && has_sentinel B)

/-- What the product of `A` and `B` must be: canonical, over the bases of the operands,
exponents added base by base, two sentinels cancelling. -/
def IsProduct (A B R : unit_magnitude) : Prop :=
  Canonical R ∧ (∀ e ∈ R, ∃ x ∈ A ++ B, x.base = e.base) ∧
  (∀ b, b ≠ Base.negative_tag → expo R b = expo A b + expo B b) ∧
  has_sentinel R = xor (has_sentinel A) (has_sentinel B)



/-- The exponent of the pack on the base of numeric value `base` (`get_power`): the sum of
the exponents of the elements of that value, the sentinel not being a base. -/
def get_power (base : ℚ) (m : unit_magnitude) : ratio :=
  (m.map (fun element =>
    if element.is_negative_tag then 0
    else if get_base_value element.base = base then element.exponent else 0)).sum



/-! ### Implicit conversions (`quantity.h`) and the quantity-point cast (`sudo_cast.h`) -/

/-- Modelled from the spec: `treat_as_floating_point<Rep>` of `customization_points.h` is
not among the sources.  It holds exactly for a floating-point representation. -/
def treat_as_floating_point : NumType → Bool
  | NumType.floating => true
  | NumType.integral _ => false

/-- Source concept `IntegralConversionFactor<UFrom, UTo>`:
`is_integral(get_canonical_unit(UFrom).mag / get_canonical_unit(UTo).mag)`, the magnitudes
of the two canonical units being the parameters.  A quotient that is rejected does not
satisfy the concept. -/
def IntegralConversionFactor (from_mag to_mag : unit_magnitude) : Bool :=
  ((div from_mag to_mag).map is_integral).getD false

/-- Source concept `QuantityConvertibleTo<QFrom, QTo>`.  The conjuncts whose definitions
are not among the sources are parameters: `quantity_spec_convertible` stands for
`implicitly_convertible(QFrom::quantity_spec, QTo::quantity_spec)`, `unit_convertible` for
`convertible(QFrom::unit, QTo::unit)`, and `sudo_cast_valid` for the requirement that
`sudo_cast<QTo>(q)` is well-formed. -/
def QuantityConvertibleTo (quantity_spec_convertible unit_convertible : Bool)
    (FromRep ToRep : NumType) (from_mag to_mag : unit_magnitude) (sudo_cast_valid : Bool) :
    Bool :=
  quantity_spec_convertible && unit_convertible &&
    (treat_as_floating_point ToRep ||
      (!treat_as_floating_point FromRep && IntegralConversionFactor from_mag to_mag)) &&
    sudo_cast_valid

/-- Source `conversion_value_traits<M, T>`: the members `num_mult`, `den_mult` and
`irr_mult`. -/
structure conversion_value_traits where
  num_mult : Int
  den_mult : Int
  irr_mult : Int
deriving DecidableEq, Repr

/-- Source `conversion_value_traits<M, T>` for an integral `T`: the values in `T` of
`magnitude_traits<M>::num`, `den` and `irr`. -/
def conversion_value_traits.of (M : unit_magnitude) (T : IntRep) :
    Option conversion_value_traits :=
  (numerator M).bind (fun num => (denominator M).bind (fun den =>
    (magnitude_traits_irr M num den).bind (fun irr =>
      (get_value T num).bind (fun num_mult =>
        (get_value T den).bind (fun den_mult =>
          (get_value T irr).bind (fun irr_mult =>
            some ⟨num_mult, den_mult, irr_mult⟩))))))

/-- The two schedules of `sudo_cast<ToQP>` between quantity points of different origins.
`representation_then_origin`: cast to the common representation type keeping the source
unit, translate to the target origin (`point_for`), then cast to the target type.
`unit_then_origin`: cast to the target unit in the common representation type, translate
to the target origin, then cast to the target type. -/
inductive point_cast_order where
  | representation_then_origin : point_cast_order
  | unit_then_origin : point_cast_order
deriving DecidableEq, Repr

/-- Source `sudo_cast<ToQP>(qp)` for two different point origins and integral
representation types: the branch taken by
`if constexpr (value_traits::num_mult * value_traits::irr_mult > value_traits::den_mult)`,
the product being evaluated in the multiplier type.  `from_mag` and `to_mag` are the
magnitudes of the canonical units. -/
def sudo_cast_point_order (from_mag to_mag : unit_magnitude) : Option point_cast_order :=
  (div from_mag to_mag).bind (fun c_mag =>
    match multiplier_type c_mag with
    | NumType.floating => none
    | NumType.integral mult =>
      (conversion_value_traits.of c_mag mult).bind (fun value_traits =>
        (arith_mul mult value_traits.num_mult value_traits.irr_mult).map (fun product =>
          if product > value_traits.den_mult then point_cast_order.representation_then_origin
          else point_cast_order.unit_then_origin)))



/-! ### Repeated product and SI prefix selection (`systems/si/prefix_utils.h`) -/

/-- The `n`-fold product `A * A * ... * A` written with the source's `operator*`
(left-associated, as C++ parses it): one factor is `A` itself, each further factor is one
more multiplication, and no factor at all is the identity magnitude. -/
def repeated_product (A : unit_magnitude) : Nat → Option unit_magnitude
  | 0 => some []
  | 1 => some A
  | n + 1 => (repeated_product A n).bind (fun P => mul P A)

/-- Source `enum class prefix_range`. -/
inductive prefix_range where
  | engineering
  | full
  deriving DecidableEq, Repr

/-- Modelled from the spec: `systems/si/prefixes.h` is not among the sources.  The units
`si::quetta<U>`, ..., `si::quecto<U>` that `invoke_with_prefixed` names, each called by
its SI prefix; `unprefixed` is the unit `U{}` itself. -/
inductive prefixed_unit where
  | quetta | ronna | yotta | zetta | exa | peta | tera | giga | mega | kilo | hecto | deca
  | unprefixed
  | deci | centi | milli | micro | nano | pico | femto | atto | zepto | yocto | ronto | quecto
  deriving DecidableEq, Repr

/-- Modelled from the spec: `systems/si/prefixes.h` is not among the sources.  The power
of ten of each SI prefix. -/
def prefixed_unit.power_of_ten : prefixed_unit → Int
  | prefixed_unit.quetta => 30
  | prefixed_unit.ronna => 27
  | prefixed_unit.yotta => 24
  | prefixed_unit.zetta => 21
  | prefixed_unit.exa => 18
  | prefixed_unit.peta => 15
  | prefixed_unit.tera => 12
  | prefixed_unit.giga => 9
  | prefixed_unit.mega => 6
  | prefixed_unit.kilo => 3
  | prefixed_unit.hecto => 2
  | prefixed_unit.deca => 1
  | prefixed_unit.unprefixed => 0
  | prefixed_unit.deci => -1
  | prefixed_unit.centi => -2
  | prefixed_unit.milli => -3
  | prefixed_unit.micro => -6
  | prefixed_unit.nano => -9
  | prefixed_unit.pico => -12
  | prefixed_unit.femto => -15
  | prefixed_unit.atto => -18
  | prefixed_unit.zepto => -21
  | prefixed_unit.yocto => -24
  | prefixed_unit.ronto => -27
  | prefixed_unit.quecto => -30

/-- Source `invoke_with_prefixed(func, q, u, range, min_integral_digits)`.  The
representation of `q` is a floating-point type (`treat_as_floating_point<Q::rep>`), whose
arithmetic is not evaluated here: the function is given what the floating-point operations
return, `q_is_zero` for `q == 0` and `mag` for
`static_cast<int>(floor(log10(abs(value))))`.  `func` receives the unit in which `q` is
passed to it by `func(q.in(...))`, `unprefixed` standing for `u` itself. -/
def invoke_with_prefixed {α : Type} (func : prefixed_unit → α) (q_is_zero : Bool)
    (mag : Int) (range : prefix_range) (min_integral_digits : Int) : α :=
  if q_is_zero then func prefixed_unit.unprefixed
  else
    let exponent := mag - (min_integral_digits - 1)
    if exponent ≥ 30 then func prefixed_unit.quetta
    else if exponent ≥ 27 then func prefixed_unit.ronna
    else if exponent ≥ 24 then func prefixed_unit.yotta
    else if exponent ≥ 21 then func prefixed_unit.zetta
    else if exponent ≥ 18 then func prefixed_unit.exa
    else if exponent ≥ 15 then func prefixed_unit.peta
    else if exponent ≥ 12 then func prefixed_unit.tera
    else if exponent ≥ 9 then func prefixed_unit.giga
    else if exponent ≥ 6 then func prefixed_unit.mega
    else if exponent ≥ 3 then func prefixed_unit.kilo
    else if exponent ≥ 2 ∧ range = prefix_range.full then func prefixed_unit.hecto
    else if exponent ≥ 1 ∧ range = prefix_range.full then func prefixed_unit.deca
    else if exponent ≥ 0 then func prefixed_unit.unprefixed
    else if exponent ≥ -1 ∧ range = prefix_range.full then func prefixed_unit.deci
    else if exponent ≥ -2 ∧ range = prefix_range.full then func prefixed_unit.centi
    else if exponent ≥ -3 then func prefixed_unit.milli
    else if exponent ≥ -6 then func prefixed_unit.micro
    else if exponent ≥ -9 then func prefixed_unit.nano
    else if exponent ≥ -12 then func prefixed_unit.pico
    else if exponent ≥ -15 then func prefixed_unit.femto
    else if exponent ≥ -18 then func prefixed_unit.atto
    else if exponent ≥ -21 then func prefixed_unit.zepto
    else if exponent ≥ -24 then func prefixed_unit.yocto
    else if exponent ≥ -27 then func prefixed_unit.ronto
    else func prefixed_unit.quecto



/-! ### Exponents in `power_v`'s `int` parameters, and the type of the argument of `mag` -/

/-- Source `int` (32-bit signed). -/
def int_t : IntRep := ⟨true, 32⟩

/-- Modelled from the spec: `valid_ratio<Num, Den...>` is not among the sources; the test
file lists the instantiations of `power_v` it excludes: a zero numerator and a zero
denominator.  `Den` is the optional second parameter of the pack. -/
def valid_ratio (Num : Int) (Den : Option Int) : Bool :=
  decide (Num ≠ 0) && decide (Den ≠ some 0)

/-- Modelled from the spec: `ratio_one<Num, Den...>` is not among the sources; the test
file lists the instantiations of `power_v` it excludes: `<1>`, `<1, 1>`, `<5, 5>`, that is
a lone `1` or a numerator equal to the denominator. -/
def ratio_one (Num : Int) (Den : Option Int) : Bool :=
  match Den with
  | none => decide (Num = 1)
  | some d => decide (Num = d)

/-- Source `power_v<V, int Num, int... Den>` instantiated with arguments of type
`std::intmax_t` (the fields of a `ratio`): each argument is converted to `int`, which
keeps the value modulo `2^32`; the `requires` clause then rejects an invalid ratio and a
ratio equal to one; the exponent of the element is `ratio{Num, Den...}`.  An element is
identified by its base and the value of its exponent. -/
def power_v (V : Base) (Num : Int) (Den : Option Int) : Option Element :=
  if valid_ratio (int_t.wrap Num) (Den.map int_t.wrap) &&
      !ratio_one (int_t.wrap Num) (Den.map int_t.wrap) then
    some ⟨V, ratio.make (int_t.wrap Num) ((Den.map int_t.wrap).getD 1)⟩
  else none

namespace IntExponent

/-- Source `power_v_or_T<V, R>`, with the conversion of `R.num` and `R.den` to the `int`
parameters of `power_v`: the bare `V` for `R = 1`, `power_v<V, R.num>` for another integer
`R`, `power_v<V, R.num, R.den>` otherwise. -/
def power_v_or_T (V : Base) (R : ratio) : Option Element :=
  if R.den = 1 then
    if R.num = 1 then some ⟨V, 1⟩ else power_v V R.num none
  else power_v V R.num (some (R.den : Int))

/-- Source `multiply_impl`, as `MpUnits.multiply_impl`, the new head being made by
`power_v_or_T` with `int` exponent parameters. -/
def multiply_impl : Nat → unit_magnitude → unit_magnitude → Option unit_magnitude
  | _, [], rhs => some rhs
  | _, H :: T, [] => some (H :: T)
  | 0, _ :: _, _ :: _ => none
  | n + 1, H :: T, H2 :: T2 =>
    if mag_less H H2 then
      if T.isEmpty then some (H :: H2 :: T2)
      else (multiply_impl n T (H2 :: T2)).bind (fun r => multiply_impl n [H] r)
    else if mag_less H2 H then
      (multiply_impl n (H :: T) T2).bind (fun r => multiply_impl n [H2] r)
    else if same_base_type H.base H2.base then
      (multiply_impl n T T2).bind (fun partial_product =>
        if H.base = Base.negative_tag then some partial_product
        else if H.exponent + H2.exponent = 0 then some partial_product
        else
          (power_v_or_T H.base (H.exponent + H2.exponent)).bind (fun new_head =>
            if new_head.exponent = 0 then some partial_product
            else multiply_impl n [new_head] partial_product))
    else none

/-- Source `operator*`, with `int` exponent parameters. -/
def mul (lhs rhs : unit_magnitude) : Option unit_magnitude :=
  multiply_impl (lhs.length + rhs.length + 1) lhs rhs

/-- Source `pow_magnitude`, last branch, with `int` exponent parameters:
`power_v_or_T<get_base(E), get_exponent(E) * R>()` for every element of the pack. -/
def pow_elements (R : ratio) : unit_magnitude → Option unit_magnitude
  | [] => some []
  | e :: es =>
    (power_v_or_T e.base (e.exponent * R)).bind (fun x =>
      (pow_elements R es).bind (fun xs => some (x :: xs)))

/-- Source `pow_magnitude<Num, Den>`, with `int` exponent parameters. -/
def pow_magnitude (Num Den : Int) : unit_magnitude → Option unit_magnitude
  | [] => some []
  | H :: Rest =>
    if Den = 0 then none
    else if H.is_negative_tag then
      if (ratio.make Num Den).den % 2 = 1 then
        (pow_magnitude Num Den Rest).bind (fun rest_powered =>
          if Int.tmod (ratio.make Num Den).num 2 = 0 then some rest_powered
          else mul [H] rest_powered)
      else none
    else pow_elements (ratio.make Num Den) (H :: Rest)

/-- Source `pow<int Num, int Den>(unit_magnitude)`: the template arguments are values of
type `int`. -/
def pow (Num Den : Int) (m : unit_magnitude) : Option unit_magnitude :=
  if int_t.holds Num && int_t.holds Den then
    (if Num = 0 then some [] else pow_magnitude Num Den m)
  else none

/-- Source `operator/`, with `int` exponent parameters: `lhs * pow<-1>(rhs)`. -/
def div (lhs rhs : unit_magnitude) : Option unit_magnitude :=
  (pow (-1) 1 rhs).bind (fun inv => mul lhs inv)

end IntExponent

/-- An exponent whose numerator and denominator are values of type `int`. -/
def int_representable (R : ratio) : Prop :=
  int_t.holds R.num = true ∧ int_t.holds (R.den : Int) = true

instance (R : ratio) : Decidable (int_representable R) := by
  unfold int_representable; infer_instance

/-- Unary `-` evaluated in the integral type `T`: signed overflow is undefined (no value
in a constant expression), unsigned arithmetic wraps. -/
def arith_neg (T : IntRep) (a : Int) : Option Int :=
  if T.is_signed then (if T.holds (-(T.wrap a)) then some (-(T.wrap a)) else none)
  else some (T.wrap (-(T.wrap a)))

/-- Source `mag<V>` for an argument `V` of the integral type `T` (of at most 64 bits):
`requires is_nonzero_mag_arg<V>`, then the integer branch of `make_magnitude<V>()`.
`abs_v = V < 0 ? -V : V` is computed in the promoted type of `V`, and
`prime_factorization_v<abs_v>` takes it as a `std::intmax_t` and `requires(N > 0)`, which
an `abs_v` that `std::intmax_t` does not hold fails.  The exponents of a factorization are
below `64`, so the conversion to the `int` parameters of `power_v` leaves them as they
are, and the sentinel is put in front of the factorization without any exponent being
added. -/
def make_magnitude (T : IntRep) (V : Int) : Option unit_magnitude :=
  if T.holds V then
    if V = 0 then none
    else
      (if V < 0 then arith_neg T.promote V else some V).bind (fun abs_v =>
        if intmax_t.holds abs_v && decide (abs_v > 0) then
          (prime_factorization_v abs_v.toNat).bind (fun abs_mag =>
            if V < 0 then mul [⟨Base.negative_tag, 1⟩] abs_mag else some abs_mag)
        else none)
  else none



/-! ### Exponent function and canonical form: basic facts -/

@[simp] theorem expo_nil (b : Base) : expo [] b = 0 := rfl

@[simp] theorem expo_cons (x : Element) (m : unit_magnitude) (b : Base) :
    expo (x :: m) b = (if x.base = b then x.exponent else 0) + expo m b := by
  simp [expo]

@[simp] theorem has_sentinel_nil : has_sentinel [] = false := rfl

@[simp] theorem has_sentinel_cons (x : Element) (m : unit_magnitude) :
    has_sentinel (x :: m) = (decide (x.base = Base.negative_tag) || has_sentinel m) := by
  simp [has_sentinel]

theorem has_sentinel_iff (m : unit_magnitude) :
    has_sentinel m = true ↔ ∃ e ∈ m, e.base = Base.negative_tag := by
  simp [has_sentinel]

theorem expo_eq_zero_of_absent {m : unit_magnitude} {b : Base} (h : ∀ e ∈ m, e.base ≠ b) :
    expo m b = 0 := by
  induction m with
  | nil => rfl
  | cons x m ih =>
    have hx : x.base ≠ b := h x (List.mem_cons_self _ _)
    have hm : ∀ e ∈ m, e.base ≠ b := fun e he => h e (List.mem_cons_of_mem _ he)
    simp [hx, ih hm]

theorem exists_mem_of_expo_ne_zero {m : unit_magnitude} {b : Base} (h : expo m b ≠ 0) :
    ∃ e ∈ m, e.base = b := by
  by_contra hne
  push_neg at hne
  exact h (expo_eq_zero_of_absent hne)

theorem canonical_nil : Canonical [] := by
  constructor
  · exact List.Pairwise.nil
  · intro e he; cases he

theorem canonical_cons {x : Element} {m : unit_magnitude} :
    Canonical (x :: m) ↔ x.Valid ∧ (∀ y ∈ m, key_lt x y) ∧ Canonical m := by
  unfold Canonical
  rw [List.pairwise_cons]
  constructor
  · rintro ⟨⟨h1, h2⟩, h3⟩
    exact ⟨h3 x (List.mem_cons_self _ _), h1, h2, fun e he => h3 e (List.mem_cons_of_mem _ he)⟩
  · rintro ⟨h1, h2, h3, h4⟩
    refine ⟨⟨h2, h3⟩, ?_⟩
    intro e he
    rcases List.mem_cons.1 he with rfl | he
    · exact h1
    · exact h4 e he

theorem Canonical.tail {x : Element} {m : unit_magnitude} (h : Canonical (x :: m)) :
    Canonical m := (canonical_cons.1 h).2.2

theorem base_ne_of_key_lt {x y : Element} (h : key_lt x y) : y.base ≠ x.base := by
  intro he
  unfold key_lt at h
  rw [he] at h
  exact lt_irrefl _ h

theorem expo_of_mem {m : unit_magnitude} (hm : m.Pairwise key_lt) {e : Element} (he : e ∈ m) :
    expo m e.base = e.exponent := by
  induction m with
  | nil => cases he
  | cons x m ih =>
    rw [List.pairwise_cons] at hm
    rcases List.mem_cons.1 he with rfl | he
    · have : expo m e.base = 0 :=
        expo_eq_zero_of_absent (fun y hy => base_ne_of_key_lt (hm.1 y hy))
      simp [this]
    · have hx : x.base ≠ e.base := fun h => base_ne_of_key_lt (hm.1 e he) h.symm
      simp [hx, ih hm.2 he]

theorem get_base_value_ge {b : Base} (h : b.Valid) : -1 ≤ get_base_value b := by
  cases b with
  | negative_tag => simp [get_base_value]
  | integral v =>
    have h0 : (0 : ℚ) ≤ (v : ℚ) := by exact_mod_cast h.1
    simp only [get_base_value]; linarith
  | constant c =>
    have h0 : 0 < c.value := h
    simp only [get_base_value]; linarith

theorem get_base_value_pos {b : Base} (h : b.Valid) (hb : b ≠ Base.negative_tag) :
    0 < get_base_value b := by
  cases b with
  | negative_tag => exact absurd rfl hb
  | integral v =>
    have hp : Nat.Prime v.toNat := h.2
    have h1 : 0 < v.toNat := hp.pos
    have h2 : 0 < v := by omega
    simp only [get_base_value]; exact_mod_cast h2
  | constant c => exact h

theorem has_sentinel_eq_false_of_above {m : unit_magnitude}
    (h : ∀ e ∈ m, -1 < get_base_value e.base) : has_sentinel m = false := by
  cases hs : has_sentinel m with
  | false => rfl
  | true =>
    obtain ⟨e, he, hb⟩ := (has_sentinel_iff m).1 hs
    have := h e he
    rw [hb] at this
    simp [get_base_value] at this

/-- Canonical magnitudes with the same exponents and the same sign are the same pack. -/
theorem canonical_ext {A B : unit_magnitude} (hA : Canonical A) (hB : Canonical B)
    (hexp : ∀ b, b ≠ Base.negative_tag → expo A b = expo B b)
    (hneg : has_sentinel A = has_sentinel B) : A = B := by
  have key : ∀ {X Y : unit_magnitude}, Canonical X → Canonical Y →
      (∀ b, b ≠ Base.negative_tag → expo X b = expo Y b) →
      has_sentinel X = has_sentinel Y → ∀ e, e ∈ X → e ∈ Y := by
    intro X Y hX hY hxy hs e he
    by_cases hb : e.base = Base.negative_tag
    · have h1 : has_sentinel X = true := (has_sentinel_iff X).2 ⟨e, he, hb⟩
      rw [hs] at h1
      obtain ⟨y, hy, hyb⟩ := (has_sentinel_iff Y).1 h1
      have e1 : e.exponent = 1 := (hX.2 e he).2.2 hb
      have e2 : y.exponent = 1 := (hY.2 y hy).2.2 hyb
      have : y = e := by
        cases y; cases e; simp_all
      rw [← this]; exact hy
    · have h1 : expo X e.base = e.exponent := expo_of_mem hX.1 he
      have h2 : expo Y e.base = e.exponent := by rw [← hxy e.base hb, h1]
      have h3 : expo Y e.base ≠ 0 := by rw [h2]; exact (hX.2 e he).2.1
      obtain ⟨y, hy, hyb⟩ := exists_mem_of_expo_ne_zero h3
      have h4 : expo Y y.base = y.exponent := expo_of_mem hY.1 hy
      rw [hyb, h2] at h4
      have : y = e := by
        cases y; cases e; simp_all
      rw [← this]; exact hy
  have irr : ∀ (l : unit_magnitude), l.Pairwise key_lt → l.Nodup := by
    intro l hl
    exact hl.imp (fun {a b} hab heq => by
      rw [heq] at hab; exact lt_irrefl _ hab)
  have hperm : A.Perm B :=
    (List.perm_ext_iff_of_nodup (irr A hA.1) (irr B hB.1)).2
      (fun e => ⟨key hA hB hexp hneg e,
        key hB hA (fun b hb => (hexp b hb).symm) hneg.symm e⟩)
  haveI : IsAntisymm Element key_lt :=
    ⟨fun a b h1 h2 => absurd h2 (not_lt.2 (le_of_lt h1))⟩
  exact List.eq_of_perm_of_sorted hperm hA.1 hB.1



/-! ### The product of canonical magnitudes -/

theorem multiply_impl_nil_left (n : Nat) (B : unit_magnitude) : multiply_impl n [] B = some B := by
  cases n <;> simp [multiply_impl]

theorem multiply_impl_nil_right (n : Nat) (A : unit_magnitude) : multiply_impl n A [] = some A := by
  cases n <;> cases A <;> simp [multiply_impl]

theorem multiply_impl_prepend (k : Nat) (H : Element) (r : unit_magnitude)
    (h : ∀ y ∈ r, key_lt H y) : multiply_impl (k + 1) [H] r = some (H :: r) := by
  cases r with
  | nil => simp [multiply_impl]
  | cons y r =>
    have hy : key_lt H y := h y (List.mem_cons_self _ _)
    have : mag_less H y = true := by simpa [mag_less] using hy
    simp [multiply_impl, this]

theorem multiply_impl_cons_cons (n : Nat) (H H2 : Element) (T T2 : unit_magnitude) :
    multiply_impl (n + 1) (H :: T) (H2 :: T2) =
      if mag_less H H2 then
        if T.isEmpty then some (H :: H2 :: T2)
        else (multiply_impl n T (H2 :: T2)).bind (fun r => multiply_impl n [H] r)
      else if mag_less H2 H then
        (multiply_impl n (H :: T) T2).bind (fun r => multiply_impl n [H2] r)
      else if same_base_type H.base H2.base then
        (multiply_impl n T T2).bind (fun partial_product =>
          if H.base = Base.negative_tag then some partial_product
          else if H.exponent + H2.exponent = 0 then some partial_product
          else
            (power_v_or_T H.base (H.exponent + H2.exponent)).bind (fun new_head =>
              if new_head.exponent = 0 then some partial_product
              else multiply_impl n [new_head] partial_product))
      else none := by
  rw [multiply_impl]

theorem isProduct_symm {A B R : unit_magnitude} (h : IsProduct A B R) : IsProduct B A R := by
  obtain ⟨h1, h2, h3, h4⟩ := h
  refine ⟨h1, ?_, ?_, ?_⟩
  · intro e he
    obtain ⟨x, hx, hxe⟩ := h2 e he
    refine ⟨x, ?_, hxe⟩
    rcases List.mem_append.1 hx with hx | hx
    · exact List.mem_append.2 (Or.inr hx)
    · exact List.mem_append.2 (Or.inl hx)
  · intro b hb
    rw [h3 b hb, add_comm]
  · rw [h4, Bool.xor_comm]

theorem key_lt_of_base_eq {H x y : Element} (h : key_lt H x) (hb : x.base = y.base) :
    key_lt H y := by
  unfold key_lt at *
  rw [← hb]; exact h

theorem above_of_key_lt {H : Element} (hH : H.Valid) {m : unit_magnitude}
    (h : ∀ y ∈ m, key_lt H y) : ∀ e ∈ m, -1 < get_base_value e.base := by
  intro e he
  exact lt_of_le_of_lt (get_base_value_ge hH.1) (h e he)

theorem isProduct_cons_left {H : Element} {T B r : unit_magnitude}
    (hA : Canonical (H :: T)) (hHB : ∀ y ∈ B, key_lt H y) (hr : IsProduct T B r) :
    IsProduct (H :: T) B (H :: r) := by
  obtain ⟨hHv, hHT, _⟩ := canonical_cons.1 hA
  obtain ⟨h1, h2, h3, h4⟩ := hr
  have habove : ∀ x ∈ T ++ B, key_lt H x := by
    intro x hx
    rcases List.mem_append.1 hx with hx | hx
    · exact hHT x hx
    · exact hHB x hx
  refine ⟨?_, ?_, ?_, ?_⟩
  · refine canonical_cons.2 ⟨hHv, ?_, h1⟩
    intro y hy
    obtain ⟨x, hx, hxe⟩ := h2 y hy
    exact key_lt_of_base_eq (habove x hx) hxe
  · intro e he
    rcases List.mem_cons.1 he with rfl | he
    · exact ⟨e, by simp, rfl⟩
    · obtain ⟨x, hx, hxe⟩ := h2 e he
      exact ⟨x, by
        rw [List.cons_append]; exact List.mem_cons_of_mem _ hx, hxe⟩
  · intro b hb
    simp only [expo_cons, h3 b hb]
    ring
  · simp only [has_sentinel_cons, h4]
    by_cases hs : H.base = Base.negative_tag
    · have hT : has_sentinel T = false :=
        has_sentinel_eq_false_of_above (above_of_key_lt hHv hHT)
      have hB : has_sentinel B = false :=
        has_sentinel_eq_false_of_above (above_of_key_lt hHv hHB)
      simp [hs, hT, hB]
    · simp [hs]

theorem isProduct_cons_right {H2 : Element} {A T2 r : unit_magnitude}
    (hB : Canonical (H2 :: T2)) (hHA : ∀ y ∈ A, key_lt H2 y) (hr : IsProduct A T2 r) :
    IsProduct A (H2 :: T2) (H2 :: r) :=
  isProduct_symm (isProduct_cons_left hB hHA (isProduct_symm hr))

theorem isProduct_cancel {H H2 : Element} {T T2 r : unit_magnitude}
    (hA : Canonical (H :: T)) (hB : Canonical (H2 :: T2)) (hb : H.base = H2.base)
    (hc : H.base = Base.negative_tag ∨ H.exponent + H2.exponent = 0)
    (hr : IsProduct T T2 r) : IsProduct (H :: T) (H2 :: T2) r := by
  obtain ⟨hHv, hHT, _⟩ := canonical_cons.1 hA
  obtain ⟨hH2v, hH2T, _⟩ := canonical_cons.1 hB
  obtain ⟨h1, h2, h3, h4⟩ := hr
  refine ⟨h1, ?_, ?_, ?_⟩
  · intro e he
    obtain ⟨x, hx, hxe⟩ := h2 e he
    refine ⟨x, ?_, hxe⟩
    rcases List.mem_append.1 hx with hx | hx
    · exact List.mem_append.2 (Or.inl (List.mem_cons_of_mem _ hx))
    · exact List.mem_append.2 (Or.inr (List.mem_cons_of_mem _ hx))
  · intro b hbn
    simp only [expo_cons, h3 b hbn, ← hb]
    by_cases hbb : H.base = b
    · rcases hc with hc | hc
      · exact absurd (hbb ▸ hc) hbn
      · simp only [hbb, if_true]
        linarith
    · simp [hbb]
  · simp only [has_sentinel_cons, h4, ← hb]
    by_cases hs : H.base = Base.negative_tag
    · have hT : has_sentinel T = false :=
        has_sentinel_eq_false_of_above (above_of_key_lt hHv hHT)
      have hT2 : has_sentinel T2 = false :=
        has_sentinel_eq_false_of_above (above_of_key_lt hH2v hH2T)
      simp [hs, hT, hT2]
    · simp [hs]

theorem isProduct_merge {H H2 : Element} {T T2 r : unit_magnitude}
    (hA : Canonical (H :: T)) (hB : Canonical (H2 :: T2)) (hb : H.base = H2.base)
    (hs : H.base ≠ Base.negative_tag) (hne : H.exponent + H2.exponent ≠ 0)
    (hr : IsProduct T T2 r) :
    IsProduct (H :: T) (H2 :: T2) (⟨H.base, H.exponent + H2.exponent⟩ :: r) := by
  obtain ⟨hHv, hHT, _⟩ := canonical_cons.1 hA
  obtain ⟨hH2v, hH2T, _⟩ := canonical_cons.1 hB
  obtain ⟨h1, h2, h3, h4⟩ := hr
  have habove : ∀ x ∈ T ++ T2, key_lt H x := by
    intro x hx
    rcases List.mem_append.1 hx with hx | hx
    · exact hHT x hx
    · have := hH2T x hx
      unfold key_lt at *
      rw [hb]; exact this
  refine ⟨?_, ?_, ?_, ?_⟩
  · refine canonical_cons.2 ⟨⟨hHv.1, hne, fun h => absurd h hs⟩, ?_, h1⟩
    intro y hy
    obtain ⟨x, hx, hxe⟩ := h2 y hy
    exact key_lt_of_base_eq (habove x hx) hxe
  · intro e he
    rcases List.mem_cons.1 he with rfl | he
    · exact ⟨H, by simp, rfl⟩
    · obtain ⟨x, hx, hxe⟩ := h2 e he
      refine ⟨x, ?_, hxe⟩
      rcases List.mem_append.1 hx with hx | hx
      · exact List.mem_append.2 (Or.inl (List.mem_cons_of_mem _ hx))
      · exact List.mem_append.2 (Or.inr (List.mem_cons_of_mem _ hx))
  · intro b hbn
    simp only [expo_cons, h3 b hbn, ← hb]
    by_cases hbb : H.base = b
    · simp only [hbb, if_true]; ring
    · simp [hbb]
  · simp only [has_sentinel_cons, h4, ← hb]
    simp [hs]

theorem same_base_type_self (b : Base) : same_base_type b b = true := by
  cases b <;> simp [same_base_type]

theorem ratio_num_ne_zero {q : ℚ} (h : q ≠ 0) : q.num ≠ 0 := by
  intro h0
  exact h (Rat.num_eq_zero.1 h0)

theorem coherent_tail_left {x : Element} {A B : unit_magnitude} (h : Coherent (x :: A) B) :
    Coherent A B := fun a ha b hb => h a (List.mem_cons_of_mem _ ha) b hb

theorem coherent_tail_right {y : Element} {A B : unit_magnitude} (h : Coherent A (y :: B)) :
    Coherent A B := fun a ha b hb => h a ha b (List.mem_cons_of_mem _ hb)

/-- Depth `A.length + B.length` is enough for canonical operands over one basis, and the
result is the product. -/
theorem multiply_impl_spec : ∀ (n : Nat) (A B : unit_magnitude), Canonical A → Canonical B →
    Coherent A B → A.length + B.length ≤ n → ∃ R, multiply_impl n A B = some R ∧ IsProduct A B R := by
  intro n
  induction n with
  | zero =>
    intro A B hA _ _ hn
    have hA0 : A = [] := List.length_eq_zero.1 (by omega)
    have hB0 : B = [] := List.length_eq_zero.1 (by omega)
    subst hA0; subst hB0
    exact ⟨[], by simp [multiply_impl], canonical_nil, by simp, by simp, by simp⟩
  | succ n ih =>
    intro A B hA hB hc hn
    cases A with
    | nil =>
      refine ⟨B, multiply_impl_nil_left _ _, hB, ?_, by simp, by simp⟩
      intro e he; exact ⟨e, by simpa using he, rfl⟩
    | cons H T =>
      cases B with
      | nil =>
        refine ⟨H :: T, multiply_impl_nil_right _ _, hA, ?_, by simp, by simp⟩
        intro e he; exact ⟨e, by simpa using he, rfl⟩
      | cons H2 T2 =>
        simp only [List.length_cons] at hn
        obtain ⟨hHv, hHT, hT⟩ := canonical_cons.1 hA
        obtain ⟨hH2v, hH2T, hT2⟩ := canonical_cons.1 hB
        obtain ⟨k, rfl⟩ : ∃ k, n = k + 1 := ⟨n - 1, by omega⟩
        by_cases h1 : get_base_value H.base < get_base_value H2.base
        · -- the head of the left operand comes first
          obtain ⟨r, hr, hp⟩ := ih T (H2 :: T2) hT hB (coherent_tail_left hc)
            (by simp only [List.length_cons]; omega)
          have hHB : ∀ y ∈ H2 :: T2, key_lt H y := by
            intro y hy
            rcases List.mem_cons.1 hy with rfl | hy
            · exact h1
            · exact lt_trans h1 (hH2T y hy)
          have hprod := isProduct_cons_left hA hHB hp
          refine ⟨H :: r, ?_, hprod⟩
          have hless : mag_less H H2 = true := by simpa [mag_less] using h1
          cases T with
          | nil =>
            rw [multiply_impl_nil_left] at hr
            cases hr
            rw [multiply_impl_cons_cons]
            simp [hless]
          | cons t T =>
            have hpre := multiply_impl_prepend k H r (canonical_cons.1 hprod.1).2.1
            rw [multiply_impl_cons_cons]
            simp only [hless, if_true, hr, Option.some_bind, hpre, List.isEmpty_cons,
              Bool.false_eq_true, if_false]
        · by_cases h2 : get_base_value H2.base < get_base_value H.base
          · obtain ⟨r, hr, hp⟩ := ih (H :: T) T2 hA hT2 (coherent_tail_right hc)
              (by simp only [List.length_cons]; omega)
            have hHA : ∀ y ∈ H :: T, key_lt H2 y := by
              intro y hy
              rcases List.mem_cons.1 hy with rfl | hy
              · exact h2
              · exact lt_trans h2 (hHT y hy)
            have hprod := isProduct_cons_right hB hHA hp
            refine ⟨H2 :: r, ?_, hprod⟩
            have hless : mag_less H H2 = false := by simpa [mag_less] using h1
            have hless2 : mag_less H2 H = true := by simpa [mag_less] using h2
            have hpre := multiply_impl_prepend k H2 r (canonical_cons.1 hprod.1).2.1
            rw [multiply_impl_cons_cons]
            simp [hless, hless2, hr, hpre]
          · have hveq : get_base_value H.base = get_base_value H2.base :=
              le_antisymm (not_lt.1 h2) (not_lt.1 h1)
            have hb : H.base = H2.base :=
              hc H (List.mem_cons_self _ _) H2 (List.mem_cons_self _ _) hveq
            obtain ⟨r, hr, hp⟩ := ih T T2 hT hT2
              (coherent_tail_left (coherent_tail_right hc)) (by omega)
            have hless : mag_less H H2 = false := by simpa [mag_less] using h1
            have hless2 : mag_less H2 H = false := by simpa [mag_less] using h2
            have hsame : same_base_type H.base H2.base = true := by
              rw [← hb]; exact same_base_type_self _
            by_cases hs : H.base = Base.negative_tag
            · refine ⟨r, ?_, isProduct_cancel hA hB hb (Or.inl hs) hp⟩
              rw [multiply_impl_cons_cons, hless, hless2, hsame, hr]
              simp [hs]
            · by_cases hsum : H.exponent + H2.exponent = 0
              · refine ⟨r, ?_, isProduct_cancel hA hB hb (Or.inr hsum) hp⟩
                rw [multiply_impl_cons_cons, hless, hless2, hsame, hr]
                simp [hs, hsum]
              · have hprod := isProduct_merge hA hB hb hs hsum hp
                refine ⟨_, ?_, hprod⟩
                have hpre := multiply_impl_prepend k ⟨H.base, H.exponent + H2.exponent⟩ r
                  (canonical_cons.1 hprod.1).2.1
                have hnum : (H.exponent + H2.exponent).num ≠ 0 := ratio_num_ne_zero hsum
                rw [multiply_impl_cons_cons, hless, hless2, hsame, hr]
                simp [hs, hsum, power_v_or_T, hnum, hpre]

/-- The product of canonical magnitudes over one basis exists and is the product. -/
theorem mul_spec {A B : unit_magnitude} (hA : Canonical A) (hB : Canonical B)
    (hc : Coherent A B) : ∃ R, mul A B = some R ∧ IsProduct A B R :=
  multiply_impl_spec _ A B hA hB hc (by omega)



/-! ### Uniqueness of the product, coherence, powers -/

theorem isProduct_unique {A B R S : unit_magnitude} (h1 : IsProduct A B R)
    (h2 : IsProduct A B S) : R = S := by
  apply canonical_ext h1.1 h2.1
  · intro b hb
    rw [h1.2.2.1 b hb, h2.2.2.1 b hb]
  · rw [h1.2.2.2, h2.2.2.2]

theorem coherent_symm {A B : unit_magnitude} (h : Coherent A B) : Coherent B A :=
  fun x hx y hy hv => (h y hy x hx hv.symm).symm

theorem coherent_of_bases {A B C : unit_magnitude} (hb : ∀ e ∈ C, ∃ x ∈ A, x.base = e.base)
    (h : Coherent A B) : Coherent C B := by
  intro x hx y hy hv
  obtain ⟨a, ha, hab⟩ := hb x hx
  rw [← hab] at hv ⊢
  exact h a ha y hy hv

theorem coherent_product_left {A B C R : unit_magnitude} (hp : IsProduct A B R)
    (hAC : Coherent A C) (hBC : Coherent B C) : Coherent R C := by
  intro x hx y hy hv
  obtain ⟨a, ha, hab⟩ := hp.2.1 x hx
  rw [← hab] at hv ⊢
  rcases List.mem_append.1 ha with ha | ha
  · exact hAC a ha y hy hv
  · exact hBC a ha y hy hv

theorem coherent_product_right {A B C R : unit_magnitude} (hp : IsProduct A B R)
    (hCA : Coherent C A) (hCB : Coherent C B) : Coherent C R :=
  coherent_symm (coherent_product_left hp (coherent_symm hCA) (coherent_symm hCB))

theorem coherent_self {A : unit_magnitude} (hA : Canonical A) : Coherent A A := by
  intro x hx y hy hv
  by_contra hne
  have hxy : x ≠ y := fun h => hne (by rw [h])
  have hp : A.Pairwise (fun a b => get_base_value a.base ≠ get_base_value b.base) :=
    hA.1.imp (fun {a b} h => ne_of_lt h)
  exact List.Pairwise.forall (fun a b h => h.symm) hp hx hy hxy hv

theorem expo_map_scale (R : ℚ) (m : unit_magnitude) (b : Base) :
    expo (m.map (fun e => (⟨e.base, e.exponent * R⟩ : Element))) b = expo m b * R := by
  induction m with
  | nil => simp
  | cons x m ih =>
    simp only [List.map_cons, expo_cons, ih]
    split_ifs <;> ring

theorem has_sentinel_map_scale (R : ℚ) (m : unit_magnitude) :
    has_sentinel (m.map (fun e => (⟨e.base, e.exponent * R⟩ : Element))) = has_sentinel m := by
  induction m with
  | nil => rfl
  | cons x m ih => simp [ih]

/-- On a pack without sentinel every element gets its exponent multiplied. -/
theorem pow_elements_eq {R : ℚ} (hR : R ≠ 0) {m : unit_magnitude}
    (hm : ∀ e ∈ m, e.exponent ≠ 0) :
    pow_elements R m = some (m.map (fun e => (⟨e.base, e.exponent * R⟩ : Element))) := by
  induction m with
  | nil => rfl
  | cons x m ih =>
    have hx : x.exponent * R ≠ 0 := mul_ne_zero (hm x (List.mem_cons_self _ _)) hR
    have hnum : (x.exponent * R).num ≠ 0 := ratio_num_ne_zero hx
    have := ih (fun e he => hm e (List.mem_cons_of_mem _ he))
    simp [pow_elements, power_v_or_T, hnum, this]

theorem canonical_map_scale {R : ℚ} (hR : R ≠ 0) {m : unit_magnitude} (hm : Canonical m)
    (hs : has_sentinel m = false) :
    Canonical (m.map (fun e => (⟨e.base, e.exponent * R⟩ : Element))) := by
  constructor
  · rw [List.pairwise_map]
    exact hm.1
  · intro e he
    obtain ⟨x, hx, rfl⟩ := List.mem_map.1 he
    have hv := hm.2 x hx
    have hxs : x.base ≠ Base.negative_tag := by
      intro h
      have : has_sentinel m = true := (has_sentinel_iff m).2 ⟨x, hx, h⟩
      rw [hs] at this; cases this
    exact ⟨hv.1, mul_ne_zero hv.2.1 hR, fun h => absurd h hxs⟩

theorem is_negative_tag_iff {e : Element} (he : e.Valid) :
    e.is_negative_tag = true ↔ e.base = Base.negative_tag := by
  unfold Element.is_negative_tag
  constructor
  · intro h
    exact (of_decide_eq_true h).1
  · intro h
    exact decide_eq_true ⟨h, he.2.2 h⟩

theorem ratio_make_ne_zero {Num Den : Int} (hN : Num ≠ 0) (hD : Den ≠ 0) :
    ratio.make Num Den ≠ 0 := by
  unfold ratio.make
  rw [Ne, Rat.divInt_eq_zero hD]
  exact hN

theorem mul_singleton_prepend (H : Element) (r : unit_magnitude) (h : ∀ y ∈ r, key_lt H y) :
    mul [H] r = some (H :: r) := by
  unfold mul
  exact multiply_impl_prepend _ H r h

/-- What `pow<Num, Den>` returns on a canonical magnitude, when it is defined: exponents
are multiplied by `Num/Den`, and the sentinel survives exactly for an odd numerator. -/
theorem pow_spec (Num Den : Int) (hN : Num ≠ 0) (hD : Den ≠ 0) {m : unit_magnitude}
    (hm : Canonical m) (hodd : has_sentinel m = true → (ratio.make Num Den).den % 2 = 1) :
    ∃ I, pow Num Den m = some I ∧ Canonical I ∧ (∀ e ∈ I, ∃ x ∈ m, x.base = e.base) ∧
      (∀ b, b ≠ Base.negative_tag → expo I b = expo m b * ratio.make Num Den) ∧
      has_sentinel I =
        (has_sentinel m && decide (Int.tmod (ratio.make Num Den).num 2 ≠ 0)) := by
  have hR := ratio_make_ne_zero hN hD
  have hfree : ∀ {l : unit_magnitude}, Canonical l → has_sentinel l = false →
      pow_magnitude Num Den l =
        some (l.map (fun e => (⟨e.base, e.exponent * ratio.make Num Den⟩ : Element))) := by
    intro l hl hs
    cases l with
    | nil => rfl
    | cons x l =>
      have hx : x.is_negative_tag = false := by
        cases h : x.is_negative_tag with
        | false => rfl
        | true =>
          have := (is_negative_tag_iff (hl.2 x (List.mem_cons_self _ _))).1 h
          simp [this] at hs
      rw [pow_magnitude]
      simp only [hD, if_false, hx, Bool.false_eq_true]
      exact pow_elements_eq hR (fun e he => (hl.2 e he).2.1)
  unfold pow
  simp only [hN, if_false]
  cases hs : has_sentinel m with
  | false =>
    refine ⟨_, hfree hm hs, canonical_map_scale hR hm hs, ?_, ?_, ?_⟩
    · intro e he
      obtain ⟨x, hx, rfl⟩ := List.mem_map.1 he
      exact ⟨x, hx, rfl⟩
    · intro b _
      exact expo_map_scale _ _ _
    · rw [has_sentinel_map_scale, hs]; rfl
  | true =>
    cases m with
    | nil => simp at hs
    | cons H Rest =>
      obtain ⟨hHv, hHR, hRest⟩ := canonical_cons.1 hm
      have hRs : has_sentinel Rest = false :=
        has_sentinel_eq_false_of_above (above_of_key_lt hHv hHR)
      have hHb : H.base = Base.negative_tag := by
        simpa [hRs] using hs
      have hHt : H.is_negative_tag = true := (is_negative_tag_iff hHv).2 hHb
      have hden := hodd hs
      have hrest := hfree hRest hRs
      have hcan := canonical_map_scale hR hRest hRs
      rw [pow_magnitude]
      simp only [hD, if_false, hHt, if_true, hden, hrest, Option.some_bind]
      by_cases hpar : Int.tmod (ratio.make Num Den).num 2 = 0
      · refine ⟨_, by simp [hpar], hcan, ?_, ?_, ?_⟩
        · intro e he
          obtain ⟨x, hx, rfl⟩ := List.mem_map.1 he
          exact ⟨x, List.mem_cons_of_mem _ hx, rfl⟩
        · intro b hb
          have : H.base ≠ b := fun h => hb (h ▸ hHb)
          simp [expo_map_scale, this]
        · rw [has_sentinel_map_scale, hRs]; simp [hpar]
      · have habove : ∀ y ∈ Rest.map
            (fun e => (⟨e.base, e.exponent * ratio.make Num Den⟩ : Element)), key_lt H y := by
          intro y hy
          obtain ⟨x, hx, rfl⟩ := List.mem_map.1 hy
          exact hHR x hx
        refine ⟨_, by simp only [hpar, if_false]; exact mul_singleton_prepend _ _ habove,
          canonical_cons.2 ⟨hHv, habove, hcan⟩, ?_, ?_, ?_⟩
        · intro e he
          rcases List.mem_cons.1 he with rfl | he
          · exact ⟨e, List.mem_cons_self _ _, rfl⟩
          · obtain ⟨x, hx, rfl⟩ := List.mem_map.1 he
            exact ⟨x, List.mem_cons_of_mem _ hx, rfl⟩
        · intro b hb
          have : H.base ≠ b := fun h => hb (h ▸ hHb)
          simp [expo_map_scale, this]
        · simp [hHb, hpar]



/-! ### Division -/

theorem ratio_make_neg_one : ratio.make (-1) 1 = -1 := by
  unfold ratio.make
  rw [Rat.divInt_one]
  rfl

/-- The inverse `pow<-1>` of a canonical magnitude: every exponent negated, sign kept. -/
theorem inv_spec {B : unit_magnitude} (hB : Canonical B) :
    ∃ I, pow (-1) 1 B = some I ∧ Canonical I ∧ (∀ e ∈ I, ∃ x ∈ B, x.base = e.base) ∧
      (∀ b, b ≠ Base.negative_tag → expo I b = - expo B b) ∧
      has_sentinel I = has_sentinel B := by
  obtain ⟨I, h1, h2, h3, h4, h5⟩ := pow_spec (-1) 1 (by decide) (by decide) hB
    (by intro _; rw [ratio_make_neg_one]; rfl)
  refine ⟨I, h1, h2, h3, ?_, ?_⟩
  · intro b hb
    rw [h4 b hb, ratio_make_neg_one]; ring
  · rw [h5, ratio_make_neg_one]
    have : decide (Int.tmod ((-1 : ℚ)).num 2 ≠ 0) = true := by decide
    rw [this, Bool.and_true]

/-- The quotient of canonical magnitudes over one basis. -/
theorem div_spec {A B : unit_magnitude} (hA : Canonical A) (hB : Canonical B)
    (hc : Coherent A B) :
    ∃ R, div A B = some R ∧ Canonical R ∧ (∀ e ∈ R, ∃ x ∈ A ++ B, x.base = e.base) ∧
      (∀ b, b ≠ Base.negative_tag → expo R b = expo A b - expo B b) ∧
      has_sentinel R = xor (has_sentinel A) (has_sentinel B) := by
  obtain ⟨I, h1, h2, h3, h4, h5⟩ := inv_spec hB
  have hcI : Coherent A I := coherent_symm (coherent_of_bases h3 (coherent_symm hc))
  obtain ⟨R, hR, hp⟩ := mul_spec hA h2 hcI
  refine ⟨R, by simp [div, h1, hR], hp.1, ?_, ?_, ?_⟩
  · intro e he
    obtain ⟨x, hx, hxe⟩ := hp.2.1 e he
    rcases List.mem_append.1 hx with hx | hx
    · exact ⟨x, List.mem_append.2 (Or.inl hx), hxe⟩
    · obtain ⟨y, hy, hyx⟩ := h3 x hx
      exact ⟨y, List.mem_append.2 (Or.inr hy), hyx.trans hxe⟩
  · intro b hb
    rw [hp.2.2.1 b hb, h4 b hb]; ring
  · rw [hp.2.2.2, h5]

theorem family_pair {A B : unit_magnitude} (h : CanonicalFamily [A, B]) :
    Canonical A ∧ Canonical B ∧ Coherent A B :=
  ⟨h.1 A (by simp), h.1 B (by simp), h.2 A (by simp) B (by simp)⟩

theorem family_triple {A B C : unit_magnitude} (h : CanonicalFamily [A, B, C]) :
    Canonical A ∧ Canonical B ∧ Canonical C ∧ Coherent A B ∧ Coherent A C ∧ Coherent B C :=
  ⟨h.1 A (by simp), h.1 B (by simp), h.1 C (by simp), h.2 A (by simp) B (by simp),
    h.2 A (by simp) C (by simp), h.2 B (by simp) C (by simp)⟩

/-! ### Claims C1 to C3 -/

theorem same_base_type_eq {b c : Base} (h : same_base_type b c = true)
    (hv : get_base_value b = get_base_value c) : b = c := by
  cases b with
  | negative_tag =>
    cases c with
    | negative_tag => rfl
    | integral w => simp [same_base_type] at h
    | constant d => simp [same_base_type] at h
  | integral v =>
    cases c with
    | negative_tag => simp [same_base_type] at h
    | integral w =>
      simp only [get_base_value] at hv
      have : v = w := by exact_mod_cast hv
      rw [this]
    | constant d => simp [same_base_type] at h
  | constant c1 =>
    cases c with
    | negative_tag => simp [same_base_type] at h
    | integral w => simp [same_base_type] at h
    | constant d =>
      have : c1 = d := by simpa [same_base_type] using h
      rw [this]

/-- Canonical operands that are not over one basis: the product is rejected. -/
theorem multiply_impl_incoherent : ∀ (n : Nat) (A B : unit_magnitude), Canonical A → Canonical B →
    ¬ Coherent A B → A.length + B.length ≤ n → multiply_impl n A B = none := by
  intro n
  induction n with
  | zero =>
    intro A B _ _ hc hn
    have hA0 : A = [] := List.length_eq_zero.1 (by omega)
    subst hA0
    exact absurd (fun x hx => by cases hx) hc
  | succ n ih =>
    intro A B hA hB hc hn
    cases A with
    | nil => exact absurd (fun x hx => by cases hx) hc
    | cons H T =>
      cases B with
      | nil => exact absurd (fun x _ y hy => by cases hy) hc
      | cons H2 T2 =>
        simp only [List.length_cons] at hn
        obtain ⟨hHv, hHT, hT⟩ := canonical_cons.1 hA
        obtain ⟨hH2v, hH2T, hT2⟩ := canonical_cons.1 hB
        rw [multiply_impl_cons_cons]
        by_cases h1 : get_base_value H.base < get_base_value H2.base
        · have hless : mag_less H H2 = true := by simpa [mag_less] using h1
          have hTB : ¬ Coherent T (H2 :: T2) := by
            intro hcoh
            apply hc
            intro x hx y hy hv
            rcases List.mem_cons.1 hx with rfl | hx
            · exfalso
              rcases List.mem_cons.1 hy with rfl | hy
              · exact absurd hv (ne_of_lt h1)
              · exact absurd hv (ne_of_lt (lt_trans h1 (hH2T y hy)))
            · exact hcoh x hx y hy hv
          have hTne : T.isEmpty = false := by
            cases T with
            | nil => exact absurd (fun x hx => by cases hx) hTB
            | cons t T => rfl
          have := ih T (H2 :: T2) hT hB hTB (by simp only [List.length_cons]; omega)
          simp [hless, hTne, this]
        · by_cases h2 : get_base_value H2.base < get_base_value H.base
          · have hless : mag_less H H2 = false := by simpa [mag_less] using h1
            have hless2 : mag_less H2 H = true := by simpa [mag_less] using h2
            have hAT : ¬ Coherent (H :: T) T2 := by
              intro hcoh
              apply hc
              intro x hx y hy hv
              rcases List.mem_cons.1 hy with rfl | hy
              · exfalso
                rcases List.mem_cons.1 hx with rfl | hx
                · exact absurd hv.symm (ne_of_lt h2)
                · exact absurd hv.symm (ne_of_lt (lt_trans h2 (hHT x hx)))
              · exact hcoh x hx y hy hv
            have := ih (H :: T) T2 hA hT2 hAT (by simp only [List.length_cons]; omega)
            simp [hless, hless2, this]
          · have hless : mag_less H H2 = false := by simpa [mag_less] using h1
            have hless2 : mag_less H2 H = false := by simpa [mag_less] using h2
            have hveq : get_base_value H.base = get_base_value H2.base :=
              le_antisymm (not_lt.1 h2) (not_lt.1 h1)
            by_cases hsame : same_base_type H.base H2.base = true
            · have hb : H.base = H2.base := same_base_type_eq hsame hveq
              have hTT : ¬ Coherent T T2 := by
                intro hcoh
                apply hc
                intro x hx y hy hv
                rcases List.mem_cons.1 hx with rfl | hx
                · rcases List.mem_cons.1 hy with rfl | hy
                  · exact hb
                  · exfalso
                    have := hH2T y hy
                    unfold key_lt at this
                    rw [← hveq, hv] at this
                    exact lt_irrefl _ this
                · rcases List.mem_cons.1 hy with rfl | hy
                  · exfalso
                    have := hHT x hx
                    unfold key_lt at this
                    rw [hveq, ← hv] at this
                    exact lt_irrefl _ this
                  · exact hcoh x hx y hy hv
              have := ih T T2 hT hT2 hTT (by omega)
              simp [hless, hless2, hsame, this]
            · simp [hless, hless2, hsame]

/-- The product of canonical magnitudes is defined exactly over one basis. -/
theorem mul_defined_iff {A B : unit_magnitude} (hA : Canonical A) (hB : Canonical B) :
    (∃ R, mul A B = some R) ↔ Coherent A B := by
  constructor
  · rintro ⟨R, hR⟩
    by_contra hc
    have : mul A B = none := multiply_impl_incoherent _ A B hA hB hc (by omega)
    rw [this] at hR; cases hR
  · intro hc
    obtain ⟨R, hR, _⟩ := mul_spec hA hB hc
    exact ⟨R, hR⟩

/-! ### Claims C1 to C3 -/

/-- The `is_same_v` guard of `multiply_impl` outside one basis: `c` and `d` are two named
constants of the same value.  With `A = c`, `B = c^-1` and `C = d`, `(A * B) * C` is `d`,
while `B * C` has no `return` in `multiply_impl` and `A * (B * C)` is rejected. -/
theorem mul_assoc_rejected :
    Canonical [⟨Base.constant ⟨0, 3141592653589793 / 1000000000000000⟩, 1⟩] ∧
      Canonical [⟨Base.constant ⟨0, 3141592653589793 / 1000000000000000⟩, -1⟩] ∧
      Canonical [⟨Base.constant ⟨1, 3141592653589793 / 1000000000000000⟩, 1⟩] ∧
      (mul [⟨Base.constant ⟨0, 3141592653589793 / 1000000000000000⟩, 1⟩]
          [⟨Base.constant ⟨0, 3141592653589793 / 1000000000000000⟩, -1⟩]).bind
        (fun AB => mul AB [⟨Base.constant ⟨1, 3141592653589793 / 1000000000000000⟩, 1⟩]) =
        some [⟨Base.constant ⟨1, 3141592653589793 / 1000000000000000⟩, 1⟩] ∧
      (mul [⟨Base.constant ⟨0, 3141592653589793 / 1000000000000000⟩, -1⟩]
          [⟨Base.constant ⟨1, 3141592653589793 / 1000000000000000⟩, 1⟩]).bind
        (fun BC => mul [⟨Base.constant ⟨0, 3141592653589793 / 1000000000000000⟩, 1⟩] BC) =
        none := by
  decide!

/-- The `is_same_v` guard of `multiply_impl` outside one basis: for two named constants
`c` and `d` of the same value, `A = 2 * c` and `B = d`, the product `A * B` is rejected. -/
theorem div_mul_cancel_rejected :
    Canonical [⟨Base.integral 2, 1⟩,
        ⟨Base.constant ⟨0, 3141592653589793 / 1000000000000000⟩, 1⟩] ∧
      Canonical [⟨Base.constant ⟨1, 3141592653589793 / 1000000000000000⟩, 1⟩] ∧
      mul [⟨Base.integral 2, 1⟩, ⟨Base.constant ⟨0, 3141592653589793 / 1000000000000000⟩, 1⟩]
          [⟨Base.constant ⟨1, 3141592653589793 / 1000000000000000⟩, 1⟩] = none ∧
      (mul [⟨Base.integral 2, 1⟩, ⟨Base.constant ⟨0, 3141592653589793 / 1000000000000000⟩, 1⟩]
          [⟨Base.constant ⟨1, 3141592653589793 / 1000000000000000⟩, 1⟩]).bind
        (fun AB => div AB [⟨Base.constant ⟨1, 3141592653589793 / 1000000000000000⟩, 1⟩]) ≠
        some [⟨Base.integral 2, 1⟩,
          ⟨Base.constant ⟨0, 3141592653589793 / 1000000000000000⟩, 1⟩] := by
  decide!

theorem multiplicity_loop_eq {p : Nat} (hp : p.Prime) :
    ∀ (fuel n : Nat), 0 < n → n ≤ fuel → multiplicity_loop fuel p n = n.factorization p := by
  intro fuel
  induction fuel with
  | zero => intro n h0 h1; omega
  | succ fuel ih =>
    intro n h0 h1
    rw [multiplicity_loop]
    by_cases hd : n % p = 0
    · have hdvd : p ∣ n := Nat.dvd_of_mod_eq_zero hd
      obtain ⟨m, rfl⟩ := hdvd
      have hm0 : m ≠ 0 := by
        rintro rfl; simp at h0
      have hdiv : p * m / p = m := Nat.mul_div_cancel_left m hp.pos
      have hlt : m < p * m := by
        have := hp.two_le
        have hmpos : 0 < m := Nat.pos_of_ne_zero hm0
        nlinarith
      simp only [hd, if_true, hdiv]
      rw [ih m (Nat.pos_of_ne_zero hm0) (by omega), Nat.factorization_mul hp.ne_zero hm0]
      simp [hp.factorization_self, add_comm]
    · have hnd : ¬ p ∣ n := fun h => hd (Nat.mod_eq_zero_of_dvd h)
      simp [hd, Nat.factorization_eq_zero_of_not_dvd hnd]

theorem multiplicity_eq {p : Nat} (hp : p.Prime) {n : Nat} (hn : 0 < n) :
    multiplicity p n = n.factorization p :=
  multiplicity_loop_eq hp n n hn (le_refl _)

theorem multiplicity_mul {p : Nat} (hp : p.Prime) {a b : Nat} (ha : 0 < a) (hb : 0 < b) :
    multiplicity p (a * b) = multiplicity p a + multiplicity p b := by
  rw [multiplicity_eq hp (Nat.mul_pos ha hb), multiplicity_eq hp ha, multiplicity_eq hp hb,
    Nat.factorization_mul (Nat.pos_iff_ne_zero.1 ha) (Nat.pos_iff_ne_zero.1 hb)]
  rfl

/-- What the factorization of `N` must be: a canonical positive pack of the primes
dividing `N`, each with its multiplicity. -/
theorem prime_factorization_depth_spec : ∀ (d N : Nat), 0 < N → N ≤ d →
    ∃ R, prime_factorization_depth d N = some R ∧ Canonical R ∧
      (∀ e ∈ R, ∃ p : Nat, p.Prime ∧ p ∣ N ∧ e.base = Base.integral (p : Int)) ∧
      (∀ p : Nat, p.Prime → expo R (Base.integral (p : Int)) = (multiplicity p N : ℚ)) := by
  intro d
  induction d with
  | zero => intro N h0 h1; omega
  | succ d ih =>
    intro N h0 h1
    by_cases hN1 : N = 1
    · subst hN1
      refine ⟨[], by simp [prime_factorization_depth], canonical_nil, by simp, ?_⟩
      intro p hp
      rw [multiplicity_eq hp (by norm_num)]
      simp
    · have hN0 : N ≠ 0 := Nat.pos_iff_ne_zero.1 h0
      have hpp : (Nat.minFac N).Prime := Nat.minFac_prime hN1
      have hk : multiplicity (Nat.minFac N) N = N.factorization (Nat.minFac N) :=
        multiplicity_eq hpp h0
      have hkpos : 0 < N.factorization (Nat.minFac N) :=
        hpp.factorization_pos_of_dvd hN0 (Nat.minFac_dvd N)
      have hrem_pos : 0 < N / Nat.minFac N ^ N.factorization (Nat.minFac N) :=
        Nat.ordCompl_pos _ hN0
      have hrem_dvd : N / Nat.minFac N ^ N.factorization (Nat.minFac N) ∣ N :=
        Nat.ordCompl_dvd N _
      have hrem_lt : N / Nat.minFac N ^ N.factorization (Nat.minFac N) < N := by
        apply Nat.div_lt_self h0
        exact Nat.one_lt_pow (Nat.pos_iff_ne_zero.1 hkpos) hpp.one_lt
      obtain ⟨R, hR, hRc, hRb, hRe⟩ :=
        ih (N / Nat.minFac N ^ N.factorization (Nat.minFac N)) hrem_pos (by omega)
      have hnot : ¬ Nat.minFac N ∣ N / Nat.minFac N ^ N.factorization (Nat.minFac N) :=
        Nat.not_dvd_ordCompl hpp hN0
      have hgt : ∀ q : Nat, q.Prime → q ∣ N / Nat.minFac N ^ N.factorization (Nat.minFac N) →
          Nat.minFac N < q := by
        intro q hq hqd
        have h1 : Nat.minFac N ≤ q := Nat.minFac_le_of_dvd hq.two_le (hqd.trans hrem_dvd)
        rcases Nat.lt_or_ge (Nat.minFac N) q with h | h
        · exact h
        · have : q = Nat.minFac N := le_antisymm h h1
          exact absurd (this ▸ hqd) hnot
      have habove : ∀ y ∈ R, key_lt
          (⟨Base.integral (Nat.minFac N : Int), ((multiplicity (Nat.minFac N) N : Int) : ℚ)⟩ :
            Element) y := by
        intro y hy
        obtain ⟨q, hq, hqd, hqb⟩ := hRb y hy
        unfold key_lt
        rw [hqb]
        simp only [get_base_value]
        exact_mod_cast hgt q hq hqd
      have hkne : ((multiplicity (Nat.minFac N) N : Int) : ℚ) ≠ 0 := by
        rw [hk]
        exact_mod_cast (Nat.pos_iff_ne_zero.1 hkpos)
      have hvalid : (⟨Base.integral (Nat.minFac N : Int),
          ((multiplicity (Nat.minFac N) N : Int) : ℚ)⟩ : Element).Valid := by
        refine ⟨⟨by positivity, ?_⟩, hkne, fun h => by cases h⟩
        simpa using hpp
      refine ⟨_ :: R, ?_, canonical_cons.2 ⟨hvalid, habove, hRc⟩, ?_, ?_⟩
      · rw [prime_factorization_depth]
        simp only [hN1, hN0, if_false, find_first_factor, remove_power, power_v_or_T,
          ratio_num_ne_zero hkne, Option.some_bind]
        rw [← hk] at hR
        simp only [Option.some_bind, hR]
        exact mul_singleton_prepend _ _ habove
      · intro e he
        rcases List.mem_cons.1 he with rfl | he
        · exact ⟨Nat.minFac N, hpp, Nat.minFac_dvd N, rfl⟩
        · obtain ⟨q, hq, hqd, hqb⟩ := hRb e he
          exact ⟨q, hq, hqd.trans hrem_dvd, hqb⟩
      · intro q hq
        rw [expo_cons, hRe q hq, multiplicity_eq hq hrem_pos, multiplicity_eq hq h0, hk]
        by_cases hqp : q = Nat.minFac N
        · subst hqp
          simp [Nat.factorization_eq_zero_of_not_dvd hnot]
        · have hne : (Base.integral (Nat.minFac N : Int)) ≠ Base.integral (q : Int) := by
            intro h
            injection h with h
            exact hqp (by exact_mod_cast h.symm)
          simp only [hne, if_false, zero_add]
          rw [Nat.factorization_ordCompl]
          simp [Finsupp.erase_ne hqp]



theorem base_eq_of_value_eq {b c : Base} (hb : b.Valid) (hc : c.Valid)
    (hb1 : b.is_mag_constant = false) (hc1 : c.is_mag_constant = false)
    (h : get_base_value b = get_base_value c) : b = c := by
  cases b with
  | negative_tag =>
    cases c with
    | negative_tag => rfl
    | integral w =>
      have h0 : (0 : ℚ) ≤ (w : ℚ) := by exact_mod_cast hc.1
      simp only [get_base_value] at h
      linarith
    | constant d => simp [Base.is_mag_constant] at hc1
  | integral v =>
    cases c with
    | negative_tag =>
      have h0 : (0 : ℚ) ≤ (v : ℚ) := by exact_mod_cast hb.1
      simp only [get_base_value] at h
      linarith
    | integral w =>
      simp only [get_base_value] at h
      have : v = w := by exact_mod_cast h
      rw [this]
    | constant d => simp [Base.is_mag_constant] at hc1
  | constant d => simp [Base.is_mag_constant] at hb1

/-- Rational magnitudes (no named constant) always lie over one basis. -/
theorem coherent_of_no_constant {A B : unit_magnitude} (hA : Canonical A) (hB : Canonical B)
    (hA1 : ∀ e ∈ A, e.base.is_mag_constant = false)
    (hB1 : ∀ e ∈ B, e.base.is_mag_constant = false) : Coherent A B :=
  fun x hx y hy hv =>
    base_eq_of_value_eq (hA.2 x hx).1 (hB.2 y hy).1 (hA1 x hx) (hB1 y hy) hv

theorem prime_factorization_v_spec {N : Nat} (hN : 0 < N) :
    ∃ R, prime_factorization_v N = some R ∧ Canonical R ∧
      (∀ e ∈ R, ∃ p : Nat, p.Prime ∧ p ∣ N ∧ e.base = Base.integral (p : Int)) ∧
      (∀ p : Nat, p.Prime → expo R (Base.integral (p : Int)) = (multiplicity p N : ℚ)) :=
  prime_factorization_depth_spec N N hN (le_refl _)

/-- The shape of `mag<V>` for a nonzero integer `V`: the sentinel exactly for `V < 0`,
then the primes of the absolute value with their multiplicities. -/
theorem mag_spec {V : Int} (hV : V ≠ 0) :
    ∃ R, mag V = some R ∧ Canonical R ∧ has_sentinel R = decide (V < 0) ∧
      (∀ e ∈ R, e.base = Base.negative_tag ∨
        ∃ p : Nat, p.Prime ∧ p ∣ V.natAbs ∧ e.base = Base.integral (p : Int)) ∧
      (∀ p : Nat, p.Prime → expo R (Base.integral (p : Int)) = (multiplicity p V.natAbs : ℚ)) := by
  obtain ⟨R, hR, hc, hb, he⟩ := prime_factorization_v_spec (Int.natAbs_pos.2 hV)
  have hpos : ∀ y ∈ R, 0 < get_base_value y.base := by
    intro y hy
    obtain ⟨p, hp, _, hpb⟩ := hb y hy
    rw [hpb]
    simp only [get_base_value]
    exact_mod_cast hp.pos
  have hs : has_sentinel R = false :=
    has_sentinel_eq_false_of_above (fun y hy => lt_trans (by norm_num) (hpos y hy))
  unfold mag
  simp only [hV, if_false, hR, Option.some_bind]
  by_cases hneg : V < 0
  · have habove : ∀ y ∈ R, key_lt (⟨Base.negative_tag, 1⟩ : Element) y := by
      intro y hy
      unfold key_lt
      simp only [get_base_value]
      exact lt_trans (by norm_num) (hpos y hy)
    have hvalid : (⟨Base.negative_tag, 1⟩ : Element).Valid :=
      ⟨trivial, one_ne_zero, fun _ => rfl⟩
    refine ⟨_ :: R, by simp only [hneg, if_true]; exact mul_singleton_prepend _ _ habove,
      canonical_cons.2 ⟨hvalid, habove, hc⟩, by simp [hneg], ?_, ?_⟩
    · intro e hmem
      rcases List.mem_cons.1 hmem with rfl | hmem
      · exact Or.inl rfl
      · exact Or.inr (hb e hmem)
    · intro p hp
      simp [he p hp]
  · refine ⟨R, by simp [hneg], hc, by simp [hs, hneg], fun e hmem => Or.inr (hb e hmem), he⟩

theorem expo_eq_zero_of_not_prime {R : unit_magnitude} {n : Nat}
    (hR : ∀ e ∈ R, e.base = Base.negative_tag ∨
      ∃ p : Nat, p.Prime ∧ p ∣ n ∧ e.base = Base.integral (p : Int))
    {b : Base} (hb : b ≠ Base.negative_tag)
    (hnp : ∀ p : Nat, p.Prime → b ≠ Base.integral (p : Int)) : expo R b = 0 := by
  apply expo_eq_zero_of_absent
  intro e he heb
  rcases hR e he with h | ⟨p, hp, _, hpb⟩
  · exact hb (heb ▸ h)
  · exact hnp p hp (heb ▸ hpb)

theorem no_constant_of_mag_bases {R : unit_magnitude} {n : Nat}
    (hR : ∀ e ∈ R, e.base = Base.negative_tag ∨
      ∃ p : Nat, p.Prime ∧ p ∣ n ∧ e.base = Base.integral (p : Int)) :
    ∀ e ∈ R, e.base.is_mag_constant = false := by
  intro e he
  rcases hR e he with h | ⟨p, _, _, hpb⟩
  · rw [h]; rfl
  · rw [hpb]; rfl

/-! ### The factorization of a product -/

/-- The factorization of an integer is multiplicative.  For all nonzero integers `a` and
`b` (of either sign), the factorizations `mag a`, `mag b` and `mag (a * b)` of the
integers, whatever the type of the template argument, are defined and that of `a * b` is
the product of the other two. -/
theorem mag_mul (a b : Int) (ha : a ≠ 0) (hb : b ≠ 0) :
    ∃ A B R, mag a = some A ∧ mag b = some B ∧ mag (a * b) = some R ∧ mul A B = some R := by
  obtain ⟨A, hA, hAc, hAs, hAb, hAe⟩ := mag_spec ha
  obtain ⟨B, hB, hBc, hBs, hBb, hBe⟩ := mag_spec hb
  obtain ⟨R, hR, hRc, hRs, hRb, hRe⟩ := mag_spec (mul_ne_zero ha hb)
  have hcoh : Coherent A B := coherent_of_no_constant hAc hBc
    (no_constant_of_mag_bases hAb) (no_constant_of_mag_bases hBb)
  obtain ⟨P, hP, hPp⟩ := mul_spec hAc hBc hcoh
  have hPR : P = R := by
    apply canonical_ext hPp.1 hRc
    · intro c hc
      rw [hPp.2.2.1 c hc]
      by_cases hprime : ∃ p : Nat, p.Prime ∧ c = Base.integral (p : Int)
      · obtain ⟨p, hp, rfl⟩ := hprime
        rw [hAe p hp, hBe p hp, hRe p hp, Int.natAbs_mul,
          multiplicity_mul hp (Int.natAbs_pos.2 ha) (Int.natAbs_pos.2 hb)]
        push_cast; ring
      · have hnp : ∀ p : Nat, p.Prime → c ≠ Base.integral (p : Int) :=
          fun p hp h => hprime ⟨p, hp, h⟩
        rw [expo_eq_zero_of_not_prime hAb hc hnp, expo_eq_zero_of_not_prime hBb hc hnp,
          expo_eq_zero_of_not_prime hRb hc hnp]
        ring
    · rw [hPp.2.2.2, hAs, hBs, hRs]
      rcases lt_or_gt_of_ne ha with h1 | h1 <;> rcases lt_or_gt_of_ne hb with h2 | h2
      · have : ¬ a * b < 0 := not_lt.2 (le_of_lt (mul_pos_of_neg_of_neg h1 h2))
        simp [h1, h2, this]
      · have : a * b < 0 := mul_neg_of_neg_of_pos h1 h2
        have h3 : ¬ b < 0 := not_lt.2 (le_of_lt h2)
        simp [h1, h3, this]
      · have : a * b < 0 := mul_neg_of_pos_of_neg h1 h2
        have h3 : ¬ a < 0 := not_lt.2 (le_of_lt h1)
        simp [h2, h3, this]
      · have : ¬ a * b < 0 := not_lt.2 (le_of_lt (mul_pos h1 h2))
        have h3 : ¬ a < 0 := not_lt.2 (le_of_lt h1)
        have h4 : ¬ b < 0 := not_lt.2 (le_of_lt h2)
        simp [h3, h4, this]
  exact ⟨A, B, R, hA, hB, hR, hPR ▸ hP⟩

/-- An instance: `-24`, `-6` and `4`. -/
theorem mag_mul_witness :
    ∃ A B R, mag (-6) = some A ∧ mag 4 = some B ∧ mag (-6 * 4) = some R ∧ mul A B = some R :=
  mag_mul (-6) 4 (by decide) (by decide)



/-! ### Numerator and denominator -/

theorem tdiv_pos_of_ge {n : Int} {d : Nat} (hd : 0 < d) (h : n ≥ (d : Int)) :
    0 < Int.tdiv n (d : Int) := by
  have hd0 : (0 : Int) < (d : Int) := by exact_mod_cast hd
  have hn : 0 ≤ n := le_trans (le_of_lt hd0) h
  rw [Int.tdiv_eq_ediv hn (le_of_lt hd0)]
  have : (1 : Int) ≤ n / (d : Int) := Int.le_ediv_of_mul_le hd0 (by simpa using h)
  omega

theorem is_integral_impl_of_pos_int (e : Element) (hb : e.base.is_integral_type = true)
    (hd : e.exponent.den = 1) (hn : 0 < e.exponent.num) : is_integral_impl e = true := by
  have hs : e.is_negative_tag = false := by
    unfold Element.is_negative_tag
    apply decide_eq_false
    rintro ⟨h, _⟩
    rw [h] at hb
    cases hb
  simp [is_integral_impl, is_rational_impl, hs, hb, hd, hn]

theorem integer_power_zero (b : Base) : integer_power b 0 = 0 := by
  simp [integer_power]

theorem not_negative_tag_of_base {x : Element} (h : x.base ≠ Base.negative_tag) :
    x.is_negative_tag = false := by
  unfold Element.is_negative_tag
  exact decide_eq_false (fun hh => h hh.1)

/-- The integer part of one valid element: nothing, or one valid integral element on the
same base. -/
theorem integer_part_spec {x : Element} (hx : x.Valid) :
    ∃ l, integer_part x = some l ∧
      (l = [] ∨ ∃ e, l = [e] ∧ e.base = x.base ∧ e.Valid ∧ is_integral_impl e = true) ∧
      (∀ b, b ≠ Base.negative_tag →
        expo l b = if x.base = b then integer_power b x.exponent else 0) ∧
      has_sentinel l = decide (x.base = Base.negative_tag) := by
  by_cases hs : x.base = Base.negative_tag
  · have ht : x.is_negative_tag = true := (is_negative_tag_iff hx).2 hs
    refine ⟨[x], by simp [integer_part, ht], Or.inr ⟨x, rfl, rfl, hx, ?_⟩, ?_, by simp [hs]⟩
    · simp [is_integral_impl, ht]
    · intro b hb
      have : x.base ≠ b := fun h => hb (h ▸ hs)
      simp [this]
  · have ht : x.is_negative_tag = false := not_negative_tag_of_base hs
    by_cases hc : (x.base.is_integral_type && decide (x.exponent.num ≥ (x.exponent.den : Int))) = true
    · have hc2 := hc
      simp only [Bool.and_eq_true, decide_eq_true_eq] at hc2
      have hpos : 0 < Int.tdiv x.exponent.num (x.exponent.den : Int) :=
        tdiv_pos_of_ge x.exponent.den_pos hc2.2
      have hne : ((Int.tdiv x.exponent.num (x.exponent.den : Int) : Int) : ℚ) ≠ 0 := by
        exact_mod_cast (ne_of_gt hpos)
      refine ⟨[⟨x.base, ((Int.tdiv x.exponent.num (x.exponent.den : Int) : Int) : ℚ)⟩], ?_,
        Or.inr ⟨_, rfl, rfl, ⟨hx.1, hne, fun h => absurd h hs⟩, ?_⟩, ?_, by simp [hs]⟩
      · simp only [integer_part, ht, Bool.false_eq_true, if_false, hc, if_true, power_v_or_T,
          ratio_num_ne_zero hne, Option.map_some']
      · refine is_integral_impl_of_pos_int ⟨x.base, _⟩ hc2.1 ?_ ?_
        · simp
        · simpa using hpos
      · intro b _
        by_cases hb : x.base = b
        · subst hb
          simp [integer_power, hc]
        · simp [hb]
    · refine ⟨[], by simp [integer_part, ht, hc], Or.inl rfl, ?_, by simp [hs]⟩
      intro b _
      by_cases hb : x.base = b
      · subst hb
        simp [integer_power, hc]
      · simp [hb]

/-- The numerator of a canonical magnitude: per base the extracted integer power, with
the sign. -/
theorem numerator_spec {A : unit_magnitude} (hA : Canonical A) :
    ∃ N, numerator A = some N ∧ Canonical N ∧
      (∀ e ∈ N, (∃ x ∈ A, x.base = e.base) ∧ is_integral_impl e = true) ∧
      (∀ b, b ≠ Base.negative_tag → expo N b = integer_power b (expo A b)) ∧
      has_sentinel N = has_sentinel A := by
  induction A with
  | nil =>
    exact ⟨[], rfl, canonical_nil, by simp, by simp [integer_power_zero], rfl⟩
  | cons x A ih =>
    obtain ⟨hxv, hxA, hAc⟩ := canonical_cons.1 hA
    obtain ⟨N, hN, hNc, hNb, hNe, hNs⟩ := ih hAc
    obtain ⟨l, hl, hshape, hle, hls⟩ := integer_part_spec hxv
    have habs : ∀ b, x.base = b → expo A b = 0 := by
      intro b hb
      exact expo_eq_zero_of_absent (fun y hy h => base_ne_of_key_lt (hxA y hy) (h.trans hb.symm))
    have hnum : numerator (x :: A) = (integer_part x).bind
        (fun i => (numerator A).bind (fun a => mul i a)) := rfl
    rcases hshape with rfl | ⟨e, rfl, heb, hev, hei⟩
    · refine ⟨N, ?_, hNc, ?_, ?_, ?_⟩
      · rw [hnum, hl, hN]
        exact multiply_impl_nil_left _ _
      · intro y hy
        obtain ⟨⟨z, hz, hzb⟩, hi⟩ := hNb y hy
        exact ⟨⟨z, List.mem_cons_of_mem _ hz, hzb⟩, hi⟩
      · intro b hb
        have h1 := hle b hb
        rw [hNe b hb, expo_cons]
        by_cases hxb : x.base = b
        · simp only [hxb, if_true, expo_nil] at h1 ⊢
          rw [habs b hxb, add_zero, ← h1, integer_power_zero]
        · simp [hxb]
      · rw [hNs, has_sentinel_cons]
        simp only [has_sentinel_nil] at hls
        rw [← hls]; rfl
    · have habove : ∀ y ∈ N, key_lt e y := by
        intro y hy
        obtain ⟨⟨z, hz, hzb⟩, _⟩ := hNb y hy
        have := key_lt_of_base_eq (hxA z hz) hzb
        unfold key_lt at this ⊢
        rw [heb]; exact this
      refine ⟨e :: N, ?_, canonical_cons.2 ⟨hev, habove, hNc⟩, ?_, ?_, ?_⟩
      · rw [hnum, hl, hN]
        exact mul_singleton_prepend _ _ habove
      · intro y hy
        rcases List.mem_cons.1 hy with rfl | hy
        · exact ⟨⟨x, List.mem_cons_self _ _, heb.symm⟩, hei⟩
        · obtain ⟨⟨z, hz, hzb⟩, hi⟩ := hNb y hy
          exact ⟨⟨z, List.mem_cons_of_mem _ hz, hzb⟩, hi⟩
      · intro b hb
        have h1 := hle b hb
        rw [expo_cons] at h1 ⊢
        rw [expo_cons, hNe b hb]
        simp only [expo_nil, add_zero] at h1
        rw [h1]
        by_cases hxb : x.base = b
        · simp only [hxb, if_true]
          rw [habs b hxb, add_zero, integer_power_zero, add_zero]
        · simp [hxb]
      · rw [has_sentinel_cons, hNs, has_sentinel_cons, heb]

theorem abs_magnitude_spec {A : unit_magnitude} (hA : Canonical A) :
    Canonical (abs_magnitude A) ∧ has_sentinel (abs_magnitude A) = false ∧
      (∀ b, b ≠ Base.negative_tag → expo (abs_magnitude A) b = expo A b) ∧
      (∀ e ∈ abs_magnitude A, e ∈ A) := by
  cases A with
  | nil =>
    refine ⟨canonical_nil, rfl, ?_, ?_⟩
    · intro b _; rfl
    · intro e he; exact he
  | cons H Rest =>
    obtain ⟨hHv, hHR, hRc⟩ := canonical_cons.1 hA
    have hRs : has_sentinel Rest = false :=
      has_sentinel_eq_false_of_above (above_of_key_lt hHv hHR)
    by_cases hs : H.base = Base.negative_tag
    · have ht : H.is_negative_tag = true := (is_negative_tag_iff hHv).2 hs
      simp only [abs_magnitude, ht, if_true]
      refine ⟨hRc, hRs, ?_, fun e he => List.mem_cons_of_mem _ he⟩
      intro b hb
      have : H.base ≠ b := fun h => hb (h ▸ hs)
      simp [this]
    · have ht : H.is_negative_tag = false := not_negative_tag_of_base hs
      have heq : abs_magnitude (H :: Rest) = H :: Rest := by
        simp [abs_magnitude, ht]
      rw [heq]
      refine ⟨hA, by simp [hs, hRs], ?_, ?_⟩
      · intro b _; rfl
      · intro e he; exact he

/-- The denominator of a canonical magnitude: positive, and per base the integer power
extracted from the negated exponent. -/
theorem denominator_spec {A : unit_magnitude} (hA : Canonical A) :
    ∃ D, denominator A = some D ∧ Canonical D ∧
      (∀ e ∈ D, (∃ x ∈ A, x.base = e.base) ∧ is_integral_impl e = true) ∧
      (∀ b, b ≠ Base.negative_tag → expo D b = integer_power b (- expo A b)) ∧
      has_sentinel D = false := by
  obtain ⟨hBc, hBs, hBe, hBm⟩ := abs_magnitude_spec hA
  obtain ⟨I, hI, hIc, hIb, hIe, hIs⟩ := inv_spec hBc
  obtain ⟨D, hD, hDc, hDb, hDe, hDs⟩ := numerator_spec hIc
  refine ⟨D, by simp [denominator, hI, hD], hDc, ?_, ?_, by rw [hDs, hIs, hBs]⟩
  · intro e he
    obtain ⟨⟨z, hz, hzb⟩, hi⟩ := hDb e he
    obtain ⟨y, hy, hyb⟩ := hIb z hz
    exact ⟨⟨y, hBm y hy, hyb.trans hzb⟩, hi⟩
  · intro b hb
    rw [hDe b hb, hIe b hb, hBe b hb]



theorem check_positive_eq {m : unit_magnitude} (hm : Canonical m) :
    check_magnitude_is_positive m = !has_sentinel m := by
  cases m with
  | nil => rfl
  | cons H R =>
    obtain ⟨hHv, hHR, _⟩ := canonical_cons.1 hm
    have hRs : has_sentinel R = false :=
      has_sentinel_eq_false_of_above (above_of_key_lt hHv hHR)
    by_cases hs : H.base = Base.negative_tag
    · have ht : H.is_negative_tag = true := (is_negative_tag_iff hHv).2 hs
      simp [check_magnitude_is_positive, ht, hs]
    · have ht : H.is_negative_tag = false := not_negative_tag_of_base hs
      simp [check_magnitude_is_positive, ht, hs, hRs]

/-- Numerator, denominator and their quotient on a canonical magnitude. -/
theorem num_div_den_spec {A : unit_magnitude} (hA : Canonical A) :
    ∃ N D Q, numerator A = some N ∧ denominator A = some D ∧ div N D = some Q ∧ Canonical Q ∧
      (∀ b, b ≠ Base.negative_tag →
        expo Q b = integer_power b (expo A b) - integer_power b (- expo A b)) ∧
      has_sentinel Q = has_sentinel A := by
  obtain ⟨N, hN, hNc, hNb, hNe, hNs⟩ := numerator_spec hA
  obtain ⟨D, hD, hDc, hDb, hDe, hDs⟩ := denominator_spec hA
  have hcoh : Coherent N D :=
    coherent_of_bases (fun e he => (hNb e he).1)
      (coherent_symm (coherent_of_bases (fun e he => (hDb e he).1) (coherent_self hA)))
  obtain ⟨Q, hQ, hQc, _, hQe, hQs⟩ := div_spec hNc hDc hcoh
  refine ⟨N, D, Q, hN, hD, hQ, hQc, ?_, ?_⟩
  · intro b hb
    rw [hQe b hb, hNe b hb, hDe b hb]
  · rw [hQs, hNs, hDs]; simp

theorem integer_power_of_int {b : Base} (hb : b.is_integral_type = true) {q : ℚ}
    (hq : q.den = 1) : integer_power b q - integer_power b (-q) = q := by
  have hqn : q = (q.num : ℚ) := (Rat.coe_int_num_of_den_eq_one hq).symm
  have hnegden : (-q).den = 1 := by rw [Rat.neg_den, hq]
  have hnegnum : (-q).num = - q.num := Rat.neg_num q
  unfold integer_power
  rw [hnegden, hnegnum, hq, hb]
  simp only [Bool.true_and, Nat.cast_one, Int.tdiv_one]
  by_cases h1 : q.num ≥ 1
  · have h2 : ¬ (-q.num ≥ 1) := by omega
    simp only [h1, h2, decide_True, decide_False, if_true, Bool.false_eq_true, if_false, sub_zero]
    exact hqn.symm
  · by_cases h2 : -q.num ≥ 1
    · simp only [h1, h2, decide_True, decide_False, if_true, Bool.false_eq_true, if_false,
        zero_sub]
      rw [Int.cast_neg, neg_neg]
      exact hqn.symm
    · have h0 : q.num = 0 := by omega
      simp only [h1, h2, decide_False, Bool.false_eq_true, if_false, sub_zero]
      rw [hqn, h0]; simp

theorem integer_power_sub_den (b : Base) (q : ℚ) :
    (integer_power b q - integer_power b (-q)).den = 1 := by
  have h : ∀ r : ℚ, ∃ z : Int, integer_power b r = (z : ℚ) := by
    intro r
    unfold integer_power
    split_ifs
    · exact ⟨_, rfl⟩
    · exact ⟨0, by simp⟩
  obtain ⟨z1, h1⟩ := h q
  obtain ⟨z2, h2⟩ := h (-q)
  rw [h1, h2, ← Int.cast_sub]
  exact Rat.intCast_den _

theorem integer_power_of_not_integral {b : Base} (hb : b.is_integral_type = false) (q : ℚ) :
    integer_power b q = 0 := by
  simp [integer_power, hb]

theorem is_rational_impl_iff {e : Element} (hs : e.base ≠ Base.negative_tag) :
    is_rational_impl e = true ↔ e.base.is_integral_type = true ∧ e.exponent.den = 1 := by
  simp [is_rational_impl, not_negative_tag_of_base hs]

theorem is_rational_impl_of_sentinel {e : Element} (he : e.Valid)
    (hs : e.base = Base.negative_tag) : is_rational_impl e = true := by
  simp [is_rational_impl, (is_negative_tag_iff he).2 hs]

/-- For a canonical magnitude, `numerator / denominator` gives the magnitude back exactly
when every element is rational. -/
theorem quotient_eq_self_iff {A Q : unit_magnitude} (hA : Canonical A) (hQ : Canonical Q)
    (hQe : ∀ b, b ≠ Base.negative_tag →
      expo Q b = integer_power b (expo A b) - integer_power b (- expo A b))
    (hQs : has_sentinel Q = has_sentinel A) : Q = A ↔ is_rational A = true := by
  constructor
  · intro hQA
    subst hQA
    unfold is_rational
    rw [List.all_eq_true]
    intro e he
    by_cases hs : e.base = Base.negative_tag
    · exact is_rational_impl_of_sentinel (hQ.2 e he) hs
    · have hexp : expo Q e.base = e.exponent := expo_of_mem hQ.1 he
      have h1 := hQe e.base hs
      rw [hexp] at h1
      rw [is_rational_impl_iff hs]
      have hden : e.exponent.den = 1 := by
        rw [h1]; exact integer_power_sub_den _ _
      refine ⟨?_, hden⟩
      by_contra hb
      have hb2 : e.base.is_integral_type = false := by simpa using hb
      rw [integer_power_of_not_integral hb2, integer_power_of_not_integral hb2, sub_zero] at h1
      exact (hQ.2 e he).2.1 h1
  · intro hr
    unfold is_rational at hr
    rw [List.all_eq_true] at hr
    apply canonical_ext hQ hA _ hQs
    intro b hb
    rw [hQe b hb]
    by_cases hmem : ∃ e ∈ A, e.base = b
    · obtain ⟨e, he, rfl⟩ := hmem
      have h1 := (is_rational_impl_iff hb).1 (hr e he)
      rw [expo_of_mem hA.1 he]
      exact integer_power_of_int h1.1 h1.2
    · have h0 : expo A b = 0 := expo_eq_zero_of_absent (fun e he h => hmem ⟨e, he, h⟩)
      rw [h0, neg_zero, integer_power_zero, sub_zero]

/-! ### Claims C7 to C9 -/

theorem positive_power_of_integral {e : Element} (hi : is_integral_impl e = true)
    (hs : e.base ≠ Base.negative_tag) :
    is_positive_integral_power_impl e = true ∧ e.base.is_integral_type = true := by
  have ht := not_negative_tag_of_base hs
  simp only [is_integral_impl, is_rational_impl, ht, Bool.false_eq_true, if_false,
    Bool.and_eq_true, decide_eq_true_eq] at hi
  simp [is_positive_integral_power_impl, ht, hi.1.2, hi.2, hi.1.1]

/-- C9: for every canonical magnitude `A`, `denominator(A)` is positive (no sentinel) and
integral, every element of it being a prime base with a positive integer exponent;
`numerator(A)` is integral; and the sign of `A` is the sign of `numerator(A)`. -/
theorem denominator_positive_integral (A : unit_magnitude) (hA : Canonical A) :
    ∃ N D, numerator A = some N ∧ denominator A = some D ∧
      check_magnitude_is_positive D = true ∧ has_sentinel D = false ∧
      is_integral D = true ∧ is_positive_integral_power D = true ∧
      (∀ e ∈ D, ∃ p : Nat, p.Prime ∧ e.base = Base.integral (p : Int)) ∧
      is_integral N = true ∧
      check_magnitude_is_positive N = check_magnitude_is_positive A := by
  obtain ⟨N, hN, hNc, hNb, _, hNs⟩ := numerator_spec hA
  obtain ⟨D, hD, hDc, hDb, _, hDs⟩ := denominator_spec hA
  have hDns : ∀ e ∈ D, e.base ≠ Base.negative_tag := by
    intro e he h
    have : has_sentinel D = true := (has_sentinel_iff D).2 ⟨e, he, h⟩
    rw [hDs] at this; cases this
  refine ⟨N, D, hN, hD, ?_, hDs, ?_, ?_, ?_, ?_, ?_⟩
  · rw [check_positive_eq hDc, hDs]; rfl
  · unfold is_integral
    rw [List.all_eq_true]
    exact fun e he => (hDb e he).2
  · unfold is_positive_integral_power
    rw [List.all_eq_true]
    exact fun e he => (positive_power_of_integral (hDb e he).2 (hDns e he)).1
  · intro e he
    have hty := (positive_power_of_integral (hDb e he).2 (hDns e he)).2
    have hv := (hDc.2 e he).1
    cases hb : e.base with
    | negative_tag => exact absurd hb (hDns e he)
    | integral v =>
      rw [hb] at hv
      refine ⟨v.toNat, hv.2, ?_⟩
      rw [Int.toNat_of_nonneg hv.1]
    | constant c => rw [hb] at hty; cases hty
  · unfold is_integral
    rw [List.all_eq_true]
    exact fun e he => (hNb e he).2
  · rw [check_positive_eq hNc, check_positive_eq hA, hNs]

/-- Witness of C9: the negative magnitude `(-1) * 2^(5/2) * 3^-2 * pi^-1`. -/
theorem denominator_positive_integral_witness :
    Canonical [⟨Base.negative_tag, 1⟩, ⟨Base.integral 2, 5 / 2⟩, ⟨Base.integral 3, -2⟩,
        ⟨Base.constant ⟨0, 3141592653589793 / 1000000000000000⟩, -1⟩] ∧
      ∃ N D, numerator [⟨Base.negative_tag, 1⟩, ⟨Base.integral 2, 5 / 2⟩, ⟨Base.integral 3, -2⟩,
          ⟨Base.constant ⟨0, 3141592653589793 / 1000000000000000⟩, -1⟩] = some N ∧
        denominator [⟨Base.negative_tag, 1⟩, ⟨Base.integral 2, 5 / 2⟩, ⟨Base.integral 3, -2⟩,
          ⟨Base.constant ⟨0, 3141592653589793 / 1000000000000000⟩, -1⟩] = some D ∧
        check_magnitude_is_positive D = true ∧ has_sentinel D = false ∧
        is_integral D = true ∧ is_positive_integral_power D = true ∧
        (∀ e ∈ D, ∃ p : Nat, p.Prime ∧ e.base = Base.integral (p : Int)) ∧
        is_integral N = true ∧
        check_magnitude_is_positive N =
          check_magnitude_is_positive [⟨Base.negative_tag, 1⟩, ⟨Base.integral 2, 5 / 2⟩,
            ⟨Base.integral 3, -2⟩,
            ⟨Base.constant ⟨0, 3141592653589793 / 1000000000000000⟩, -1⟩] :=
  ⟨by decide!, denominator_positive_integral _ (by decide!)⟩



/-! ### Common magnitude -/

theorem num_neg_iff (q : ℚ) : q.num < 0 ↔ q < 0 := Rat.num_neg

/-- What `remove_positive_power` keeps of one valid element. -/
theorem remove_positive_power_spec {x : Element} (hx : x.Valid) :
    Canonical (remove_positive_power x) ∧
      (∀ e ∈ remove_positive_power x, e = x) ∧
      (∀ b, b ≠ Base.negative_tag →
        expo (remove_positive_power x) b = if x.base = b then min x.exponent 0 else 0) ∧
      has_sentinel (remove_positive_power x) = false := by
  unfold remove_positive_power
  by_cases hs : x.base = Base.negative_tag
  · have ht : x.is_negative_tag = true := (is_negative_tag_iff hx).2 hs
    simp only [ht, if_true]
    refine ⟨canonical_nil, by simp, ?_, rfl⟩
    intro b hb
    have : x.base ≠ b := fun h => hb (h ▸ hs)
    simp [this]
  · have ht : x.is_negative_tag = false := not_negative_tag_of_base hs
    simp only [ht, Bool.false_eq_true, if_false]
    by_cases hn : x.exponent.num < 0
    · have hneg : x.exponent < 0 := (num_neg_iff _).1 hn
      simp only [hn, if_true]
      refine ⟨canonical_cons.2 ⟨hx, by simp, canonical_nil⟩, by simp, ?_, by simp [hs]⟩
      intro b _
      by_cases hb : x.base = b
      · simp [hb, min_eq_left (le_of_lt hneg)]
      · simp [hb]
    · have hnn : 0 ≤ x.exponent := not_lt.1 (fun h => hn ((num_neg_iff _).2 h))
      simp only [hn, if_false]
      refine ⟨canonical_nil, by simp, ?_, rfl⟩
      intro b _
      by_cases hb : x.base = b
      · simp [hb, min_eq_right hnn]
      · simp [hb]

theorem coherent_cons_left {x : Element} {A B : unit_magnitude} (h : Coherent (x :: A) B) :
    Coherent [x] B := fun a ha b hb => h a (by
      rw [List.mem_singleton.1 ha]; exact List.mem_cons_self _ _) b hb

theorem remove_positive_powers_fold_spec : ∀ (m acc : unit_magnitude), Canonical acc →
    Canonical m → Coherent acc m →
    ∃ R, m.foldl (fun acc M => acc.bind (fun a => mul a (remove_positive_power M))) (some acc)
        = some R ∧ Canonical R ∧ (∀ e ∈ R, ∃ x ∈ acc ++ m, x.base = e.base) ∧
      (∀ b, b ≠ Base.negative_tag → expo R b = expo acc b + min (expo m b) 0) ∧
      has_sentinel R = has_sentinel acc := by
  intro m
  induction m with
  | nil =>
    intro acc hacc _ _
    refine ⟨acc, rfl, hacc, ?_, by simp, rfl⟩
    intro e he
    exact ⟨e, by simpa using he, rfl⟩
  | cons x m ih =>
    intro acc hacc hm hc
    obtain ⟨hxv, hxm, hmc⟩ := canonical_cons.1 hm
    obtain ⟨hrc, hrm, hre, hrs⟩ := remove_positive_power_spec hxv
    have hc1 : Coherent acc (remove_positive_power x) := by
      intro a ha y hy hv
      rw [hrm y hy] at hv ⊢
      exact hc a ha x (List.mem_cons_self _ _) hv
    obtain ⟨acc1, hacc1, hp⟩ := mul_spec hacc hrc hc1
    have hc2 : Coherent acc1 m := by
      intro a ha y hy hv
      obtain ⟨z, hz, hzb⟩ := hp.2.1 a ha
      rw [← hzb] at hv ⊢
      rcases List.mem_append.1 hz with hz | hz
      · exact hc z hz y (List.mem_cons_of_mem _ hy) hv
      · rw [hrm z hz] at hv ⊢
        exact coherent_self hm x (List.mem_cons_self _ _) y (List.mem_cons_of_mem _ hy) hv
    obtain ⟨R, hR, hRc, hRb, hRe, hRs⟩ := ih acc1 hp.1 hmc hc2
    refine ⟨R, ?_, hRc, ?_, ?_, ?_⟩
    · rw [List.foldl_cons]
      show List.foldl _ (mul acc (remove_positive_power x)) m = some R
      rw [hacc1]
      exact hR
    · intro e he
      obtain ⟨z, hz, hzb⟩ := hRb e he
      rcases List.mem_append.1 hz with hz | hz
      · obtain ⟨w, hw, hwb⟩ := hp.2.1 z hz
        rcases List.mem_append.1 hw with hw | hw
        · exact ⟨w, List.mem_append.2 (Or.inl hw), hwb.trans hzb⟩
        · rw [hrm w hw] at hwb
          exact ⟨x, List.mem_append.2 (Or.inr (List.mem_cons_self _ _)), hwb.trans hzb⟩
      · exact ⟨z, List.mem_append.2 (Or.inr (List.mem_cons_of_mem _ hz)), hzb⟩
    · intro b hb
      rw [hRe b hb, hp.2.2.1 b hb, hre b hb, expo_cons]
      by_cases hxb : x.base = b
      · have h0 : expo m b = 0 :=
          expo_eq_zero_of_absent (fun y hy h => base_ne_of_key_lt (hxm y hy) (h.trans hxb.symm))
        simp [hxb, h0]
      · simp [hxb]
    · rw [hRs, hp.2.2.2, hrs]; simp

theorem remove_positive_powers_spec {m : unit_magnitude} (hm : Canonical m) :
    ∃ R, remove_positive_powers m = some R ∧ Canonical R ∧
      (∀ e ∈ R, ∃ x ∈ m, x.base = e.base) ∧
      (∀ b, b ≠ Base.negative_tag → expo R b = min (expo m b) 0) ∧
      has_sentinel R = false := by
  obtain ⟨R, hR, hRc, hRb, hRe, hRs⟩ :=
    remove_positive_powers_fold_spec m [] canonical_nil hm (fun _ h => by cases h)
  refine ⟨R, hR, hRc, ?_, ?_, hRs⟩
  · intro e he
    obtain ⟨x, hx, hxb⟩ := hRb e he
    exact ⟨x, by simpa using hx, hxb⟩
  · intro b hb
    rw [hRe b hb]; simp



theorem common_magnitude_nil_nil : common_magnitude [] [] = some [] := by
  rw [common_magnitude]

theorem common_magnitude_nil_cons (H2 : Element) (T2 : unit_magnitude) :
    common_magnitude [] (H2 :: T2) = remove_positive_powers (H2 :: T2) := by
  rw [common_magnitude]

theorem common_magnitude_cons_nil (H : Element) (T : unit_magnitude) :
    common_magnitude (H :: T) [] = remove_positive_powers (H :: T) := by
  rw [common_magnitude]

theorem common_magnitude_cons_cons (H H2 : Element) (T T2 : unit_magnitude) :
    common_magnitude (H :: T) (H2 :: T2) =
      if get_base_value H.base < get_base_value H2.base then
        (common_magnitude T (H2 :: T2)).bind (fun r => mul (remove_positive_power H) r)
      else if get_base_value H2.base < get_base_value H.base then
        (common_magnitude (H :: T) T2).bind (fun r => mul (remove_positive_power H2) r)
      else
        (common_magnitude T T2).bind (fun common_tail =>
          if H.exponent < H2.exponent then mul [H] common_tail else mul [H2] common_tail) := by
  rw [common_magnitude]

theorem isCommon_symm {A B C : unit_magnitude} (h : IsCommon A B C) : IsCommon B A C := by
  obtain ⟨h1, h2, h3, h4⟩ := h
  refine ⟨h1, ?_, ?_, ?_⟩
  · intro e he
    obtain ⟨x, hx, hxe⟩ := h2 e he
    refine ⟨x, ?_, hxe⟩
    rcases List.mem_append.1 hx with hx | hx
    · exact List.mem_append.2 (Or.inr hx)
    · exact List.mem_append.2 (Or.inl hx)
  · intro b hb
    rw [h3 b hb, min_comm]
  · rw [h4, Bool.and_comm]

/-- The step of `common_magnitude` when the head `H` of the first operand has the smaller
base: `remove_positive_power(H) * common_magnitude(T, B)`. -/
theorem isCommon_step_left {H : Element} {T B r : unit_magnitude} (hA : Canonical (H :: T))
    (hc : Coherent (H :: T) B) (hHB : ∀ y ∈ B, key_lt H y)
    (hr : IsCommon T B r) :
    ∃ R, mul (remove_positive_power H) r = some R ∧ IsCommon (H :: T) B R := by
  obtain ⟨hHv, hHT, hTc⟩ := canonical_cons.1 hA
  obtain ⟨hrc, hrm, hre, hrs⟩ := remove_positive_power_spec hHv
  obtain ⟨h1, h2, h3, h4⟩ := hr
  have hcoh : Coherent (remove_positive_power H) r := by
    intro a ha y hy hv
    rw [hrm a ha] at hv ⊢
    obtain ⟨z, hz, hzb⟩ := h2 y hy
    rw [← hzb] at hv ⊢
    rcases List.mem_append.1 hz with hz | hz
    · exact coherent_self hA H (List.mem_cons_self _ _) z (List.mem_cons_of_mem _ hz) hv
    · exact hc H (List.mem_cons_self _ _) z hz hv
  obtain ⟨R, hR, hp⟩ := mul_spec hrc h1 hcoh
  refine ⟨R, hR, hp.1, ?_, ?_, ?_⟩
  · intro e he
    obtain ⟨z, hz, hzb⟩ := hp.2.1 e he
    rcases List.mem_append.1 hz with hz | hz
    · rw [hrm z hz] at hzb
      exact ⟨H, by simp, hzb⟩
    · obtain ⟨w, hw, hwb⟩ := h2 z hz
      refine ⟨w, ?_, hwb.trans hzb⟩
      rw [List.cons_append]; exact List.mem_cons_of_mem _ hw
  · intro b hb
    rw [hp.2.2.1 b hb, hre b hb, h3 b hb, expo_cons]
    by_cases hHb : H.base = b
    · have hT0 : expo T b = 0 :=
        expo_eq_zero_of_absent (fun y hy h => base_ne_of_key_lt (hHT y hy) (h.trans hHb.symm))
      have hB0 : expo B b = 0 :=
        expo_eq_zero_of_absent (fun y hy h => base_ne_of_key_lt (hHB y hy) (h.trans hHb.symm))
      simp [hHb, hT0, hB0]
    · simp [hHb]
  · rw [hp.2.2.2, hrs, h4, has_sentinel_cons]
    by_cases hs : H.base = Base.negative_tag
    · have hT : has_sentinel T = false :=
        has_sentinel_eq_false_of_above (above_of_key_lt hHv hHT)
      have hBs : has_sentinel B = false :=
        has_sentinel_eq_false_of_above (above_of_key_lt hHv hHB)
      simp [hT, hBs]
    · simp [hs]

/-- The step of `common_magnitude` on equal bases: the head with the smaller exponent is
put in front of the common tail. -/
theorem isCommon_step_eq {H H2 : Element} {T T2 r : unit_magnitude}
    (hA : Canonical (H :: T)) (hB : Canonical (H2 :: T2)) (hb : H.base = H2.base)
    (hr : IsCommon T T2 r) :
    ∃ R, (if H.exponent < H2.exponent then mul [H] r else mul [H2] r) = some R ∧
      IsCommon (H :: T) (H2 :: T2) R := by
  obtain ⟨hHv, hHT, _⟩ := canonical_cons.1 hA
  obtain ⟨hH2v, hH2T, _⟩ := canonical_cons.1 hB
  obtain ⟨h1, h2, h3, h4⟩ := hr
  have habove : ∀ y ∈ r, key_lt H y := by
    intro y hy
    obtain ⟨z, hz, hzb⟩ := h2 y hy
    rcases List.mem_append.1 hz with hz | hz
    · exact key_lt_of_base_eq (hHT z hz) hzb
    · have := key_lt_of_base_eq (hH2T z hz) hzb
      unfold key_lt at this ⊢
      rw [hb]; exact this
  have habove2 : ∀ y ∈ r, key_lt H2 y := by
    intro y hy
    have := habove y hy
    unfold key_lt at this ⊢
    rw [← hb]; exact this
  have hT0 : ∀ b, H.base = b → expo T b = 0 := fun b hHb =>
    expo_eq_zero_of_absent (fun y hy h => base_ne_of_key_lt (hHT y hy) (h.trans hHb.symm))
  have hT20 : ∀ b, H.base = b → expo T2 b = 0 := fun b hHb =>
    expo_eq_zero_of_absent (fun y hy h =>
      base_ne_of_key_lt (hH2T y hy) (h.trans (hHb.symm.trans hb)))
  have hbases : ∀ (P : Element), P.base = H.base → ∀ e ∈ P :: r,
      ∃ x ∈ (H :: T) ++ (H2 :: T2), x.base = e.base := by
    intro P hP e he
    rcases List.mem_cons.1 he with rfl | he
    · exact ⟨H, by simp, hP.symm⟩
    · obtain ⟨z, hz, hzb⟩ := h2 e he
      refine ⟨z, ?_, hzb⟩
      rcases List.mem_append.1 hz with hz | hz
      · exact List.mem_append.2 (Or.inl (List.mem_cons_of_mem _ hz))
      · exact List.mem_append.2 (Or.inr (List.mem_cons_of_mem _ hz))
  have hsent : ∀ (P : Element), P.base = H.base →
      has_sentinel (P :: r) = (has_sentinel (H :: T) && has_sentinel (H2 :: T2)) := by
    intro P hP
    simp only [has_sentinel_cons, h4, hP, ← hb]
    by_cases hs : H.base = Base.negative_tag
    · simp [hs]
    · simp [hs]
  by_cases hlt : H.exponent < H2.exponent
  · refine ⟨H :: r, by simp only [hlt, if_true]; exact mul_singleton_prepend _ _ habove,
      canonical_cons.2 ⟨hHv, habove, h1⟩, hbases H rfl, ?_, hsent H rfl⟩
    intro b hbn
    simp only [expo_cons, h3 b hbn, ← hb]
    by_cases hHb : H.base = b
    · simp [hHb, hT0 b hHb, hT20 b hHb, min_eq_left (le_of_lt hlt)]
    · simp [hHb]
  · refine ⟨H2 :: r, by simp only [hlt, if_false]; exact mul_singleton_prepend _ _ habove2,
      canonical_cons.2 ⟨hH2v, habove2, h1⟩, hbases H2 hb.symm, ?_, hsent H2 hb.symm⟩
    intro b hbn
    simp only [expo_cons, h3 b hbn, ← hb]
    by_cases hHb : H.base = b
    · simp [hHb, hT0 b hHb, hT20 b hHb, min_eq_right (not_lt.1 hlt)]
    · simp [hHb]

/-- The common magnitude of canonical magnitudes over one basis exists and takes the
smaller exponent on every base. -/
theorem common_magnitude_spec : ∀ (A B : unit_magnitude), Canonical A → Canonical B →
    Coherent A B → ∃ C, common_magnitude A B = some C ∧ IsCommon A B C := by
  intro A
  induction A with
  | nil =>
    intro B _ hB _
    cases B with
    | nil =>
      exact ⟨[], common_magnitude_nil_nil, canonical_nil, by simp, by simp, rfl⟩
    | cons H2 T2 =>
      obtain ⟨R, hR, hRc, hRb, hRe, hRs⟩ := remove_positive_powers_spec hB
      refine ⟨R, by rw [common_magnitude_nil_cons]; exact hR, hRc, ?_, ?_, by simp [hRs]⟩
      · intro e he
        obtain ⟨x, hx, hxb⟩ := hRb e he
        exact ⟨x, by simpa using hx, hxb⟩
      · intro b hb
        rw [hRe b hb, expo_nil, min_comm]
  | cons H T ihA =>
    intro B
    induction B with
    | nil =>
      intro hA _ _
      obtain ⟨R, hR, hRc, hRb, hRe, hRs⟩ := remove_positive_powers_spec hA
      refine ⟨R, by rw [common_magnitude_cons_nil]; exact hR, hRc, ?_, ?_, by simp [hRs]⟩
      · intro e he
        obtain ⟨x, hx, hxb⟩ := hRb e he
        exact ⟨x, by simpa using hx, hxb⟩
      · intro b hb
        rw [hRe b hb, expo_nil]
    | cons H2 T2 ihB =>
      intro hA hB hc
      obtain ⟨hHv, hHT, hTc⟩ := canonical_cons.1 hA
      obtain ⟨hH2v, hH2T, hT2c⟩ := canonical_cons.1 hB
      rw [common_magnitude_cons_cons]
      by_cases h1 : get_base_value H.base < get_base_value H2.base
      · obtain ⟨r, hr, hrp⟩ := ihA (H2 :: T2) hTc hB (coherent_tail_left hc)
        have hHB : ∀ y ∈ H2 :: T2, key_lt H y := by
          intro y hy
          rcases List.mem_cons.1 hy with rfl | hy
          · exact h1
          · exact lt_trans h1 (hH2T y hy)
        obtain ⟨R, hR, hRp⟩ := isCommon_step_left hA hc hHB hrp
        exact ⟨R, by simp only [h1, if_true, hr, Option.some_bind]; exact hR, hRp⟩
      · by_cases h2 : get_base_value H2.base < get_base_value H.base
        · obtain ⟨r, hr, hrp⟩ := ihB hA hT2c (coherent_tail_right hc)
          have hHA : ∀ y ∈ H :: T, key_lt H2 y := by
            intro y hy
            rcases List.mem_cons.1 hy with rfl | hy
            · exact h2
            · exact lt_trans h2 (hHT y hy)
          obtain ⟨R, hR, hRp⟩ :=
            isCommon_step_left hB (coherent_symm hc) hHA (isCommon_symm hrp)
          exact ⟨R, by simp only [h1, h2, if_false, if_true, hr, Option.some_bind]; exact hR,
            isCommon_symm hRp⟩
        · have hveq : get_base_value H.base = get_base_value H2.base :=
            le_antisymm (not_lt.1 h2) (not_lt.1 h1)
          have hb : H.base = H2.base :=
            hc H (List.mem_cons_self _ _) H2 (List.mem_cons_self _ _) hveq
          obtain ⟨r, hr, hrp⟩ := ihA T2 hTc hT2c (coherent_tail_left (coherent_tail_right hc))
          obtain ⟨R, hR, hRp⟩ := isCommon_step_eq hA hB hb hrp
          exact ⟨R, by simp only [h1, h2, if_false, hr, Option.some_bind]; exact hR, hRp⟩

/-! ### Claim C10 -/

/-- The `is_same_v` guard of `multiply_impl` outside one basis: for two named constants
`c` and `d` of the same value, `A = 2^3 * c` and `B = 2 * d^2`, `C = common_magnitude(A, B)`
is `2 * c`; `A / C` is `2^2`, but `B / C` is rejected, `d` and `c` having no product. -/
theorem common_magnitude_quotient_rejected :
    Canonical [⟨Base.integral 2, 3⟩,
        ⟨Base.constant ⟨0, 3141592653589793 / 1000000000000000⟩, 1⟩] ∧
      Canonical [⟨Base.integral 2, 1⟩,
        ⟨Base.constant ⟨1, 3141592653589793 / 1000000000000000⟩, 2⟩] ∧
      common_magnitude
          [⟨Base.integral 2, 3⟩, ⟨Base.constant ⟨0, 3141592653589793 / 1000000000000000⟩, 1⟩]
          [⟨Base.integral 2, 1⟩, ⟨Base.constant ⟨1, 3141592653589793 / 1000000000000000⟩, 2⟩] =
        some [⟨Base.integral 2, 1⟩,
          ⟨Base.constant ⟨0, 3141592653589793 / 1000000000000000⟩, 1⟩] ∧
      div [⟨Base.integral 2, 3⟩, ⟨Base.constant ⟨0, 3141592653589793 / 1000000000000000⟩, 1⟩]
          [⟨Base.integral 2, 1⟩, ⟨Base.constant ⟨0, 3141592653589793 / 1000000000000000⟩, 1⟩] =
        some [⟨Base.integral 2, 2⟩] ∧
      div [⟨Base.integral 2, 1⟩, ⟨Base.constant ⟨1, 3141592653589793 / 1000000000000000⟩, 2⟩]
          [⟨Base.integral 2, 1⟩, ⟨Base.constant ⟨0, 3141592653589793 / 1000000000000000⟩, 1⟩] =
        none := by
  decide!

theorem is_rational_cons {x : Element} {m : unit_magnitude} :
    is_rational (x :: m) = true ↔ is_rational_impl x = true ∧ is_rational m = true := by
  simp [is_rational]

theorem exponent_eq_num {q : ℚ} (h : q.den = 1) : ((q.num : Int) : ℚ) = q :=
  Rat.coe_int_num_of_den_eq_one h

theorem exponent_pos_iff (q : ℚ) : 0 < q ↔ 0 < q.num := Rat.num_pos.symm

/-- The integer part of a valid rational element: the element itself when its exponent is
positive, nothing otherwise. -/
theorem integer_part_rational {x : Element} (hx : x.Valid) (hr : is_rational_impl x = true) :
    integer_part x = some (if 0 < x.exponent then [x] else []) := by
  by_cases hs : x.base = Base.negative_tag
  · have ht : x.is_negative_tag = true := (is_negative_tag_iff hx).2 hs
    have h1 : x.exponent = 1 := hx.2.2 hs
    simp [integer_part, ht, h1]
  · have ht : x.is_negative_tag = false := not_negative_tag_of_base hs
    obtain ⟨hb, hd⟩ := (is_rational_impl_iff hs).1 hr
    unfold integer_part
    simp only [ht, Bool.false_eq_true, if_false, hb, Bool.true_and, hd, Nat.cast_one,
      decide_eq_true_eq, Int.tdiv_one]
    by_cases hp : 0 < x.exponent
    · have hn : 0 < x.exponent.num := (exponent_pos_iff _).1 hp
      have hge : x.exponent.num ≥ 1 := hn
      have hne : ((x.exponent.num : Int) : ℚ) ≠ 0 := by
        rw [exponent_eq_num hd]; exact ne_of_gt hp
      have hq : ((x.exponent.num : Int) : ℚ) = x.exponent := exponent_eq_num hd
      simp only [hge, if_true, hp, power_v_or_T, hq, ratio_num_ne_zero (ne_of_gt hp), if_false,
        Option.map_some']
    · have hn : ¬ 0 < x.exponent.num := fun h => hp ((exponent_pos_iff _).2 h)
      have hge : ¬ x.exponent.num ≥ 1 := fun h => hn h
      simp [hge, hp]

/-- The numerator of a canonical rational magnitude is the pack of its elements with a
positive exponent (the sentinel included). -/
theorem numerator_rational {M : unit_magnitude} (hM : Canonical M)
    (hr : is_rational M = true) :
    numerator M = some (M.filter (fun e => decide (0 < e.exponent))) := by
  induction M with
  | nil => rfl
  | cons x M ih =>
    obtain ⟨hxv, hxM, hMc⟩ := canonical_cons.1 hM
    obtain ⟨hrx, hrM⟩ := is_rational_cons.1 hr
    have hnum : numerator (x :: M) = (integer_part x).bind
        (fun i => (numerator M).bind (fun a => mul i a)) := rfl
    rw [hnum, integer_part_rational hxv hrx, ih hMc hrM]
    have habove : ∀ y ∈ M.filter (fun e => decide (0 < e.exponent)), key_lt x y :=
      fun y hy => hxM y (List.mem_of_mem_filter hy)
    by_cases hp : 0 < x.exponent
    · simp only [hp, if_true, Option.some_bind, List.filter_cons, decide_True]
      exact mul_singleton_prepend _ _ habove
    · simp only [hp, if_false, Option.some_bind, List.filter_cons, decide_False,
        Bool.false_eq_true]
      exact multiply_impl_nil_left _ _

theorem abs_magnitude_of_positive {M : unit_magnitude} (hM : Canonical M)
    (hs : has_sentinel M = false) : abs_magnitude M = M := by
  cases M with
  | nil => rfl
  | cons H R =>
    have hH : H.base ≠ Base.negative_tag := by
      intro h
      simp [h] at hs
    simp [abs_magnitude, not_negative_tag_of_base hH]

/-- The inverse of a canonical magnitude without sentinel, element by element. -/
theorem pow_neg_one_positive {M : unit_magnitude} (hM : Canonical M)
    (hs : has_sentinel M = false) :
    pow (-1) 1 M = some (M.map (fun e => (⟨e.base, - e.exponent⟩ : Element))) := by
  have hmap : (M.map (fun e => (⟨e.base, e.exponent * ratio.make (-1) 1⟩ : Element))) =
      M.map (fun e => (⟨e.base, - e.exponent⟩ : Element)) := by
    apply List.map_congr_left
    intro e _
    rw [ratio_make_neg_one]
    simp
  unfold pow
  simp only [show ((-1 : Int) = 0) = False by simp, if_false]
  cases M with
  | nil => rfl
  | cons x l =>
    have hx : x.is_negative_tag = false := by
      apply not_negative_tag_of_base
      intro h
      simp [h] at hs
    rw [pow_magnitude]
    simp only [show ((1 : Int) = 0) = False by simp, if_false, hx, Bool.false_eq_true]
    rw [pow_elements_eq (ratio_make_ne_zero (by decide) (by decide))
      (fun e he => (hM.2 e he).2.1), hmap]

theorem canonical_map_neg {M : unit_magnitude} (hM : Canonical M)
    (hs : has_sentinel M = false) :
    Canonical (M.map (fun e => (⟨e.base, - e.exponent⟩ : Element))) := by
  have := @canonical_map_scale (-1) (by norm_num) M hM hs
  have hmap : (M.map (fun e => (⟨e.base, e.exponent * (-1 : ℚ)⟩ : Element))) =
      M.map (fun e => (⟨e.base, - e.exponent⟩ : Element)) := by
    apply List.map_congr_left
    intro e _
    simp
  rw [← hmap]; exact this

theorem is_rational_map_neg {M : unit_magnitude} (hs : has_sentinel M = false)
    (hr : is_rational M = true) :
    is_rational (M.map (fun e => (⟨e.base, - e.exponent⟩ : Element))) = true := by
  unfold is_rational at hr ⊢
  rw [List.all_eq_true] at hr ⊢
  intro y hy
  obtain ⟨e, he, rfl⟩ := List.mem_map.1 hy
  have hb : e.base ≠ Base.negative_tag := by
    intro h
    have : has_sentinel M = true := (has_sentinel_iff M).2 ⟨e, he, h⟩
    rw [hs] at this; cases this
  have h1 := (is_rational_impl_iff hb).1 (hr e he)
  exact (@is_rational_impl_iff ⟨e.base, -e.exponent⟩ hb).2
    ⟨h1.1, by simp [Rat.neg_den, h1.2]⟩

/-- The denominator of a canonical positive rational magnitude: its elements with a
negative exponent, the exponents negated. -/
theorem denominator_rational {M : unit_magnitude} (hM : Canonical M)
    (hs : has_sentinel M = false) (hr : is_rational M = true) :
    denominator M = some ((M.filter (fun e => decide (e.exponent < 0))).map
      (fun e => (⟨e.base, - e.exponent⟩ : Element))) := by
  unfold denominator
  rw [abs_magnitude_of_positive hM hs, pow_neg_one_positive hM hs]
  show numerator _ = _
  rw [numerator_rational (canonical_map_neg hM hs) (is_rational_map_neg hs hr), List.filter_map]
  congr 2
  apply List.filter_congr
  intro e _
  simp [Function.comp]



/-! ### Values of rational magnitudes -/

@[simp] theorem magnitude_value_nil : magnitude_value [] = 1 := rfl

@[simp] theorem magnitude_value_cons (x : Element) (m : unit_magnitude) :
    magnitude_value (x :: m) = get_base_value x.base ^ x.exponent.num * magnitude_value m := by
  simp [magnitude_value]

@[simp] theorem int_value_nil : int_value [] = 1 := rfl

@[simp] theorem int_value_cons (x : Element) (m : unit_magnitude) :
    int_value (x :: m) = base_int x.base ^ x.exponent.num.toNat * int_value m := by
  simp [int_value]

/-- A magnitude is the product of its part with positive exponents and its part with
negative exponents. -/
theorem magnitude_value_split {M : unit_magnitude} (hM : ∀ e ∈ M, e.exponent ≠ 0) :
    magnitude_value M = magnitude_value (M.filter (fun e => decide (0 < e.exponent))) *
      magnitude_value (M.filter (fun e => decide (e.exponent < 0))) := by
  induction M with
  | nil => simp
  | cons x M ih =>
    have hx : x.exponent ≠ 0 := hM x (List.mem_cons_self _ _)
    have ih1 := ih (fun e he => hM e (List.mem_cons_of_mem _ he))
    rcases lt_or_gt_of_ne hx with h | h
    · have h2 : ¬ 0 < x.exponent := not_lt.2 (le_of_lt h)
      simp only [List.filter_cons, h, h2, decide_True, decide_False, if_true, if_false,
        Bool.false_eq_true, magnitude_value_cons]
      rw [ih1]; ring
    · have h2 : ¬ x.exponent < 0 := not_lt.2 (le_of_lt h)
      simp only [List.filter_cons, h, h2, decide_True, decide_False, if_true, if_false,
        Bool.false_eq_true, magnitude_value_cons]
      rw [ih1]; ring

theorem magnitude_value_map_neg (L : unit_magnitude) :
    magnitude_value (L.map (fun e => (⟨e.base, - e.exponent⟩ : Element))) =
      (magnitude_value L)⁻¹ := by
  induction L with
  | nil => simp
  | cons x L ih =>
    simp only [List.map_cons, magnitude_value_cons, ih, Rat.neg_num, zpow_neg, mul_inv]

/-- The packs `numerator` and `denominator` return on rational magnitudes: integer bases
at least `1` with positive integer exponents. -/
theorem int_value_cast {L : unit_magnitude}
    (hL : ∀ e ∈ L, ∃ v : Int, e.base = Base.integral v ∧ 0 < e.exponent.num) :
    ((int_value L : Int) : ℚ) = magnitude_value L := by
  induction L with
  | nil => simp
  | cons x L ih =>
    obtain ⟨v, hv, hn⟩ := hL x (List.mem_cons_self _ _)
    have ih1 := ih (fun e he => hL e (List.mem_cons_of_mem _ he))
    rw [int_value_cons, magnitude_value_cons, Int.cast_mul, ih1, hv]
    simp only [base_int, get_base_value, Int.cast_pow]
    congr 1
    rw [← zpow_natCast, Int.toNat_of_nonneg (le_of_lt hn)]

theorem int_value_pos {L : unit_magnitude}
    (hL : ∀ e ∈ L, ∃ v : Int, 1 ≤ v ∧ e.base = Base.integral v) : 1 ≤ int_value L := by
  induction L with
  | nil => simp
  | cons x L ih =>
    obtain ⟨v, hv, hb⟩ := hL x (List.mem_cons_self _ _)
    have ih1 := ih (fun e he => hL e (List.mem_cons_of_mem _ he))
    rw [int_value_cons, hb]
    simp only [base_int]
    have : 1 ≤ v ^ x.exponent.num.toNat := one_le_pow₀ hv
    nlinarith

/-! ### Machine integers -/

theorem two_pow_bits {b : Nat} (hb : 0 < b) : (2 : Int) ^ b = 2 * 2 ^ (b - 1) := by
  obtain ⟨k, rfl⟩ : ∃ k, b = k + 1 := ⟨b - 1, by omega⟩
  simp [pow_succ, mul_comm]

theorem wrap_of_holds {T : IntRep} (hb : 0 < T.bits) {x : Int} (h : T.holds x = true) :
    T.wrap x = x := by
  unfold IntRep.holds IntRep.min_value IntRep.max_value at h
  unfold IntRep.wrap
  have h2 := two_pow_bits hb
  have hpos : (0 : Int) < 2 ^ (T.bits - 1) := by positivity
  cases hs : T.is_signed with
  | true =>
    simp only [hs, if_true, Bool.and_eq_true, decide_eq_true_eq] at h
    simp only [if_true]
    rw [Int.emod_eq_of_lt (by omega) (by omega)]
    omega
  | false =>
    simp only [hs, Bool.false_eq_true, if_false, Bool.and_eq_true, decide_eq_true_eq] at h
    simp only [Bool.false_eq_true, if_false]
    exact Int.emod_eq_of_lt h.1 (by omega)

theorem holds_of_le {T : IntRep} {x y : Int} (hx : 0 ≤ x) (hxy : x ≤ y)
    (hy : T.holds y = true) : T.holds x = true := by
  unfold IntRep.holds IntRep.min_value IntRep.max_value at hy ⊢
  have hpos : (0 : Int) < 2 ^ (T.bits - 1) := by positivity
  cases hs : T.is_signed with
  | true =>
    simp only [hs, if_true, Bool.and_eq_true, decide_eq_true_eq] at hy ⊢
    constructor <;> omega
  | false =>
    simp only [hs, Bool.false_eq_true, if_false, Bool.and_eq_true, decide_eq_true_eq] at hy ⊢
    constructor <;> omega

theorem intmax_bits : 0 < intmax_t.bits := by decide

/-- The value `get_value<std::intmax_t>` returns on a positive integral magnitude that fits
the type. -/
theorem get_value_spec {L : unit_magnitude}
    (hL : ∀ e ∈ L, ∃ v : Int, 1 ≤ v ∧ e.base = Base.integral v ∧ e.exponent.den = 1 ∧
      0 < e.exponent.num)
    (hfit : intmax_t.holds (int_value L) = true) :
    get_value intmax_t L = some (int_value L) := by
  have hint : is_integral L = true := by
    unfold is_integral
    rw [List.all_eq_true]
    intro e he
    obtain ⟨v, _, hb, hd, hn⟩ := hL e he
    exact is_integral_impl_of_pos_int e (by rw [hb]; rfl) hd hn
  have hfold : ∀ (K : unit_magnitude),
      (∀ e ∈ K, ∃ v : Int, 1 ≤ v ∧ e.base = Base.integral v ∧ e.exponent.den = 1 ∧
        0 < e.exponent.num) →
      intmax_t.holds (int_value K) = true →
      K.foldr (fun M acc => (compute_base_power intmax_t M).bind (fun c =>
        acc.bind (fun a => arith_mul (widen_t intmax_t) c a))) (some 1) =
        some (int_value K) := by
    intro K
    induction K with
    | nil => intro _ _; rfl
    | cons x K ih =>
      intro hK hfitK
      obtain ⟨v, hv, hb, hd, hn⟩ := hK x (List.mem_cons_self _ _)
      have hK1 : ∀ e ∈ K, ∃ v : Int, 1 ≤ v ∧ e.base = Base.integral v ∧ e.exponent.den = 1 ∧
          0 < e.exponent.num := fun e he => hK e (List.mem_cons_of_mem _ he)
      have hposK : 1 ≤ int_value K :=
        int_value_pos (fun e he => by
          obtain ⟨w, hw, hwb, _⟩ := hK1 e he
          exact ⟨w, hw, hwb⟩)
      have hpow : 1 ≤ v ^ x.exponent.num.toNat := one_le_pow₀ hv
      have htot : int_value (x :: K) = v ^ x.exponent.num.toNat * int_value K := by
        rw [int_value_cons, hb]; rfl
      have hfitK1 : intmax_t.holds (int_value K) = true :=
        holds_of_le (by omega) (by rw [htot]; nlinarith) hfitK
      have hfitp : intmax_t.holds (v ^ x.exponent.num.toNat) = true :=
        holds_of_le (by omega) (by rw [htot]; nlinarith) hfitK
      have hcbp : compute_base_power intmax_t x = some (v ^ x.exponent.num.toNat) := by
        have hnn : ¬ x.exponent.num < 0 := by omega
        have hw : widen_t intmax_t = intmax_t := rfl
        simp [compute_base_power, hb, hnn, hw, checked_int_pow, hfitp, hd]
      rw [List.foldr_cons, ih hK1 hfitK1, hcbp]
      show arith_mul (widen_t intmax_t) (v ^ x.exponent.num.toNat) (int_value K) = _
      have hw : widen_t intmax_t = intmax_t := rfl
      have hsg : intmax_t.is_signed = true := rfl
      rw [hw, arith_mul, wrap_of_holds intmax_bits hfitp, wrap_of_holds intmax_bits hfitK1,
        ← htot]
      simp only [hsg, if_true, hfitK]
  unfold get_value
  simp only [hint, if_true, hfold L hL hfit, checked_static_cast]
  show (if intmax_t.holds (int_value L) = true then some (int_value L) else none) = _
  rw [hfit]; rfl



/-! ### Integer arithmetic of the conversion engine -/

theorem tdiv_mul_left {c a b : Int} (hc : 0 < c) (hb : 0 < b) :
    Int.tdiv (c * a) (c * b) = Int.tdiv a b := by
  have hcb : 0 ≤ c * b := le_of_lt (mul_pos hc hb)
  rcases le_or_lt 0 a with ha | ha
  · rw [Int.tdiv_eq_ediv (mul_nonneg (le_of_lt hc) ha) hcb, Int.tdiv_eq_ediv ha (le_of_lt hb)]
    exact Int.mul_ediv_mul_of_pos _ _ hc
  · have ha' : 0 ≤ -a := by omega
    have h1 : c * a = -(c * (-a)) := by ring
    have h2 : a = -(-a) := by ring
    rw [h1, Int.neg_tdiv, Int.tdiv_eq_ediv (mul_nonneg (le_of_lt hc) ha') hcb,
      Int.mul_ediv_mul_of_pos _ _ hc]
    conv_rhs => rw [h2, Int.neg_tdiv, Int.tdiv_eq_ediv ha' (le_of_lt hb)]

/-- Truncating integer division is the truncation toward zero of the exact quotient. -/
theorem tdiv_eq_trunc (a : Int) {b : Int} (hb : 0 < b) :
    Int.tdiv a b = trunc_toward_zero ((a : ℚ) / (b : ℚ)) := by
  obtain ⟨c, h1, h2⟩ := Rat.exists_eq_mul_div_num_and_eq_mul_div_den a (ne_of_gt hb)
  have hden : (0 : Int) < (((a : ℚ) / (b : ℚ)).den : Int) := by
    exact_mod_cast ((a : ℚ) / (b : ℚ)).den_pos
  have hc : 0 < c := by
    by_contra hneg
    have : c ≤ 0 := not_lt.1 hneg
    have : c * (((a : ℚ) / (b : ℚ)).den : Int) ≤ 0 :=
      mul_nonpos_of_nonpos_of_nonneg this (le_of_lt hden)
    omega
  unfold trunc_toward_zero
  have h3 : Int.tdiv a b = Int.tdiv (c * ((a : ℚ) / (b : ℚ)).num)
      (c * (((a : ℚ) / (b : ℚ)).den : Int)) := by
    rw [← h1, ← h2]
  rw [h3]
  exact tdiv_mul_left hc hden

theorem tdiv_bounds (a : Int) {b : Int} (hb : 1 ≤ b) :
    (0 ≤ a → 0 ≤ Int.tdiv a b ∧ Int.tdiv a b ≤ a) ∧
      (a ≤ 0 → a ≤ Int.tdiv a b ∧ Int.tdiv a b ≤ 0) := by
  have key : ∀ x : Int, 0 ≤ x → 0 ≤ Int.tdiv x b ∧ Int.tdiv x b ≤ x := by
    intro x hx
    rw [Int.tdiv_eq_ediv hx (by omega)]
    refine ⟨Int.ediv_nonneg hx (by omega), ?_⟩
    exact Int.ediv_le_self _ hx
  refine ⟨key a, ?_⟩
  intro ha
  have h := key (-a) (by omega)
  rw [Int.neg_tdiv] at h
  omega

theorem holds_tdiv {T : IntRep} {a b : Int} (ha : T.holds a = true) (hb : 1 ≤ b) :
    T.holds (Int.tdiv a b) = true := by
  have hbd := tdiv_bounds a hb
  unfold IntRep.holds IntRep.min_value IntRep.max_value at ha ⊢
  have hpos : (0 : Int) < 2 ^ (T.bits - 1) := by positivity
  have hpos2 : (0 : Int) < 2 ^ T.bits := by positivity
  rcases le_or_lt 0 a with h0 | h0
  · have := hbd.1 h0
    cases hs : T.is_signed with
    | true =>
      simp only [hs, if_true, Bool.and_eq_true, decide_eq_true_eq] at ha ⊢
      constructor <;> omega
    | false =>
      simp only [hs, Bool.false_eq_true, if_false, Bool.and_eq_true, decide_eq_true_eq] at ha ⊢
      constructor <;> omega
  · have := hbd.2 (le_of_lt h0)
    cases hs : T.is_signed with
    | true =>
      simp only [hs, if_true, Bool.and_eq_true, decide_eq_true_eq] at ha ⊢
      constructor <;> omega
    | false =>
      simp only [hs, Bool.false_eq_true, if_false, Bool.and_eq_true, decide_eq_true_eq] at ha ⊢
      constructor <;> omega

theorem arith_mul_exact {T : IntRep} (hbits : 0 < T.bits) {a b : Int}
    (ha : T.holds a = true) (hb : T.holds b = true) (hab : T.holds (a * b) = true) :
    arith_mul T a b = some (a * b) := by
  unfold arith_mul
  rw [wrap_of_holds hbits ha, wrap_of_holds hbits hb, wrap_of_holds hbits hab]
  simp [hab]

theorem arith_div_exact {T : IntRep} (hbits : 0 < T.bits) {a b : Int}
    (ha : T.holds a = true) (hb : T.holds b = true) (hb1 : 1 ≤ b) :
    arith_div T a b = some (Int.tdiv a b) := by
  unfold arith_div
  rw [wrap_of_holds hbits ha, wrap_of_holds hbits hb]
  have hne : ¬ b = 0 := by omega
  simp [hne, holds_tdiv ha hb1]

theorem common_type_intmax_bits (R : IntRep) : 64 ≤ (common_type R intmax_t).bits := by
  have hp : intmax_t.promote = intmax_t := rfl
  have hb : intmax_t.bits = 64 := rfl
  unfold common_type
  simp only [hp, hb]
  split_ifs <;> omega

theorem holds_of_intmax {T : IntRep} (hbits : 64 ≤ T.bits) {x : Int} (hx : 0 ≤ x)
    (h : intmax_t.holds x = true) : T.holds x = true := by
  have h63 : (2 : Int) ^ 63 ≤ 2 ^ (T.bits - 1) :=
    pow_le_pow_right₀ (by norm_num) (by omega)
  have h64 : (2 : Int) ^ 63 ≤ 2 ^ T.bits :=
    pow_le_pow_right₀ (by norm_num) (by omega)
  have hx2 : x ≤ 2 ^ 63 - 1 := by
    have := h
    simp only [IntRep.holds, IntRep.min_value, IntRep.max_value, intmax_t, if_true,
      Bool.and_eq_true, decide_eq_true_eq] at this
    exact this.2
  unfold IntRep.holds IntRep.min_value IntRep.max_value
  cases hs : T.is_signed with
  | true =>
    simp only [if_true, Bool.and_eq_true, decide_eq_true_eq]
    constructor <;> omega
  | false =>
    simp only [Bool.false_eq_true, if_false, Bool.and_eq_true, decide_eq_true_eq]
    constructor <;> omega



/-! ### The conversion engine on positive rational ratios -/

/-- Elements of a canonical positive rational magnitude: a prime with a nonzero integer
exponent. -/
theorem rational_positive_elements {M : unit_magnitude} (hM : Canonical M)
    (hr : is_rational M = true) (hs : has_sentinel M = false) :
    ∀ e ∈ M, ∃ v : Int, 1 ≤ v ∧ e.base = Base.integral v ∧ e.exponent.den = 1 ∧
      e.exponent ≠ 0 := by
  intro e he
  have hb : e.base ≠ Base.negative_tag := by
    intro h
    have : has_sentinel M = true := (has_sentinel_iff M).2 ⟨e, he, h⟩
    rw [hs] at this; cases this
  unfold is_rational at hr
  rw [List.all_eq_true] at hr
  obtain ⟨hty, hd⟩ := (is_rational_impl_iff hb).1 (hr e he)
  have hv := hM.2 e he
  cases hbase : e.base with
  | negative_tag => exact absurd hbase hb
  | integral v =>
    have h1 := hv.1
    rw [hbase] at h1
    have hp : Nat.Prime v.toNat := h1.2
    have : 2 ≤ v.toNat := hp.two_le
    exact ⟨v, by omega, rfl, hd, hv.2.1⟩
  | constant c => rw [hbase] at hty; cases hty

theorem numerator_elements {M : unit_magnitude}
    (hM : ∀ e ∈ M, ∃ v : Int, 1 ≤ v ∧ e.base = Base.integral v ∧ e.exponent.den = 1 ∧
      e.exponent ≠ 0) :
    ∀ e ∈ M.filter (fun e => decide (0 < e.exponent)),
      ∃ v : Int, 1 ≤ v ∧ e.base = Base.integral v ∧ e.exponent.den = 1 ∧ 0 < e.exponent.num := by
  intro e he
  obtain ⟨hmem, hpos⟩ := List.mem_filter.1 he
  obtain ⟨v, hv, hb, hd, _⟩ := hM e hmem
  exact ⟨v, hv, hb, hd, (exponent_pos_iff _).1 (of_decide_eq_true hpos)⟩

theorem denominator_elements {M : unit_magnitude}
    (hM : ∀ e ∈ M, ∃ v : Int, 1 ≤ v ∧ e.base = Base.integral v ∧ e.exponent.den = 1 ∧
      e.exponent ≠ 0) :
    ∀ e ∈ (M.filter (fun e => decide (e.exponent < 0))).map
        (fun e => (⟨e.base, - e.exponent⟩ : Element)),
      ∃ v : Int, 1 ≤ v ∧ e.base = Base.integral v ∧ e.exponent.den = 1 ∧ 0 < e.exponent.num := by
  intro y hy
  obtain ⟨e, he, rfl⟩ := List.mem_map.1 hy
  obtain ⟨hmem, hneg⟩ := List.mem_filter.1 he
  obtain ⟨v, hv, hb, hd, _⟩ := hM e hmem
  have hlt : e.exponent < 0 := of_decide_eq_true hneg
  refine ⟨v, hv, hb, by simp [Rat.neg_den, hd], ?_⟩
  have : e.exponent.num < 0 := (num_neg_iff _).2 hlt
  simp only [Rat.neg_num]
  omega

theorem weaken_elements {L : unit_magnitude}
    (hL : ∀ e ∈ L, ∃ v : Int, 1 ≤ v ∧ e.base = Base.integral v ∧ e.exponent.den = 1 ∧
      0 < e.exponent.num) :
    (∀ e ∈ L, ∃ v : Int, e.base = Base.integral v ∧ 0 < e.exponent.num) ∧
      (∀ e ∈ L, ∃ v : Int, 1 ≤ v ∧ e.base = Base.integral v) :=
  ⟨fun e he => by
      obtain ⟨v, _, hb, _, hn⟩ := hL e he
      exact ⟨v, hb, hn⟩,
    fun e he => by
      obtain ⟨v, hv, hb, _⟩ := hL e he
      exact ⟨v, hv, hb⟩⟩

/-- The value of a positive rational magnitude is the quotient of the integers its
numerator and denominator denote. -/
theorem magnitude_value_eq_quotient {M : unit_magnitude}
    (hM : ∀ e ∈ M, ∃ v : Int, 1 ≤ v ∧ e.base = Base.integral v ∧ e.exponent.den = 1 ∧
      e.exponent ≠ 0) :
    magnitude_value M =
      ((int_value (M.filter (fun e => decide (0 < e.exponent))) : Int) : ℚ) /
        ((int_value ((M.filter (fun e => decide (e.exponent < 0))).map
          (fun e => (⟨e.base, - e.exponent⟩ : Element))) : Int) : ℚ) := by
  rw [int_value_cast (weaken_elements (numerator_elements hM)).1,
    int_value_cast (weaken_elements (denominator_elements hM)).1, magnitude_value_map_neg,
    div_inv_eq_mul]
  exact magnitude_value_split (fun e he => by
    obtain ⟨_, _, _, _, h⟩ := hM e he
    exact h)

theorem multiplier_type_rational {M : unit_magnitude} (hr : is_rational M = true) :
    multiplier_type M = NumType.integral intmax_t := by
  unfold multiplier_type common_magnitude_type
  have : M.any (fun e => e.base.is_mag_constant) = false := by
    rw [List.any_eq_false]
    intro e he
    unfold is_rational at hr
    rw [List.all_eq_true] at hr
    have h := hr e he
    unfold is_rational_impl at h
    by_cases ht : e.is_negative_tag = true
    · have hb : e.base = Base.negative_tag := by
        unfold Element.is_negative_tag at ht
        exact (of_decide_eq_true ht).1
      simp [hb, Base.is_mag_constant]
    · simp only [ht, if_false, Bool.and_eq_true] at h
      cases hb : e.base with
      | negative_tag => simp [Base.is_mag_constant]
      | integral v => simp [Base.is_mag_constant]
      | constant c =>
        rw [hb] at h
        simp [Base.is_integral_type] at h
  simp [this]

/-- For a rational magnitude the irrational remainder `M * (den / num)` of
`magnitude_traits` is the identity. -/
theorem magnitude_traits_irr_rational {M N D : unit_magnitude} (hM : Canonical M)
    (hr : is_rational M = true) (hN : numerator M = some N) (hD : denominator M = some D) :
    magnitude_traits_irr M N D = some [] := by
  obtain ⟨N1, hN1, hNc, hNb, hNe, hNs⟩ := numerator_spec hM
  obtain ⟨D1, hD1, hDc, hDb, hDe, hDs⟩ := denominator_spec hM
  rw [hN] at hN1; cases hN1
  rw [hD] at hD1; cases hD1
  have hDN : Coherent D N :=
    coherent_of_bases (fun e he => (hDb e he).1)
      (coherent_symm (coherent_of_bases (fun e he => (hNb e he).1) (coherent_self hM)))
  obtain ⟨R, hR, hRc, hRb, hRe, hRs⟩ := div_spec hDc hNc hDN
  have hMR : Coherent M R := by
    intro x hx y hy hv
    obtain ⟨z, hz, hzb⟩ := hRb y hy
    rw [← hzb] at hv ⊢
    rcases List.mem_append.1 hz with hz | hz
    · obtain ⟨w, hw, hwb⟩ := (hDb z hz).1
      rw [← hwb] at hv ⊢
      exact coherent_self hM x hx w hw hv
    · obtain ⟨w, hw, hwb⟩ := (hNb z hz).1
      rw [← hwb] at hv ⊢
      exact coherent_self hM x hx w hw hv
  obtain ⟨P, hP, hPp⟩ := mul_spec hM hRc hMR
  have hP0 : P = [] := by
    apply canonical_ext hPp.1 canonical_nil
    · intro b hb
      rw [hPp.2.2.1 b hb, hRe b hb, hNe b hb, hDe b hb, expo_nil]
      have hq : integer_power b (expo M b) - integer_power b (- expo M b) = expo M b := by
        by_cases hmem : ∃ e ∈ M, e.base = b
        · obtain ⟨e, he, rfl⟩ := hmem
          unfold is_rational at hr
          rw [List.all_eq_true] at hr
          have h1 := (is_rational_impl_iff hb).1 (hr e he)
          rw [expo_of_mem hM.1 he]
          exact integer_power_of_int h1.1 h1.2
        · have h0 : expo M b = 0 := expo_eq_zero_of_absent (fun e he h => hmem ⟨e, he, h⟩)
          rw [h0, neg_zero, integer_power_zero, sub_zero]
      linarith
    · rw [hPp.2.2.2, hRs, hDs, hNs]
      cases has_sentinel M <;> rfl
  unfold magnitude_traits_irr
  rw [hR]
  show mul M R = some []
  rw [hP, hP0]



theorem is_integral_exponents_pos {K : unit_magnitude} (hs : has_sentinel K = false)
    (hi : is_integral K = true) : ∀ e ∈ K, 0 < e.exponent := by
  intro e he
  have hb : e.base ≠ Base.negative_tag := by
    intro h
    have : has_sentinel K = true := (has_sentinel_iff K).2 ⟨e, he, h⟩
    rw [hs] at this; cases this
  unfold is_integral at hi
  rw [List.all_eq_true] at hi
  have h := hi e he
  simp only [is_integral_impl, not_negative_tag_of_base hb, Bool.false_eq_true, if_false,
    Bool.and_eq_true, decide_eq_true_eq] at h
  exact (exponent_pos_iff _).2 h.2

theorem get_value_nil : get_value intmax_t [] = some 1 :=
  @get_value_spec [] (fun _ h => by cases h) (by decide)

/-- The integer computation of `sudo_cast_value` on a positive rational ratio `M`, in each
of its three branches: the input times the numerator, divided (with truncation) by the
denominator. -/
theorem sudo_cast_value_rational {from_mag to_mag M N D : unit_magnitude}
    {FromRep ToRep : IntRep} {v : Int}
    (hdiv : div from_mag to_mag = some M) (hM : Canonical M) (hr : is_rational M = true)
    (hpos : check_magnitude_is_positive M = true)
    (hN : numerator M = some N) (hD : denominator M = some D) (hbits : 0 < ToRep.bits)
    (hv : (c_type FromRep ToRep intmax_t).holds v = true)
    (hp : intmax_t.holds (int_value N) = true) (hq : intmax_t.holds (int_value D) = true)
    (hvp : (c_type FromRep ToRep intmax_t).holds (v * int_value N) = true)
    (hres : ToRep.holds (Int.tdiv (v * int_value N) (int_value D)) = true) :
    sudo_cast_value from_mag to_mag FromRep ToRep v =
      some (Int.tdiv (v * int_value N) (int_value D)) := by
  have hs : has_sentinel M = false := by
    have := check_positive_eq hM
    rw [hpos] at this
    cases h : has_sentinel M with
    | false => rfl
    | true => rw [h] at this; cases this
  have hel := rational_positive_elements hM hr hs
  have hNeq : N = M.filter (fun e => decide (0 < e.exponent)) := by
    have := numerator_rational hM hr
    rw [hN] at this; exact Option.some.inj this
  have hDeq : D = (M.filter (fun e => decide (e.exponent < 0))).map
      (fun e => (⟨e.base, - e.exponent⟩ : Element)) := by
    have := denominator_rational hM hs hr
    rw [hD] at this; exact Option.some.inj this
  have hNel := numerator_elements hel
  have hDel := denominator_elements hel
  rw [← hNeq] at hNel
  rw [← hDeq] at hDel
  have hgN : get_value intmax_t N = some (int_value N) := get_value_spec hNel hp
  have hgD : get_value intmax_t D = some (int_value D) := get_value_spec hDel hq
  have hN1 : 1 ≤ int_value N := int_value_pos (weaken_elements hNel).2
  have hD1 : 1 ≤ int_value D := int_value_pos (weaken_elements hDel).2
  have hct64 : 64 ≤ (c_type FromRep ToRep intmax_t).bits := common_type_intmax_bits _
  have hctb : 0 < (c_type FromRep ToRep intmax_t).bits := by omega
  have hcp : (c_type FromRep ToRep intmax_t).holds (int_value N) = true :=
    holds_of_intmax hct64 (by omega) hp
  have hcq : (c_type FromRep ToRep intmax_t).holds (int_value D) = true :=
    holds_of_intmax hct64 (by omega) hq
  have hc1 : (c_type FromRep ToRep intmax_t).holds 1 = true :=
    holds_of_intmax hct64 (by norm_num) (by decide)
  have harg : (c_type FromRep ToRep intmax_t).wrap v = v := wrap_of_holds hctb hv
  have hmul : arith_mul (c_type FromRep ToRep intmax_t) v (int_value N) =
      some (v * int_value N) := arith_mul_exact hctb hv hcp hvp
  have hcast : silent_cast ToRep (Int.tdiv (v * int_value N) (int_value D)) =
      Int.tdiv (v * int_value N) (int_value D) := wrap_of_holds hbits hres
  unfold sudo_cast_value
  rw [hdiv]
  simp only [Option.some_bind, multiplier_type_rational hr, harg]
  by_cases hint : is_integral M = true
  · -- the ratio is an integer: the denominator is the identity
    have hD0 : D = [] := by
      rw [hDeq]
      have : M.filter (fun e => decide (e.exponent < 0)) = [] := by
        rw [List.filter_eq_nil_iff]
        intro e he
        have := is_integral_exponents_pos hs hint e he
        simp [not_lt.2 (le_of_lt this)]
      rw [this]; rfl
    rw [hD0, int_value_nil, Int.tdiv_one] at hcast ⊢
    simp only [hint, if_true, hN, Option.some_bind, hgN, hmul, Option.map_some', hcast]
  · have hinv : pow (-1) 1 M = some (M.map (fun e => (⟨e.base, - e.exponent⟩ : Element))) :=
      pow_neg_one_positive hM hs
    simp only [hint, if_false, hinv, Option.some_bind, Bool.false_eq_true]
    by_cases hint2 : is_integral (M.map (fun e => (⟨e.base, - e.exponent⟩ : Element))) = true
    · -- the inverse ratio is an integer: the numerator is the identity
      have hN0 : N = [] := by
        rw [hNeq, List.filter_eq_nil_iff]
        intro e he
        have hsm : has_sentinel (M.map (fun e => (⟨e.base, - e.exponent⟩ : Element))) = false := by
          have := has_sentinel_map_scale (-1) M
          simp only [mul_neg, mul_one] at this
          rw [this, hs]
        have := is_integral_exponents_pos hsm hint2 ⟨e.base, - e.exponent⟩
          (List.mem_map.2 ⟨e, he, rfl⟩)
        simp only [Left.neg_pos_iff] at this
        simp [not_lt.2 (le_of_lt this)]
      rw [hN0, int_value_nil, mul_one] at hcast ⊢
      have hdivv : arith_div (c_type FromRep ToRep intmax_t) v (int_value D) =
          some (Int.tdiv v (int_value D)) := arith_div_exact hctb hv hcq hD1
      simp only [hint2, if_true, hD, Option.some_bind, hgD, hdivv, Option.map_some', hcast]
    · have hirr := magnitude_traits_irr_rational hM hr hN hD
      have hdivv : arith_div (c_type FromRep ToRep intmax_t) (v * int_value N) (int_value D) =
          some (Int.tdiv (v * int_value N) (int_value D)) := arith_div_exact hctb hvp hcq hD1
      have hquot : (c_type FromRep ToRep intmax_t).holds
          (Int.tdiv (v * int_value N) (int_value D)) = true := holds_tdiv hvp hD1
      have hmul1 : arith_mul (c_type FromRep ToRep intmax_t)
          (Int.tdiv (v * int_value N) (int_value D)) 1 =
          some (Int.tdiv (v * int_value N) (int_value D)) := by
        have := arith_mul_exact hctb hquot hc1 (by rw [mul_one]; exact hquot)
        rw [mul_one] at this; exact this
      simp only [hint2, if_false, hN, hD, Option.some_bind, hirr, hgN, hgD, get_value_nil, hmul,
        hdivv, hmul1, Option.map_some', hcast, Bool.false_eq_true]



/-! ### Claims C5 and C6 -/

/-- C5: let `M = from / to` be a positive rational magnitude, with integers `p` and `q`
denoted by `numerator(M)` and `denominator(M)`, so that `M = p / q`.  With integral
representation types and no overflow (the input and `v * p` fit the intermediate type, `p`
and `q` fit the multiplier type, the result fits the target type), `sudo_cast_value`
returns `v * p / q` truncated toward zero, whichever of its three branches is taken; that
is the truncation of `v * M`, and it is `v * M` itself whenever `v * M` is an integer. -/
theorem sudo_cast_value_positive_rational (from_mag to_mag M N D : unit_magnitude)
    (FromRep ToRep : IntRep) (v : Int)
    (hdiv : div from_mag to_mag = some M) (hM : Canonical M) (hr : is_rational M = true)
    (hpos : check_magnitude_is_positive M = true)
    (hN : numerator M = some N) (hD : denominator M = some D) (hbits : 0 < ToRep.bits)
    (hv : (c_type FromRep ToRep intmax_t).holds v = true)
    (hp : intmax_t.holds (int_value N) = true) (hq : intmax_t.holds (int_value D) = true)
    (hvp : (c_type FromRep ToRep intmax_t).holds (v * int_value N) = true)
    (hres : ToRep.holds (Int.tdiv (v * int_value N) (int_value D)) = true) :
    0 < int_value N ∧ 0 < int_value D ∧
      magnitude_value M = (int_value N : ℚ) / (int_value D : ℚ) ∧
      sudo_cast_value from_mag to_mag FromRep ToRep v =
        some (Int.tdiv (v * int_value N) (int_value D)) ∧
      Int.tdiv (v * int_value N) (int_value D) =
        trunc_toward_zero ((v : ℚ) * magnitude_value M) ∧
      ∀ z : Int, (v : ℚ) * magnitude_value M = (z : ℚ) →
        sudo_cast_value from_mag to_mag FromRep ToRep v = some z := by
  have hs : has_sentinel M = false := by
    have := check_positive_eq hM
    rw [hpos] at this
    cases h : has_sentinel M with
    | false => rfl
    | true => rw [h] at this; cases this
  have hel := rational_positive_elements hM hr hs
  have hNeq : N = M.filter (fun e => decide (0 < e.exponent)) := by
    have := numerator_rational hM hr
    rw [hN] at this; exact Option.some.inj this
  have hDeq : D = (M.filter (fun e => decide (e.exponent < 0))).map
      (fun e => (⟨e.base, - e.exponent⟩ : Element)) := by
    have := denominator_rational hM hs hr
    rw [hD] at this; exact Option.some.inj this
  have hN1 : 1 ≤ int_value N := by
    rw [hNeq]; exact int_value_pos (weaken_elements (numerator_elements hel)).2
  have hD1 : 1 ≤ int_value D := by
    rw [hDeq]; exact int_value_pos (weaken_elements (denominator_elements hel)).2
  have hval : magnitude_value M = (int_value N : ℚ) / (int_value D : ℚ) := by
    rw [hNeq, hDeq]; exact magnitude_value_eq_quotient hel
  have hcast := sudo_cast_value_rational hdiv hM hr hpos hN hD hbits hv hp hq hvp hres
  have hDq : (0 : ℚ) < (int_value D : ℚ) := by exact_mod_cast (by omega : 0 < int_value D)
  have hprod : (v : ℚ) * magnitude_value M =
      ((v * int_value N : Int) : ℚ) / ((int_value D : Int) : ℚ) := by
    rw [hval]; push_cast; ring
  refine ⟨by omega, by omega, hval, hcast, ?_, ?_⟩
  · rw [hprod]
    exact tdiv_eq_trunc _ (by omega)
  · intro z hz
    rw [hcast]
    congr 1
    rw [hprod, div_eq_iff (ne_of_gt hDq)] at hz
    have hz2 : v * int_value N = z * int_value D := by exact_mod_cast hz
    rw [hz2]
    exact Int.mul_tdiv_cancel _ (by omega)

/-- Witness of C5: the ratio `3 / 7` (third branch), source type 32-bit signed, target type
64-bit signed, input `-2000`: the result is `-857`, the truncation of `-6000 / 7`. -/
theorem sudo_cast_value_positive_rational_witness :
    sudo_cast_value [⟨Base.integral 3, 1⟩] [⟨Base.integral 7, 1⟩] ⟨true, 32⟩ ⟨true, 64⟩ (-2000)
        = some (Int.tdiv (-2000 * int_value [⟨Base.integral 3, 1⟩])
            (int_value [⟨Base.integral 7, 1⟩])) ∧
      Int.tdiv (-2000 * int_value [⟨Base.integral 3, 1⟩]) (int_value [⟨Base.integral 7, 1⟩])
        = -857 :=
  ⟨(sudo_cast_value_positive_rational [⟨Base.integral 3, 1⟩] [⟨Base.integral 7, 1⟩]
      [⟨Base.integral 3, 1⟩, ⟨Base.integral 7, -1⟩] [⟨Base.integral 3, 1⟩]
      [⟨Base.integral 7, 1⟩] ⟨true, 32⟩ ⟨true, 64⟩ (-2000)
      (by decide!) (by decide!) (by decide!) (by decide!) (by decide!) (by decide!) (by decide)
      (by decide!) (by decide!) (by decide!) (by decide!) (by decide!)).2.2.2.1,
    by decide!⟩

/-- C6: when the reciprocal `1/M` of the conversion ratio `M = from / to` is a positive
integer `n` and both representation types are integral, the multiplier type is the
integral type `std::intmax_t` (no floating-point intermediate) and, without overflow,
`sudo_cast_value(v)` is the truncating integer quotient `v / n`; it is exactly `v / n`
whenever `n` divides `v`. -/
theorem sudo_cast_value_reciprocal_integer (from_mag to_mag M I : unit_magnitude)
    (FromRep ToRep : IntRep) (v : Int)
    (hdiv : div from_mag to_mag = some M) (hM : Canonical M)
    (hI : pow (-1) 1 M = some I) (hint : is_integral I = true)
    (hpos : check_magnitude_is_positive I = true) (hbits : 0 < ToRep.bits)
    (hv : (c_type FromRep ToRep intmax_t).holds v = true)
    (hn : intmax_t.holds (int_value I) = true)
    (hres : ToRep.holds (Int.tdiv v (int_value I)) = true) :
    multiplier_type M = NumType.integral intmax_t ∧ 0 < int_value I ∧
      magnitude_value M = 1 / (int_value I : ℚ) ∧
      sudo_cast_value from_mag to_mag FromRep ToRep v = some (Int.tdiv v (int_value I)) ∧
      (int_value I ∣ v → int_value I * Int.tdiv v (int_value I) = v) := by
  obtain ⟨I1, hI1, hIc, _, _, hIs⟩ := inv_spec hM
  rw [hI] at hI1; cases hI1
  have hsI : has_sentinel I = false := by
    have := check_positive_eq hIc
    rw [hpos] at this
    cases h : has_sentinel I with
    | false => rfl
    | true => rw [h] at this; cases this
  have hs : has_sentinel M = false := by rw [← hIs]; exact hsI
  have hIeq : I = M.map (fun e => (⟨e.base, - e.exponent⟩ : Element)) := by
    have := pow_neg_one_positive hM hs
    rw [hI] at this; exact Option.some.inj this
  have hneg : ∀ e ∈ M, e.exponent < 0 := by
    intro e he
    have := is_integral_exponents_pos hsI hint ⟨e.base, - e.exponent⟩
      (by rw [hIeq]; exact List.mem_map.2 ⟨e, he, rfl⟩)
    simpa using this
  have hr : is_rational M = true := by
    unfold is_rational
    rw [List.all_eq_true]
    intro e he
    have hb : e.base ≠ Base.negative_tag := by
      intro h
      have : has_sentinel M = true := (has_sentinel_iff M).2 ⟨e, he, h⟩
      rw [hs] at this; cases this
    have hmem : (⟨e.base, - e.exponent⟩ : Element) ∈ I := by
      rw [hIeq]; exact List.mem_map.2 ⟨e, he, rfl⟩
    unfold is_integral at hint
    rw [List.all_eq_true] at hint
    have h := hint _ hmem
    have hb2 : (⟨e.base, - e.exponent⟩ : Element).base ≠ Base.negative_tag := hb
    simp only [is_integral_impl, not_negative_tag_of_base hb2, Bool.false_eq_true, if_false,
      Bool.and_eq_true] at h
    have h2 := (@is_rational_impl_iff ⟨e.base, - e.exponent⟩ hb).1 h.1
    exact (is_rational_impl_iff hb).2 ⟨h2.1, by simpa [Rat.neg_den] using h2.2⟩
  have hposM : check_magnitude_is_positive M = true := by
    rw [check_positive_eq hM, hs]; rfl
  have hN : numerator M = some [] := by
    rw [numerator_rational hM hr]
    congr 1
    rw [List.filter_eq_nil_iff]
    intro e he
    simp [not_lt.2 (le_of_lt (hneg e he))]
  have hD : denominator M = some I := by
    rw [denominator_rational hM hs hr, hIeq]
    congr 2
    rw [List.filter_eq_self]
    intro e he
    simp [hneg e he]
  have hC5 := sudo_cast_value_rational hdiv hM hr hposM hN hD hbits hv (by decide) hn
    (by rw [int_value_nil, mul_one]; exact hv)
    (by rw [int_value_nil, mul_one]; exact hres)
  rw [int_value_nil, mul_one] at hC5
  have hel := rational_positive_elements hM hr hs
  have hI1 : 1 ≤ int_value I := by
    have hIel : ∀ e ∈ I, ∃ v : Int, 1 ≤ v ∧ e.base = Base.integral v := by
      intro y hy
      rw [hIeq] at hy
      obtain ⟨e, he, rfl⟩ := List.mem_map.1 hy
      obtain ⟨w, hw, hwb, _⟩ := hel e he
      exact ⟨w, hw, hwb⟩
    exact int_value_pos hIel
  have hval : magnitude_value M = 1 / (int_value I : ℚ) := by
    have hIcast : ((int_value I : Int) : ℚ) = magnitude_value I := by
      apply int_value_cast
      intro y hy
      rw [hIeq] at hy
      obtain ⟨e, he, rfl⟩ := List.mem_map.1 hy
      obtain ⟨w, _, hwb, _⟩ := hel e he
      refine ⟨w, hwb, ?_⟩
      have := (num_neg_iff _).2 (hneg e he)
      simp only [Rat.neg_num]
      omega
    rw [hIcast, hIeq, magnitude_value_map_neg]
    simp
  refine ⟨multiplier_type_rational hr, by omega, hval, hC5, ?_⟩
  intro hdvd
  exact Int.mul_tdiv_cancel' hdvd

/-- Witness of C6: `2000` in a unit `X` converted to the unit `1000 X`, that is
`M = 1 / 1000`, with the 64-bit signed representation, is exactly `2`. -/
theorem sudo_cast_value_reciprocal_integer_witness :
    mag 1 = some [] ∧ mag 1000 = some [⟨Base.integral 2, 3⟩, ⟨Base.integral 5, 3⟩] ∧
      multiplier_type [⟨Base.integral 2, -3⟩, ⟨Base.integral 5, -3⟩] =
        NumType.integral intmax_t ∧
      sudo_cast_value [] [⟨Base.integral 2, 3⟩, ⟨Base.integral 5, 3⟩] ⟨true, 64⟩ ⟨true, 64⟩ 2000
        = some (Int.tdiv 2000 (int_value [⟨Base.integral 2, 3⟩, ⟨Base.integral 5, 3⟩])) ∧
      Int.tdiv 2000 (int_value [⟨Base.integral 2, 3⟩, ⟨Base.integral 5, 3⟩]) = 2 :=
  ⟨by decide!, by decide!,
    (sudo_cast_value_reciprocal_integer [] [⟨Base.integral 2, 3⟩, ⟨Base.integral 5, 3⟩]
      [⟨Base.integral 2, -3⟩, ⟨Base.integral 5, -3⟩]
      [⟨Base.integral 2, 3⟩, ⟨Base.integral 5, 3⟩] ⟨true, 64⟩ ⟨true, 64⟩ 2000
      (by decide!) (by decide!) (by decide!) (by decide!) (by decide!) (by decide)
      (by decide!) (by decide!) (by decide!)).1,
    (sudo_cast_value_reciprocal_integer [] [⟨Base.integral 2, 3⟩, ⟨Base.integral 5, 3⟩]
      [⟨Base.integral 2, -3⟩, ⟨Base.integral 5, -3⟩]
      [⟨Base.integral 2, 3⟩, ⟨Base.integral 5, 3⟩] ⟨true, 64⟩ ⟨true, 64⟩ 2000
      (by decide!) (by decide!) (by decide!) (by decide!) (by decide!) (by decide)
      (by decide!) (by decide!) (by decide!)).2.2.2.1,
    by decide!⟩



/-! ### The exponent on a base value (`get_power`) -/

theorem get_power_nil (v : ℚ) : get_power v [] = 0 := rfl

theorem get_power_cons (v : ℚ) (x : Element) (m : unit_magnitude) :
    get_power v (x :: m) =
      (if x.is_negative_tag then 0
        else if get_base_value x.base = v then x.exponent else 0) + get_power v m := by
  simp [get_power]

theorem get_power_eq_zero {v : ℚ} {m : unit_magnitude}
    (h : ∀ e ∈ m, e.base ≠ Base.negative_tag → get_base_value e.base ≠ v)
    (hm : ∀ e ∈ m, e.Valid) : get_power v m = 0 := by
  induction m with
  | nil => rfl
  | cons x m ih =>
    rw [get_power_cons, ih (fun e he => h e (List.mem_cons_of_mem _ he))
      (fun e he => hm e (List.mem_cons_of_mem _ he)), add_zero]
    by_cases hs : x.is_negative_tag = true
    · simp [hs]
    · have hb : x.base ≠ Base.negative_tag :=
        fun hb => hs ((is_negative_tag_iff (hm x (List.mem_cons_self _ _))).2 hb)
      simp [hs, h x (List.mem_cons_self _ _) hb]

/-- Above a value `v`, a canonical pack has no element of value `v`. -/
theorem get_power_of_above {v : ℚ} {m : unit_magnitude} (hm : ∀ e ∈ m, e.Valid)
    (h : ∀ e ∈ m, v < get_base_value e.base) : get_power v m = 0 :=
  get_power_eq_zero (fun e he _ => ne_of_gt (h e he)) hm

theorem get_power_head {x : Element} {m : unit_magnitude} (hm : Canonical (x :: m))
    (hx : x.base ≠ Base.negative_tag) :
    get_power (get_base_value x.base) (x :: m) = x.exponent := by
  obtain ⟨hxv, hxm, hmc⟩ := canonical_cons.1 hm
  have hs : ¬ x.is_negative_tag = true := fun h => hx ((is_negative_tag_iff hxv).1 h)
  rw [get_power_cons, get_power_of_above hmc.2 hxm]
  simp [hs]

/-- In a canonical pack two elements of the same value are the same element. -/
theorem eq_of_value_eq {m : unit_magnitude} (hm : m.Pairwise key_lt) {x y : Element}
    (hx : x ∈ m) (hy : y ∈ m) (h : get_base_value x.base = get_base_value y.base) : x = y := by
  induction m with
  | nil => cases hx
  | cons z m ih =>
    rw [List.pairwise_cons] at hm
    rcases List.mem_cons.1 hx with hxz | hxm
    · rcases List.mem_cons.1 hy with hyz | hym
      · rw [hxz, hyz]
      · rw [hxz] at h
        exact absurd h (ne_of_lt (hm.1 y hym))
    · rcases List.mem_cons.1 hy with hyz | hym
      · rw [hyz] at h
        exact absurd h.symm (ne_of_lt (hm.1 x hxm))
      · exact ih hm.2 hxm hym

theorem get_power_of_mem {m : unit_magnitude} (hm : Canonical m) {e : Element} (he : e ∈ m)
    (hb : e.base ≠ Base.negative_tag) : get_power (get_base_value e.base) m = e.exponent := by
  induction m with
  | nil => cases he
  | cons x m ih =>
    obtain ⟨hxv, hxm, hmc⟩ := canonical_cons.1 hm
    rcases List.mem_cons.1 he with rfl | he
    · exact get_power_head hm hb
    · rw [get_power_cons, ih hmc he]
      have hne : get_base_value x.base ≠ get_base_value e.base := ne_of_lt (hxm e he)
      by_cases hs : x.is_negative_tag = true
      · simp [hs]
      · simp [hs, hne]

/-- A nonzero exponent on a value comes from an element of that value. -/
theorem exists_mem_of_get_power_ne_zero {v : ℚ} {m : unit_magnitude} (hm : Canonical m)
    (h : get_power v m ≠ 0) :
    ∃ e ∈ m, e.base ≠ Base.negative_tag ∧ get_base_value e.base = v ∧
      get_power v m = e.exponent := by
  by_contra hne
  apply h
  apply get_power_eq_zero _ hm.2
  intro e he hb hv
  apply hne
  refine ⟨e, he, hb, hv, ?_⟩
  rw [← hv]
  exact get_power_of_mem hm he hb



/-! ### The common magnitude of any two canonical magnitudes -/

theorem negative_tag_of_value {b : Base} (hb : b.Valid) (h : get_base_value b ≤ 0) :
    b = Base.negative_tag := by
  by_contra hne
  exact absurd (get_base_value_pos hb hne) (not_lt.2 h)

theorem no_sentinel_mem {m : unit_magnitude} (h : has_sentinel m = false) {e : Element}
    (he : e ∈ m) : e.base ≠ Base.negative_tag := by
  intro hb
  have h1 : has_sentinel m = true := (has_sentinel_iff m).2 ⟨e, he, hb⟩
  rw [h] at h1
  exact Bool.false_ne_true h1

/-- What `remove_positive_powers` keeps of a canonical magnitude: the elements with a
negative exponent, the sentinel left out. -/
theorem remove_positive_powers_total {m : unit_magnitude} (hm : Canonical m) :
    ∃ R, remove_positive_powers m = some R ∧ Canonical R ∧ (∀ e ∈ R, e ∈ m) ∧
      (∀ v, get_power v R = min (get_power v m) 0) ∧ has_sentinel R = false := by
  obtain ⟨R, hR, hRc, hRb, hRe, hRs⟩ := remove_positive_powers_spec hm
  have hmem : ∀ e ∈ R, e ∈ m ∧ e.exponent < 0 := by
    intro e he
    obtain ⟨x, hx, hxb⟩ := hRb e he
    have hbn : e.base ≠ Base.negative_tag := no_sentinel_mem hRs he
    have h1 : expo R e.base = e.exponent := expo_of_mem hRc.1 he
    have h2 : expo m e.base = x.exponent := by rw [← hxb]; exact expo_of_mem hm.1 hx
    have h3 := hRe e.base hbn
    rw [h1, h2] at h3
    have h0 : e.exponent ≠ 0 := (hRc.2 e he).2.1
    have hlt : x.exponent < 0 := by
      by_contra hge
      rw [min_eq_right (not_lt.1 hge)] at h3
      exact h0 h3
    rw [min_eq_left (le_of_lt hlt)] at h3
    have hex : e = x := by
      cases e; cases x
      simp only [Element.mk.injEq] at *
      exact ⟨hxb.symm, h3⟩
    rw [hex]
    exact ⟨hx, hlt⟩
  have hconv : ∀ x ∈ m, x.base ≠ Base.negative_tag → x.exponent < 0 → x ∈ R := by
    intro x hx hb hlt
    have h2 : expo m x.base = x.exponent := expo_of_mem hm.1 hx
    have h3 := hRe x.base hb
    rw [h2, min_eq_left (le_of_lt hlt)] at h3
    obtain ⟨e, he, heb⟩ := @exists_mem_of_expo_ne_zero R x.base (by rw [h3]; exact ne_of_lt hlt)
    have hex : e = x := eq_of_value_eq hm.1 (hmem e he).1 hx (by rw [heb])
    rw [← hex]; exact he
  refine ⟨R, hR, hRc, fun e he => (hmem e he).1, ?_, hRs⟩
  intro v
  by_cases hex : ∃ x ∈ m, x.base ≠ Base.negative_tag ∧ get_base_value x.base = v
  · obtain ⟨x, hx, hb, hv⟩ := hex
    rw [← hv, get_power_of_mem hm hx hb]
    by_cases hlt : x.exponent < 0
    · rw [get_power_of_mem hRc (hconv x hx hb hlt) hb, min_eq_left (le_of_lt hlt)]
    · rw [min_eq_right (not_lt.1 hlt)]
      apply get_power_eq_zero _ hRc.2
      intro e he _ hev
      have hex : e = x := eq_of_value_eq hm.1 (hmem e he).1 hx hev
      exact hlt (hex ▸ (hmem e he).2)
  · have h0 : get_power v m = 0 :=
      get_power_eq_zero (fun e he hb hv => hex ⟨e, he, hb, hv⟩) hm.2
    rw [h0, min_self]
    exact get_power_eq_zero (fun e he hb hv => hex ⟨e, (hmem e he).1, hb, hv⟩) hRc.2

/-- One step of `common_magnitude` when the head `H` of the left operand lies below the
whole right operand. -/
theorem common_total_step_left {H : Element} {T B r : unit_magnitude}
    (hA : Canonical (H :: T)) (hB : Canonical B) (hHB : ∀ y ∈ B, key_lt H y)
    (hrc : Canonical r) (hrm : ∀ e ∈ r, e ∈ T ∨ e ∈ B)
    (hrp : ∀ v, get_power v r = min (get_power v T) (get_power v B))
    (hrs : has_sentinel r = (has_sentinel T && has_sentinel B)) :
    ∃ R, mul (remove_positive_power H) r = some R ∧ Canonical R ∧
      (∀ e ∈ R, e ∈ H :: T ∨ e ∈ B) ∧
      (∀ v, get_power v R = min (get_power v (H :: T)) (get_power v B)) ∧
      has_sentinel R = (has_sentinel (H :: T) && has_sentinel B) := by
  obtain ⟨hHv, hHT, hTc⟩ := canonical_cons.1 hA
  have hsB : has_sentinel B = false := has_sentinel_eq_false_of_above (above_of_key_lt hHv hHB)
  have hsT : has_sentinel T = false := has_sentinel_eq_false_of_above (above_of_key_lt hHv hHT)
  have hsr : has_sentinel r = false := by rw [hrs, hsT, hsB]; rfl
  have habove : ∀ y ∈ r, key_lt H y := by
    intro y hy
    rcases hrm y hy with h | h
    · exact hHT y h
    · exact hHB y h
  have hmemr : ∀ e ∈ r, e ∈ H :: T ∨ e ∈ B := by
    intro e he
    rcases hrm e he with h | h
    · exact Or.inl (List.mem_cons_of_mem _ h)
    · exact Or.inr h
  have hT0 : get_power (get_base_value H.base) T = 0 := get_power_of_above hTc.2 hHT
  have hB0 : get_power (get_base_value H.base) B = 0 := get_power_of_above hB.2 hHB
  have hnil : mul [] r = some r := multiply_impl_nil_left _ _
  by_cases hs : H.is_negative_tag = true
  · refine ⟨r, by simp only [remove_positive_power, hs, if_true]; exact hnil, hrc, hmemr, ?_,
      by rw [hsr, hsB, Bool.and_false]⟩
    intro v
    rw [get_power_cons, hrp v]
    simp [hs]
  · have hb : H.base ≠ Base.negative_tag := fun hb => hs ((is_negative_tag_iff hHv).2 hb)
    by_cases hlt : H.exponent.num < 0
    · have hlt2 : H.exponent < 0 := (num_neg_iff _).1 hlt
      refine ⟨H :: r, by
          simp only [remove_positive_power, hs, hlt, if_true]
          exact mul_singleton_prepend _ _ habove,
        canonical_cons.2 ⟨hHv, habove, hrc⟩, ?_, ?_, ?_⟩
      · intro e he
        rcases List.mem_cons.1 he with h | h
        · exact Or.inl (h ▸ List.mem_cons_self _ _)
        · exact hmemr e h
      · intro v
        rw [get_power_cons, get_power_cons, hrp v]
        by_cases hv : get_base_value H.base = v
        · rw [← hv, hT0, hB0]
          simp [hs, le_of_lt hlt2]
        · simp [hs, hv]
      · rw [has_sentinel_cons, hsr, hsB]
        simp [hb]
    · have hge : 0 ≤ H.exponent := not_lt.1 (fun h => hlt ((num_neg_iff _).2 h))
      refine ⟨r, by simp only [remove_positive_power, hs, hlt, if_false]; exact hnil, hrc,
        hmemr, ?_, by rw [hsr, hsB, Bool.and_false]⟩
      intro v
      rw [get_power_cons, hrp v]
      by_cases hv : get_base_value H.base = v
      · rw [← hv, hT0, hB0]
        simp [hs, hge]
      · simp [hs, hv]

/-- One step of `common_magnitude` on two heads of the same value. -/
theorem common_total_step_eq {H H2 : Element} {T T2 r : unit_magnitude}
    (hA : Canonical (H :: T)) (hB : Canonical (H2 :: T2))
    (hv : get_base_value H.base = get_base_value H2.base)
    (hrc : Canonical r) (hrm : ∀ e ∈ r, e ∈ T ∨ e ∈ T2)
    (hrp : ∀ v, get_power v r = min (get_power v T) (get_power v T2))
    (hrs : has_sentinel r = (has_sentinel T && has_sentinel T2)) :
    ∃ R, (if H.exponent < H2.exponent then mul [H] r else mul [H2] r) = some R ∧
      Canonical R ∧ (∀ e ∈ R, e ∈ H :: T ∨ e ∈ H2 :: T2) ∧
      (∀ v, get_power v R = min (get_power v (H :: T)) (get_power v (H2 :: T2))) ∧
      has_sentinel R = (has_sentinel (H :: T) && has_sentinel (H2 :: T2)) := by
  obtain ⟨hHv, hHT, hTc⟩ := canonical_cons.1 hA
  obtain ⟨hH2v, hH2T, hT2c⟩ := canonical_cons.1 hB
  have hsT : has_sentinel T = false := has_sentinel_eq_false_of_above (above_of_key_lt hHv hHT)
  have hsr : has_sentinel r = false := by rw [hrs, hsT]; rfl
  have habove : ∀ y ∈ r, key_lt H y := by
    intro y hy
    rcases hrm y hy with h | h
    · exact hHT y h
    · have := hH2T y h
      unfold key_lt at this ⊢
      rw [hv]; exact this
  have habove2 : ∀ y ∈ r, key_lt H2 y := by
    intro y hy
    have := habove y hy
    unfold key_lt at this ⊢
    rw [← hv]; exact this
  have hmemr : ∀ e ∈ r, e ∈ H :: T ∨ e ∈ H2 :: T2 := by
    intro e he
    rcases hrm e he with h | h
    · exact Or.inl (List.mem_cons_of_mem _ h)
    · exact Or.inr (List.mem_cons_of_mem _ h)
  have hT0 : get_power (get_base_value H.base) T = 0 := get_power_of_above hTc.2 hHT
  have hT20 : get_power (get_base_value H.base) T2 = 0 :=
    get_power_of_above hT2c.2 (fun y hy => by have := hH2T y hy; unfold key_lt at this; rw [hv]; exact this)
  have hbb : H.base = Base.negative_tag ↔ H2.base = Base.negative_tag := by
    constructor
    · intro h
      apply negative_tag_of_value hH2v.1
      rw [← hv, h]; norm_num [get_base_value]
    · intro h
      apply negative_tag_of_value hHv.1
      rw [hv, h]; norm_num [get_base_value]
  have hss : H.is_negative_tag = H2.is_negative_tag := by
    by_cases h : H.base = Base.negative_tag
    · rw [(is_negative_tag_iff hHv).2 h, (is_negative_tag_iff hH2v).2 (hbb.1 h)]
    · rw [not_negative_tag_of_base h, not_negative_tag_of_base (fun h2 => h (hbb.2 h2))]
  have key : ∀ (P : Element), P.Valid → get_base_value P.base = get_base_value H.base →
      P.is_negative_tag = H.is_negative_tag →
      (P.base = Base.negative_tag ↔ H.base = Base.negative_tag) →
      P.exponent = min H.exponent H2.exponent → (P = H ∨ P = H2) →
      Canonical (P :: r) ∧ (∀ e ∈ P :: r, e ∈ H :: T ∨ e ∈ H2 :: T2) ∧
      (∀ v, get_power v (P :: r) = min (get_power v (H :: T)) (get_power v (H2 :: T2))) ∧
      has_sentinel (P :: r) = (has_sentinel (H :: T) && has_sentinel (H2 :: T2)) := by
    intro P hPv hPval hPs hPb hPe hPor
    refine ⟨canonical_cons.2 ⟨hPv, ?_, hrc⟩, ?_, ?_, ?_⟩
    · intro y hy
      have := habove y hy
      unfold key_lt at this ⊢
      rw [hPval]; exact this
    · intro e he
      rcases List.mem_cons.1 he with h | h
      · rcases hPor with h1 | h1
        · exact Or.inl (by rw [h, h1]; exact List.mem_cons_self _ _)
        · exact Or.inr (by rw [h, h1]; exact List.mem_cons_self _ _)
      · exact hmemr e h
    · intro v
      rw [get_power_cons, get_power_cons, get_power_cons, hrp v, hPs, ← hss, hPval, ← hv, hPe]
      by_cases hs : H.is_negative_tag = true
      · simp [hs]
      · by_cases hval : get_base_value H.base = v
        · rw [← hval, hT0, hT20]
          simp [hs]
        · simp [hs, hval]
    · rw [has_sentinel_cons, has_sentinel_cons, has_sentinel_cons, hsr, hsT]
      by_cases h : H.base = Base.negative_tag
      · simp [hPb.2 h, h, hbb.1 h]
      · have hP : ¬ P.base = Base.negative_tag := fun h2 => h (hPb.1 h2)
        simp [h, hP]
  by_cases hlt : H.exponent < H2.exponent
  · refine ⟨H :: r, by simp only [hlt, if_true]; exact mul_singleton_prepend _ _ habove, ?_⟩
    exact key H hHv rfl rfl Iff.rfl (min_eq_left (le_of_lt hlt)).symm (Or.inl rfl)
  · refine ⟨H2 :: r, by simp only [hlt, if_false]; exact mul_singleton_prepend _ _ habove2, ?_⟩
    exact key H2 hH2v hv.symm hss.symm hbb.symm (min_eq_right (not_lt.1 hlt)).symm (Or.inr rfl)



/-- The common magnitude of any two canonical magnitudes exists: it is made of elements of
the operands, takes on every base value the smaller of the two exponents, and keeps the
sentinel only when both operands hold it. -/
theorem common_magnitude_total : ∀ (A B : unit_magnitude), Canonical A → Canonical B →
    ∃ C, common_magnitude A B = some C ∧ Canonical C ∧ (∀ e ∈ C, e ∈ A ∨ e ∈ B) ∧
      (∀ v, get_power v C = min (get_power v A) (get_power v B)) ∧
      has_sentinel C = (has_sentinel A && has_sentinel B) := by
  intro A
  induction A with
  | nil =>
    intro B _ hB
    cases B with
    | nil =>
      exact ⟨[], common_magnitude_nil_nil, canonical_nil, by simp, by simp [get_power_nil], rfl⟩
    | cons H2 T2 =>
      obtain ⟨R, hR, hRc, hRm, hRe, hRs⟩ := remove_positive_powers_total hB
      refine ⟨R, by rw [common_magnitude_nil_cons]; exact hR, hRc, fun e he => Or.inr (hRm e he),
        ?_, by simp [hRs]⟩
      intro v
      rw [hRe v, get_power_nil, min_comm]
  | cons H T ihA =>
    intro B
    induction B with
    | nil =>
      intro hA _
      obtain ⟨R, hR, hRc, hRm, hRe, hRs⟩ := remove_positive_powers_total hA
      refine ⟨R, by rw [common_magnitude_cons_nil]; exact hR, hRc, fun e he => Or.inl (hRm e he),
        ?_, by simp [hRs]⟩
      intro v
      rw [hRe v, get_power_nil]
    | cons H2 T2 ihB =>
      intro hA hB
      obtain ⟨hHv, hHT, hTc⟩ := canonical_cons.1 hA
      obtain ⟨hH2v, hH2T, hT2c⟩ := canonical_cons.1 hB
      rw [common_magnitude_cons_cons]
      by_cases h1 : get_base_value H.base < get_base_value H2.base
      · obtain ⟨r, hr, hrc, hrm, hrp, hrs⟩ := ihA (H2 :: T2) hTc hB
        have hHB : ∀ y ∈ H2 :: T2, key_lt H y := by
          intro y hy
          rcases List.mem_cons.1 hy with rfl | hy
          · exact h1
          · exact lt_trans h1 (hH2T y hy)
        obtain ⟨R, hR, hRp⟩ := common_total_step_left hA hB hHB hrc hrm hrp hrs
        exact ⟨R, by simp only [h1, if_true, hr, Option.some_bind]; exact hR, hRp⟩
      · by_cases h2 : get_base_value H2.base < get_base_value H.base
        · obtain ⟨r, hr, hrc, hrm, hrp, hrs⟩ := ihB hA hT2c
          have hHA : ∀ y ∈ H :: T, key_lt H2 y := by
            intro y hy
            rcases List.mem_cons.1 hy with rfl | hy
            · exact h2
            · exact lt_trans h2 (hHT y hy)
          obtain ⟨R, hR, hRc, hRm, hRe, hRs⟩ :=
            common_total_step_left hB hA hHA hrc (fun e he => (hrm e he).symm)
              (fun v => by rw [hrp v, min_comm]) (by rw [hrs, Bool.and_comm])
          exact ⟨R, by simp only [h1, h2, if_false, if_true, hr, Option.some_bind]; exact hR,
            hRc, fun e he => (hRm e he).symm, fun v => by rw [hRe v, min_comm],
            by rw [hRs, Bool.and_comm]⟩
        · have hveq : get_base_value H.base = get_base_value H2.base :=
            le_antisymm (not_lt.1 h2) (not_lt.1 h1)
          obtain ⟨r, hr, hrc, hrm, hrp, hrs⟩ := ihA T2 hTc hT2c
          obtain ⟨R, hR, hRp⟩ := common_total_step_eq hA hB hveq hrc hrm hrp hrs
          exact ⟨R, by simp only [h1, h2, if_false, hr, Option.some_bind]; exact hR, hRp⟩

/-- The inverse of a canonical magnitude has exactly its bases. -/
theorem inv_bases {B I : unit_magnitude} (hB : Canonical B) (hI : pow (-1) 1 B = some I) :
    Canonical I ∧ (∀ e ∈ I, ∃ x ∈ B, x.base = e.base) ∧ (∀ x ∈ B, ∃ e ∈ I, e.base = x.base) ∧
      (∀ b, b ≠ Base.negative_tag → expo I b = - expo B b) ∧
      has_sentinel I = has_sentinel B := by
  obtain ⟨J, hJ, hJc, hJb, hJe, hJs⟩ := inv_spec hB
  rw [hI] at hJ
  cases hJ
  refine ⟨hJc, hJb, ?_, hJe, hJs⟩
  intro x hx
  by_cases hb : x.base = Base.negative_tag
  · have h1 : has_sentinel I = true := by
      rw [hJs]; exact (has_sentinel_iff B).2 ⟨x, hx, hb⟩
    obtain ⟨e, he, heb⟩ := (has_sentinel_iff I).1 h1
    exact ⟨e, he, by rw [heb, hb]⟩
  · apply exists_mem_of_expo_ne_zero
    rw [hJe x.base hb, expo_of_mem hB.1 hx]
    exact neg_ne_zero.2 (hB.2 x hx).2.1

/-- A quotient of canonical magnitudes is defined exactly over one basis. -/
theorem div_defined_iff {A B : unit_magnitude} (hA : Canonical A) (hB : Canonical B) :
    (∃ R, div A B = some R) ↔ Coherent A B := by
  obtain ⟨I, hI, _⟩ := inv_spec hB
  obtain ⟨hIc, hIb, hBI, _, _⟩ := inv_bases hB hI
  constructor
  · rintro ⟨R, hR⟩
    have hm : ∃ R, mul A I = some R := ⟨R, by simpa [div, hI] using hR⟩
    have hc := (mul_defined_iff hA hIc).1 hm
    intro x hx y hy hv
    obtain ⟨e, he, heb⟩ := hBI y hy
    rw [← heb] at hv ⊢
    exact hc x hx e he hv
  · intro hc
    obtain ⟨R, hR, _⟩ := div_spec hA hB hc
    exact ⟨R, hR⟩

/-- The exponents of a quotient that is defined. -/
theorem div_expo {A B Q : unit_magnitude} (hA : Canonical A) (hB : Canonical B)
    (hQ : div A B = some Q) :
    Coherent A B ∧ Canonical Q ∧ (∀ e ∈ Q, ∃ x ∈ A ++ B, x.base = e.base) ∧
      (∀ b, b ≠ Base.negative_tag → expo Q b = expo A b - expo B b) ∧
      has_sentinel Q = xor (has_sentinel A) (has_sentinel B) := by
  have hc := (div_defined_iff hA hB).1 ⟨Q, hQ⟩
  obtain ⟨R, hR, hRp⟩ := div_spec hA hB hc
  rw [hQ] at hR
  cases hR
  exact ⟨hc, hRp⟩

/-- The exponent of a canonical pack on a base is non-negative when every element has a
non-negative exponent. -/
theorem expo_nonneg {Q : unit_magnitude} (hQ : Canonical Q) (h : ∀ e ∈ Q, 0 ≤ e.exponent)
    (b : Base) : 0 ≤ expo Q b := by
  by_cases h0 : expo Q b = 0
  · rw [h0]
  · obtain ⟨e, he, heb⟩ := exists_mem_of_expo_ne_zero h0
    rw [← heb, expo_of_mem hQ.1 he]
    exact h e he



/-! ### Claim C11 -/

/-- C11: `common_magnitude` returns the largest common divisor.  For all canonical
magnitudes `A`, `B` and `D` (positive or not) such that `A / D` and `B / D` are defined
and have only non-negative exponents, `C = common_magnitude(A, B)` is defined, `C / D` is
defined and every exponent of `C / D` is non-negative; and the exponent of `C` on every
base value (`get_power`) is the minimum of the exponents of `A` and `B` on it, an absent
base counting as exponent `0`. -/
theorem common_magnitude_greatest (A B D QA QB : unit_magnitude)
    (hA : Canonical A) (hB : Canonical B) (hD : Canonical D)
    (hQA : div A D = some QA) (hQB : div B D = some QB)
    (hA0 : ∀ e ∈ QA, 0 ≤ e.exponent) (hB0 : ∀ e ∈ QB, 0 ≤ e.exponent) :
    ∃ C Q, common_magnitude A B = some C ∧ div C D = some Q ∧ (∀ e ∈ Q, 0 ≤ e.exponent) ∧
      ∀ v, get_power v C = min (get_power v A) (get_power v B) := by
  obtain ⟨C, hC, hCc, hCm, hCe, _⟩ := common_magnitude_total A B hA hB
  obtain ⟨hAD, hQAc, _, hQAe, _⟩ := div_expo hA hD hQA
  obtain ⟨hBD, hQBc, _, hQBe, _⟩ := div_expo hB hD hQB
  have hCD : Coherent C D := by
    intro x hx y hy hv
    rcases hCm x hx with h | h
    · exact hAD x h y hy hv
    · exact hBD x h y hy hv
  obtain ⟨Q, hQ, hQc, _, hQe, _⟩ := div_spec hCc hD hCD
  have hleA : ∀ b, b ≠ Base.negative_tag → expo D b ≤ expo A b := by
    intro b hb
    have := expo_nonneg hQAc hA0 b
    rw [hQAe b hb] at this
    linarith
  have hleB : ∀ b, b ≠ Base.negative_tag → expo D b ≤ expo B b := by
    intro b hb
    have := expo_nonneg hQBc hB0 b
    rw [hQBe b hb] at this
    linarith
  refine ⟨C, Q, hC, hQ, ?_, hCe⟩
  intro e he
  by_cases hs : e.base = Base.negative_tag
  · rw [(hQc.2 e he).2.2 hs]; norm_num
  rw [← expo_of_mem hQc.1 he, hQe e.base hs]
  suffices h : expo D e.base ≤ expo C e.base by linarith
  generalize e.base = b at hs ⊢
  by_cases h0 : expo C b = 0
  · rw [h0]
    by_contra hpos
    have hpos : 0 < expo D b := not_le.1 hpos
    have hAb : 0 < expo A b := lt_of_lt_of_le hpos (hleA b hs)
    have hBb : 0 < expo B b := lt_of_lt_of_le hpos (hleB b hs)
    obtain ⟨x, hx, hxb⟩ := exists_mem_of_expo_ne_zero (ne_of_gt hAb)
    obtain ⟨y, hy, hyb⟩ := exists_mem_of_expo_ne_zero (ne_of_gt hBb)
    have hxs : x.base ≠ Base.negative_tag := by rw [hxb]; exact hs
    have hys : y.base ≠ Base.negative_tag := by rw [hyb]; exact hs
    have hxe : x.exponent = expo A b := by rw [← hxb]; exact (expo_of_mem hA.1 hx).symm
    have hye : y.exponent = expo B b := by rw [← hyb]; exact (expo_of_mem hB.1 hy).symm
    have hgA : get_power (get_base_value b) A = x.exponent := by
      rw [← hxb]; exact get_power_of_mem hA hx hxs
    have hgB : get_power (get_base_value b) B = y.exponent := by
      rw [← hyb]; exact get_power_of_mem hB hy hys
    have hgC : get_power (get_base_value b) C ≠ 0 := by
      rw [hCe, hgA, hgB, hxe, hye]
      exact ne_of_gt (lt_min hAb hBb)
    obtain ⟨z, hz, _, hzv, _⟩ := exists_mem_of_get_power_ne_zero hCc hgC
    have hzb : z.base = b := by
      rcases hCm z hz with h | h
      · rw [eq_of_value_eq hA.1 h hx (by rw [hzv, hxb]), hxb]
      · rw [eq_of_value_eq hB.1 h hy (by rw [hzv, hyb]), hyb]
    apply (hCc.2 z hz).2.1
    rw [← expo_of_mem hCc.1 hz, hzb]
    exact h0
  · obtain ⟨z, hz, hzb⟩ := exists_mem_of_expo_ne_zero h0
    have hzs : z.base ≠ Base.negative_tag := by rw [hzb]; exact hs
    rw [← hzb, expo_of_mem hCc.1 hz]
    rcases hCm z hz with h | h
    · rw [← expo_of_mem hA.1 h]; exact hleA _ hzs
    · rw [← expo_of_mem hB.1 h]; exact hleB _ hzs

/-- Witness of C11: with two named constants `c` and `d` of the same value,
`A = 2^3 * c`, `B = 2 * d^2` and `D = 2`: `A / D = 2^2 * c` and `B / D = d^2`. -/
theorem common_magnitude_greatest_witness :
    ∃ C Q,
      common_magnitude
          [⟨Base.integral 2, 3⟩, ⟨Base.constant ⟨0, 3141592653589793 / 1000000000000000⟩, 1⟩]
          [⟨Base.integral 2, 1⟩, ⟨Base.constant ⟨1, 3141592653589793 / 1000000000000000⟩, 2⟩]
        = some C ∧
      div C [⟨Base.integral 2, 1⟩] = some Q ∧ (∀ e ∈ Q, 0 ≤ e.exponent) ∧
      ∀ v, get_power v C =
        min (get_power v
            [⟨Base.integral 2, 3⟩, ⟨Base.constant ⟨0, 3141592653589793 / 1000000000000000⟩, 1⟩])
          (get_power v
            [⟨Base.integral 2, 1⟩, ⟨Base.constant ⟨1, 3141592653589793 / 1000000000000000⟩, 2⟩]) :=
  common_magnitude_greatest _ _ [⟨Base.integral 2, 1⟩]
    [⟨Base.integral 2, 2⟩, ⟨Base.constant ⟨0, 3141592653589793 / 1000000000000000⟩, 1⟩]
    [⟨Base.constant ⟨1, 3141592653589793 / 1000000000000000⟩, 2⟩]
    (by decide!) (by decide!) (by decide!) (by decide!) (by decide!) (by decide!) (by decide!)



/-! ### Claim C14 -/

theorem mag_neg_one : mag (-1) = some [⟨Base.negative_tag, 1⟩] := by decide!

/-- A canonical magnitude that is not positive starts with the bare sentinel. -/
theorem negative_shape {A : unit_magnitude} (hA : Canonical A)
    (h : check_magnitude_is_positive A = false) :
    ∃ T, A = ⟨Base.negative_tag, 1⟩ :: T ∧ Canonical T ∧ has_sentinel T = false ∧
      abs_magnitude A = T ∧ ∀ y ∈ T, key_lt ⟨Base.negative_tag, 1⟩ y := by
  cases A with
  | nil => simp [check_magnitude_is_positive] at h
  | cons H T =>
    obtain ⟨hHv, hHT, hTc⟩ := canonical_cons.1 hA
    have hs : H.is_negative_tag = true := by simpa [check_magnitude_is_positive] using h
    have hb : H.base = Base.negative_tag := (is_negative_tag_iff hHv).1 hs
    have hH : H = ⟨Base.negative_tag, 1⟩ := by
      cases H
      simp only [Element.mk.injEq] at *
      exact ⟨hb, hHv.2.2 hb⟩
    subst hH
    exact ⟨T, rfl, hTc, has_sentinel_eq_false_of_above (above_of_key_lt hHv hHT),
      by simp [abs_magnitude, hs], hHT⟩

/-- A canonical positive magnitude is its own absolute value and lies above the sentinel. -/
theorem positive_shape {A : unit_magnitude} (hA : Canonical A)
    (h : check_magnitude_is_positive A = true) :
    abs_magnitude A = A ∧ has_sentinel A = false ∧
      ∀ y ∈ A, key_lt ⟨Base.negative_tag, 1⟩ y := by
  have hs : has_sentinel A = false := by
    rw [check_positive_eq hA] at h
    simpa using h
  refine ⟨abs_magnitude_of_positive hA hs, hs, ?_⟩
  intro y hy
  exact get_base_value_pos (hA.2 y hy).1 (no_sentinel_mem hs hy) |> lt_trans (by norm_num [get_base_value])

theorem remove_positive_powers_sentinel (T : unit_magnitude) :
    remove_positive_powers (⟨Base.negative_tag, 1⟩ :: T) = remove_positive_powers T := by
  have h : mul [] (remove_positive_power ⟨Base.negative_tag, 1⟩) = some [] := by decide!
  simp only [remove_positive_powers, List.foldl_cons, Option.some_bind, h]

theorem common_magnitude_nil_left (B : unit_magnitude) :
    common_magnitude [] B = remove_positive_powers B := by
  cases B with
  | nil => rw [common_magnitude_nil_nil]; rfl
  | cons H2 T2 => exact common_magnitude_nil_cons H2 T2

theorem common_magnitude_nil_right (A : unit_magnitude) :
    common_magnitude A [] = remove_positive_powers A := by
  cases A with
  | nil => rw [common_magnitude_nil_nil]; rfl
  | cons H T => exact common_magnitude_cons_nil H T

theorem bind_mul_nil (x : Option unit_magnitude) :
    x.bind (fun r => mul (remove_positive_power ⟨Base.negative_tag, 1⟩) r) = x := by
  have h : remove_positive_power ⟨Base.negative_tag, 1⟩ = [] := by decide!
  cases x with
  | none => rfl
  | some r => simp only [Option.some_bind, h]; exact multiply_impl_nil_left _ _

/-- The sentinel of one operand alone is dropped by `common_magnitude` (left operand). -/
theorem common_magnitude_sentinel_left (T B : unit_magnitude)
    (hB : ∀ y ∈ B, key_lt ⟨Base.negative_tag, 1⟩ y) :
    common_magnitude (⟨Base.negative_tag, 1⟩ :: T) B = common_magnitude T B := by
  cases B with
  | nil =>
    rw [common_magnitude_cons_nil, common_magnitude_nil_right, remove_positive_powers_sentinel]
  | cons H2 T2 =>
    have h1 : get_base_value (Base.negative_tag) < get_base_value H2.base :=
      hB H2 (List.mem_cons_self _ _)
    rw [common_magnitude_cons_cons]
    simp only [h1, if_true]
    exact bind_mul_nil _

/-- The sentinel of one operand alone is dropped by `common_magnitude` (right operand). -/
theorem common_magnitude_sentinel_right (A T2 : unit_magnitude)
    (hA : ∀ y ∈ A, key_lt ⟨Base.negative_tag, 1⟩ y) :
    common_magnitude A (⟨Base.negative_tag, 1⟩ :: T2) = common_magnitude A T2 := by
  cases A with
  | nil =>
    rw [common_magnitude_nil_cons, common_magnitude_nil_left, remove_positive_powers_sentinel]
  | cons H T =>
    have h1 : get_base_value (Base.negative_tag) < get_base_value H.base :=
      hA H (List.mem_cons_self _ _)
    rw [common_magnitude_cons_cons]
    simp only [not_lt.2 (le_of_lt h1), h1, if_true, if_false]
    exact bind_mul_nil _

/-- Two sentinels: the common magnitude is the sentinel times that of the tails. -/
theorem common_magnitude_sentinel_both (T T2 : unit_magnitude) :
    common_magnitude (⟨Base.negative_tag, 1⟩ :: T) (⟨Base.negative_tag, 1⟩ :: T2) =
      (common_magnitude T T2).bind (fun common_tail => mul [⟨Base.negative_tag, 1⟩] common_tail) := by
  rw [common_magnitude_cons_cons]
  simp only [lt_irrefl, if_false]

/-- C14: the sign of `common_magnitude` follows the signs of the operands.  For all
canonical `A` and `B`, `common_magnitude(A, B)` and
`common_magnitude(abs_magnitude(A), abs_magnitude(B))` are defined; when `A` and `B` are
both negative the first is negative and equals `mag<-1>` times the second; when exactly
one of them is negative the two are equal and positive. -/
theorem common_magnitude_sign (A B : unit_magnitude) (hA : Canonical A) (hB : Canonical B) :
    ∃ C C', common_magnitude A B = some C ∧
      common_magnitude (abs_magnitude A) (abs_magnitude B) = some C' ∧
      (check_magnitude_is_positive A = false → check_magnitude_is_positive B = false →
        check_magnitude_is_positive C = false ∧
          (mag (-1)).bind (fun minus_one => mul minus_one C') = some C) ∧
      (check_magnitude_is_positive A ≠ check_magnitude_is_positive B →
        check_magnitude_is_positive C = true ∧ C = C') := by
  obtain ⟨C, hC, hCc, _, _, hCs⟩ := common_magnitude_total A B hA hB
  obtain ⟨C', hC', _⟩ := common_magnitude_total (abs_magnitude A) (abs_magnitude B)
    (abs_magnitude_spec hA).1 (abs_magnitude_spec hB).1
  refine ⟨C, C', hC, hC', ?_, ?_⟩
  · intro hnA hnB
    obtain ⟨T, hAT, _, _, habsA, _⟩ := negative_shape hA hnA
    obtain ⟨T2, hBT, _, _, habsB, _⟩ := negative_shape hB hnB
    constructor
    · rw [check_positive_eq hCc, hCs]
      have h1 : has_sentinel A = true := by
        rw [check_positive_eq hA] at hnA; simpa using hnA
      have h2 : has_sentinel B = true := by
        rw [check_positive_eq hB] at hnB; simpa using hnB
      rw [h1, h2]; rfl
    · rw [mag_neg_one, Option.some_bind, ← hC]
      rw [habsA, habsB] at hC'
      rw [hAT, hBT, common_magnitude_sentinel_both, hC', Option.some_bind]
  · intro hne
    have hpos : check_magnitude_is_positive C = true := by
      rw [check_positive_eq hCc, hCs]
      rw [check_positive_eq hA, check_positive_eq hB] at hne
      cases hsA : has_sentinel A <;> cases hsB : has_sentinel B <;> simp_all
    refine ⟨hpos, ?_⟩
    cases hpA : check_magnitude_is_positive A with
    | false =>
      have hpB : check_magnitude_is_positive B = true := by
        cases h : check_magnitude_is_positive B
        · rw [hpA, h] at hne; exact absurd rfl hne
        · rfl
      obtain ⟨T, hAT, _, _, habsA, _⟩ := negative_shape hA hpA
      obtain ⟨habsB, _, hBab⟩ := positive_shape hB hpB
      rw [habsA, habsB] at hC'
      rw [hAT, common_magnitude_sentinel_left T B hBab, hC'] at hC
      exact (Option.some.inj hC).symm
    | true =>
      have hpB : check_magnitude_is_positive B = false := by
        cases h : check_magnitude_is_positive B
        · rfl
        · rw [hpA, h] at hne; exact absurd rfl hne
      obtain ⟨T2, hBT, _, _, habsB, _⟩ := negative_shape hB hpB
      obtain ⟨habsA, _, hAab⟩ := positive_shape hA hpA
      rw [habsA, habsB] at hC'
      rw [hBT, common_magnitude_sentinel_right A T2 hAab, hC'] at hC
      exact (Option.some.inj hC).symm

/-- Witness of C14: `common_magnitude(mag<-2>, mag<-4>)` and
`common_magnitude(mag<2>, mag<4>)`. -/
theorem common_magnitude_sign_witness :
    ∃ C C', common_magnitude [⟨Base.negative_tag, 1⟩, ⟨Base.integral 2, 1⟩]
          [⟨Base.negative_tag, 1⟩, ⟨Base.integral 2, 2⟩] = some C ∧
      common_magnitude
          (abs_magnitude [⟨Base.negative_tag, 1⟩, ⟨Base.integral 2, 1⟩])
          (abs_magnitude [⟨Base.negative_tag, 1⟩, ⟨Base.integral 2, 2⟩]) = some C' ∧
      (check_magnitude_is_positive [⟨Base.negative_tag, 1⟩, ⟨Base.integral 2, 1⟩] = false →
        check_magnitude_is_positive [⟨Base.negative_tag, 1⟩, ⟨Base.integral 2, 2⟩] = false →
        check_magnitude_is_positive C = false ∧
          (mag (-1)).bind (fun minus_one => mul minus_one C') = some C) ∧
      (check_magnitude_is_positive [⟨Base.negative_tag, 1⟩, ⟨Base.integral 2, 1⟩] ≠
          check_magnitude_is_positive [⟨Base.negative_tag, 1⟩, ⟨Base.integral 2, 2⟩] →
        check_magnitude_is_positive C = true ∧ C = C') :=
  common_magnitude_sign _ _ (by decide!) (by decide!)

/-- The sign cases of `common_magnitude` on the integers `2` and `4`: both negative gives
`mag<-2>`, one negative gives `mag<2>`. -/
theorem common_magnitude_sign_examples :
    common_magnitude [⟨Base.negative_tag, 1⟩, ⟨Base.integral 2, 1⟩]
        [⟨Base.negative_tag, 1⟩, ⟨Base.integral 2, 2⟩] =
      some [⟨Base.negative_tag, 1⟩, ⟨Base.integral 2, 1⟩] ∧
    common_magnitude [⟨Base.integral 2, 1⟩] [⟨Base.negative_tag, 1⟩, ⟨Base.integral 2, 2⟩] =
      some [⟨Base.integral 2, 1⟩] ∧
    common_magnitude [⟨Base.negative_tag, 1⟩, ⟨Base.integral 2, 1⟩] [⟨Base.integral 2, 2⟩] =
      some [⟨Base.integral 2, 1⟩] := by
  decide!



/-! ### Claim C12 -/

/-- The shape of `mag<a>` for a positive integer `a`. -/
theorem mag_nat_spec {a : Nat} (ha : 0 < a) :
    ∃ R, mag (a : Int) = some R ∧ Canonical R ∧ has_sentinel R = false ∧
      (∀ e ∈ R, e.base = Base.negative_tag ∨
        ∃ p : Nat, p.Prime ∧ p ∣ a ∧ e.base = Base.integral (p : Int)) ∧
      (∀ p : Nat, p.Prime → expo R (Base.integral (p : Int)) = (a.factorization p : ℚ)) := by
  have hV : (a : Int) ≠ 0 := by exact_mod_cast (Nat.pos_iff_ne_zero.1 ha)
  obtain ⟨R, hR, hRc, hRs, hRb, hRe⟩ := mag_spec hV
  refine ⟨R, hR, hRc, ?_, ?_, ?_⟩
  · rw [hRs]
    exact decide_eq_false (by omega)
  · simpa using hRb
  · intro p hp
    rw [hRe p hp, Int.natAbs_ofNat, multiplicity_eq hp ha]

/-- Two canonical magnitudes over the sentinel and prime bases are the same pack when they
have the same sign and the same exponent on every prime. -/
theorem rational_ext {X Y : unit_magnitude} {n m : Nat} (hX : Canonical X) (hY : Canonical Y)
    (hXb : ∀ e ∈ X, e.base = Base.negative_tag ∨
      ∃ p : Nat, p.Prime ∧ p ∣ n ∧ e.base = Base.integral (p : Int))
    (hYb : ∀ e ∈ Y, e.base = Base.negative_tag ∨
      ∃ p : Nat, p.Prime ∧ p ∣ m ∧ e.base = Base.integral (p : Int))
    (hs : has_sentinel X = has_sentinel Y)
    (he : ∀ p : Nat, p.Prime →
      expo X (Base.integral (p : Int)) = expo Y (Base.integral (p : Int))) : X = Y := by
  apply canonical_ext hX hY _ hs
  intro b hb
  by_cases hp : ∃ p : Nat, p.Prime ∧ b = Base.integral (p : Int)
  · obtain ⟨p, hp, rfl⟩ := hp
    exact he p hp
  · have hnp : ∀ p : Nat, p.Prime → b ≠ Base.integral (p : Int) :=
      fun p hpp hbp => hp ⟨p, hpp, hbp⟩
    rw [expo_eq_zero_of_not_prime hXb hb hnp, expo_eq_zero_of_not_prime hYb hb hnp]

/-- A canonical positive pack on prime bases whose exponents are natural numbers is
integral. -/
theorem is_integral_of_nat_exponents {Q : unit_magnitude} (hQ : Canonical Q)
    (hb : ∀ e ∈ Q, e.base.is_integral_type = true)
    (hk : ∀ e ∈ Q, ∃ k : Nat, e.exponent = (k : ℚ)) : is_integral Q = true := by
  unfold is_integral
  rw [List.all_eq_true]
  intro e he
  obtain ⟨k, hk⟩ := hk e he
  have h0 : e.exponent ≠ 0 := (hQ.2 e he).2.1
  have hk0 : 0 < k := by
    rcases Nat.eq_zero_or_pos k with h | h
    · rw [h] at hk; exact absurd (by simpa using hk) h0
    · exact h
  have hcast : e.exponent = ((k : Int) : ℚ) := by rw [hk]; norm_cast
  apply is_integral_impl_of_pos_int e (hb e he)
  · rw [hcast]; rfl
  · rw [hcast, Rat.intCast_num]; exact_mod_cast hk0

theorem is_integral_type_of_mag_base {b : Base} {n : Nat} (hb : b ≠ Base.negative_tag)
    (h : b = Base.negative_tag ∨ ∃ p : Nat, p.Prime ∧ p ∣ n ∧ b = Base.integral (p : Int)) :
    b.is_integral_type = true ∧ ∃ p : Nat, p.Prime ∧ b = Base.integral (p : Int) := by
  rcases h with h | ⟨p, hp, _, rfl⟩
  · exact absurd h hb
  · exact ⟨rfl, p, hp, rfl⟩

/-- The quotient of `mag<a>` by `mag<g>` is integral when `g` divides `a`. -/
theorem mag_quotient_integral {a g : Nat} (ha : 0 < a) (hg : 0 < g) (hdvd : g ∣ a)
    {MA G : unit_magnitude} (hMA : mag (a : Int) = some MA) (hG : mag (g : Int) = some G) :
    ∃ Q, div MA G = some Q ∧ is_integral Q = true := by
  obtain ⟨R, hR, hRc, hRs, hRb, hRe⟩ := mag_nat_spec ha
  rw [hMA] at hR; cases hR
  obtain ⟨S, hS, hSc, hSs, hSb, hSe⟩ := mag_nat_spec hg
  rw [hG] at hS; cases hS
  have hcoh : Coherent MA G :=
    coherent_of_no_constant hRc hSc (no_constant_of_mag_bases hRb) (no_constant_of_mag_bases hSb)
  obtain ⟨Q, hQ, hQc, hQb, hQe, hQs⟩ := div_spec hRc hSc hcoh
  have hQs0 : has_sentinel Q = false := by rw [hQs, hRs, hSs]; rfl
  have hbase : ∀ e ∈ Q, e.base.is_integral_type = true ∧
      ∃ p : Nat, p.Prime ∧ e.base = Base.integral (p : Int) := by
    intro e he
    obtain ⟨x, hx, hxb⟩ := hQb e he
    have hn : x.base ≠ Base.negative_tag := by rw [hxb]; exact no_sentinel_mem hQs0 he
    rw [← hxb]
    rcases List.mem_append.1 hx with h | h
    · exact is_integral_type_of_mag_base hn (hRb x h)
    · exact is_integral_type_of_mag_base hn (hSb x h)
  refine ⟨Q, hQ, is_integral_of_nat_exponents hQc (fun e he => (hbase e he).1) ?_⟩
  intro e he
  obtain ⟨_, p, hp, hpb⟩ := hbase e he
  have hle : g.factorization p ≤ a.factorization p :=
    (Nat.factorization_le_iff_dvd (Nat.pos_iff_ne_zero.1 hg) (Nat.pos_iff_ne_zero.1 ha)).2
      hdvd p
  refine ⟨a.factorization p - g.factorization p, ?_⟩
  rw [← expo_of_mem hQc.1 he, hpb, hQe _ (by simp), hRe p hp, hSe p hp, Nat.cast_sub hle]

/-- C12: on integers the common magnitude is the greatest common divisor.  For all
positive integers `a` and `b`: `mag<a>`, `mag<b>` and `mag<gcd(a, b)>` are defined,
`common_magnitude(mag<a>, mag<b>) == mag<gcd(a, b)>`, and the quotients of `mag<a>` and of
`mag<b>` by `mag<gcd(a, b)>` are defined and integral. -/
theorem common_magnitude_gcd (a b : Nat) (ha : 0 < a) (hb : 0 < b) :
    ∃ MA MB G QA QB, mag (a : Int) = some MA ∧ mag (b : Int) = some MB ∧
      mag ((Nat.gcd a b : Nat) : Int) = some G ∧ common_magnitude MA MB = some G ∧
      div MA G = some QA ∧ div MB G = some QB ∧
      is_integral QA = true ∧ is_integral QB = true := by
  have hg : 0 < Nat.gcd a b := Nat.gcd_pos_of_pos_left b ha
  obtain ⟨MA, hMA, hAc, hAs, hAb, hAe⟩ := mag_nat_spec ha
  obtain ⟨MB, hMB, hBc, hBs, hBb, hBe⟩ := mag_nat_spec hb
  obtain ⟨G, hG, hGc, hGs, hGb, hGe⟩ := mag_nat_spec hg
  have hcoh : Coherent MA MB :=
    coherent_of_no_constant hAc hBc (no_constant_of_mag_bases hAb) (no_constant_of_mag_bases hBb)
  obtain ⟨C, hC, hCc, hCb, hCe, hCs⟩ := common_magnitude_spec MA MB hAc hBc hcoh
  have hCb2 : ∀ e ∈ C, e.base = Base.negative_tag ∨
      ∃ p : Nat, p.Prime ∧ p ∣ a * b ∧ e.base = Base.integral (p : Int) := by
    intro e he
    obtain ⟨x, hx, hxb⟩ := hCb e he
    rw [← hxb]
    rcases List.mem_append.1 hx with h | h
    · rcases hAb x h with h1 | ⟨p, hp, hd, hpb⟩
      · exact Or.inl h1
      · exact Or.inr ⟨p, hp, Dvd.dvd.mul_right hd b, hpb⟩
    · rcases hBb x h with h1 | ⟨p, hp, hd, hpb⟩
      · exact Or.inl h1
      · exact Or.inr ⟨p, hp, Dvd.dvd.mul_left hd a, hpb⟩
  have hCG : C = G := by
    apply rational_ext hCc hGc hCb2 hGb
    · rw [hCs, hAs, hBs, hGs]; rfl
    · intro p hp
      rw [hCe _ (by simp), hAe p hp, hBe p hp, hGe p hp,
        Nat.factorization_gcd (Nat.pos_iff_ne_zero.1 ha) (Nat.pos_iff_ne_zero.1 hb)]
      simp [Finsupp.inf_apply, Nat.cast_min]
  obtain ⟨QA, hQA, hQAi⟩ := mag_quotient_integral ha hg (Nat.gcd_dvd_left a b) hMA hG
  obtain ⟨QB, hQB, hQBi⟩ := mag_quotient_integral hb hg (Nat.gcd_dvd_right a b) hMB hG
  exact ⟨MA, MB, G, QA, QB, hMA, hMB, hG, hCG ▸ hC, hQA, hQB, hQAi, hQBi⟩

/-- Witness of C12: `a = 24` and `b = 36`. -/
theorem common_magnitude_gcd_witness :
    ∃ MA MB G QA QB, mag ((24 : Nat) : Int) = some MA ∧ mag ((36 : Nat) : Int) = some MB ∧
      mag ((Nat.gcd 24 36 : Nat) : Int) = some G ∧ common_magnitude MA MB = some G ∧
      div MA G = some QA ∧ div MB G = some QB ∧
      is_integral QA = true ∧ is_integral QB = true :=
  common_magnitude_gcd 24 36 (by decide) (by decide)

/-- The integer cases of the tests: `(24, 36)` gives `mag<12>` with quotients `mag<2>` and
`mag<3>`; `(24, 37)` gives `mag<1>`, the identity. -/
theorem common_magnitude_gcd_examples :
    mag 24 = some [⟨Base.integral 2, 3⟩, ⟨Base.integral 3, 1⟩] ∧
    mag 36 = some [⟨Base.integral 2, 2⟩, ⟨Base.integral 3, 2⟩] ∧
    mag 12 = some [⟨Base.integral 2, 2⟩, ⟨Base.integral 3, 1⟩] ∧
    common_magnitude [⟨Base.integral 2, 3⟩, ⟨Base.integral 3, 1⟩]
        [⟨Base.integral 2, 2⟩, ⟨Base.integral 3, 2⟩] =
      some [⟨Base.integral 2, 2⟩, ⟨Base.integral 3, 1⟩] ∧
    div [⟨Base.integral 2, 3⟩, ⟨Base.integral 3, 1⟩]
        [⟨Base.integral 2, 2⟩, ⟨Base.integral 3, 1⟩] = some [⟨Base.integral 2, 1⟩] ∧
    div [⟨Base.integral 2, 2⟩, ⟨Base.integral 3, 2⟩]
        [⟨Base.integral 2, 2⟩, ⟨Base.integral 3, 1⟩] = some [⟨Base.integral 3, 1⟩] ∧
    mag 37 = some [⟨Base.integral 37, 1⟩] ∧ mag 1 = some [] ∧
    common_magnitude [⟨Base.integral 2, 3⟩, ⟨Base.integral 3, 1⟩] [⟨Base.integral 37, 1⟩] =
      some [] := by
  decide!



/-! ### Claim C13 -/

theorem sentinel_below {m : unit_magnitude} (hm : Canonical m) (hs : has_sentinel m = false) :
    ∀ y ∈ m, key_lt ⟨Base.negative_tag, 1⟩ y := by
  intro y hy
  have h := get_base_value_pos (hm.2 y hy).1 (no_sentinel_mem hs hy)
  show get_base_value Base.negative_tag < get_base_value y.base
  have h1 : get_base_value Base.negative_tag = -1 := rfl
  rw [h1]; linarith

/-- The shape of `mag_ratio<N, D>` for nonzero `N` and `D`, with `V = N / D` in lowest
terms: the sentinel exactly for a negative `V`, and on every prime the multiplicity in the
numerator of `V` less the multiplicity in its denominator. -/
theorem mag_ratio_spec {N D : Int} (hN : N ≠ 0) (hD : D ≠ 0) :
    ∃ R, mag_ratio N D = some R ∧ Canonical R ∧
      has_sentinel R = decide ((ratio.make N D).num < 0) ∧
      (∀ e ∈ R, e.base = Base.negative_tag ∨ ∃ p : Nat, p.Prime ∧
        p ∣ (ratio.make N D).num.natAbs * (ratio.make N D).den ∧
        e.base = Base.integral (p : Int)) ∧
      (∀ p : Nat, p.Prime → expo R (Base.integral (p : Int)) =
        (((ratio.make N D).num.natAbs.factorization p : Nat) : ℚ) -
          (((ratio.make N D).den.factorization p : Nat) : ℚ)) := by
  have hV : ratio.make N D ≠ 0 := ratio_make_ne_zero hN hD
  have hnum : 0 < (ratio.make N D).num.natAbs :=
    Int.natAbs_pos.2 (Rat.num_ne_zero.2 hV)
  have hden : 0 < (ratio.make N D).den := (ratio.make N D).den_pos
  obtain ⟨n, hn, hnc, hnb, hne⟩ := prime_factorization_v_spec hnum
  obtain ⟨d, hd, hdc, hdb, hde⟩ := prime_factorization_v_spec hden
  have hnb2 : ∀ e ∈ n, e.base = Base.negative_tag ∨ ∃ p : Nat, p.Prime ∧
      p ∣ (ratio.make N D).num.natAbs * (ratio.make N D).den ∧
      e.base = Base.integral (p : Int) := by
    intro e he
    obtain ⟨p, hp, hpd, hpb⟩ := hnb e he
    exact Or.inr ⟨p, hp, Dvd.dvd.mul_right hpd _, hpb⟩
  have hdb2 : ∀ e ∈ d, e.base = Base.negative_tag ∨ ∃ p : Nat, p.Prime ∧
      p ∣ (ratio.make N D).num.natAbs * (ratio.make N D).den ∧
      e.base = Base.integral (p : Int) := by
    intro e he
    obtain ⟨p, hp, hpd, hpb⟩ := hdb e he
    exact Or.inr ⟨p, hp, Dvd.dvd.mul_left hpd _, hpb⟩
  have hns : has_sentinel n = false := by
    cases h : has_sentinel n
    · rfl
    · obtain ⟨e, he, heb⟩ := (has_sentinel_iff n).1 h
      obtain ⟨p, _, _, hpb⟩ := hnb e he
      rw [heb] at hpb; cases hpb
  have hds : has_sentinel d = false := by
    cases h : has_sentinel d
    · rfl
    · obtain ⟨e, he, heb⟩ := (has_sentinel_iff d).1 h
      obtain ⟨p, _, _, hpb⟩ := hdb e he
      rw [heb] at hpb; cases hpb
  have hcoh : Coherent n d :=
    coherent_of_no_constant hnc hdc (no_constant_of_mag_bases hnb2) (no_constant_of_mag_bases hdb2)
  obtain ⟨Q, hQ, hQc, hQb, hQe, hQs⟩ := div_spec hnc hdc hcoh
  have hQs0 : has_sentinel Q = false := by rw [hQs, hns, hds]; rfl
  have hQb2 : ∀ e ∈ Q, e.base = Base.negative_tag ∨ ∃ p : Nat, p.Prime ∧
      p ∣ (ratio.make N D).num.natAbs * (ratio.make N D).den ∧
      e.base = Base.integral (p : Int) := by
    intro e he
    obtain ⟨x, hx, hxb⟩ := hQb e he
    rw [← hxb]
    rcases List.mem_append.1 hx with h | h
    · exact hnb2 x h
    · exact hdb2 x h
  have hQe2 : ∀ p : Nat, p.Prime → expo Q (Base.integral (p : Int)) =
      (((ratio.make N D).num.natAbs.factorization p : Nat) : ℚ) -
        (((ratio.make N D).den.factorization p : Nat) : ℚ) := by
    intro p hp
    rw [hQe _ (by simp), hne p hp, hde p hp, multiplicity_eq hp hnum, multiplicity_eq hp hden]
  have hunfold : mag_ratio N D =
      if (ratio.make N D).num < 0 then mul [⟨Base.negative_tag, 1⟩] Q else some Q := by
    simp only [mag_ratio, hN, hD, if_false, hn, hd, hQ, Option.some_bind]
  by_cases hneg : (ratio.make N D).num < 0
  · have hvalid : (⟨Base.negative_tag, 1⟩ : Element).Valid :=
      ⟨trivial, one_ne_zero, fun _ => rfl⟩
    refine ⟨⟨Base.negative_tag, 1⟩ :: Q, ?_, canonical_cons.2 ⟨hvalid, sentinel_below hQc hQs0, hQc⟩,
      ?_, ?_, ?_⟩
    · rw [hunfold, if_pos hneg]
      exact mul_singleton_prepend _ _ (sentinel_below hQc hQs0)
    · rw [has_sentinel_cons]; simp [hneg]
    · intro e he
      rcases List.mem_cons.1 he with h | h
      · exact Or.inl (by rw [h])
      · exact hQb2 e h
    · intro p hp
      rw [expo_cons, hQe2 p hp]
      simp
  · refine ⟨Q, by rw [hunfold, if_neg hneg], hQc, ?_, hQb2, hQe2⟩
    rw [hQs0]; simp [hneg]

/-- A fraction of positive coprime integers is in lowest terms. -/
theorem ratio_make_coprime {p q : Nat} (hq : 0 < q) (h : Nat.gcd p q = 1) :
    (ratio.make (p : Int) (q : Int)).num = (p : Int) ∧ (ratio.make (p : Int) (q : Int)).den = q := by
  unfold ratio.make
  rw [Rat.divInt_eq_div]
  have hq0 : (0 : Int) < (q : Int) := by exact_mod_cast hq
  have hc : Nat.Coprime (p : Int).natAbs (q : Int).natAbs := by
    simpa [Nat.Coprime] using h
  exact ⟨Rat.num_div_eq_of_coprime hq0 hc, by exact_mod_cast Rat.den_div_eq_of_coprime hq0 hc⟩

/-- The shape of `mag_ratio<p, q>` for positive coprime `p` and `q`. -/
theorem mag_ratio_coprime_spec {p q : Nat} (hp : 0 < p) (hq : 0 < q) (h : Nat.gcd p q = 1) :
    ∃ R, mag_ratio (p : Int) (q : Int) = some R ∧ Canonical R ∧ has_sentinel R = false ∧
      (∀ e ∈ R, e.base = Base.negative_tag ∨ ∃ r : Nat, r.Prime ∧ r ∣ p * q ∧
        e.base = Base.integral (r : Int)) ∧
      (∀ r : Nat, r.Prime → expo R (Base.integral (r : Int)) =
        ((p.factorization r : Nat) : ℚ) - ((q.factorization r : Nat) : ℚ)) := by
  have hN : (p : Int) ≠ 0 := by exact_mod_cast (Nat.pos_iff_ne_zero.1 hp)
  have hD : (q : Int) ≠ 0 := by exact_mod_cast (Nat.pos_iff_ne_zero.1 hq)
  obtain ⟨R, hR, hRc, hRs, hRb, hRe⟩ := mag_ratio_spec hN hD
  obtain ⟨h1, h2⟩ := ratio_make_coprime hq h
  rw [h1, h2, Int.natAbs_ofNat] at hRb hRe
  rw [h1] at hRs
  refine ⟨R, hR, hRc, ?_, hRb, hRe⟩
  rw [hRs]
  exact decide_eq_false (by omega)

/-- The arithmetic of the std::chrono convention on one prime: with `a1`, `b1` (and `a2`,
`b2`) the multiplicities in a numerator and a denominator that are coprime. -/
theorem min_sub_of_coprime {a1 b1 a2 b2 : ℚ} (ha1 : 0 ≤ a1) (hb1 : 0 ≤ b1) (ha2 : 0 ≤ a2)
    (hb2 : 0 ≤ b2) (h1 : a1 = 0 ∨ b1 = 0) (h2 : a2 = 0 ∨ b2 = 0) :
    min (a1 - b1) (a2 - b2) = min a1 a2 - max b1 b2 := by
  rcases h1 with h1 | h1 <;> rcases h2 with h2 | h2 <;> subst h1 <;> subst h2 <;>
    simp only [min_def, max_def] <;> split_ifs <;> linarith

theorem factorization_coprime {p q : Nat} (h : Nat.gcd p q = 1) (r : Nat) (hr : r.Prime) :
    p.factorization r = 0 ∨ q.factorization r = 0 := by
  by_cases hd : r ∣ p
  · right
    apply Nat.factorization_eq_zero_of_not_dvd
    intro hdq
    have := Nat.dvd_gcd hd hdq
    rw [h] at this
    exact hr.one_lt.ne' (Nat.dvd_one.1 this)
  · exact Or.inl (Nat.factorization_eq_zero_of_not_dvd hd)



/-- C13: on positive fractions the common magnitude follows the std::chrono convention.
For all positive integers `p1`, `q1`, `p2`, `q2` with `gcd(p1, q1) = gcd(p2, q2) = 1`, the
three magnitudes are defined and
`common_magnitude(mag_ratio<p1, q1>, mag_ratio<p2, q2>) ==
mag_ratio<gcd(p1, p2), lcm(q1, q2)>`. -/
theorem common_magnitude_ratio (p1 q1 p2 q2 : Nat) (hp1 : 0 < p1) (hq1 : 0 < q1)
    (hp2 : 0 < p2) (hq2 : 0 < q2) (h1 : Nat.gcd p1 q1 = 1) (h2 : Nat.gcd p2 q2 = 1) :
    ∃ M1 M2 C, mag_ratio (p1 : Int) (q1 : Int) = some M1 ∧
      mag_ratio (p2 : Int) (q2 : Int) = some M2 ∧
      mag_ratio ((Nat.gcd p1 p2 : Nat) : Int) ((Nat.lcm q1 q2 : Nat) : Int) = some C ∧
      common_magnitude M1 M2 = some C := by
  have hg : 0 < Nat.gcd p1 p2 := Nat.gcd_pos_of_pos_left p2 hp1
  have hl : 0 < Nat.lcm q1 q2 := Nat.lcm_pos hq1 hq2
  have hc1 : Nat.Coprime (Nat.gcd p1 p2) q1 :=
    Nat.Coprime.coprime_dvd_left (Nat.gcd_dvd_left p1 p2) h1
  have hc2 : Nat.Coprime (Nat.gcd p1 p2) q2 :=
    Nat.Coprime.coprime_dvd_left (Nat.gcd_dvd_right p1 p2) h2
  have hgl : Nat.gcd (Nat.gcd p1 p2) (Nat.lcm q1 q2) = 1 :=
    Nat.Coprime.coprime_dvd_right (Nat.lcm_dvd_mul q1 q2) (Nat.Coprime.mul_right hc1 hc2)
  obtain ⟨M1, hM1, hM1c, hM1s, hM1b, hM1e⟩ := mag_ratio_coprime_spec hp1 hq1 h1
  obtain ⟨M2, hM2, hM2c, hM2s, hM2b, hM2e⟩ := mag_ratio_coprime_spec hp2 hq2 h2
  obtain ⟨G, hG, hGc, hGs, hGb, hGe⟩ := mag_ratio_coprime_spec hg hl hgl
  have hcoh : Coherent M1 M2 :=
    coherent_of_no_constant hM1c hM2c (no_constant_of_mag_bases hM1b)
      (no_constant_of_mag_bases hM2b)
  obtain ⟨C, hC, hCc, hCb, hCe, hCs⟩ := common_magnitude_spec M1 M2 hM1c hM2c hcoh
  have hCb2 : ∀ e ∈ C, e.base = Base.negative_tag ∨
      ∃ r : Nat, r.Prime ∧ r ∣ (p1 * q1) * (p2 * q2) ∧ e.base = Base.integral (r : Int) := by
    intro e he
    obtain ⟨x, hx, hxb⟩ := hCb e he
    rw [← hxb]
    rcases List.mem_append.1 hx with h | h
    · rcases hM1b x h with h1 | ⟨r, hr, hd, hrb⟩
      · exact Or.inl h1
      · exact Or.inr ⟨r, hr, Dvd.dvd.mul_right hd _, hrb⟩
    · rcases hM2b x h with h1 | ⟨r, hr, hd, hrb⟩
      · exact Or.inl h1
      · exact Or.inr ⟨r, hr, Dvd.dvd.mul_left hd _, hrb⟩
  have hCG : C = G := by
    apply rational_ext hCc hGc hCb2 hGb
    · rw [hCs, hM1s, hM2s, hGs]; rfl
    · intro r hr
      rw [hCe _ (by simp), hM1e r hr, hM2e r hr, hGe r hr,
        Nat.factorization_gcd (Nat.pos_iff_ne_zero.1 hp1) (Nat.pos_iff_ne_zero.1 hp2),
        Nat.factorization_lcm (Nat.pos_iff_ne_zero.1 hq1) (Nat.pos_iff_ne_zero.1 hq2),
        Finsupp.inf_apply, Finsupp.sup_apply, Nat.cast_min, Nat.cast_max]
      apply min_sub_of_coprime (Nat.cast_nonneg _) (Nat.cast_nonneg _) (Nat.cast_nonneg _)
        (Nat.cast_nonneg _)
      · rcases factorization_coprime h1 r hr with h | h
        · exact Or.inl (by rw [h]; rfl)
        · exact Or.inr (by rw [h]; rfl)
      · rcases factorization_coprime h2 r hr with h | h
        · exact Or.inl (by rw [h]; rfl)
        · exact Or.inr (by rw [h]; rfl)
  exact ⟨M1, M2, G, hM1, hM2, hG, hCG ▸ hC⟩

/-- Witness of C13: `3/8` and `5/6`. -/
theorem common_magnitude_ratio_witness :
    ∃ M1 M2 C, mag_ratio ((3 : Nat) : Int) ((8 : Nat) : Int) = some M1 ∧
      mag_ratio ((5 : Nat) : Int) ((6 : Nat) : Int) = some M2 ∧
      mag_ratio ((Nat.gcd 3 5 : Nat) : Int) ((Nat.lcm 8 6 : Nat) : Int) = some C ∧
      common_magnitude M1 M2 = some C :=
  common_magnitude_ratio 3 8 5 6 (by decide) (by decide) (by decide) (by decide) (by decide)
    (by decide)

/-- The fractional case of the tests: `3/8` and `5/6` have the common magnitude `1/24`. -/
theorem common_magnitude_ratio_example :
    mag_ratio 3 8 = some [⟨Base.integral 2, -3⟩, ⟨Base.integral 3, 1⟩] ∧
    mag_ratio 5 6 = some [⟨Base.integral 2, -1⟩, ⟨Base.integral 3, -1⟩, ⟨Base.integral 5, 1⟩] ∧
    mag_ratio 1 24 = some [⟨Base.integral 2, -3⟩, ⟨Base.integral 3, -1⟩] ∧
    common_magnitude [⟨Base.integral 2, -3⟩, ⟨Base.integral 3, 1⟩]
        [⟨Base.integral 2, -1⟩, ⟨Base.integral 3, -1⟩, ⟨Base.integral 5, 1⟩] =
      some [⟨Base.integral 2, -3⟩, ⟨Base.integral 3, -1⟩] := by
  decide!



/-! ### Claim C17, and powers with exact exponents -/

theorem ratio_make_one : ratio.make 1 1 = 1 := by
  unfold ratio.make
  rw [Rat.divInt_one]
  rfl

/-- C17: for every canonical magnitude `A`, `pow<0>(A)` is the identity (empty) magnitude
and `pow<1>(A) == A`. -/
theorem pow_zero_and_one (A : unit_magnitude) (hA : Canonical A) :
    pow 0 1 A = some [] ∧ pow 1 1 A = some A := by
  refine ⟨rfl, ?_⟩
  obtain ⟨I, hI, hIc, _, hIe, hIs⟩ :=
    pow_spec 1 1 one_ne_zero one_ne_zero hA (by intro _; rw [ratio_make_one]; rfl)
  rw [hI]
  congr 1
  apply canonical_ext hIc hA
  · intro b hb
    rw [hIe b hb, ratio_make_one, mul_one]
  · rw [hIs, ratio_make_one]
    have h : decide (Int.tmod (1 : ℚ).num 2 ≠ 0) = true := by decide
    rw [h, Bool.and_true]

/-- Witness of C17: `A = -2^(1/2) * pi`. -/
theorem pow_zero_and_one_witness :
    pow 0 1 [⟨Base.negative_tag, 1⟩, ⟨Base.integral 2, 1 / 2⟩,
        ⟨Base.constant ⟨0, 3141592653589793 / 1000000000000000⟩, 1⟩] = some [] ∧
      pow 1 1 [⟨Base.negative_tag, 1⟩, ⟨Base.integral 2, 1 / 2⟩,
        ⟨Base.constant ⟨0, 3141592653589793 / 1000000000000000⟩, 1⟩] =
      some [⟨Base.negative_tag, 1⟩, ⟨Base.integral 2, 1 / 2⟩,
        ⟨Base.constant ⟨0, 3141592653589793 / 1000000000000000⟩, 1⟩] :=
  pow_zero_and_one _ (by decide!)

/-- The exponent `Num/Den` in lowest terms: the denominator is `|Den| / gcd(Num, Den)` and
the absolute value of the numerator is `|Num| / gcd(Num, Den)`. -/
theorem ratio_make_lowest_terms (Num : Int) {Den : Int} (hD : Den ≠ 0) :
    (ratio.make Num Den).den = Den.natAbs / Int.gcd Num Den ∧
      (ratio.make Num Den).num.natAbs = Num.natAbs / Int.gcd Num Den := by
  unfold ratio.make
  constructor
  · rw [Rat.den_mk, if_neg hD]
  · rw [Rat.num_mk]
    have hdvd : ((Int.gcd Num Den : Nat) : Int) ∣ Den.sign * Num :=
      Dvd.dvd.mul_left (Int.gcd_dvd_left) _
    rw [Int.natAbs_ediv _ _ hdvd, Int.natAbs_mul, Int.natAbs_sign_of_nonzero hD, one_mul,
      Int.natAbs_ofNat]

theorem tmod_two_eq_zero_iff (a : Int) : Int.tmod a 2 = 0 ↔ a.natAbs % 2 = 0 := by
  constructor
  · intro h
    have h1 : (2 : Int) ∣ a := Int.dvd_of_tmod_eq_zero h
    have h2 : (2 : Nat) ∣ a.natAbs := by
      have := Int.natAbs_dvd_natAbs.2 h1
      simpa using this
    exact Nat.mod_eq_zero_of_dvd h2
  · intro h
    apply Int.tmod_eq_zero_of_dvd
    have h2 : (2 : Nat) ∣ a.natAbs := Nat.dvd_of_mod_eq_zero h
    have : (2 : Int).natAbs ∣ a.natAbs := by simpa using h2
    exact Int.natAbs_dvd_natAbs.1 this

/-- What `pow<Num, Den>` does with the leading sentinel. -/
theorem pow_sentinel_cons (Num Den : Int) (hN : Num ≠ 0) (hD : Den ≠ 0) (T : unit_magnitude) :
    pow Num Den (⟨Base.negative_tag, 1⟩ :: T) =
      if (ratio.make Num Den).den % 2 = 1 then
        (pow Num Den T).bind (fun rest_powered =>
          if Int.tmod (ratio.make Num Den).num 2 = 0 then some rest_powered
          else mul [⟨Base.negative_tag, 1⟩] rest_powered)
      else none := by
  have hs : Element.is_negative_tag ⟨Base.negative_tag, 1⟩ = true := by decide!
  have hT : pow Num Den T = pow_magnitude Num Den T := by
    unfold pow
    rw [if_neg hN]
  rw [hT]
  unfold pow
  rw [if_neg hN, pow_magnitude]
  simp only [hD, if_false, hs, if_true]

/-- When `pow<Num, Den>` with `Den != 0` is rejected on a canonical magnitude: the even
root of a negative magnitude, and nothing else. -/
theorem pow_none_iff (Num : Int) {Den : Int} (hD : Den ≠ 0) {A : unit_magnitude}
    (hA : Canonical A) :
    pow Num Den A = none ↔
      (check_magnitude_is_positive A = false ∧ Num ≠ 0 ∧ (ratio.make Num Den).den % 2 = 0) := by
  by_cases hN : Num = 0
  · subst hN
    constructor
    · intro h; simp [pow] at h
    · rintro ⟨_, h, _⟩; exact absurd rfl h
  · by_cases hp : check_magnitude_is_positive A = true
    · have hs : has_sentinel A = false := (positive_shape hA hp).2.1
      obtain ⟨I, hI, _⟩ := pow_spec Num Den hN hD hA (by rw [hs]; intro h; cases h)
      rw [hI, hp]
      simp
    · have hp2 : check_magnitude_is_positive A = false := by
        cases h : check_magnitude_is_positive A
        · rfl
        · exact absurd h hp
      obtain ⟨T, hAT, _, _, _, _⟩ := negative_shape hA hp2
      by_cases hodd : (ratio.make Num Den).den % 2 = 1
      · obtain ⟨I, hI, _⟩ := pow_spec Num Den hN hD hA (fun _ => hodd)
        rw [hI]
        constructor
        · intro h; cases h
        · rintro ⟨_, _, h⟩; omega
      · constructor
        · intro _
          exact ⟨hp2, hN, by omega⟩
        · intro _
          rw [hAT, pow_sentinel_cons Num Den hN hD, if_neg hodd]

/-- Whatever `pow<Num, Den>` returns on a canonical magnitude is canonical. -/
theorem pow_canonical (Num Den : Int) {A R : unit_magnitude} (hA : Canonical A)
    (hR : pow Num Den A = some R) : Canonical R := by
  by_cases hN : Num = 0
  · subst hN
    have : R = [] := by simpa [pow] using hR.symm
    rw [this]; exact canonical_nil
  · by_cases hD : Den = 0
    · subst hD
      cases A with
      | nil =>
        have : R = [] := by simpa [pow, hN, pow_magnitude] using hR.symm
        rw [this]; exact canonical_nil
      | cons H T =>
        unfold pow at hR
        rw [if_neg hN, pow_magnitude] at hR
        simp at hR
    · have hnot : ¬ (check_magnitude_is_positive A = false ∧ Num ≠ 0 ∧
          (ratio.make Num Den).den % 2 = 0) := by
        intro h
        rw [(pow_none_iff Num hD hA).2 h] at hR
        cases hR
      have hodd : has_sentinel A = true → (ratio.make Num Den).den % 2 = 1 := by
        intro hs
        have hp : check_magnitude_is_positive A = false := by
          rw [check_positive_eq hA, hs]; rfl
        by_contra hne
        exact hnot ⟨hp, hN, by omega⟩
      obtain ⟨I, hI, hIc, _⟩ := pow_spec Num Den hN hD hA hodd
      rw [hI] at hR
      cases hR
      exact hIc

/-- With exponents kept as exact ratios (the conversion to the `int` parameters of
`power_v` aside): for a canonical magnitude `A` and `Den != 0`, `pow<Num, Den>(A)` is
rejected exactly when `A` is negative, `Num != 0` and `Num/Den` in lowest terms has an
even denominator (`|Den| / gcd(Num, Den)` is even); in every other case a magnitude is
returned. -/
theorem pow_rejected_iff (Num Den : Int) (A : unit_magnitude) (hD : Den ≠ 0)
    (hA : Canonical A) :
    (pow Num Den A = none ↔
      (check_magnitude_is_positive A = false ∧ Num ≠ 0 ∧
        (Den.natAbs / Int.gcd Num Den) % 2 = 0)) ∧
    (¬ (check_magnitude_is_positive A = false ∧ Num ≠ 0 ∧
        (Den.natAbs / Int.gcd Num Den) % 2 = 0) → ∃ R, pow Num Den A = some R) := by
  have key := pow_none_iff Num hD hA
  rw [(ratio_make_lowest_terms Num hD).1] at key
  refine ⟨key, ?_⟩
  intro h
  cases hpow : pow Num Den A with
  | none => exact absurd (key.1 hpow) h
  | some R => exact ⟨R, rfl⟩

/-- An instance: `pow<1, 2>(mag<-4>)` is rejected. -/
theorem pow_rejected_iff_witness :
    (pow 1 2 [⟨Base.negative_tag, 1⟩, ⟨Base.integral 2, 2⟩] = none ↔
      (check_magnitude_is_positive [⟨Base.negative_tag, 1⟩, ⟨Base.integral 2, 2⟩] = false ∧
        (1 : Int) ≠ 0 ∧ ((2 : Int).natAbs / Int.gcd 1 2) % 2 = 0)) ∧
    (¬ (check_magnitude_is_positive [⟨Base.negative_tag, 1⟩, ⟨Base.integral 2, 2⟩] = false ∧
        (1 : Int) ≠ 0 ∧ ((2 : Int).natAbs / Int.gcd 1 2) % 2 = 0) →
      ∃ R, pow 1 2 [⟨Base.negative_tag, 1⟩, ⟨Base.integral 2, 2⟩] = some R) :=
  pow_rejected_iff 1 2 _ (by decide) (by decide!)

/-- The even root of `mag<-4>` is rejected; its cube root and its square are returned. -/
theorem pow_negative_examples :
    mag (-4) = some [⟨Base.negative_tag, 1⟩, ⟨Base.integral 2, 2⟩] ∧
    pow 1 2 [⟨Base.negative_tag, 1⟩, ⟨Base.integral 2, 2⟩] = none ∧
    pow 1 3 [⟨Base.negative_tag, 1⟩, ⟨Base.integral 2, 2⟩] =
      some [⟨Base.negative_tag, 1⟩, ⟨Base.integral 2, 2 / 3⟩] ∧
    pow 2 1 [⟨Base.negative_tag, 1⟩, ⟨Base.integral 2, 2⟩] = some [⟨Base.integral 2, 4⟩] ∧
    pow 2 4 [⟨Base.negative_tag, 1⟩, ⟨Base.integral 2, 2⟩] = none ∧
    pow 0 2 [⟨Base.negative_tag, 1⟩, ⟨Base.integral 2, 2⟩] = some [] ∧
    pow 1 2 [⟨Base.integral 2, 2⟩] = some [⟨Base.integral 2, 1⟩] := by
  decide!

/-- With exponents kept as exact ratios (the conversion to the `int` parameters of
`power_v` aside): for every negative canonical magnitude `A` and every exponent `Num/Den`
with `Num != 0` (and `Den != 0`) whose lowest-terms denominator `|Den| / gcd(Num, Den)` is
odd,
`pow<Num, Den>(A)` is defined, it is negative exactly when the lowest-terms numerator
(`|Num| / gcd(Num, Den)` in absolute value) is odd, and
`abs_magnitude(pow<Num, Den>(A)) == pow<Num, Den>(abs_magnitude(A))`. -/
theorem pow_negative_sign (Num Den : Int) (A : unit_magnitude) (hA : Canonical A)
    (hneg : check_magnitude_is_positive A = false) (hN : Num ≠ 0) (hD : Den ≠ 0)
    (hodd : (Den.natAbs / Int.gcd Num Den) % 2 = 1) :
    ∃ R, pow Num Den A = some R ∧
      (check_magnitude_is_positive R = false ↔ (Num.natAbs / Int.gcd Num Den) % 2 = 1) ∧
      pow Num Den (abs_magnitude A) = some (abs_magnitude R) := by
  obtain ⟨T, hAT, hTc, hTs, habs, _⟩ := negative_shape hA hneg
  obtain ⟨hden, hnum⟩ := ratio_make_lowest_terms Num hD
  rw [← hden] at hodd
  rw [← hnum]
  obtain ⟨P, hP, hPc, _, _, hPs⟩ :=
    pow_spec Num Den hN hD hTc (by rw [hTs]; intro h; cases h)
  have hPs0 : has_sentinel P = false := by rw [hPs, hTs]; rfl
  have hPpos : check_magnitude_is_positive P = true := by rw [check_positive_eq hPc, hPs0]; rfl
  rw [habs, hP, hAT, pow_sentinel_cons Num Den hN hD, if_pos hodd, hP, Option.some_bind]
  by_cases he : Int.tmod (ratio.make Num Den).num 2 = 0
  · rw [if_pos he]
    refine ⟨P, rfl, ?_, by rw [abs_magnitude_of_positive hPc hPs0]⟩
    have h0 := (tmod_two_eq_zero_iff _).1 he
    rw [hPpos, h0]
    simp
  · rw [if_neg he, mul_singleton_prepend _ _ (sentinel_below hPc hPs0)]
    have h1 : (ratio.make Num Den).num.natAbs % 2 = 1 := by
      have hne : ¬ (ratio.make Num Den).num.natAbs % 2 = 0 :=
        fun h => he ((tmod_two_eq_zero_iff _).2 h)
      omega
    have hs : Element.is_negative_tag ⟨Base.negative_tag, 1⟩ = true := by decide!
    refine ⟨⟨Base.negative_tag, 1⟩ :: P, rfl, ?_, ?_⟩
    · simp [check_magnitude_is_positive, hs, h1]
    · simp [abs_magnitude, hs]

/-- An instance: `pow<-1>(mag<-2>)`. -/
theorem pow_negative_sign_witness :
    ∃ R, pow (-1) 1 [⟨Base.negative_tag, 1⟩, ⟨Base.integral 2, 1⟩] = some R ∧
      (check_magnitude_is_positive R = false ↔
        ((-1 : Int).natAbs / Int.gcd (-1) 1) % 2 = 1) ∧
      pow (-1) 1 (abs_magnitude [⟨Base.negative_tag, 1⟩, ⟨Base.integral 2, 1⟩]) =
        some (abs_magnitude R) :=
  pow_negative_sign (-1) 1 _ (by decide!) (by decide!) (by decide) (by decide) (by decide)

/-- Powers of `mag<-2>` in the tests: `pow<-1>(mag<-2>) == mag_ratio<-1, 2>`, the square is
`mag<4>`, the cube `mag<-8>`. -/
theorem pow_negative_sign_examples :
    mag (-2) = some [⟨Base.negative_tag, 1⟩, ⟨Base.integral 2, 1⟩] ∧
    pow (-1) 1 [⟨Base.negative_tag, 1⟩, ⟨Base.integral 2, 1⟩] =
      some [⟨Base.negative_tag, 1⟩, ⟨Base.integral 2, -1⟩] ∧
    mag_ratio (-1) 2 = some [⟨Base.negative_tag, 1⟩, ⟨Base.integral 2, -1⟩] ∧
    pow 2 1 [⟨Base.negative_tag, 1⟩, ⟨Base.integral 2, 1⟩] = some [⟨Base.integral 2, 2⟩] ∧
    mag 4 = some [⟨Base.integral 2, 2⟩] ∧
    pow 3 1 [⟨Base.negative_tag, 1⟩, ⟨Base.integral 2, 1⟩] =
      some [⟨Base.negative_tag, 1⟩, ⟨Base.integral 2, 3⟩] ∧
    mag (-8) = some [⟨Base.negative_tag, 1⟩, ⟨Base.integral 2, 3⟩] := by
  decide!



/-! ### Claim C16: structural and mathematical equality -/

theorem padicValRat_zpow (p : Nat) [hp : Fact p.Prime] {q : ℚ} (hq : q ≠ 0) (k : Int) :
    padicValRat p (q ^ k) = k * padicValRat p q := by
  cases k with
  | ofNat n =>
    rw [Int.ofNat_eq_coe, zpow_natCast, padicValRat.pow hq]
  | negSucc n =>
    rw [zpow_negSucc, padicValRat.inv, padicValRat.pow hq, Int.negSucc_eq]
    push_cast
    ring

theorem padicValRat_prime (p q : Nat) [hp : Fact p.Prime] (hq : q.Prime) :
    padicValRat p (q : ℚ) = if q = p then 1 else 0 := by
  rw [padicValRat.of_nat]
  by_cases h : q = p
  · subst h
    simp
  · haveI : Fact q.Prime := ⟨hq⟩
    rw [if_neg h, padicValNat_primes (fun hpq => h hpq.symm)]
    rfl

/-- An element of a canonical rational magnitude is the bare sentinel or an integer power
of a prime. -/
theorem rational_element {e : Element} (he : e.Valid) (hr : is_rational_impl e = true) :
    (e.base = Base.negative_tag ∧ e.exponent = 1) ∨
      ∃ q : Nat, q.Prime ∧ e.base = Base.integral (q : Int) ∧
        e.exponent = ((e.exponent.num : Int) : ℚ) := by
  by_cases hs : e.base = Base.negative_tag
  · exact Or.inl ⟨hs, he.2.2 hs⟩
  · right
    obtain ⟨hi, hd⟩ := (is_rational_impl_iff hs).1 hr
    have hv := he.1
    cases hb : e.base with
    | negative_tag => exact absurd hb hs
    | constant c => rw [hb] at hi; cases hi
    | integral v =>
      rw [hb] at hv
      refine ⟨v.toNat, hv.2, ?_, (exponent_eq_num hd).symm⟩
      rw [Int.toNat_of_nonneg hv.1]

/-- The value of one element of a canonical rational magnitude: it is nonzero, negative
exactly for the sentinel, and its valuation at a prime is its exponent on that prime. -/
theorem rational_element_value {e : Element} (he : e.Valid) (hr : is_rational_impl e = true) :
    get_base_value e.base ^ e.exponent.num ≠ 0 ∧
      (e.base = Base.negative_tag → get_base_value e.base ^ e.exponent.num < 0) ∧
      (e.base ≠ Base.negative_tag → 0 < get_base_value e.base ^ e.exponent.num) ∧
      ∀ p : Nat, p.Prime →
        ((padicValRat p (get_base_value e.base ^ e.exponent.num) : Int) : ℚ) =
          if e.base = Base.integral (p : Int) then e.exponent else 0 := by
  rcases rational_element he hr with ⟨hb, hx⟩ | ⟨q, hq, hb, hx⟩
  · have hval : get_base_value e.base ^ e.exponent.num = -1 := by
      rw [hb, hx]
      norm_num [get_base_value]
    rw [hval]
    refine ⟨by norm_num, fun _ => by norm_num, fun h => absurd hb h, ?_⟩
    intro p _
    rw [padicValRat.neg, padicValRat.one, hb]
    simp
  · have hq0 : (0 : ℚ) < (q : ℚ) := by exact_mod_cast hq.pos
    have hbv : get_base_value e.base = (q : ℚ) := by
      rw [hb]; simp [get_base_value]
    rw [hbv]
    refine ⟨zpow_ne_zero _ (ne_of_gt hq0), fun h => ?_, fun _ => zpow_pos hq0 _, ?_⟩
    · rw [hb] at h; cases h
    · intro p hp
      haveI : Fact p.Prime := ⟨hp⟩
      rw [padicValRat_zpow p (ne_of_gt hq0), padicValRat_prime p q hq, hb]
      by_cases hqp : q = p
      · subst hqp
        simp only [if_true, mul_one]
        exact hx.symm
      · have hne : ¬ Base.integral (q : Int) = Base.integral (p : Int) := by
          intro h
          injection h with h
          exact hqp (by exact_mod_cast h)
        simp [hqp, hne]

/-- The rational number a canonical rational magnitude denotes determines its sign and its
exponent on every prime. -/
theorem rational_value_spec : ∀ (m : unit_magnitude), Canonical m → is_rational m = true →
    magnitude_value m ≠ 0 ∧
      (has_sentinel m = true → magnitude_value m < 0) ∧
      (has_sentinel m = false → 0 < magnitude_value m) ∧
      ∀ p : Nat, p.Prime →
        ((padicValRat p (magnitude_value m) : Int) : ℚ) = expo m (Base.integral (p : Int)) := by
  intro m
  induction m with
  | nil =>
    intro _ _
    refine ⟨by simp, by simp, by simp, ?_⟩
    intro p _
    simp [expo_nil]
  | cons e m ih =>
    intro hm hr
    obtain ⟨hev, hem, hmc⟩ := canonical_cons.1 hm
    obtain ⟨hre, hrm⟩ := is_rational_cons.1 hr
    obtain ⟨h0, _, hpos, hval⟩ := ih hmc hrm
    obtain ⟨e0, eneg, epos, eval⟩ := rational_element_value hev hre
    have hms : has_sentinel m = false := has_sentinel_eq_false_of_above (above_of_key_lt hev hem)
    have hmpos := hpos hms
    rw [magnitude_value_cons]
    refine ⟨mul_ne_zero e0 h0, ?_, ?_, ?_⟩
    · intro h
      rw [has_sentinel_cons, hms, Bool.or_false] at h
      exact mul_neg_of_neg_of_pos (eneg (by simpa using h)) hmpos
    · intro h
      rw [has_sentinel_cons, hms, Bool.or_false] at h
      exact mul_pos (epos (by simpa using h)) hmpos
    · intro p hp
      haveI : Fact p.Prime := ⟨hp⟩
      rw [padicValRat.mul e0 h0, expo_cons, ← hval p hp, ← eval p hp]
      push_cast
      rfl

theorem rational_bases {m : unit_magnitude} (hm : Canonical m) (hr : is_rational m = true) :
    ∀ e ∈ m, e.base = Base.negative_tag ∨
      ∃ p : Nat, p.Prime ∧ p ∣ 0 ∧ e.base = Base.integral (p : Int) := by
  intro e he
  have hre : is_rational_impl e = true := by
    unfold is_rational at hr
    exact List.all_eq_true.1 hr e he
  rcases rational_element (hm.2 e he) hre with ⟨hb, _⟩ | ⟨q, hq, hb, _⟩
  · exact Or.inl hb
  · exact Or.inr ⟨q, hq, dvd_zero q, hb⟩

/-- C16: structural equality coincides with mathematical equality.  For canonical rational
magnitudes `A` and `B`, `A == B` (the same element sequence) if and only if they denote
the same rational number, the signed product of `base ^ exponent`. -/
theorem eq_iff_magnitude_value_eq (A B : unit_magnitude) (hA : Canonical A) (hB : Canonical B)
    (hrA : is_rational A = true) (hrB : is_rational B = true) :
    A = B ↔ magnitude_value A = magnitude_value B := by
  constructor
  · intro h; rw [h]
  · intro h
    obtain ⟨_, hAn, hAp, hAv⟩ := rational_value_spec A hA hrA
    obtain ⟨_, hBn, hBp, hBv⟩ := rational_value_spec B hB hrB
    apply rational_ext hA hB (rational_bases hA hrA) (rational_bases hB hrB)
    · cases hsA : has_sentinel A <;> cases hsB : has_sentinel B
      · rfl
      · have h1 := hAp hsA
        have h2 := hBn hsB
        rw [h] at h1
        exact absurd h1 (not_lt.2 (le_of_lt h2))
      · have h1 := hAn hsA
        have h2 := hBp hsB
        rw [h] at h1
        exact absurd h1 (not_lt.2 (le_of_lt h2))
      · rfl
    · intro p hp
      rw [← hAv p hp, ← hBv p hp, h]

/-- Witness of C16: `-3/8` and `3/8` differ as packs and as numbers. -/
theorem eq_iff_magnitude_value_eq_witness :
    [⟨Base.negative_tag, 1⟩, ⟨Base.integral 2, -3⟩, ⟨Base.integral 3, 1⟩] =
        ([⟨Base.integral 2, -3⟩, ⟨Base.integral 3, 1⟩] : unit_magnitude) ↔
      magnitude_value [⟨Base.negative_tag, 1⟩, ⟨Base.integral 2, -3⟩, ⟨Base.integral 3, 1⟩] =
        magnitude_value [⟨Base.integral 2, -3⟩, ⟨Base.integral 3, 1⟩] :=
  eq_iff_magnitude_value_eq _ _ (by decide!) (by decide!) (by decide!) (by decide!)

/-- The numbers denoted by `mag_ratio<-3, 8>` and `mag_ratio<3, 8>`. -/
theorem magnitude_value_examples :
    magnitude_value [⟨Base.negative_tag, 1⟩, ⟨Base.integral 2, -3⟩, ⟨Base.integral 3, 1⟩] =
      -3 / 8 ∧
    magnitude_value [⟨Base.integral 2, -3⟩, ⟨Base.integral 3, 1⟩] = 3 / 8 := by
  norm_num [magnitude_value, get_base_value]



/-! ### Claim C20 -/

/-- The `is_same_v` guard of `multiply_impl` outside one basis: for two named constants
`c` and `d` of the same value, neither `c * d` nor `c / d` has a result. -/
theorem operations_canonical_rejected :
    Canonical [⟨Base.constant ⟨0, 3141592653589793 / 1000000000000000⟩, 1⟩] ∧
      Canonical [⟨Base.constant ⟨1, 3141592653589793 / 1000000000000000⟩, 1⟩] ∧
      ¬ (∃ R, mul [⟨Base.constant ⟨0, 3141592653589793 / 1000000000000000⟩, 1⟩]
          [⟨Base.constant ⟨1, 3141592653589793 / 1000000000000000⟩, 1⟩] = some R ∧
        Canonical R) ∧
      ¬ (∃ Q, div [⟨Base.constant ⟨0, 3141592653589793 / 1000000000000000⟩, 1⟩]
          [⟨Base.constant ⟨1, 3141592653589793 / 1000000000000000⟩, 1⟩] = some Q ∧
        Canonical Q) := by
  have h1 : mul [⟨Base.constant ⟨0, 3141592653589793 / 1000000000000000⟩, 1⟩]
      [⟨Base.constant ⟨1, 3141592653589793 / 1000000000000000⟩, 1⟩] = none := by decide!
  have h2 : div [⟨Base.constant ⟨0, 3141592653589793 / 1000000000000000⟩, 1⟩]
      [⟨Base.constant ⟨1, 3141592653589793 / 1000000000000000⟩, 1⟩] = none := by decide!
  refine ⟨by decide!, by decide!, ?_, ?_⟩
  · rintro ⟨R, hR, _⟩
    rw [h1] at hR; cases hR
  · rintro ⟨Q, hQ, _⟩
    rw [h2] at hQ; cases hQ

/-- The `is_same_v` guard of `multiply_impl` outside one basis: two named constants `c`
and `d` of the same value are both positive, and `c * d` and `c / d` are rejected. -/
theorem mul_div_sign_rejected :
    Canonical [⟨Base.constant ⟨0, 3141592653589793 / 1000000000000000⟩, 1⟩] ∧
      Canonical [⟨Base.constant ⟨1, 3141592653589793 / 1000000000000000⟩, 1⟩] ∧
      check_magnitude_is_positive [⟨Base.constant ⟨0, 3141592653589793 / 1000000000000000⟩, 1⟩] =
        check_magnitude_is_positive
          [⟨Base.constant ⟨1, 3141592653589793 / 1000000000000000⟩, 1⟩] ∧
      ¬ (∃ R, mul [⟨Base.constant ⟨0, 3141592653589793 / 1000000000000000⟩, 1⟩]
          [⟨Base.constant ⟨1, 3141592653589793 / 1000000000000000⟩, 1⟩] = some R ∧
        check_magnitude_is_positive R = true) ∧
      ¬ (∃ Q, div [⟨Base.constant ⟨0, 3141592653589793 / 1000000000000000⟩, 1⟩]
          [⟨Base.constant ⟨1, 3141592653589793 / 1000000000000000⟩, 1⟩] = some Q ∧
        check_magnitude_is_positive Q = true) := by
  have h1 : mul [⟨Base.constant ⟨0, 3141592653589793 / 1000000000000000⟩, 1⟩]
      [⟨Base.constant ⟨1, 3141592653589793 / 1000000000000000⟩, 1⟩] = none := by decide!
  have h2 : div [⟨Base.constant ⟨0, 3141592653589793 / 1000000000000000⟩, 1⟩]
      [⟨Base.constant ⟨1, 3141592653589793 / 1000000000000000⟩, 1⟩] = none := by decide!
  refine ⟨by decide!, by decide!, by decide!, ?_, ?_⟩
  · rintro ⟨R, hR, _⟩
    rw [h1] at hR; cases hR
  · rintro ⟨Q, hQ, _⟩
    rw [h2] at hQ; cases hQ

/-- The sign laws on `2` and `3`: negative times negative is positive, negative times
positive is negative, and the same for quotients. -/
theorem mul_div_sign_examples :
    mul [⟨Base.negative_tag, 1⟩, ⟨Base.integral 2, 1⟩]
        [⟨Base.negative_tag, 1⟩, ⟨Base.integral 3, 1⟩] =
      some [⟨Base.integral 2, 1⟩, ⟨Base.integral 3, 1⟩] ∧
    mul [⟨Base.negative_tag, 1⟩, ⟨Base.integral 2, 1⟩] [⟨Base.integral 3, 1⟩] =
      some [⟨Base.negative_tag, 1⟩, ⟨Base.integral 2, 1⟩, ⟨Base.integral 3, 1⟩] ∧
    div [⟨Base.negative_tag, 1⟩, ⟨Base.integral 2, 1⟩]
        [⟨Base.negative_tag, 1⟩, ⟨Base.integral 3, 1⟩] =
      some [⟨Base.integral 2, 1⟩, ⟨Base.integral 3, -1⟩] ∧
    div [⟨Base.integral 2, 1⟩] [⟨Base.negative_tag, 1⟩, ⟨Base.integral 3, 1⟩] =
      some [⟨Base.negative_tag, 1⟩, ⟨Base.integral 2, 1⟩, ⟨Base.integral 3, -1⟩] := by
  decide!



/-! ### Claim C21 -/

/-- C21: `abs_magnitude` is idempotent and yields a positive magnitude.  For every
canonical `A`: `abs_magnitude(abs_magnitude(A)) == abs_magnitude(A)`, `abs_magnitude(A)`
is positive (it has no sentinel), and `abs_magnitude(A) == A` when `A` is positive. -/
theorem abs_magnitude_idempotent (A : unit_magnitude) (hA : Canonical A) :
    abs_magnitude (abs_magnitude A) = abs_magnitude A ∧
      check_magnitude_is_positive (abs_magnitude A) = true ∧
      has_sentinel (abs_magnitude A) = false ∧
      (check_magnitude_is_positive A = true → abs_magnitude A = A) := by
  obtain ⟨hc, hs, _, _⟩ := abs_magnitude_spec hA
  refine ⟨abs_magnitude_of_positive hc hs, ?_, hs, fun hp => (positive_shape hA hp).1⟩
  rw [check_positive_eq hc, hs]
  rfl

/-- Witness of C21: `A = -2^2 * 3^(1/2)`. -/
theorem abs_magnitude_idempotent_witness :
    abs_magnitude (abs_magnitude
        [⟨Base.negative_tag, 1⟩, ⟨Base.integral 2, 2⟩, ⟨Base.integral 3, 1 / 2⟩]) =
      abs_magnitude [⟨Base.negative_tag, 1⟩, ⟨Base.integral 2, 2⟩, ⟨Base.integral 3, 1 / 2⟩] ∧
    check_magnitude_is_positive (abs_magnitude
        [⟨Base.negative_tag, 1⟩, ⟨Base.integral 2, 2⟩, ⟨Base.integral 3, 1 / 2⟩]) = true ∧
    has_sentinel (abs_magnitude
        [⟨Base.negative_tag, 1⟩, ⟨Base.integral 2, 2⟩, ⟨Base.integral 3, 1 / 2⟩]) = false ∧
    (check_magnitude_is_positive
        [⟨Base.negative_tag, 1⟩, ⟨Base.integral 2, 2⟩, ⟨Base.integral 3, 1 / 2⟩] = true →
      abs_magnitude [⟨Base.negative_tag, 1⟩, ⟨Base.integral 2, 2⟩, ⟨Base.integral 3, 1 / 2⟩] =
        [⟨Base.negative_tag, 1⟩, ⟨Base.integral 2, 2⟩, ⟨Base.integral 3, 1 / 2⟩]) :=
  abs_magnitude_idempotent _ (by decide!)

/-- The cases of the tests: `abs_magnitude(mag<-4>)` is `mag<4>`, and stays so. -/
theorem abs_magnitude_examples :
    abs_magnitude [⟨Base.negative_tag, 1⟩, ⟨Base.integral 2, 2⟩] = [⟨Base.integral 2, 2⟩] ∧
    abs_magnitude (abs_magnitude [⟨Base.negative_tag, 1⟩, ⟨Base.integral 2, 2⟩]) =
      [⟨Base.integral 2, 2⟩] ∧
    abs_magnitude [⟨Base.integral 2, 2⟩] = [⟨Base.integral 2, 2⟩] ∧
    abs_magnitude ([] : unit_magnitude) = [] := by
  decide!

/-! ### The number a constructed magnitude denotes -/

/-- A positive rational number whose valuation at every prime is zero is `1`. -/
theorem rat_eq_one_of_padicValRat {r : ℚ} (hr : 0 < r)
    (h : ∀ p : Nat, p.Prime → padicValRat p r = 0) : r = 1 := by
  have hnum : 0 < r.num := Rat.num_pos.2 hr
  have hnat : 0 < r.num.natAbs := Int.natAbs_pos.2 (ne_of_gt hnum)
  have hcop : Nat.Coprime r.num.natAbs r.den := r.reduced
  have key : ∀ p : Nat, p.Prime → ¬ p ∣ r.num.natAbs ∧ ¬ p ∣ r.den := by
    intro p hp
    haveI : Fact p.Prime := ⟨hp⟩
    have hv := h p hp
    rw [padicValRat_def] at hv
    have hv2 : padicValNat p r.num.natAbs = padicValNat p r.den := by
      have : padicValInt p r.num = (padicValNat p r.num.natAbs : Int) := rfl
      rw [this] at hv
      omega
    constructor
    · intro hd
      have h1 : 1 ≤ padicValNat p r.num.natAbs := one_le_padicValNat_of_dvd hnat hd
      have h2 : ¬ p ∣ r.den := fun hd2 =>
        hp.one_lt.ne' (Nat.dvd_one.1 (hcop ▸ Nat.dvd_gcd hd hd2))
      rw [hv2, padicValNat.eq_zero_of_not_dvd h2] at h1
      omega
    · intro hd
      have h1 : 1 ≤ padicValNat p r.den := one_le_padicValNat_of_dvd r.den_pos hd
      have h2 : ¬ p ∣ r.num.natAbs := fun hd2 =>
        hp.one_lt.ne' (Nat.dvd_one.1 (hcop ▸ Nat.dvd_gcd hd2 hd))
      rw [← hv2, padicValNat.eq_zero_of_not_dvd h2] at h1
      omega
  have h1 : r.num.natAbs = 1 := Nat.eq_one_iff_not_exists_prime_dvd.2 (fun p hp => (key p hp).1)
  have h2 : r.den = 1 := Nat.eq_one_iff_not_exists_prime_dvd.2 (fun p hp => (key p hp).2)
  have h3 : r.num = 1 := by omega
  rw [← Rat.num_div_den r, h3, h2]
  norm_num

/-- Two nonzero rational numbers of the same sign and with the same valuation at every
prime are equal. -/
theorem rat_eq_of_padicValRat {x y : ℚ} (hx : x ≠ 0) (hy : y ≠ 0) (hs : x < 0 ↔ y < 0)
    (h : ∀ p : Nat, p.Prime → padicValRat p x = padicValRat p y) : x = y := by
  have hr : 0 < x / y := by
    rcases lt_or_gt_of_ne hx with h1 | h1
    · exact div_pos_of_neg_of_neg h1 (hs.1 h1)
    · have h2 : 0 < y := by
        rcases lt_or_gt_of_ne hy with h2 | h2
        · exact absurd (hs.2 h2) (not_lt.2 (le_of_lt h1))
        · exact h2
      exact div_pos h1 h2
  have h1 : x / y = 1 := by
    apply rat_eq_one_of_padicValRat hr
    intro p hp
    haveI : Fact p.Prime := ⟨hp⟩
    rw [padicValRat.div hx hy, h p hp, sub_self]
  exact (div_eq_one_iff_eq hy).1 h1

/-- A canonical pack over the sentinel and primes whose exponents are integers is
rational. -/
theorem is_rational_of_int_exponents {R : unit_magnitude} {n : Nat} (hR : Canonical R)
    (hb : ∀ e ∈ R, e.base = Base.negative_tag ∨
      ∃ p : Nat, p.Prime ∧ p ∣ n ∧ e.base = Base.integral (p : Int))
    (he : ∀ p : Nat, p.Prime → ∃ z : Int, expo R (Base.integral (p : Int)) = (z : ℚ)) :
    is_rational R = true := by
  unfold is_rational
  rw [List.all_eq_true]
  intro e hmem
  rcases hb e hmem with hs | ⟨p, hp, _, hpb⟩
  · exact is_rational_impl_of_sentinel (hR.2 e hmem) hs
  · have hns : e.base ≠ Base.negative_tag := by rw [hpb]; simp
    rw [is_rational_impl_iff hns]
    refine ⟨by rw [hpb]; rfl, ?_⟩
    obtain ⟨z, hz⟩ := he p hp
    rw [← hpb, expo_of_mem hR.1 hmem] at hz
    rw [hz]; rfl

/-- The number denoted by a canonical rational magnitude is the one with its sign and its
exponents as valuations. -/
theorem magnitude_value_eq_of_expo {R : unit_magnitude} (hR : Canonical R)
    (hr : is_rational R = true) {x : ℚ} (hx : x ≠ 0) (hs : has_sentinel R = decide (x < 0))
    (he : ∀ p : Nat, p.Prime →
      expo R (Base.integral (p : Int)) = ((padicValRat p x : Int) : ℚ)) :
    magnitude_value R = x := by
  obtain ⟨h0, hneg, hpos, hval⟩ := rational_value_spec R hR hr
  apply rat_eq_of_padicValRat h0 hx
  · constructor
    · intro h
      by_contra hxn
      have : has_sentinel R = false := by rw [hs]; exact decide_eq_false hxn
      exact absurd h (not_lt.2 (le_of_lt (hpos this)))
    · intro h
      exact hneg (by rw [hs]; exact decide_eq_true h)
  · intro p hp
    have := hval p hp
    rw [he p hp] at this
    exact_mod_cast this

/-- The magnitude `mag<V>` denotes the integer `V`. -/
theorem magnitude_value_mag {V : Int} {R : unit_magnitude} (hR : mag V = some R) :
    V ≠ 0 ∧ Canonical R ∧ is_rational R = true ∧ magnitude_value R = (V : ℚ) := by
  have hV : V ≠ 0 := by
    intro h
    rw [h] at hR
    simp [mag] at hR
  obtain ⟨S, hS, hSc, hSs, hSb, hSe⟩ := mag_spec hV
  rw [hR] at hS
  cases hS
  have hr : is_rational R = true :=
    is_rational_of_int_exponents hSc hSb (fun p hp => ⟨_, by rw [hSe p hp]; norm_cast⟩)
  refine ⟨hV, hSc, hr, ?_⟩
  apply magnitude_value_eq_of_expo hSc hr (by exact_mod_cast hV)
  · rw [hSs]
    congr 1
    simp
  · intro p hp
    rw [hSe p hp, multiplicity_eq hp (Int.natAbs_pos.2 hV), padicValRat.of_int,
      Nat.factorization_def _ hp]
    rfl

/-- The magnitude `mag_ratio<N, D>` denotes the fraction `N / D`. -/
theorem magnitude_value_mag_ratio {N D : Int} {R : unit_magnitude}
    (hR : mag_ratio N D = some R) :
    N ≠ 0 ∧ D ≠ 0 ∧ Canonical R ∧ is_rational R = true ∧
      magnitude_value R = (N : ℚ) / (D : ℚ) := by
  have hN : N ≠ 0 := by
    intro h
    rw [h] at hR
    simp [mag_ratio] at hR
  have hD : D ≠ 0 := by
    intro h
    rw [h] at hR
    simp [mag_ratio, hN] at hR
  obtain ⟨S, hS, hSc, hSs, hSb, hSe⟩ := mag_ratio_spec hN hD
  rw [hR] at hS
  cases hS
  have hr : is_rational R = true :=
    is_rational_of_int_exponents hSc hSb (fun p hp => ⟨_, by rw [hSe p hp]; norm_cast⟩)
  have hV : ratio.make N D ≠ 0 := ratio_make_ne_zero hN hD
  have hval : magnitude_value R = ratio.make N D := by
    apply magnitude_value_eq_of_expo hSc hr hV
    · rw [hSs]
      congr 1
      exact propext (num_neg_iff _)
    · intro p hp
      have h1 : padicValRat p (ratio.make N D) =
          (padicValNat p (ratio.make N D).num.natAbs : Int) -
            (padicValNat p (ratio.make N D).den : Int) := rfl
      rw [hSe p hp, h1, Nat.factorization_def _ hp, Nat.factorization_def _ hp, Int.cast_sub,
        Int.cast_natCast, Int.cast_natCast]
  refine ⟨hN, hD, hSc, hr, ?_⟩
  rw [hval]
  unfold ratio.make
  rw [Rat.divInt_eq_div]



/-! ### Zero has no factorization -/

theorem magnitude_value_ne_zero {m : unit_magnitude} (hm : Canonical m) :
    (∀ e ∈ m, get_base_value e.base ≠ 0) ∧ magnitude_value m ≠ 0 := by
  have hb : ∀ e ∈ m, get_base_value e.base ≠ 0 := by
    intro e he
    by_cases hs : e.base = Base.negative_tag
    · rw [hs]; norm_num [get_base_value]
    · exact ne_of_gt (get_base_value_pos (hm.2 e he).1 hs)
  refine ⟨hb, ?_⟩
  unfold magnitude_value
  apply List.prod_ne_zero
  intro h0
  obtain ⟨e, he, hz⟩ := List.mem_map.1 h0
  exact zpow_ne_zero _ (hb e he) hz

/-- Zero has no factorization.  The factorization `mag V` of an integer, whatever the
type of the template argument, is defined if and only if `V != 0`, `mag_ratio<0, D>` is
rejected for every `D`; the magnitudes that are constructed denote `V` and `N / D`, which
are not zero, and no canonical magnitude has a base of value zero or denotes zero. -/
theorem mag_zero_rejected (V : Int) :
    ((∃ R, mag V = some R) ↔ V ≠ 0) ∧ mag 0 = none ∧ (∀ D : Int, mag_ratio 0 D = none) ∧
    (∀ R, mag V = some R → magnitude_value R = (V : ℚ) ∧ magnitude_value R ≠ 0) ∧
    (∀ (N D : Int) (R : unit_magnitude), mag_ratio N D = some R →
      magnitude_value R = (N : ℚ) / (D : ℚ) ∧ magnitude_value R ≠ 0) ∧
    (∀ m : unit_magnitude, Canonical m →
      (∀ e ∈ m, get_base_value e.base ≠ 0) ∧ magnitude_value m ≠ 0) := by
  refine ⟨⟨?_, ?_⟩, by simp [mag], fun D => by simp [mag_ratio], ?_, ?_,
    fun m hm => magnitude_value_ne_zero hm⟩
  · rintro ⟨R, hR⟩
    exact (magnitude_value_mag hR).1
  · intro hV
    obtain ⟨R, hR, _⟩ := mag_spec hV
    exact ⟨R, hR⟩
  · intro R hR
    obtain ⟨_, hc, _, hv⟩ := magnitude_value_mag hR
    exact ⟨hv, (magnitude_value_ne_zero hc).2⟩
  · intro N D R hR
    obtain ⟨_, _, hc, _, hv⟩ := magnitude_value_mag_ratio hR
    exact ⟨hv, (magnitude_value_ne_zero hc).2⟩

/-- The cases of the tests: `0` is rejected, `2`, `-2` and `100` are accepted. -/
theorem mag_zero_examples :
    mag 0 = none ∧ mag_ratio 0 5 = none ∧ mag 2 = some [⟨Base.integral 2, 1⟩] ∧
    mag (-2) = some [⟨Base.negative_tag, 1⟩, ⟨Base.integral 2, 1⟩] ∧
    mag 100 = some [⟨Base.integral 2, 2⟩, ⟨Base.integral 5, 2⟩] := by
  decide!

/-! ### Claim C24 -/

/-- The magnitude `mag_ratio<N, D>` only depends on the fraction `N / D`. -/
theorem mag_ratio_congr {N D N' D' : Int} (hN : N ≠ 0) (hD : D ≠ 0) (hN' : N' ≠ 0)
    (hD' : D' ≠ 0) (h : ratio.make N D = ratio.make N' D') :
    mag_ratio N D = mag_ratio N' D' := by
  simp only [mag_ratio, hN, hD, hN', hD', if_false, h]

/-- When `mag_ratio<p, q>` holds the sentinel. -/
theorem ratio_make_num_neg_iff (p q : Int) :
    (ratio.make p q).num < 0 ↔ (p < 0 ∧ 0 < q) ∨ (0 < p ∧ q < 0) := by
  rw [num_neg_iff]
  unfold ratio.make
  rw [Rat.divInt_eq_div, div_neg_iff]
  constructor
  · rintro (⟨h1, h2⟩ | ⟨h1, h2⟩)
    · exact Or.inr ⟨by exact_mod_cast h1, by exact_mod_cast h2⟩
    · exact Or.inl ⟨by exact_mod_cast h1, by exact_mod_cast h2⟩
  · rintro (⟨h1, h2⟩ | ⟨h1, h2⟩)
    · exact Or.inr ⟨by exact_mod_cast h1, by exact_mod_cast h2⟩
    · exact Or.inl ⟨by exact_mod_cast h1, by exact_mod_cast h2⟩

/-- The cases of the tests: `3/4 == 9/12`; `3/(-4)`, `(-3)/4` and `6/(-8)` agree; and
`(-3)/(-4) == 3/4`. -/
theorem mag_ratio_examples :
    mag_ratio 3 4 = some [⟨Base.integral 2, -2⟩, ⟨Base.integral 3, 1⟩] ∧
    mag_ratio 9 12 = some [⟨Base.integral 2, -2⟩, ⟨Base.integral 3, 1⟩] ∧
    mag_ratio (-3) 4 =
      some [⟨Base.negative_tag, 1⟩, ⟨Base.integral 2, -2⟩, ⟨Base.integral 3, 1⟩] ∧
    mag_ratio 3 (-4) =
      some [⟨Base.negative_tag, 1⟩, ⟨Base.integral 2, -2⟩, ⟨Base.integral 3, 1⟩] ∧
    mag_ratio 6 (-8) =
      some [⟨Base.negative_tag, 1⟩, ⟨Base.integral 2, -2⟩, ⟨Base.integral 3, 1⟩] ∧
    mag_ratio (-3) (-4) = some [⟨Base.integral 2, -2⟩, ⟨Base.integral 3, 1⟩] ∧
    mag_ratio (-9) (-12) = some [⟨Base.integral 2, -2⟩, ⟨Base.integral 3, 1⟩] := by
  decide!



/-! ### The value of the factorization of an integer -/

theorem compute_base_power_signed {T : IntRep} (hs : T.is_signed = true) (M : Element) :
    compute_base_power T M = compute_base_power intmax_t M := by
  simp [compute_base_power, widen_t, hs, intmax_t]

/-- What `get_value<T>` computes for a signed `T`: the product in `std::intmax_t`, then the
checked conversion to `T`. -/
theorem get_value_signed {T : IntRep} (hs : T.is_signed = true) (L : unit_magnitude) :
    get_value T L =
      if is_integral L then
        (L.foldr (fun M acc => (compute_base_power intmax_t M).bind (fun c =>
          acc.bind (fun a => arith_mul intmax_t c a))) (some 1)).bind
          (fun r => checked_static_cast T r)
      else none := by
  unfold get_value
  have hw : widen_t T = intmax_t := by simp [widen_t, hs]
  have hf : (fun M acc => (compute_base_power T M).bind (fun c =>
      acc.bind (fun a => arith_mul (widen_t T) c a))) =
      (fun M (acc : Option Int) => (compute_base_power intmax_t M).bind (fun c =>
        acc.bind (fun a => arith_mul intmax_t c a))) := by
    funext M acc
    rw [compute_base_power_signed hs, hw]
  rw [hf]

/-- The product `get_value<std::intmax_t>` folds, when it returns. -/
theorem get_value_fold {L : unit_magnitude} {r : Int} (h : get_value intmax_t L = some r) :
    is_integral L = true ∧
      L.foldr (fun M acc => (compute_base_power intmax_t M).bind (fun c =>
        acc.bind (fun a => arith_mul intmax_t c a))) (some 1) = some r := by
  rw [get_value_signed rfl] at h
  by_cases hi : is_integral L = true
  · rw [if_pos hi] at h
    refine ⟨hi, ?_⟩
    cases hf : L.foldr (fun M acc => (compute_base_power intmax_t M).bind (fun c =>
        acc.bind (fun a => arith_mul intmax_t c a))) (some 1) with
    | none => rw [hf] at h; cases h
    | some r' =>
      rw [hf, Option.some_bind] at h
      unfold checked_static_cast at h
      split_ifs at h
      rw [Option.some.inj h]
  · rw [if_neg hi] at h
    cases h

theorem holds_intmax_of_signed {T : IntRep} (hs : T.is_signed = true)
    (hb : T.bits ≤ intmax_t.bits) {x : Int} (h : T.holds x = true) :
    intmax_t.holds x = true := by
  unfold IntRep.holds IntRep.min_value IntRep.max_value at h ⊢
  simp only [hs, if_true, Bool.and_eq_true, decide_eq_true_eq] at h
  have hle : (2 : Int) ^ (T.bits - 1) ≤ 2 ^ (intmax_t.bits - 1) :=
    pow_le_pow_right₀ (by norm_num) (by omega)
  have h1 : intmax_t.is_signed = true := rfl
  simp only [h1, if_true, Bool.and_eq_true, decide_eq_true_eq]
  constructor <;> omega

/-- The shape of `mag<n>` for a positive `n` as `get_value` needs it, and the integer it
denotes. -/
theorem mag_pos_elements {n : Int} (hn : 0 < n) {K : unit_magnitude} (hK : mag n = some K) :
    (∀ e ∈ K, ∃ v : Int, 1 ≤ v ∧ e.base = Base.integral v ∧ e.exponent.den = 1 ∧
      0 < e.exponent.num) ∧ int_value K = n ∧ has_sentinel K = false ∧ Canonical K := by
  obtain ⟨_, hc, hr, hv⟩ := magnitude_value_mag hK
  obtain ⟨S, hS, _, hSs, _, _⟩ := mag_spec (ne_of_gt hn)
  rw [hK] at hS
  cases hS
  have hs : has_sentinel K = false := by
    rw [hSs]; exact decide_eq_false (not_lt.2 (le_of_lt hn))
  have hel := rational_positive_elements hc hr hs
  have hpos : ∀ e ∈ K, 0 < e.exponent.num := by
    intro e he
    obtain ⟨S2, hS2, _, _, hSb, hSe⟩ := mag_spec (ne_of_gt hn)
    rw [hK] at hS2
    cases hS2
    rcases hSb e he with h | ⟨p, hp, _, hpb⟩
    · exact absurd h (no_sentinel_mem hs he)
    · have h1 : e.exponent = ((multiplicity p n.natAbs : Nat) : ℚ) := by
        rw [← hSe p hp, ← hpb, expo_of_mem hc.1 he]
      have h0 : e.exponent ≠ 0 := (hc.2 e he).2.1
      have h2 : 0 < e.exponent := by
        rw [h1] at h0 ⊢
        exact lt_of_le_of_ne (Nat.cast_nonneg _) (Ne.symm h0)
      exact (exponent_pos_iff _).1 h2
  have hL : ∀ e ∈ K, ∃ v : Int, 1 ≤ v ∧ e.base = Base.integral v ∧ e.exponent.den = 1 ∧
      0 < e.exponent.num := by
    intro e he
    obtain ⟨v, hv1, hvb, hd, _⟩ := hel e he
    exact ⟨v, hv1, hvb, hd, hpos e he⟩
  refine ⟨hL, ?_, hs, hc⟩
  have hcast := int_value_cast (fun e he => by
    obtain ⟨v, _, hvb, _, hnum⟩ := hL e he
    exact ⟨v, hvb, hnum⟩ : ∀ e ∈ K, ∃ v : Int, e.base = Base.integral v ∧ 0 < e.exponent.num)
  rw [hv] at hcast
  exact_mod_cast hcast

/-- The magnitude of a negative integer is the sentinel before that of its absolute
value. -/
theorem mag_neg_shape {N : Int} (hN : N < 0) :
    ∃ K, mag (-N) = some K ∧ mag N = some (⟨Base.negative_tag, 1⟩ :: K) := by
  have hpos : 0 < -N := by omega
  obtain ⟨K, hK, hKc, hKs, _, _⟩ := mag_spec (ne_of_gt hpos)
  have hKs0 : has_sentinel K = false := by
    rw [hKs]; exact decide_eq_false (not_lt.2 (le_of_lt hpos))
  refine ⟨K, hK, ?_⟩
  have habs : (-N).natAbs = N.natAbs := Int.natAbs_neg N
  unfold mag at hK ⊢
  rw [if_neg (ne_of_gt hpos), habs] at hK
  rw [if_neg (ne_of_lt hN)]
  cases hpf : prime_factorization_v N.natAbs with
  | none => rw [hpf] at hK; cases hK
  | some P =>
    rw [hpf, Option.some_bind, if_neg (not_lt.2 (le_of_lt hpos))] at hK
    cases hK
    rw [Option.some_bind, if_pos hN]
    exact mul_singleton_prepend _ _ (sentinel_below hKc hKs0)

/-- The value of the factorization of an integer.  For every signed integer type `T` (no
wider than `std::intmax_t`) and every nonzero integer `N` representable in `T` whose
absolute value is representable in `std::intmax_t`, the factorization `mag N` is defined
and `get_value<T>` of it is `N`. -/
theorem get_value_mag (T : IntRep) (N : Int) (hs : T.is_signed = true)
    (hb : T.bits ≤ intmax_t.bits) (hN : N ≠ 0) (hfit : T.holds N = true)
    (habs : intmax_t.holds (-N) = true) :
    ∃ M, mag N = some M ∧ get_value T M = some N := by
  have hfitmax : intmax_t.holds N = true := holds_intmax_of_signed hs hb hfit
  rcases lt_or_gt_of_ne hN with hneg | hpos
  · obtain ⟨K, hK, hM⟩ := mag_neg_shape hneg
    have hpos : 0 < -N := by omega
    obtain ⟨hL, hval, _, _⟩ := mag_pos_elements hpos hK
    have hg : get_value intmax_t K = some (int_value K) :=
      get_value_spec hL (by rw [hval]; exact habs)
    obtain ⟨hi, hfold⟩ := get_value_fold hg
    refine ⟨_, hM, ?_⟩
    have hint : is_integral (⟨Base.negative_tag, 1⟩ :: K) = true := by
      unfold is_integral at hi ⊢
      rw [List.all_cons, hi, Bool.and_true]
      decide!
    have hc : compute_base_power intmax_t ⟨Base.negative_tag, 1⟩ = some (-1) := by decide!
    have hmul : arith_mul intmax_t (-1) (int_value K) = some N := by
      unfold arith_mul
      have h1 : intmax_t.wrap (-1) = -1 := by decide!
      have h2 : intmax_t.wrap (int_value K) = int_value K :=
        wrap_of_holds intmax_bits (by rw [hval]; exact habs)
      have h3 : (-1 : Int) * int_value K = N := by rw [hval]; omega
      have h4 : intmax_t.is_signed = true := rfl
      rw [h4, if_pos rfl, h1, h2, h3, if_pos hfitmax]
    rw [get_value_signed hs, if_pos hint, List.foldr_cons, hfold, hc, Option.some_bind,
      Option.some_bind, hmul, Option.some_bind]
    unfold checked_static_cast
    rw [if_pos hfit]
  · obtain ⟨M, hM, _⟩ := mag_spec hN
    obtain ⟨hL, hval, _, _⟩ := mag_pos_elements hpos hM
    have hg : get_value intmax_t M = some (int_value M) :=
      get_value_spec hL (by rw [hval]; exact hfitmax)
    obtain ⟨hi, hfold⟩ := get_value_fold hg
    refine ⟨M, hM, ?_⟩
    rw [get_value_signed hs, if_pos hi, hfold, Option.some_bind, hval]
    unfold checked_static_cast
    rw [if_pos hfit]

/-- The factorization of the least value of `std::intmax_t`, `-(2^63)`, has no value in
that type: the power `2^63` does not fit. -/
theorem get_value_mag_rejected :
    (-9223372036854775808 : Int) ≠ 0 ∧ intmax_t.is_signed = true ∧
      intmax_t.holds (-9223372036854775808) = true ∧
      mag (-9223372036854775808) =
        some [⟨Base.negative_tag, 1⟩, ⟨Base.integral 2, 63⟩] ∧
      get_value intmax_t [⟨Base.negative_tag, 1⟩, ⟨Base.integral 2, 63⟩] = none := by
  decide!

/-- An instance: `get_value<int>` of the factorization of `-8` is `-8`. -/
theorem get_value_mag_witness :
    ∃ M, mag (-8) = some M ∧ get_value ⟨true, 32⟩ M = some (-8) :=
  get_value_mag ⟨true, 32⟩ (-8) (by decide) (by decide) (by decide) (by decide!) (by decide!)

/-- The integer cases of the tests, in `int` and `long`. -/
theorem get_value_examples :
    get_value ⟨true, 32⟩ [] = some 1 ∧
    get_value ⟨true, 32⟩ [⟨Base.integral 2, 1⟩] = some 2 ∧
    get_value ⟨true, 32⟩ [⟨Base.integral 2, 2⟩, ⟨Base.integral 103, 1⟩] = some 412 ∧
    get_value ⟨true, 64⟩ [⟨Base.integral 2, 1⟩] = some 2 ∧
    get_value ⟨true, 32⟩ [⟨Base.negative_tag, 1⟩] = some (-1) ∧
    get_value ⟨true, 32⟩ [⟨Base.negative_tag, 1⟩, ⟨Base.integral 2, 1⟩] = some (-2) ∧
    get_value ⟨true, 32⟩ [⟨Base.negative_tag, 1⟩, ⟨Base.integral 2, 3⟩] = some (-8) ∧
    get_value ⟨true, 8⟩ [⟨Base.negative_tag, 1⟩, ⟨Base.integral 2, 7⟩] = some (-128) := by
  decide!



/-! ### Claim C25 -/

/-- The integer power kept by `integer_part` on an integer base, for an integer
exponent. -/
theorem integer_power_int (v z : Int) :
    integer_power (Base.integral v) (z : ℚ) = if 1 ≤ z then (z : ℚ) else 0 := by
  unfold integer_power
  have h1 : ((z : ℚ)).num = z := Rat.intCast_num z
  have h2 : ((z : ℚ)).den = 1 := Rat.intCast_den z
  rw [h1, h2]
  simp [Base.is_integral_type]

/-- On a prime where a numerator and a denominator are coprime, `integer_part` keeps the
numerator's multiplicity. -/
theorem integer_power_coprime (v : Int) {a b : Nat} (h : a = 0 ∨ b = 0) :
    integer_power (Base.integral v) ((a : ℚ) - (b : ℚ)) = (a : ℚ) := by
  have hz : ((a : ℚ) - (b : ℚ)) = (((a : Int) - (b : Int) : Int) : ℚ) := by push_cast; rfl
  rw [hz, integer_power_int]
  rcases h with h | h
  · subst h
    have : ¬ (1 : Int) ≤ ((0 : Nat) : Int) - (b : Int) := by omega
    rw [if_neg this]; simp
  · subst h
    by_cases ha : 1 ≤ a
    · have : (1 : Int) ≤ (a : Int) - ((0 : Nat) : Int) := by omega
      rw [if_pos this]; simp
    · have h0 : a = 0 := by omega
      subst h0
      simp

theorem mag_one : mag 1 = some [] := by decide!

/-- The bases of the numerator and the denominator are bases of the magnitude. -/
theorem bases_of_part {M N : unit_magnitude} {n : Nat}
    (hM : ∀ e ∈ M, e.base = Base.negative_tag ∨
      ∃ p : Nat, p.Prime ∧ p ∣ n ∧ e.base = Base.integral (p : Int))
    (hN : ∀ e ∈ N, (∃ x ∈ M, x.base = e.base) ∧ is_integral_impl e = true) :
    ∀ e ∈ N, e.base = Base.negative_tag ∨
      ∃ p : Nat, p.Prime ∧ p ∣ n ∧ e.base = Base.integral (p : Int) := by
  intro e he
  obtain ⟨⟨x, hx, hxb⟩, _⟩ := hN e he
  rw [← hxb]
  exact hM x hx

/-- The numerator and the denominator of a canonical magnitude over the sentinel and
primes whose exponent on every prime is `a - b`, with `a` and `b` natural numbers not both
positive: the numerator has the exponents `a`, the denominator the exponents `b`. -/
theorem numerator_denominator_of_expo {M P Q : unit_magnitude} {n m k : Nat}
    (hM : Canonical M) (hP : Canonical P) (hQ : Canonical Q)
    (hMb : ∀ e ∈ M, e.base = Base.negative_tag ∨
      ∃ p : Nat, p.Prime ∧ p ∣ n ∧ e.base = Base.integral (p : Int))
    (hPb : ∀ e ∈ P, e.base = Base.negative_tag ∨
      ∃ p : Nat, p.Prime ∧ p ∣ m ∧ e.base = Base.integral (p : Int))
    (hQb : ∀ e ∈ Q, e.base = Base.negative_tag ∨
      ∃ p : Nat, p.Prime ∧ p ∣ k ∧ e.base = Base.integral (p : Int))
    (a b : Nat → Nat) (hab : ∀ p : Nat, p.Prime → a p = 0 ∨ b p = 0)
    (hMe : ∀ p : Nat, p.Prime → expo M (Base.integral (p : Int)) = (a p : ℚ) - (b p : ℚ))
    (hPe : ∀ p : Nat, p.Prime → expo P (Base.integral (p : Int)) = (a p : ℚ))
    (hQe : ∀ p : Nat, p.Prime → expo Q (Base.integral (p : Int)) = (b p : ℚ))
    (hPs : has_sentinel P = has_sentinel M) (hQs : has_sentinel Q = false) :
    numerator M = some P ∧ denominator M = some Q := by
  obtain ⟨N, hN, hNc, hNb, hNe, hNs⟩ := numerator_spec hM
  obtain ⟨D, hD, hDc, hDb, hDe, hDs⟩ := denominator_spec hM
  constructor
  · rw [hN]
    congr 1
    apply rational_ext hNc hP (bases_of_part hMb hNb) hPb (by rw [hNs, hPs])
    intro p hp
    rw [hNe _ (by simp), hMe p hp, hPe p hp, integer_power_coprime _ (hab p hp)]
  · rw [hD]
    congr 1
    apply rational_ext hDc hQ (bases_of_part hMb hDb) hQb (by rw [hDs, hQs])
    intro p hp
    rw [hDe _ (by simp), hMe p hp, hQe p hp, neg_sub,
      integer_power_coprime _ (hab p hp).symm]

/-- The cases of the tests on `-3/4`, `3/4` and `12`. -/
theorem numerator_denominator_examples :
    numerator [⟨Base.negative_tag, 1⟩, ⟨Base.integral 2, -2⟩, ⟨Base.integral 3, 1⟩] =
      some [⟨Base.negative_tag, 1⟩, ⟨Base.integral 3, 1⟩] ∧
    mag (-3) = some [⟨Base.negative_tag, 1⟩, ⟨Base.integral 3, 1⟩] ∧
    denominator [⟨Base.negative_tag, 1⟩, ⟨Base.integral 2, -2⟩, ⟨Base.integral 3, 1⟩] =
      some [⟨Base.integral 2, 2⟩] ∧
    mag 4 = some [⟨Base.integral 2, 2⟩] ∧
    numerator [⟨Base.integral 2, -2⟩, ⟨Base.integral 3, 1⟩] = some [⟨Base.integral 3, 1⟩] ∧
    numerator [⟨Base.integral 2, 2⟩, ⟨Base.integral 3, 1⟩] =
      some [⟨Base.integral 2, 2⟩, ⟨Base.integral 3, 1⟩] ∧
    denominator [⟨Base.integral 2, 2⟩, ⟨Base.integral 3, 1⟩] = some [] ∧
    mag 12 = some [⟨Base.integral 2, 2⟩, ⟨Base.integral 3, 1⟩] ∧ mag 1 = some [] := by
  decide!



/-! ### Claim C26 -/

/-- Two magnitudes over the bases of one canonical magnitude are over one basis. -/
theorem coherent_of_bases_within {M X Y : unit_magnitude} (hM : Canonical M)
    (hX : ∀ e ∈ X, ∃ x ∈ M, x.base = e.base) (hY : ∀ e ∈ Y, ∃ x ∈ M, x.base = e.base) :
    Coherent X Y :=
  coherent_of_bases hX (coherent_symm (coherent_of_bases hY (coherent_self hM)))

theorem bases_within_append {M X Y R : unit_magnitude}
    (hX : ∀ e ∈ X, ∃ x ∈ M, x.base = e.base) (hY : ∀ e ∈ Y, ∃ x ∈ M, x.base = e.base)
    (hR : ∀ e ∈ R, ∃ x ∈ X ++ Y, x.base = e.base) : ∀ e ∈ R, ∃ x ∈ M, x.base = e.base := by
  intro e he
  obtain ⟨x, hx, hxb⟩ := hR e he
  rw [← hxb]
  rcases List.mem_append.1 hx with h | h
  · exact hX x h
  · exact hY x h

/-- The decomposition of `-2^(3/2) * 3^-2 * pi`: numerator `-2`, denominator `3^2`,
irrational remainder `2^(1/2) * pi`; and of `-3/8`: remainder the identity. -/
theorem magnitude_traits_examples :
    numerator [⟨Base.negative_tag, 1⟩, ⟨Base.integral 2, 3 / 2⟩, ⟨Base.integral 3, -2⟩,
        ⟨Base.constant ⟨0, 3141592653589793 / 1000000000000000⟩, 1⟩] =
      some [⟨Base.negative_tag, 1⟩, ⟨Base.integral 2, 1⟩] ∧
    denominator [⟨Base.negative_tag, 1⟩, ⟨Base.integral 2, 3 / 2⟩, ⟨Base.integral 3, -2⟩,
        ⟨Base.constant ⟨0, 3141592653589793 / 1000000000000000⟩, 1⟩] =
      some [⟨Base.integral 3, 2⟩] ∧
    magnitude_traits_irr [⟨Base.negative_tag, 1⟩, ⟨Base.integral 2, 3 / 2⟩,
        ⟨Base.integral 3, -2⟩, ⟨Base.constant ⟨0, 3141592653589793 / 1000000000000000⟩, 1⟩]
        [⟨Base.negative_tag, 1⟩, ⟨Base.integral 2, 1⟩] [⟨Base.integral 3, 2⟩] =
      some [⟨Base.integral 2, 1 / 2⟩,
        ⟨Base.constant ⟨0, 3141592653589793 / 1000000000000000⟩, 1⟩] ∧
    magnitude_traits_irr [⟨Base.negative_tag, 1⟩, ⟨Base.integral 2, -3⟩, ⟨Base.integral 3, 1⟩]
        [⟨Base.negative_tag, 1⟩, ⟨Base.integral 3, 1⟩] [⟨Base.integral 2, 3⟩] = some [] := by
  decide!



/-! ### Claim C27 -/

theorem integralConversionFactor_eq {from_mag to_mag M : unit_magnitude}
    (hM : div from_mag to_mag = some M) :
    IntegralConversionFactor from_mag to_mag = is_integral M := by
  simp [IntegralConversionFactor, hM]

/-- C27: an implicit quantity conversion is permitted only when the target representation
is floating-point, or the source representation is not floating-point and the ratio
`M = from / to` is integral.  With integral representations a conversion across a
non-integral ratio is rejected whatever the other conditions are, and one across an
integral ratio is accepted when the other conditions of the concept hold. -/
theorem implicit_conversion_policy (quantity_spec_convertible unit_convertible : Bool)
    (sudo_cast_valid : Bool) (FromRep ToRep : NumType) (from_mag to_mag M : unit_magnitude)
    (hM : div from_mag to_mag = some M) :
    (QuantityConvertibleTo quantity_spec_convertible unit_convertible FromRep ToRep
        from_mag to_mag sudo_cast_valid = true →
      treat_as_floating_point ToRep = true ∨
        (treat_as_floating_point FromRep = false ∧ is_integral M = true)) ∧
    (∀ F T : IntRep, is_integral M = false →
      QuantityConvertibleTo quantity_spec_convertible unit_convertible (NumType.integral F)
        (NumType.integral T) from_mag to_mag sudo_cast_valid = false) ∧
    (∀ F T : IntRep, is_integral M = true →
      QuantityConvertibleTo true true (NumType.integral F) (NumType.integral T)
        from_mag to_mag true = true) := by
  have hI := integralConversionFactor_eq hM
  refine ⟨?_, ?_, ?_⟩
  · intro h
    unfold QuantityConvertibleTo at h
    rw [hI] at h
    cases hT : treat_as_floating_point ToRep
    · right
      rw [hT] at h
      cases hF : treat_as_floating_point FromRep
      · rw [hF] at h
        cases hi : is_integral M
        · rw [hi] at h; simp at h
        · exact ⟨rfl, rfl⟩
      · rw [hF] at h; simp at h
    · exact Or.inl rfl
  · intro F T hi
    unfold QuantityConvertibleTo
    rw [hI, hi]
    simp [treat_as_floating_point]
  · intro F T hi
    unfold QuantityConvertibleTo
    rw [hI, hi]
    simp [treat_as_floating_point]

/-- Witness of C27: the ratio `1000` (from a unit of magnitude `1000` to one of magnitude
`1`) with `int` representations. -/
theorem implicit_conversion_policy_witness :
    QuantityConvertibleTo true true (NumType.integral ⟨true, 32⟩) (NumType.integral ⟨true, 32⟩)
        [⟨Base.integral 2, 3⟩, ⟨Base.integral 5, 3⟩] [] true = true :=
  (implicit_conversion_policy true true true (NumType.integral ⟨true, 32⟩)
    (NumType.integral ⟨true, 32⟩) [⟨Base.integral 2, 3⟩, ⟨Base.integral 5, 3⟩] []
    [⟨Base.integral 2, 3⟩, ⟨Base.integral 5, 3⟩] (by decide!)).2.2 ⟨true, 32⟩ ⟨true, 32⟩
    (by decide!)

/-- The two ratios of the claim with `int` representations: `M = 1/1000` is rejected,
`M = 1000` is accepted; and with a floating-point target `M = 1/1000` is accepted. -/
theorem implicit_conversion_examples :
    div [] [⟨Base.integral 2, 3⟩, ⟨Base.integral 5, 3⟩] =
      some [⟨Base.integral 2, -3⟩, ⟨Base.integral 5, -3⟩] ∧
    is_integral [⟨Base.integral 2, -3⟩, ⟨Base.integral 5, -3⟩] = false ∧
    QuantityConvertibleTo true true (NumType.integral ⟨true, 32⟩) (NumType.integral ⟨true, 32⟩)
      [] [⟨Base.integral 2, 3⟩, ⟨Base.integral 5, 3⟩] true = false ∧
    QuantityConvertibleTo true true (NumType.integral ⟨true, 32⟩) (NumType.integral ⟨true, 32⟩)
      [⟨Base.integral 2, 3⟩, ⟨Base.integral 5, 3⟩] [] true = true ∧
    QuantityConvertibleTo true true (NumType.integral ⟨true, 32⟩) NumType.floating
      [] [⟨Base.integral 2, 3⟩, ⟨Base.integral 5, 3⟩] true = true ∧
    QuantityConvertibleTo true true NumType.floating (NumType.integral ⟨true, 32⟩)
      [⟨Base.integral 2, 3⟩, ⟨Base.integral 5, 3⟩] [] true = false := by
  decide!



/-! ### Claim C28 -/

/-- The integer multipliers of a positive rational ratio `M`: the integers denoted by
`numerator(M)` and `denominator(M)`, of quotient `M`. -/
theorem positive_rational_multipliers {M N D : unit_magnitude} (hM : Canonical M)
    (hr : is_rational M = true) (hpos : check_magnitude_is_positive M = true)
    (hN : numerator M = some N) (hD : denominator M = some D)
    (hp : intmax_t.holds (int_value N) = true) (hq : intmax_t.holds (int_value D) = true) :
    get_value intmax_t N = some (int_value N) ∧ get_value intmax_t D = some (int_value D) ∧
      1 ≤ int_value N ∧ 1 ≤ int_value D ∧
      magnitude_value M = (int_value N : ℚ) / (int_value D : ℚ) := by
  have hs : has_sentinel M = false := (positive_shape hM hpos).2.1
  have hel := rational_positive_elements hM hr hs
  have hNeq : N = M.filter (fun e => decide (0 < e.exponent)) := by
    have := numerator_rational hM hr
    rw [hN] at this; exact Option.some.inj this
  have hDeq : D = (M.filter (fun e => decide (e.exponent < 0))).map
      (fun e => (⟨e.base, - e.exponent⟩ : Element)) := by
    have := denominator_rational hM hs hr
    rw [hD] at this; exact Option.some.inj this
  have hNel := numerator_elements hel
  have hDel := denominator_elements hel
  rw [← hNeq] at hNel
  rw [← hDeq] at hDel
  refine ⟨get_value_spec hNel hp, get_value_spec hDel hq, int_value_pos (weaken_elements hNel).2,
    int_value_pos (weaken_elements hDel).2, ?_⟩
  rw [hNeq, hDeq]
  exact magnitude_value_eq_quotient hel

/-- C28: the order of the quantity-point cast between two different origins is decided by
the ratio `M = from / to`.  The representation is converted first (keeping the source
unit) exactly when `num_mult * irr_mult > den_mult`; for a positive rational `M` (whose
numerator and denominator fit `std::intmax_t`, the multiplier type) the three multipliers
are the numerator, the denominator and `1`, so that this is exactly when `M > 1`, and
otherwise (`M <= 1`) the unit is converted first. -/
theorem point_cast_order_rational (from_mag to_mag M N D : unit_magnitude)
    (hdiv : div from_mag to_mag = some M) (hM : Canonical M) (hr : is_rational M = true)
    (hpos : check_magnitude_is_positive M = true)
    (hN : numerator M = some N) (hD : denominator M = some D)
    (hp : intmax_t.holds (int_value N) = true) (hq : intmax_t.holds (int_value D) = true) :
    (∀ (mult : IntRep) (value_traits : conversion_value_traits) (product : Int),
      multiplier_type M = NumType.integral mult →
      conversion_value_traits.of M mult = some value_traits →
      arith_mul mult value_traits.num_mult value_traits.irr_mult = some product →
      (sudo_cast_point_order from_mag to_mag =
          some point_cast_order.representation_then_origin ↔
        product > value_traits.den_mult)) ∧
    multiplier_type M = NumType.integral intmax_t ∧
    conversion_value_traits.of M intmax_t = some ⟨int_value N, int_value D, 1⟩ ∧
    magnitude_value M = (int_value N : ℚ) / (int_value D : ℚ) ∧
    (sudo_cast_point_order from_mag to_mag =
        some point_cast_order.representation_then_origin ↔ 1 < magnitude_value M) ∧
    (sudo_cast_point_order from_mag to_mag =
        some point_cast_order.unit_then_origin ↔ magnitude_value M ≤ 1) := by
  obtain ⟨hgN, hgD, hN1, hD1, hval⟩ := positive_rational_multipliers hM hr hpos hN hD hp hq
  have hmult := multiplier_type_rational hr
  have hirr := magnitude_traits_irr_rational hM hr hN hD
  have htraits : conversion_value_traits.of M intmax_t = some ⟨int_value N, int_value D, 1⟩ := by
    unfold conversion_value_traits.of
    rw [hN, hD]
    simp only [Option.some_bind, hirr, hgN, hgD, get_value_nil]
  have hprod : arith_mul intmax_t (int_value N) 1 = some (int_value N) := by
    unfold arith_mul
    have h1 : intmax_t.wrap 1 = 1 := by decide!
    have h2 : intmax_t.wrap (int_value N) = int_value N := wrap_of_holds intmax_bits hp
    have h4 : intmax_t.is_signed = true := rfl
    rw [h4, if_pos rfl, h1, h2, mul_one, if_pos hp]
  have horder : sudo_cast_point_order from_mag to_mag =
      some (if int_value N > int_value D then point_cast_order.representation_then_origin
        else point_cast_order.unit_then_origin) := by
    unfold sudo_cast_point_order
    rw [hdiv, Option.some_bind, hmult]
    simp only [htraits, Option.some_bind, hprod, Option.map_some']
  have hDq : (0 : ℚ) < (int_value D : ℚ) := by exact_mod_cast (by omega : 0 < int_value D)
  have hgt : 1 < magnitude_value M ↔ int_value N > int_value D := by
    rw [hval, one_lt_div hDq]
    constructor
    · intro h; exact_mod_cast h
    · intro h; exact_mod_cast h
  refine ⟨?_, hmult, htraits, hval, ?_, ?_⟩
  · intro mult value_traits product hm ht hp2
    unfold sudo_cast_point_order
    rw [hdiv, Option.some_bind, hm]
    simp only [ht, Option.some_bind, hp2, Option.map_some']
    by_cases h : product > value_traits.den_mult
    · simp [h]
    · simp [h]
  · rw [horder, hgt]
    by_cases h : int_value N > int_value D
    · simp [h]
    · simp [h]
  · rw [horder, ← not_lt, hgt]
    by_cases h : int_value N > int_value D
    · simp [h]
    · simp [h]

/-- Witness of C28: the ratio `1000`. -/
theorem point_cast_order_rational_witness :
    sudo_cast_point_order [⟨Base.integral 2, 3⟩, ⟨Base.integral 5, 3⟩] [] =
        some point_cast_order.representation_then_origin ↔
      1 < magnitude_value [⟨Base.integral 2, 3⟩, ⟨Base.integral 5, 3⟩] :=
  (point_cast_order_rational [⟨Base.integral 2, 3⟩, ⟨Base.integral 5, 3⟩] []
    [⟨Base.integral 2, 3⟩, ⟨Base.integral 5, 3⟩] [⟨Base.integral 2, 3⟩, ⟨Base.integral 5, 3⟩] []
    (by decide!) (by decide!) (by decide!) (by decide!) (by decide!) (by decide!) (by decide!)
    (by decide!)).2.2.2.2.1

/-- The order for the ratios `1000`, `3/2`, `1`, `2/3` and `1/1000`. -/
theorem point_cast_order_examples :
    sudo_cast_point_order [⟨Base.integral 2, 3⟩, ⟨Base.integral 5, 3⟩] [] =
      some point_cast_order.representation_then_origin ∧
    sudo_cast_point_order [⟨Base.integral 3, 1⟩] [⟨Base.integral 2, 1⟩] =
      some point_cast_order.representation_then_origin ∧
    sudo_cast_point_order [⟨Base.integral 2, 1⟩] [⟨Base.integral 2, 1⟩] =
      some point_cast_order.unit_then_origin ∧
    sudo_cast_point_order [⟨Base.integral 2, 1⟩] [⟨Base.integral 3, 1⟩] =
      some point_cast_order.unit_then_origin ∧
    sudo_cast_point_order [] [⟨Base.integral 2, 3⟩, ⟨Base.integral 5, 3⟩] =
      some point_cast_order.unit_then_origin := by
  decide!



/-! ### Claims C29 and C30 -/

/-- C30: a fractional power of a prime is irrational.  `is_rational(A)` holds if and only
if every element of `A` other than the sentinel has an integer base and an exponent with
denominator `1`; so `mag_power<2, 1, 2>` (the square root of `2`) and the magnitude of a
named constant are neither rational nor integral, while the identity magnitude is both. -/
theorem is_rational_iff (A : unit_magnitude) (c : mag_constant) :
    (is_rational A = true ↔
      ∀ e ∈ A, e.is_negative_tag = false →
        e.base.is_integral_type = true ∧ e.exponent.den = 1) ∧
    (mag 2).bind (pow 1 2) = some [⟨Base.integral 2, 1 / 2⟩] ∧
    is_rational [⟨Base.integral 2, 1 / 2⟩] = false ∧
    is_integral [⟨Base.integral 2, 1 / 2⟩] = false ∧
    is_rational (mag_of_constant c) = false ∧ is_integral (mag_of_constant c) = false ∧
    is_rational [] = true ∧ is_integral [] = true := by
  refine ⟨?_, by decide!, by decide!, by decide!, ?_, ?_, rfl, rfl⟩
  · unfold is_rational
    rw [List.all_eq_true]
    constructor
    · intro h e he hs
      have := h e he
      simpa [is_rational_impl, hs] using this
    · intro h e he
      cases hs : e.is_negative_tag
      · have := h e he hs
        simp [is_rational_impl, hs, this.1, this.2]
      · simp [is_rational_impl, hs]
  · simp [mag_of_constant, is_rational, is_rational_impl, Element.is_negative_tag,
      Base.is_integral_type]
  · simp [mag_of_constant, is_integral, is_integral_impl, is_rational_impl,
      Element.is_negative_tag, Base.is_integral_type]

/-- The cases of the tests: integers and fractions are rational, only integers are
integral, `pi` and the square root of `2` are neither. -/
theorem is_rational_examples :
    is_integral [⟨Base.integral 3, 1⟩] = true ∧ is_rational [⟨Base.integral 3, 1⟩] = true ∧
    is_integral [⟨Base.negative_tag, 1⟩, ⟨Base.integral 2, 3⟩] = true ∧
    is_rational [⟨Base.negative_tag, 1⟩, ⟨Base.integral 2, 1⟩] = true ∧
    is_integral [⟨Base.integral 2, -1⟩] = false ∧ is_rational [⟨Base.integral 2, -1⟩] = true ∧
    is_integral [⟨Base.negative_tag, 1⟩, ⟨Base.integral 2, -1⟩] = false ∧
    is_rational [⟨Base.negative_tag, 1⟩, ⟨Base.integral 2, -1⟩] = true ∧
    is_rational (mag_of_constant ⟨0, 3141592653589793 / 1000000000000000⟩) = false ∧
    is_integral (mag_of_constant ⟨0, 3141592653589793 / 1000000000000000⟩) = false := by
  decide!

/-- C29, as amended: for a canonical magnitude `A`, `is_rational(A)` is true if and only
if every base of `A` is a prime or the sentinel (no named constant) and every exponent is
an integer. -/
theorem is_rational_iff_prime_bases (A : unit_magnitude) (hA : Canonical A) :
    is_rational A = true ↔
      ∀ e ∈ A, (e.base = Base.negative_tag ∨
        ∃ p : Nat, p.Prime ∧ e.base = Base.integral (p : Int)) ∧
        e.base.is_mag_constant = false ∧ e.exponent.den = 1 := by
  constructor
  · intro hr e he
    have hre : is_rational_impl e = true := by
      unfold is_rational at hr
      exact List.all_eq_true.1 hr e he
    rcases rational_element (hA.2 e he) hre with ⟨hb, hx⟩ | ⟨q, hq, hb, hx⟩
    · refine ⟨Or.inl hb, by rw [hb]; rfl, by rw [hx]; rfl⟩
    · refine ⟨Or.inr ⟨q, hq, hb⟩, by rw [hb]; rfl, ?_⟩
      rw [hx]; rfl
  · intro h
    unfold is_rational
    rw [List.all_eq_true]
    intro e he
    obtain ⟨hb, _, hd⟩ := h e he
    rcases hb with hb | ⟨p, _, hb⟩
    · exact is_rational_impl_of_sentinel (hA.2 e he) hb
    · have hns : e.base ≠ Base.negative_tag := by rw [hb]; simp
      rw [is_rational_impl_iff hns]
      exact ⟨by rw [hb]; rfl, hd⟩

/-- Counterexample to C29 as stated: the square root of `2`, `pow<1, 2>(mag<2>)`, is
canonical, its only base is the prime `2` and it contains no named constant, but it is not
rational. -/
theorem is_rational_sqrt_two :
    (mag 2).bind (pow 1 2) = some [⟨Base.integral 2, 1 / 2⟩] ∧
      Canonical [⟨Base.integral 2, 1 / 2⟩] ∧
      (∀ e ∈ ([⟨Base.integral 2, 1 / 2⟩] : unit_magnitude),
        (e.base = Base.negative_tag ∨ ∃ p : Nat, p.Prime ∧ e.base = Base.integral (p : Int)) ∧
          e.base.is_mag_constant = false) ∧
      is_rational [⟨Base.integral 2, 1 / 2⟩] = false := by
  refine ⟨by decide!, by decide!, ?_, by decide!⟩
  intro e he
  rw [List.mem_singleton] at he
  subst he
  exact ⟨Or.inr ⟨2, Nat.prime_two, rfl⟩, rfl⟩

/-- Witness of the amended C29: `-3/8`. -/
theorem is_rational_iff_prime_bases_witness :
    is_rational [⟨Base.negative_tag, 1⟩, ⟨Base.integral 2, -3⟩, ⟨Base.integral 3, 1⟩] = true ↔
      ∀ e ∈ ([⟨Base.negative_tag, 1⟩, ⟨Base.integral 2, -3⟩, ⟨Base.integral 3, 1⟩] :
          unit_magnitude),
        (e.base = Base.negative_tag ∨
          ∃ p : Nat, p.Prime ∧ e.base = Base.integral (p : Int)) ∧
        e.base.is_mag_constant = false ∧ e.exponent.den = 1 :=
  is_rational_iff_prime_bases _ (by decide!)



/-! ### Claim C31 -/

/-- A canonical rational magnitude over prime bases is integral exactly when it carries no
negative exponent. -/
theorem is_integral_iff_expo_nonneg {R : unit_magnitude} {n : Nat} (hR : Canonical R)
    (hb : ∀ e ∈ R, e.base = Base.negative_tag ∨
      ∃ p : Nat, p.Prime ∧ p ∣ n ∧ e.base = Base.integral (p : Int))
    (hr : is_rational R = true) :
    is_integral R = true ↔ ∀ p : Nat, p.Prime → 0 ≤ expo R (Base.integral (p : Int)) := by
  unfold is_integral
  rw [List.all_eq_true]
  constructor
  · intro h p _
    by_cases h0 : expo R (Base.integral (p : Int)) = 0
    · rw [h0]
    · obtain ⟨e, he, heb⟩ := exists_mem_of_expo_ne_zero h0
      have hi := h e he
      have hne : e.base ≠ Base.negative_tag := by rw [heb]; intro hh; cases hh
      have hnum : is_rational_impl e = true ∧ 0 < e.exponent := by
        simpa [is_integral_impl, not_negative_tag_of_base hne] using hi
      rw [← heb, expo_of_mem hR.1 he]
      exact hnum.2.le
  · intro h e he
    rcases hb e he with hs | ⟨p, hp, _, hpb⟩
    · simp [is_integral_impl, (is_negative_tag_iff (hR.2 e he)).2 hs]
    · have hrat : is_rational_impl e = true := by
        unfold is_rational at hr
        rw [List.all_eq_true] at hr
        exact hr e he
      have hne : e.base ≠ Base.negative_tag := by rw [hpb]; intro hh; cases hh
      have hge := h p hp
      rw [← hpb, expo_of_mem hR.1 he] at hge
      have hpos : 0 < e.exponent := lt_of_le_of_ne hge (Ne.symm (hR.2 e he).2.1)
      have hnum : 0 < e.exponent.num := (exponent_pos_iff _).1 hpos
      simp [is_integral_impl, not_negative_tag_of_base hne, hrat, hnum]

/-- The lowest-terms denominator of `ratio{p, q}` is `1` exactly when `q` divides `p`. -/
theorem ratio_make_den_eq_one_iff (p : Int) {q : Int} (hq : q ≠ 0) :
    (ratio.make p q).den = 1 ↔ q ∣ p := by
  unfold ratio.make
  rw [Rat.divInt_eq_div]
  exact Rat.den_div_intCast_eq_one_iff p q hq

/-- Examples for C31 (the assertions of the test file): integers and negative integers
are integral, proper fractions are rational and not integral. -/
theorem mag_ratio_integral_examples :
    (mag 2).map is_integral = some true ∧
    (mag (-1)).map is_integral = some true ∧
    (mag (-6)).map is_integral = some true ∧
    (mag_ratio 1 2).map is_integral = some false ∧
    (mag_ratio 3 4).map is_integral = some false ∧
    (mag_ratio (-1) 2).map is_integral = some false ∧
    (mag_ratio 3 4).map is_rational = some true ∧
    (mag_ratio (-6) 3).map is_integral = some true := by
  decide!



/-! ### Integer powers and repeated products, with exact exponents -/

theorem ratio_make_int (n : Int) : ratio.make n 1 = (n : ℚ) := by
  unfold ratio.make
  rw [Rat.divInt_one]

/-- What an integer power `pow<n>` returns on a canonical magnitude: always defined,
exponents multiplied by `n`, the sentinel kept exactly for an odd `n`. -/
theorem pow_int_spec (n : Int) (hn : n ≠ 0) {A : unit_magnitude} (hA : Canonical A) :
    ∃ I, pow n 1 A = some I ∧ Canonical I ∧ (∀ e ∈ I, ∃ x ∈ A, x.base = e.base) ∧
      (∀ b, b ≠ Base.negative_tag → expo I b = expo A b * (n : ℚ)) ∧
      has_sentinel I = (has_sentinel A && decide (n.natAbs % 2 = 1)) := by
  have hden : (ratio.make n 1).den % 2 = 1 := by
    rw [ratio_make_int, Rat.intCast_den]
  obtain ⟨I, hI, hIc, hIb, hIe, hIs⟩ := pow_spec n 1 hn one_ne_zero hA (fun _ => hden)
  refine ⟨I, hI, hIc, hIb, ?_, ?_⟩
  · intro b hb
    rw [hIe b hb, ratio_make_int]
  · rw [hIs, ratio_make_int, Rat.intCast_num]
    congr 1
    apply decide_eq_decide.2
    rw [Ne, tmod_two_eq_zero_iff]
    omega

theorem repeated_product_succ (A : unit_magnitude) (n : Nat) (hn : 1 ≤ n) :
    repeated_product A (n + 1) = (repeated_product A n).bind (fun P => mul P A) := by
  obtain ⟨m, rfl⟩ : ∃ m, n = m + 1 := ⟨n - 1, by omega⟩
  rfl

/-- The `n`-fold product of a canonical magnitude is its `n`-th power. -/
theorem repeated_product_eq_pow {A : unit_magnitude} (hA : Canonical A) :
    ∀ n : Nat, 1 ≤ n → ∃ P, pow (n : Int) 1 A = some P ∧ repeated_product A n = some P := by
  intro n hn
  induction n, hn using Nat.le_induction with
  | base =>
    obtain ⟨I, hI, hIc, _, hIe, hIs⟩ := pow_int_spec 1 one_ne_zero hA
    refine ⟨I, hI, ?_⟩
    have hIA : I = A := by
      apply canonical_ext hIc hA
      · intro b hb
        rw [hIe b hb]; simp
      · rw [hIs]; simp
    rw [hIA]
    rfl
  | succ n hn ih =>
    obtain ⟨P, hP, hrep⟩ := ih
    have hn0 : (n : Int) ≠ 0 := by exact_mod_cast (by omega : n ≠ 0)
    obtain ⟨I, hI, hIc, hIb, hIe, hIs⟩ := pow_int_spec (n : Int) hn0 hA
    rw [hP] at hI
    cases hI
    have hn1 : ((n + 1 : Nat) : Int) ≠ 0 := by exact_mod_cast (by omega : n + 1 ≠ 0)
    obtain ⟨J, hJ, hJc, _, hJe, hJs⟩ := pow_int_spec ((n + 1 : Nat) : Int) hn1 hA
    have hcoh : Coherent P A := coherent_of_bases_within hA hIb (fun e he => ⟨e, he, rfl⟩)
    obtain ⟨R, hR, hRc, _, hRe, hRs⟩ := mul_spec hIc hA hcoh
    refine ⟨J, hJ, ?_⟩
    rw [repeated_product_succ A n hn, hrep, Option.some_bind, hR]
    congr 1
    apply canonical_ext hRc hJc
    · intro b hb
      rw [hRe b hb, hIe b hb, hJe b hb]
      push_cast
      ring
    · rw [hRs, hIs, hJs]
      simp only [Int.natAbs_ofNat]
      cases has_sentinel A
      · rfl
      · rcases Nat.mod_two_eq_zero_or_one n with h | h
        · have h2 : (n + 1) % 2 = 1 := by omega
          simp [h, h2]
        · have h2 : (n + 1) % 2 = 0 := by omega
          simp [h, h2]

/-- The sign of an integer power. -/
theorem int_pow_neg_iff (a : Int) (ha : a ≠ 0) (n : Nat) :
    a ^ n < 0 ↔ (a < 0 ∧ n % 2 = 1) := by
  rcases Nat.even_or_odd n with he | ho
  · have h1 : 0 < a ^ n := he.pow_pos ha
    have h2 : n % 2 = 0 := Nat.even_iff.1 he
    constructor
    · intro h; omega
    · intro h; omega
  · have h2 : n % 2 = 1 := Nat.odd_iff.1 ho
    rw [ho.pow_neg_iff]
    constructor
    · intro h; exact ⟨h, h2⟩
    · intro h; exact h.1

/-- The integer power of a constructed integer is the constructed power. -/
theorem pow_mag_eq (a : Int) (ha : a ≠ 0) (n : Nat) (hn : 1 ≤ n) :
    ∃ M P, mag a = some M ∧ pow (n : Int) 1 M = some P ∧ mag (a ^ n) = some P := by
  obtain ⟨M, hM, hMc, hMs, hMb, hMe⟩ := mag_spec ha
  have hn0 : (n : Int) ≠ 0 := by exact_mod_cast (by omega : n ≠ 0)
  obtain ⟨P, hP, hPc, hPb, hPe, hPs⟩ := pow_int_spec (n : Int) hn0 hMc
  have han : a ^ n ≠ 0 := pow_ne_zero n ha
  obtain ⟨R, hR, hRc, hRs, hRb, hRe⟩ := mag_spec han
  refine ⟨M, P, hM, hP, ?_⟩
  rw [hR]
  congr 1
  have hPb2 : ∀ e ∈ P, e.base = Base.negative_tag ∨
      ∃ p : Nat, p.Prime ∧ p ∣ a.natAbs ∧ e.base = Base.integral (p : Int) := by
    intro e he
    obtain ⟨x, hx, hxb⟩ := hPb e he
    rw [← hxb]
    exact hMb x hx
  apply rational_ext hRc hPc hRb hPb2
  · rw [hRs, hPs, hMs, Int.natAbs_ofNat]
    by_cases h : a ^ n < 0
    · have h2 := (int_pow_neg_iff a ha n).1 h
      simp [h, h2.1, h2.2]
    · have h2 : ¬ (a < 0 ∧ n % 2 = 1) := fun hh => h ((int_pow_neg_iff a ha n).2 hh)
      by_cases h3 : a < 0
      · have h4 : ¬ n % 2 = 1 := fun hh => h2 ⟨h3, hh⟩
        simp [h, h3, h4]
      · simp [h, h3]
  · intro p hp
    have hb : Base.integral (p : Int) ≠ Base.negative_tag := by intro hh; cases hh
    have hapos : 0 < a.natAbs := Int.natAbs_pos.2 ha
    rw [hRe p hp, hPe _ hb, hMe p hp, Int.natAbs_pow,
      multiplicity_eq hp (pow_pos hapos n), multiplicity_eq hp hapos, Nat.factorization_pow]
    simp only [Finsupp.smul_apply, smul_eq_mul]
    push_cast
    ring

/-- With exponents kept as exact ratios (the conversion to the `int` parameters of
`power_v` aside): for every canonical magnitude `A` (positive or negative) and every
integer `n >= 1`, `pow<n>(A)` is defined and equals the `n`-fold product
`A * A * ... * A`, which is defined; and for every nonzero integer `a`, the `n`-th power
of the factorization of `a` is the factorization of `a^n`. -/
theorem pow_repeated_product (A : unit_magnitude) (hA : Canonical A) (n : Nat) (hn : 1 ≤ n) :
    (∃ P, pow (n : Int) 1 A = some P ∧ repeated_product A n = some P) ∧
    (∀ a : Int, a ≠ 0 →
      ∃ M P, mag a = some M ∧ pow (n : Int) 1 M = some P ∧ mag (a ^ n) = some P) :=
  ⟨repeated_product_eq_pow hA n hn, fun a ha => pow_mag_eq a ha n hn⟩

theorem pow_repeated_product_witness :
    (∃ P, pow ((3 : Nat) : Int) 1 [⟨Base.negative_tag, 1⟩, ⟨Base.integral 2, 1⟩] = some P ∧
      repeated_product [⟨Base.negative_tag, 1⟩, ⟨Base.integral 2, 1⟩] 3 = some P) ∧
    (∀ a : Int, a ≠ 0 →
      ∃ M P, mag a = some M ∧ pow ((3 : Nat) : Int) 1 M = some P ∧ mag (a ^ 3) = some P) :=
  pow_repeated_product [⟨Base.negative_tag, 1⟩, ⟨Base.integral 2, 1⟩] (by decide!) 3
    (by decide)

/-- The assertions of the test file: `pow<2>(mag<3>) == mag<9>`,
`pow<3>(mag<-2>) == mag<-8>`, and the three-fold product of `mag<-2>`. -/
theorem pow_repeated_product_examples :
    (mag 3).bind (pow 2 1) = mag 9 ∧
    (mag (-2)).bind (pow 3 1) = mag (-8) ∧
    (mag (-2)).bind (fun A => repeated_product A 3) = mag (-8) ∧
    (mag 2).bind (pow 3 1) = mag 8 ∧
    (mag (-2)).bind (pow 2 1) = mag 4 := by
  decide!



/-! ### Composition of powers, with exact exponents -/

theorem pow_nil (Num Den : Int) : pow Num Den [] = some [] := by
  unfold pow
  split
  · rfl
  · rw [pow_magnitude]

theorem pow_zero_num (Den : Int) (m : unit_magnitude) : pow 0 Den m = some [] := by
  unfold pow
  rw [if_pos rfl]

theorem ratio_make_mul (N1 D1 N2 D2 : Int) (hD1 : D1 ≠ 0) (hD2 : D2 ≠ 0) :
    ratio.make (N1 * N2) (D1 * D2) = ratio.make N1 D1 * ratio.make N2 D2 := by
  unfold ratio.make
  rw [Rat.divInt_mul_divInt _ _ hD1 hD2]

/-- Powers compose on a positive canonical magnitude. -/
theorem pow_pow_positive {A : unit_magnitude} (hA : Canonical A)
    (hs : has_sentinel A = false) (N1 D1 N2 D2 : Int) (hD1 : D1 ≠ 0) (hD2 : D2 ≠ 0) :
    ∃ S P, pow N2 D2 A = some S ∧ pow N1 D1 S = some P ∧
      pow (N1 * N2) (D1 * D2) A = some P := by
  by_cases hN2 : N2 = 0
  · subst hN2
    refine ⟨[], [], pow_zero_num D2 A, pow_nil N1 D1, ?_⟩
    rw [mul_zero]
    exact pow_zero_num _ A
  by_cases hN1 : N1 = 0
  · subst hN1
    have hfalse : has_sentinel A = true → (ratio.make N2 D2).den % 2 = 1 := by
      intro h; rw [hs] at h; cases h
    obtain ⟨S, hS, _⟩ := pow_spec N2 D2 hN2 hD2 hA hfalse
    refine ⟨S, [], hS, pow_zero_num D1 S, ?_⟩
    rw [zero_mul]
    exact pow_zero_num _ A
  have hfalse : ∀ r : ℚ, has_sentinel A = true → r.den % 2 = 1 := by
    intro r h; rw [hs] at h; cases h
  obtain ⟨S, hS, hSc, _, hSe, hSs⟩ := pow_spec N2 D2 hN2 hD2 hA (hfalse _)
  have hSs0 : has_sentinel S = false := by rw [hSs, hs]; rfl
  have hfalse2 : has_sentinel S = true → (ratio.make N1 D1).den % 2 = 1 := by
    intro h; rw [hSs0] at h; cases h
  obtain ⟨P, hP, hPc, _, hPe, hPs⟩ := pow_spec N1 D1 hN1 hD1 hSc hfalse2
  obtain ⟨Q, hQ, hQc, _, hQe, hQs⟩ :=
    pow_spec (N1 * N2) (D1 * D2) (mul_ne_zero hN1 hN2) (mul_ne_zero hD1 hD2) hA (hfalse _)
  refine ⟨S, P, hS, hP, ?_⟩
  rw [hQ]
  congr 1
  apply canonical_ext hQc hPc
  · intro b hb
    rw [hQe b hb, hPe b hb, hSe b hb, ratio_make_mul N1 D1 N2 D2 hD1 hD2]
    ring
  · rw [hQs, hPs, hSs0, hs]
    rfl

/-- A root undoes a power on a positive canonical magnitude. -/
theorem root_pow_positive {A : unit_magnitude} (hA : Canonical A)
    (hs : has_sentinel A = false) (n : Int) (hn : n ≠ 0) :
    ∃ S, pow n 1 A = some S ∧ pow 1 n S = some A := by
  obtain ⟨S, P, hS, hP, hQ⟩ := pow_pow_positive hA hs 1 n n 1 hn one_ne_zero
  refine ⟨S, hS, ?_⟩
  rw [hP]
  congr 1
  have hfalse : has_sentinel A = true → (ratio.make (1 * n) (n * 1)).den % 2 = 1 := by
    intro h; rw [hs] at h; cases h
  obtain ⟨Q, hQ2, hQc, _, hQe, hQs⟩ :=
    pow_spec (1 * n) (n * 1) (mul_ne_zero one_ne_zero hn) (mul_ne_zero hn one_ne_zero) hA
      hfalse
  rw [hQ] at hQ2
  cases hQ2
  apply canonical_ext hQc hA
  · intro b hb
    have h1 : ratio.make (1 * n) (n * 1) = 1 := by
      unfold ratio.make
      rw [one_mul, mul_one, Rat.divInt_self' hn]
    rw [hQe b hb, h1, mul_one]
  · rw [hQs, hs]
    rfl

/-- With exponents kept as exact ratios (the conversion to the `int` parameters of
`power_v` aside): for every
positive canonical magnitude `A` and all rational exponents `r = N1/D1` and `s = N2/D2`,
`pow<s>(A)`, `pow<r>(pow<s>(A))` and `pow<r*s>(A)` are defined and
`pow<r>(pow<s>(A)) == pow<r*s>(A)`; in particular `pow<1,n>(pow<n>(A)) == A` for every
`n != 0`. -/
theorem pow_pow (A : unit_magnitude) (hA : Canonical A)
    (hpos : check_magnitude_is_positive A = true) :
    (∀ N1 D1 N2 D2 : Int, D1 ≠ 0 → D2 ≠ 0 →
      ∃ S P, pow N2 D2 A = some S ∧ pow N1 D1 S = some P ∧
        pow (N1 * N2) (D1 * D2) A = some P) ∧
    (∀ n : Int, n ≠ 0 → ∃ S, pow n 1 A = some S ∧ pow 1 n S = some A) :=
  ⟨fun N1 D1 N2 D2 hD1 hD2 =>
      pow_pow_positive hA (positive_shape hA hpos).2.1 N1 D1 N2 D2 hD1 hD2,
    fun n hn => root_pow_positive hA (positive_shape hA hpos).2.1 n hn⟩

theorem pow_pow_witness :
    (∀ N1 D1 N2 D2 : Int, D1 ≠ 0 → D2 ≠ 0 →
      ∃ S P, pow N2 D2 [⟨Base.integral 2, 2⟩] = some S ∧ pow N1 D1 S = some P ∧
        pow (N1 * N2) (D1 * D2) [⟨Base.integral 2, 2⟩] = some P) ∧
    (∀ n : Int, n ≠ 0 → ∃ S, pow n 1 [⟨Base.integral 2, 2⟩] = some S ∧
      pow 1 n S = some [⟨Base.integral 2, 2⟩]) :=
  pow_pow [⟨Base.integral 2, 2⟩] (by decide!) (by decide!)

/-- The assertions of the test file: `pow<1,2>(mag<4>) == mag<2>`,
`pow<1,2>(mag<9>) == mag<3>`, and a root undoing a power. -/
theorem pow_pow_examples :
    (mag 4).bind (pow 1 2) = mag 2 ∧
    (mag 9).bind (pow 1 2) = mag 3 ∧
    ((mag 6).bind (pow 3 1)).bind (pow 1 3) = mag 6 ∧
    ((mag 6).bind (pow 2 3)).bind (pow 3 4) = (mag 6).bind (pow 1 2) := by
  decide!



/-! ### SI prefix selection: `invoke_with_prefixed` -/

/-- A zero quantity is passed on in the unit itself. -/
theorem invoke_with_prefixed_zero {α : Type} (func : prefixed_unit → α) (mag : Int)
    (range : prefix_range) (min_integral_digits : Int) :
    invoke_with_prefixed func true mag range min_integral_digits =
      func prefixed_unit.unprefixed := by
  unfold invoke_with_prefixed
  rw [if_pos rfl]

/-- Every exponent from `30` on selects quetta, in both modes. -/
theorem invoke_with_prefixed_high {α : Type} (func : prefixed_unit → α) (mag : Int)
    (range : prefix_range) (h : 30 ≤ mag) :
    invoke_with_prefixed func false mag range 1 = func prefixed_unit.quetta := by
  unfold invoke_with_prefixed
  have h2 : mag - (1 - 1) ≥ 30 := by omega
  simp only [Bool.false_eq_true, if_false]
  rw [if_pos h2]

/-- In engineering mode the selected power of ten is the multiple of three just below the
computed decimal order `mag`, as long as `mag` is within the prefixes that exist. -/
theorem invoke_with_prefixed_engineering_window (mag : Int) (h1 : -30 ≤ mag) (h2 : mag ≤ 32) :
    3 ∣ (invoke_with_prefixed id false mag prefix_range.engineering 1).power_of_ten ∧
      (invoke_with_prefixed id false mag prefix_range.engineering 1).power_of_ten ≤ mag ∧
      mag < (invoke_with_prefixed id false mag prefix_range.engineering 1).power_of_ten + 3 := by
  interval_cases mag <;> decide

/-- In full mode the selected power of ten is the computed decimal order `mag` itself
from milli to kilo. -/
theorem invoke_with_prefixed_full_exact (mag : Int) (h1 : -3 ≤ mag) (h2 : mag ≤ 3) :
    (invoke_with_prefixed id false mag prefix_range.full 1).power_of_ten = mag := by
  interval_cases mag <;> decide

/-- In full mode, beyond milli and kilo, the selected power of ten is the multiple of
three just below the computed decimal order `mag`. -/
theorem invoke_with_prefixed_full_coarse (mag : Int) (h1 : -30 ≤ mag) (h2 : mag ≤ 32)
    (h3 : mag < -3 ∨ 3 < mag) :
    3 ∣ (invoke_with_prefixed id false mag prefix_range.full 1).power_of_ten ∧
      (invoke_with_prefixed id false mag prefix_range.full 1).power_of_ten ≤ mag ∧
      mag < (invoke_with_prefixed id false mag prefix_range.full 1).power_of_ten + 3 := by
  interval_cases mag <;> first | omega | decide



/-! ### Claims C34 and C35 -/

/-- C34: engineering mode at the quantity of value `5e33`, and at the value
`999.9999999999999`.  For `5e33` the computed decimal order is `33`; every exponent from
`30` on selects quetta, `P = 30`, so `e < P + 3` fails and the value passed is
`5e33 / 1e30`, that is `5000` up to the rounding of the division, outside the documented
range `[1.0, 1000)`.  For `999.9999999999999` the floating-point
`log10` returns `3`, kilo is selected, and the value passed, below `1`, is outside the
range too.  Inside the table, with an exactly computed order, the selection is as
documented: `12345` has order `4` and is passed in kilo. -/
theorem invoke_with_prefixed_engineering_range :
    invoke_with_prefixed id false 33 prefix_range.engineering 1 = prefixed_unit.quetta ∧
    prefixed_unit.quetta.power_of_ten = 30 ∧
    ¬ ((33 : Int) < prefixed_unit.quetta.power_of_ten + 3) ∧
    (5 * 10 ^ 33 : ℚ) / 10 ^ prefixed_unit.quetta.power_of_ten = 5000 ∧
    ¬ ((5000 : ℚ) < 1000) ∧
    invoke_with_prefixed id false 3 prefix_range.engineering 1 = prefixed_unit.kilo ∧
    (9999999999999999 / 10 ^ 13 : ℚ) / 10 ^ prefixed_unit.kilo.power_of_ten < 1 ∧
    invoke_with_prefixed id false 4 prefix_range.engineering 1 = prefixed_unit.kilo ∧
    invoke_with_prefixed id false (-40) prefix_range.engineering 1 = prefixed_unit.quecto := by
  refine ⟨by decide, by decide, by decide, ?_, by norm_num, by decide, ?_, by decide,
    by decide⟩
  · norm_num [prefixed_unit.power_of_ten]
  · norm_num [prefixed_unit.power_of_ten]

/-- C35: full mode at the quantity of value `12345`, and at the value
`99.99999999999999`.  For `12345` the computed decimal order is `4`; there is no prefix
for `10^4` and kilo is selected, `P = 3`, so the value passed is `12345 / 1e3`, that is
`12.345` up to the rounding of the division, outside the documented range `[1.0, 10.0)`.  For `99.99999999999999` the floating-point `log10`
returns `2`, hecto is selected, and the value passed, below `1`, is outside the range
too.  From milli to kilo, with an exactly computed order, the selection is as documented:
`250` has order `2` and is passed in hecto. -/
theorem invoke_with_prefixed_full_range :
    invoke_with_prefixed id false 4 prefix_range.full 1 = prefixed_unit.kilo ∧
    prefixed_unit.kilo.power_of_ten = 3 ∧
    (12345 : ℚ) / 10 ^ prefixed_unit.kilo.power_of_ten = 2469 / 200 ∧
    ¬ ((2469 / 200 : ℚ) < 10) ∧
    invoke_with_prefixed id false 2 prefix_range.full 1 = prefixed_unit.hecto ∧
    (9999999999999999 / 10 ^ 14 : ℚ) / 10 ^ prefixed_unit.hecto.power_of_ten < 1 ∧
    invoke_with_prefixed id false 1 prefix_range.full 1 = prefixed_unit.deca ∧
    invoke_with_prefixed id false (-1) prefix_range.full 1 = prefixed_unit.deci ∧
    invoke_with_prefixed id false (-2) prefix_range.full 1 = prefixed_unit.centi := by
  refine ⟨by decide, by decide, ?_, by norm_num, by decide, ?_, by decide, by decide,
    by decide⟩
  · norm_num [prefixed_unit.power_of_ten]
  · norm_num [prefixed_unit.power_of_ten]



/-! ### Claim C36 -/

/-- C36: `sudo_cast_value` at the negative rational magnitude `M = -1/7` and the value
`v = 14`, with `int` representations.  `M` is not integral and `1/M = -7` is, so the
second branch divides by `denominator(M) = 7`, a positive magnitude: the result is `2`,
the same as for `abs_magnitude(M) = 1/7`, where `v * M` truncated toward zero is `-2`.
The two sibling branches keep the sign, which `numerator` carries: `M = -7` maps `3` to
`-21` and `M = -3/7` maps `14` to `-6`. -/
theorem sudo_cast_value_negative_reciprocal :
    mag_ratio (-1) 7 = some [⟨Base.negative_tag, 1⟩, ⟨Base.integral 7, -1⟩] ∧
    is_integral [⟨Base.negative_tag, 1⟩, ⟨Base.integral 7, -1⟩] = false ∧
    (pow (-1) 1 [⟨Base.negative_tag, 1⟩, ⟨Base.integral 7, -1⟩]).map is_integral =
      some true ∧
    denominator [⟨Base.negative_tag, 1⟩, ⟨Base.integral 7, -1⟩] =
      some [⟨Base.integral 7, 1⟩] ∧
    sudo_cast_value [⟨Base.negative_tag, 1⟩, ⟨Base.integral 7, -1⟩] [] ⟨true, 32⟩ ⟨true, 32⟩
      14 = some 2 ∧
    sudo_cast_value (abs_magnitude [⟨Base.negative_tag, 1⟩, ⟨Base.integral 7, -1⟩]) []
      ⟨true, 32⟩ ⟨true, 32⟩ 14 = some 2 ∧
    magnitude_value [⟨Base.negative_tag, 1⟩, ⟨Base.integral 7, -1⟩] = -1 / 7 ∧
    trunc_toward_zero ((14 : ℚ) * (-1 / 7)) = -2 ∧
    (mag (-7)).bind (fun M => sudo_cast_value M [] ⟨true, 32⟩ ⟨true, 32⟩ 3) = some (-21) ∧
    (mag_ratio (-3) 7).bind (fun M => sudo_cast_value M [] ⟨true, 32⟩ ⟨true, 32⟩ 14) =
      some (-6) := by
  refine ⟨by decide!, by decide!, by decide!, by decide!, by decide!, by decide!, ?_,
    by decide!, by decide!, by decide!⟩
  norm_num [magnitude_value, get_base_value]



/-! ### Claim C37 -/

/-- C37: `numerator` keeps, for each basis element, only the largest extractable integer
power.  For every canonical magnitude `A`, `numerator(A)` is defined and canonical; an
element of `A` with an integer base `b` and exponent `n/d` with `n >= d` contributes `b`
raised to the integer quotient of `n` by `d`; an element with exponent below 1 (negative
exponents included) or with a named-constant base contributes nothing; nothing else is
contributed; and the sentinel is kept. -/
theorem numerator_integer_powers (A : unit_magnitude) (hA : Canonical A) :
    ∃ N, numerator A = some N ∧ Canonical N ∧
      (∀ e ∈ A, e.base ≠ Base.negative_tag →
        (e.base.is_integral_type = true → (e.exponent.den : Int) ≤ e.exponent.num →
          (⟨e.base, ((e.exponent.num / (e.exponent.den : Int) : Int) : ℚ)⟩ : Element) ∈ N) ∧
        ((e.exponent < 1 ∨ e.base.is_mag_constant = true) → ∀ x ∈ N, x.base ≠ e.base)) ∧
      (∀ x ∈ N, ∃ e ∈ A, e.base = x.base) ∧
      ((⟨Base.negative_tag, 1⟩ : Element) ∈ N ↔ (⟨Base.negative_tag, 1⟩ : Element) ∈ A) := by
  obtain ⟨N, hN, hNc, hNb, hNe, hNs⟩ := numerator_spec hA
  refine ⟨N, hN, hNc, ?_, fun x hx => (hNb x hx).1, ?_⟩
  · intro e he hne
    have hexp : expo N e.base = integer_power e.base e.exponent := by
      rw [hNe e.base hne, expo_of_mem hA.1 he]
    constructor
    · intro hint hge
      have hdpos : (0 : Int) < (e.exponent.den : Int) := by exact_mod_cast e.exponent.den_pos
      have hq : Int.tdiv e.exponent.num (e.exponent.den : Int) =
          e.exponent.num / (e.exponent.den : Int) :=
        Int.tdiv_eq_ediv (by omega) (by omega)
      have hpow : integer_power e.base e.exponent =
          ((e.exponent.num / (e.exponent.den : Int) : Int) : ℚ) := by
        unfold integer_power
        rw [hint, Bool.true_and, if_pos (decide_eq_true hge), hq]
      have hqpos : 0 < e.exponent.num / (e.exponent.den : Int) :=
        Int.le_ediv_of_mul_le hdpos (by omega)
      have hne0 : expo N e.base ≠ 0 := by
        rw [hexp, hpow]
        exact_mod_cast (ne_of_gt hqpos)
      obtain ⟨x, hx, hxb⟩ := exists_mem_of_expo_ne_zero hne0
      have hxe : x.exponent = ((e.exponent.num / (e.exponent.den : Int) : Int) : ℚ) := by
        rw [← expo_of_mem hNc.1 hx, hxb, hexp, hpow]
      have hxeq : x = ⟨e.base, ((e.exponent.num / (e.exponent.den : Int) : Int) : ℚ)⟩ := by
        cases x
        simp only [Element.mk.injEq]
        exact ⟨hxb, hxe⟩
      rw [← hxeq]
      exact hx
    · intro h x hx hxb
      have hzero : integer_power e.base e.exponent = 0 := by
        rcases h with h | h
        · have hlt : e.exponent.num < (e.exponent.den : Int) := Rat.lt_one_iff_num_lt_denom.1 h
          unfold integer_power
          rw [if_neg]
          simp only [Bool.and_eq_true, decide_eq_true_eq, not_and, not_le]
          intro _
          exact hlt
        · apply integer_power_of_not_integral
          cases hb : e.base with
          | negative_tag => rfl
          | integral v => rw [hb] at h; cases h
          | constant c => rfl
      have h1 : expo N x.base = x.exponent := expo_of_mem hNc.1 hx
      rw [hxb, hexp, hzero] at h1
      exact (hNc.2 x hx).2.1 h1.symm
  · have key : ∀ {m : unit_magnitude}, Canonical m →
        ((⟨Base.negative_tag, 1⟩ : Element) ∈ m ↔ has_sentinel m = true) := by
      intro m hm
      rw [has_sentinel_iff]
      constructor
      · intro h
        exact ⟨_, h, rfl⟩
      · rintro ⟨e, he, heb⟩
        have hex : e.exponent = 1 := (hm.2 e he).2.2 heb
        have : e = ⟨Base.negative_tag, 1⟩ := by
          cases e
          simp only [Element.mk.injEq]
          exact ⟨heb, hex⟩
        rw [← this]
        exact he
    rw [key hNc, key hA, hNs]

theorem numerator_integer_powers_witness :
    ∃ N, numerator [⟨Base.integral 2, 5 / 2⟩] = some N ∧ Canonical N ∧
      (⟨Base.integral 2, 2⟩ : Element) ∈ N ∧
      (∀ x ∈ N, ∃ e ∈ [(⟨Base.integral 2, 5 / 2⟩ : Element)], e.base = x.base) := by
  obtain ⟨N, hN, hc, h, hb, _⟩ :=
    numerator_integer_powers [⟨Base.integral 2, 5 / 2⟩] (by decide!)
  have h1 := (h ⟨Base.integral 2, 5 / 2⟩ (List.mem_singleton.2 rfl) (by decide)).1
    (by decide) (by decide!)
  have heq : (⟨Base.integral 2,
      ((((5 / 2 : ℚ)).num / (((5 / 2 : ℚ)).den : Int) : Int) : ℚ)⟩ : Element) =
      ⟨Base.integral 2, 2⟩ := by decide!
  rw [heq] at h1
  exact ⟨N, hN, hc, h1, hb⟩

/-- Examples for C37: the numerator of `2^(5/2)` is `2^2`; an exponent below 1, a negative
exponent and a named constant contribute nothing; the sentinel is kept. -/
theorem numerator_integer_powers_examples :
    numerator [⟨Base.integral 2, 5 / 2⟩] = some [⟨Base.integral 2, 2⟩] ∧
    numerator [⟨Base.integral 2, 1 / 2⟩] = some [] ∧
    numerator [⟨Base.integral 2, -3⟩, ⟨Base.integral 3, 7 / 3⟩] =
      some [⟨Base.integral 3, 2⟩] ∧
    numerator [⟨Base.integral 3, 1⟩,
        ⟨Base.constant ⟨0, 3141592653589793 / 1000000000000000⟩, 2⟩] =
      some [⟨Base.integral 3, 1⟩] ∧
    numerator [⟨Base.negative_tag, 1⟩, ⟨Base.integral 2, 5 / 2⟩, ⟨Base.integral 5, -1⟩] =
      some [⟨Base.negative_tag, 1⟩, ⟨Base.integral 2, 2⟩] := by
  decide!



/-! ### Claim C38 -/

/-- A product that is returned is the product of the canonical operands. -/
theorem mul_isProduct {A B R : unit_magnitude} (hA : Canonical A) (hB : Canonical B)
    (hR : mul A B = some R) : IsProduct A B R := by
  have hc : Coherent A B := (mul_defined_iff hA hB).1 ⟨R, hR⟩
  obtain ⟨S, hS, hp⟩ := mul_spec hA hB hc
  rw [hR] at hS
  cases hS
  exact hp

/-- C38 (amended): in every magnitude produced by multiplication of canonical magnitudes,
the elements are ordered by the numeric value of their bases, strictly increasing: a named
constant stands after the primes below its value and before the primes above it,
constants are ordered among themselves by value, and the sentinel, when present, is the
first element, every other base being positive. -/
theorem mul_sorted_by_value (A B R : unit_magnitude) (hA : Canonical A) (hB : Canonical B)
    (hR : mul A B = some R) :
    List.Pairwise (fun x y => get_base_value x.base < get_base_value y.base) R ∧
    (∀ y ∈ R, y.base ≠ Base.negative_tag → 0 < get_base_value y.base) ∧
    (has_sentinel R = true → ∃ T, R = ⟨Base.negative_tag, 1⟩ :: T ∧
      has_sentinel T = false) := by
  have hRc : Canonical R := (mul_isProduct hA hB hR).1
  refine ⟨hRc.1, ?_, ?_⟩
  · intro y hy hne
    exact get_base_value_pos (hRc.2 y hy).1 hne
  · intro hs
    have hneg : check_magnitude_is_positive R = false := by
      rw [check_positive_eq hRc, hs]
      rfl
    obtain ⟨T, hT, _, hTs, _, _⟩ := negative_shape hRc hneg
    exact ⟨T, hT, hTs⟩

theorem mul_sorted_by_value_witness :
    List.Pairwise (fun x y => get_base_value x.base < get_base_value y.base)
      [(⟨Base.negative_tag, 1⟩ : Element), ⟨Base.integral 2, 1⟩,
        ⟨Base.constant ⟨0, 3141592653589793 / 1000000000000000⟩, 1⟩, ⟨Base.integral 5, 1⟩] ∧
    (∀ y ∈ [(⟨Base.negative_tag, 1⟩ : Element), ⟨Base.integral 2, 1⟩,
        ⟨Base.constant ⟨0, 3141592653589793 / 1000000000000000⟩, 1⟩, ⟨Base.integral 5, 1⟩],
      y.base ≠ Base.negative_tag → 0 < get_base_value y.base) ∧
    (has_sentinel [(⟨Base.negative_tag, 1⟩ : Element), ⟨Base.integral 2, 1⟩,
        ⟨Base.constant ⟨0, 3141592653589793 / 1000000000000000⟩, 1⟩, ⟨Base.integral 5, 1⟩] =
        true →
      ∃ T, [(⟨Base.negative_tag, 1⟩ : Element), ⟨Base.integral 2, 1⟩,
        ⟨Base.constant ⟨0, 3141592653589793 / 1000000000000000⟩, 1⟩, ⟨Base.integral 5, 1⟩] =
          ⟨Base.negative_tag, 1⟩ :: T ∧ has_sentinel T = false) :=
  mul_sorted_by_value
    [⟨Base.negative_tag, 1⟩, ⟨Base.integral 2, 1⟩, ⟨Base.integral 5, 1⟩]
    [⟨Base.constant ⟨0, 3141592653589793 / 1000000000000000⟩, 1⟩]
    [⟨Base.negative_tag, 1⟩, ⟨Base.integral 2, 1⟩,
      ⟨Base.constant ⟨0, 3141592653589793 / 1000000000000000⟩, 1⟩, ⟨Base.integral 5, 1⟩]
    (by decide!) (by decide!) (by decide!)

/-- C38 fails as stated: in the product of `mag<5>` and the named constant of value
`3.141592653589793`, both canonical, the constant stands before the prime `5`. -/
theorem mul_constant_before_prime :
    Canonical [⟨Base.integral 5, 1⟩] ∧
    Canonical [⟨Base.constant ⟨0, 3141592653589793 / 1000000000000000⟩, 1⟩] ∧
    mag 5 = some [⟨Base.integral 5, 1⟩] ∧
    mul [⟨Base.integral 5, 1⟩]
        [⟨Base.constant ⟨0, 3141592653589793 / 1000000000000000⟩, 1⟩] =
      some [⟨Base.constant ⟨0, 3141592653589793 / 1000000000000000⟩, 1⟩,
        ⟨Base.integral 5, 1⟩] := by
  decide!



/-! ### Powers of products, with exact exponents -/

/-- What a defined power is, for a nonzero numerator and denominator. -/
theorem pow_defined_spec {Num Den : Int} (hN : Num ≠ 0) (hD : Den ≠ 0) {A P : unit_magnitude}
    (hA : Canonical A) (hP : pow Num Den A = some P) :
    Canonical P ∧ (∀ e ∈ P, ∃ x ∈ A, x.base = e.base) ∧
      (∀ b, b ≠ Base.negative_tag → expo P b = expo A b * ratio.make Num Den) ∧
      has_sentinel P =
        (has_sentinel A && decide (Int.tmod (ratio.make Num Den).num 2 ≠ 0)) := by
  have hodd : has_sentinel A = true → (ratio.make Num Den).den % 2 = 1 := by
    intro hs
    by_contra hne
    have hnone : pow Num Den A = none := by
      rw [pow_none_iff Num hD hA]
      refine ⟨?_, hN, by omega⟩
      rw [check_positive_eq hA, hs]
      rfl
    rw [hnone] at hP
    cases hP
  obtain ⟨I, hI, hIc, hIb, hIe, hIs⟩ := pow_spec Num Den hN hD hA hodd
  rw [hP] at hI
  cases hI
  exact ⟨hIc, hIb, hIe, hIs⟩

/-- With exponents kept as exact ratios (the conversion to the `int` parameters of
`power_v` aside): for all canonical magnitudes `A` and `B`
(of either sign) and every rational exponent `r = Num/Den` for which `pow<r>(A)`,
`pow<r>(B)` and `pow<r>(A * B)` are all defined, the product `pow<r>(A) * pow<r>(B)` is
defined and equals `pow<r>(A * B)`. -/
theorem pow_mul_distrib (A B : unit_magnitude) (hA : Canonical A) (hB : Canonical B)
    (Num Den : Int) (hD : Den ≠ 0) (PA PB AB P : unit_magnitude)
    (hPA : pow Num Den A = some PA) (hPB : pow Num Den B = some PB)
    (hAB : mul A B = some AB) (hP : pow Num Den AB = some P) :
    mul PA PB = some P := by
  by_cases hN : Num = 0
  · subst hN
    rw [pow_zero_num] at hPA hPB hP
    cases hPA
    cases hPB
    cases hP
    rfl
  obtain ⟨hABc, _, hABe, hABs⟩ := mul_isProduct hA hB hAB
  have hcoh : Coherent A B := (mul_defined_iff hA hB).1 ⟨AB, hAB⟩
  obtain ⟨hPAc, hPAb, hPAe, hPAs⟩ := pow_defined_spec hN hD hA hPA
  obtain ⟨hPBc, hPBb, hPBe, hPBs⟩ := pow_defined_spec hN hD hB hPB
  obtain ⟨hPc, _, hPe, hPs⟩ := pow_defined_spec hN hD hABc hP
  have hcoh2 : Coherent PA PB := by
    intro x hx y hy hv
    obtain ⟨x2, hx2, hxb⟩ := hPAb x hx
    obtain ⟨y2, hy2, hyb⟩ := hPBb y hy
    rw [← hxb, ← hyb] at hv ⊢
    exact hcoh x2 hx2 y2 hy2 hv
  obtain ⟨R, hR, hRc, _, hRe, hRs⟩ := mul_spec hPAc hPBc hcoh2
  rw [hR]
  congr 1
  apply canonical_ext hRc hPc
  · intro b hb
    rw [hRe b hb, hPAe b hb, hPBe b hb, hPe b hb, hABe b hb]
    ring
  · rw [hRs, hPAs, hPBs, hPs, hABs]
    cases has_sentinel A <;> cases has_sentinel B <;>
      cases decide (Int.tmod (ratio.make Num Den).num 2 ≠ 0) <;> rfl

theorem pow_mul_distrib_witness :
    mul [⟨Base.negative_tag, 1⟩, ⟨Base.integral 2, -3⟩]
        [⟨Base.negative_tag, 1⟩, ⟨Base.integral 2, 3 / 5⟩, ⟨Base.integral 3, -6 / 5⟩] =
      some [⟨Base.integral 2, -12 / 5⟩, ⟨Base.integral 3, -6 / 5⟩] :=
  pow_mul_distrib [⟨Base.negative_tag, 1⟩, ⟨Base.integral 2, 5⟩]
    [⟨Base.negative_tag, 1⟩, ⟨Base.integral 2, -1⟩, ⟨Base.integral 3, 2⟩]
    (by decide!) (by decide!) (-3) 5 (by decide)
    [⟨Base.negative_tag, 1⟩, ⟨Base.integral 2, -3⟩]
    [⟨Base.negative_tag, 1⟩, ⟨Base.integral 2, 3 / 5⟩, ⟨Base.integral 3, -6 / 5⟩]
    [⟨Base.integral 2, 4⟩, ⟨Base.integral 3, 2⟩]
    [⟨Base.integral 2, -12 / 5⟩, ⟨Base.integral 3, -6 / 5⟩]
    (by decide!) (by decide!) (by decide!) (by decide!)

/-- Instances with negative operands and with a root. -/
theorem pow_mul_distrib_examples :
    ((mag (-2)).bind (fun A => (mag 3).bind (fun B => (mul A B).bind (pow 3 1)))) =
      ((mag (-2)).bind (fun A => (mag 3).bind (fun B =>
        (pow 3 1 A).bind (fun PA => (pow 3 1 B).bind (fun PB => mul PA PB))))) ∧
    ((mag (-2)).bind (fun A => (mag (-3)).bind (fun B => (mul A B).bind (pow 2 1)))) = mag 36 ∧
    ((mag 4).bind (fun A => (mag 9).bind (fun B => (mul A B).bind (pow 1 2)))) = mag 6 ∧
    ((mag 4).bind (fun A => (mag 9).bind (fun B =>
        (pow 1 2 A).bind (fun PA => (pow 1 2 B).bind (fun PB => mul PA PB))))) = mag 6 := by
  decide!



/-! ### Claim C40: the value of an integral magnitude -/

theorem is_rational_of_is_integral {L : unit_magnitude} (h : is_integral L = true) :
    is_rational L = true := by
  unfold is_integral at h
  unfold is_rational
  rw [List.all_eq_true] at h ⊢
  intro e he
  have hi := h e he
  by_cases ht : e.is_negative_tag = true
  · simp [is_rational_impl, ht]
  · simp only [is_integral_impl, ht, Bool.false_eq_true, if_false, Bool.and_eq_true] at hi
    exact hi.1

theorem no_constant_of_integral {L : unit_magnitude} (h : is_integral L = true) :
    ∀ e ∈ L, e.base.is_mag_constant = false := by
  intro e he
  have hr := is_rational_of_is_integral h
  unfold is_rational at hr
  rw [List.all_eq_true] at hr
  have hre := hr e he
  cases hb : e.base with
  | negative_tag => rfl
  | integral v => rfl
  | constant c =>
    have hne : e.base ≠ Base.negative_tag := by rw [hb]; intro hh; cases hh
    have := ((is_rational_impl_iff hne).1 hre).1
    rw [hb] at this
    cases this

/-- The value `compute_base_power` returns for one element, when it returns. -/
theorem compute_base_power_value {e : Element}
    (hv : e.base = Base.negative_tag → e.exponent = 1) {c : Int}
    (h : compute_base_power intmax_t e = some c) :
    c = base_int e.base ^ e.exponent.num.toNat ∧ intmax_t.holds c = true := by
  unfold compute_base_power at h
  cases hb : e.base with
  | negative_tag =>
    rw [hv hb]
    simp only [hb, if_true] at h
    have h1 : intmax_t.is_signed = true := rfl
    rw [h1, if_pos rfl] at h
    cases h
    exact ⟨by decide!, by decide!⟩
  | integral v =>
    have hne : ¬ (Base.integral v = Base.negative_tag) := by intro hh; cases hh
    simp only [hb, hne, if_false] at h
    by_cases hn : e.exponent.num < 0
    · rw [if_pos hn] at h; cases h
    · rw [if_neg hn] at h
      have hw : widen_t intmax_t = intmax_t := rfl
      rw [hw] at h
      unfold checked_int_pow at h
      by_cases hh : intmax_t.holds (v ^ e.exponent.num.toNat) = true
      · rw [if_pos hh, Option.some_bind] at h
        by_cases hd : e.exponent.den > 1
        · rw [if_pos hd] at h; cases h
        · rw [if_neg hd] at h
          cases h
          exact ⟨rfl, hh⟩
      · rw [if_neg hh] at h
        cases h
  | constant k =>
    have hne : ¬ (Base.constant k = Base.negative_tag) := by intro hh; cases hh
    simp only [hb, hne, if_false] at h
    by_cases hn : e.exponent.num < 0
    · rw [if_pos hn] at h; cases h
    · rw [if_neg hn] at h; cases h

/-- The product `get_value` folds in `std::intmax_t` is the integer the magnitude denotes,
when the fold returns. -/
theorem fold_value : ∀ (L : unit_magnitude),
    (∀ e ∈ L, e.base = Base.negative_tag → e.exponent = 1) → ∀ r : Int,
    L.foldr (fun M acc => (compute_base_power intmax_t M).bind (fun c =>
      acc.bind (fun a => arith_mul intmax_t c a))) (some 1) = some r →
    r = int_value L ∧ intmax_t.holds r = true := by
  intro L
  induction L with
  | nil =>
    intro _ r h
    simp only [List.foldr_nil] at h
    cases h
    exact ⟨rfl, by decide!⟩
  | cons e L ih =>
    intro hv r h
    rw [List.foldr_cons] at h
    cases hc : compute_base_power intmax_t e with
    | none => rw [hc] at h; cases h
    | some c =>
      rw [hc, Option.some_bind] at h
      cases hf : L.foldr (fun M acc => (compute_base_power intmax_t M).bind (fun c =>
          acc.bind (fun a => arith_mul intmax_t c a))) (some 1) with
      | none => rw [hf] at h; cases h
      | some a =>
        rw [hf, Option.some_bind] at h
        obtain ⟨ha, hah⟩ := ih (fun x hx => hv x (List.mem_cons_of_mem _ hx)) a hf
        obtain ⟨hcv, hch⟩ := compute_base_power_value (hv e (List.mem_cons_self _ _)) hc
        unfold arith_mul at h
        have h1 : intmax_t.is_signed = true := rfl
        rw [h1, if_pos rfl, wrap_of_holds intmax_bits hch, wrap_of_holds intmax_bits hah] at h
        by_cases hh : intmax_t.holds (c * a) = true
        · rw [if_pos hh] at h
          cases h
          refine ⟨?_, hh⟩
          rw [int_value_cons, ← hcv, ← ha]
        · rw [if_neg hh] at h
          cases h

/-- What `get_value<T>` returns for a signed `T` on a canonical magnitude, when it
returns: the magnitude is integral and the value is the integer it denotes, held by `T`. -/
theorem get_value_value {T : IntRep} (hs : T.is_signed = true) {L : unit_magnitude}
    (hL : Canonical L) {v : Int} (h : get_value T L = some v) :
    is_integral L = true ∧ v = int_value L ∧ T.holds v = true := by
  rw [get_value_signed hs] at h
  by_cases hi : is_integral L = true
  · rw [if_pos hi] at h
    refine ⟨hi, ?_⟩
    cases hf : L.foldr (fun M acc => (compute_base_power intmax_t M).bind (fun c =>
        acc.bind (fun a => arith_mul intmax_t c a))) (some 1) with
    | none => rw [hf] at h; cases h
    | some r =>
      rw [hf, Option.some_bind] at h
      unfold checked_static_cast at h
      by_cases hh : T.holds r = true
      · rw [if_pos hh] at h
        cases h
        exact ⟨(fold_value L (fun e he => (hL.2 e he).2.2) v hf).1, hh⟩
      · rw [if_neg hh] at h
        cases h
  · rw [if_neg hi] at h
    cases h



/-- The elements of a positive canonical integral magnitude, as `get_value` needs them. -/
theorem integral_positive_elements {K : unit_magnitude} (hK : Canonical K)
    (hi : is_integral K = true) (hs : has_sentinel K = false) :
    ∀ e ∈ K, ∃ v : Int, 1 ≤ v ∧ e.base = Base.integral v ∧ e.exponent.den = 1 ∧
      0 < e.exponent.num := by
  intro e he
  obtain ⟨v, hv, hb, hd, _⟩ :=
    rational_positive_elements hK (is_rational_of_is_integral hi) hs e he
  exact ⟨v, hv, hb, hd, (exponent_pos_iff _).1 (is_integral_exponents_pos hs hi e he)⟩

theorem is_integral_tail {x : Element} {K : unit_magnitude}
    (hi : is_integral (x :: K) = true) : is_integral K = true := by
  unfold is_integral at hi ⊢
  rw [List.all_cons, Bool.and_eq_true] at hi
  exact hi.2

/-- The integer an integral canonical magnitude denotes is its rational value. -/
theorem int_value_cast_integral {L : unit_magnitude} (hL : Canonical L)
    (hi : is_integral L = true) : ((int_value L : Int) : ℚ) = magnitude_value L := by
  cases hs : has_sentinel L with
  | false =>
    apply int_value_cast
    intro e he
    obtain ⟨v, _, hb, _, hn⟩ := integral_positive_elements hL hi hs e he
    exact ⟨v, hb, hn⟩
  | true =>
    have hneg : check_magnitude_is_positive L = false := by
      rw [check_positive_eq hL, hs]; rfl
    obtain ⟨K, hLK, hKc, hKs, _, _⟩ := negative_shape hL hneg
    subst hLK
    have hKi := is_integral_tail hi
    have hcast : ((int_value K : Int) : ℚ) = magnitude_value K := by
      apply int_value_cast
      intro e he
      obtain ⟨v, _, hb, _, hn⟩ := integral_positive_elements hKc hKi hKs e he
      exact ⟨v, hb, hn⟩
    rw [int_value_cons, magnitude_value_cons, Int.cast_mul, hcast]
    norm_num [base_int, get_base_value]

/-- Function `get_value<T>` returns the integer an integral canonical magnitude denotes
when `T` holds it and `std::intmax_t` holds its absolute value. -/
theorem get_value_of_fits {T : IntRep} (hs : T.is_signed = true)
    (hb : T.bits ≤ intmax_t.bits) {L : unit_magnitude} (hL : Canonical L)
    (hi : is_integral L = true) (hfit : T.holds (int_value L) = true)
    (habs : intmax_t.holds (-(int_value L)) = true) :
    get_value T L = some (int_value L) := by
  have hfitmax : intmax_t.holds (int_value L) = true := holds_intmax_of_signed hs hb hfit
  cases hsen : has_sentinel L with
  | false =>
    have hg : get_value intmax_t L = some (int_value L) :=
      get_value_spec (integral_positive_elements hL hi hsen) hfitmax
    obtain ⟨_, hfold⟩ := get_value_fold hg
    rw [get_value_signed hs, if_pos hi, hfold, Option.some_bind]
    unfold checked_static_cast
    rw [if_pos hfit]
  | true =>
    have hneg : check_magnitude_is_positive L = false := by
      rw [check_positive_eq hL, hsen]; rfl
    obtain ⟨K, hLK, hKc, hKs, _, _⟩ := negative_shape hL hneg
    subst hLK
    have hKi := is_integral_tail hi
    have hval : int_value (⟨Base.negative_tag, 1⟩ :: K) = -(int_value K) := by
      rw [int_value_cons]
      norm_num [base_int]
    rw [hval] at hfit hfitmax habs ⊢
    rw [neg_neg] at habs
    have hg : get_value intmax_t K = some (int_value K) :=
      get_value_spec (integral_positive_elements hKc hKi hKs) habs
    obtain ⟨_, hfold⟩ := get_value_fold hg
    have hc : compute_base_power intmax_t ⟨Base.negative_tag, 1⟩ = some (-1) := by decide!
    have hmul : arith_mul intmax_t (-1) (int_value K) = some (-(int_value K)) := by
      unfold arith_mul
      have h1 : intmax_t.wrap (-1) = -1 := by decide!
      have h2 : intmax_t.wrap (int_value K) = int_value K := wrap_of_holds intmax_bits habs
      have h3 : (-1 : Int) * int_value K = -(int_value K) := by omega
      have h4 : intmax_t.is_signed = true := rfl
      rw [h4, if_pos rfl, h1, h2, h3, if_pos hfitmax]
    rw [get_value_signed hs, if_pos hi, List.foldr_cons, hfold, hc, Option.some_bind,
      Option.some_bind, hmul, Option.some_bind]
    unfold checked_static_cast
    rw [if_pos hfit]

/-- The product of two integral canonical magnitudes is defined and integral, and denotes
the product of the two integers. -/
theorem mul_integral {A B : unit_magnitude} (hA : Canonical A) (hB : Canonical B)
    (hAi : is_integral A = true) (hBi : is_integral B = true) :
    ∃ AB, mul A B = some AB ∧ Canonical AB ∧ is_integral AB = true ∧
      int_value AB = int_value A * int_value B := by
  have hcoh : Coherent A B :=
    coherent_of_no_constant hA hB (no_constant_of_integral hAi) (no_constant_of_integral hBi)
  obtain ⟨AB, hAB, hABc, hABb, hABe, hABs⟩ := mul_spec hA hB hcoh
  have hAr := is_rational_of_is_integral hAi
  have hBr := is_rational_of_is_integral hBi
  obtain ⟨hA0, hAneg, hApos, hAp⟩ := rational_value_spec A hA hAr
  obtain ⟨hB0, hBneg, hBpos, hBp⟩ := rational_value_spec B hB hBr
  have hbases : ∀ e ∈ AB, e.base = Base.negative_tag ∨
      ∃ p : Nat, p.Prime ∧ p ∣ 0 ∧ e.base = Base.integral (p : Int) := by
    intro e he
    obtain ⟨x, hx, hxb⟩ := hABb e he
    rw [← hxb]
    rcases List.mem_append.1 hx with h | h
    · exact rational_bases hA hAr x h
    · exact rational_bases hB hBr x h
  have hne : ∀ p : Nat, Base.integral (p : Int) ≠ Base.negative_tag := by
    intro p hh; cases hh
  have hABr : is_rational AB = true := by
    apply is_rational_of_int_exponents hABc hbases
    intro p hp
    refine ⟨padicValRat p (magnitude_value A) + padicValRat p (magnitude_value B), ?_⟩
    rw [hABe _ (hne p), ← hAp p hp, ← hBp p hp]
    push_cast
    rfl
  have hABi : is_integral AB = true := by
    rw [is_integral_iff_expo_nonneg hABc hbases hABr]
    intro p hp
    rw [hABe _ (hne p)]
    have h1 := (is_integral_iff_expo_nonneg hA (rational_bases hA hAr) hAr).1 hAi p hp
    have h2 := (is_integral_iff_expo_nonneg hB (rational_bases hB hBr) hBr).1 hBi p hp
    linarith
  refine ⟨AB, hAB, hABc, hABi, ?_⟩
  have hval : magnitude_value AB = magnitude_value A * magnitude_value B := by
    apply magnitude_value_eq_of_expo hABc hABr (mul_ne_zero hA0 hB0)
    · rw [hABs]
      cases hsA : has_sentinel A <;> cases hsB : has_sentinel B
      · have := mul_pos (hApos hsA) (hBpos hsB)
        simp [not_lt.2 this.le]
      · have := mul_neg_of_pos_of_neg (hApos hsA) (hBneg hsB)
        simp [this]
      · have := mul_neg_of_neg_of_pos (hAneg hsA) (hBpos hsB)
        simp [this]
      · have := mul_pos_of_neg_of_neg (hAneg hsA) (hBneg hsB)
        simp [not_lt.2 this.le]
    · intro p hp
      haveI : Fact p.Prime := ⟨hp⟩
      rw [hABe _ (hne p), padicValRat.mul hA0 hB0, ← hAp p hp, ← hBp p hp]
      push_cast
      rfl
  have hcast : ((int_value AB : Int) : ℚ) = ((int_value A * int_value B : Int) : ℚ) := by
    rw [Int.cast_mul, int_value_cast_integral hABc hABi, int_value_cast_integral hA hAi,
      int_value_cast_integral hB hBi, hval]
  exact_mod_cast hcast

/-- C40 (amended): the numeric interpretation is a homomorphism on integral magnitudes.
For every signed integer type `T` (no wider than `std::intmax_t`) and all canonical
magnitudes `A` and `B` (positive or negative) for which `get_value<T>` returns `a` and
`b` (so that they are integral and their values fit `T`), if the product `a * b` fits
`T` and its negation fits `std::intmax_t`, then `A * B` is defined and
`get_value<T>(A * B) == a * b`; and `get_value<T>` of the identity magnitude is `1`. -/
theorem get_value_mul (T : IntRep) (hs : T.is_signed = true) (hb : T.bits ≤ intmax_t.bits)
    (h8 : 8 ≤ T.bits) (A B : unit_magnitude) (hA : Canonical A) (hB : Canonical B)
    (a b : Int) (ha : get_value T A = some a) (hb2 : get_value T B = some b)
    (hfit : T.holds (a * b) = true) (habs : intmax_t.holds (-(a * b)) = true) :
    (∃ AB, mul A B = some AB ∧ get_value T AB = some (a * b)) ∧
    get_value T [] = some 1 := by
  obtain ⟨hAi, hav, _⟩ := get_value_value hs hA ha
  obtain ⟨hBi, hbv, _⟩ := get_value_value hs hB hb2
  obtain ⟨AB, hAB, hABc, hABi, hval⟩ := mul_integral hA hB hAi hBi
  constructor
  · refine ⟨AB, hAB, ?_⟩
    rw [hav, hbv, ← hval] at hfit habs ⊢
    exact get_value_of_fits hs hb hABc hABi hfit habs
  · have h1 : T.holds 1 = true := by
      unfold IntRep.holds IntRep.min_value IntRep.max_value
      simp only [hs, if_true, Bool.and_eq_true, decide_eq_true_eq]
      have h2 : (2 : Int) ^ 1 ≤ 2 ^ (T.bits - 1) := pow_le_pow_right₀ (by norm_num) (by omega)
      constructor <;> omega
    have := get_value_of_fits hs hb canonical_nil (by rfl) (by simpa using h1) (by decide!)
    simpa using this

theorem get_value_mul_witness :
    (∃ AB, mul [⟨Base.negative_tag, 1⟩, ⟨Base.integral 2, 2⟩]
        [⟨Base.negative_tag, 1⟩, ⟨Base.integral 2, 1⟩, ⟨Base.integral 3, 1⟩] = some AB ∧
      get_value ⟨true, 8⟩ AB = some (-4 * -6)) ∧
    get_value ⟨true, 8⟩ [] = some 1 :=
  get_value_mul ⟨true, 8⟩ (by decide) (by decide) (by decide)
    [⟨Base.negative_tag, 1⟩, ⟨Base.integral 2, 2⟩]
    [⟨Base.negative_tag, 1⟩, ⟨Base.integral 2, 1⟩, ⟨Base.integral 3, 1⟩]
    (by decide!) (by decide!) (-4) (-6) (by decide!) (by decide!) (by decide!) (by decide!)

/-- C40 fails as stated: with `T` the 8-bit signed type, `A = B = mag<16>` are canonical
and integral and their value `16` fits `T`, but `A * B = mag<256>` has no value in `T`,
while the product of the two values is `256`. -/
theorem get_value_mul_rejected :
    mag 16 = some [⟨Base.integral 2, 4⟩] ∧
    Canonical [⟨Base.integral 2, 4⟩] ∧ is_integral [⟨Base.integral 2, 4⟩] = true ∧
    get_value ⟨true, 8⟩ [⟨Base.integral 2, 4⟩] = some 16 ∧
    mul [⟨Base.integral 2, 4⟩] [⟨Base.integral 2, 4⟩] = some [⟨Base.integral 2, 8⟩] ∧
    get_value ⟨true, 8⟩ [⟨Base.integral 2, 8⟩] = none ∧
    (16 : Int) * 16 = 256 := by
  decide!



/-! ### Exponents in `power_v`'s `int` parameters -/

theorem int_bits : 0 < int_t.bits := by decide

/-- When the numerator and the denominator of the exponent are representable in `int`,
the element made with `int` parameters is the element with the exact exponent. -/
theorem int_power_v_or_T_eq (V : Base) (R : ratio) (hn : int_t.holds R.num = true)
    (hd : int_t.holds (R.den : Int) = true) :
    IntExponent.power_v_or_T V R = power_v_or_T V R := by
  have hwn : int_t.wrap R.num = R.num := wrap_of_holds int_bits hn
  have hwd : int_t.wrap (R.den : Int) = (R.den : Int) := wrap_of_holds int_bits hd
  unfold IntExponent.power_v_or_T power_v_or_T power_v
  by_cases hden : R.den = 1
  · rw [if_pos hden]
    by_cases h1 : R.num = 1
    · have hR : R = 1 := by
        apply Rat.ext
        · rw [h1]; rfl
        · rw [hden]; rfl
      rw [if_pos h1, if_neg (by rw [h1]; decide), hR]
    · rw [if_neg h1]
      by_cases h0 : R.num = 0
      · rw [if_pos h0]
        have hw0 : int_t.wrap 0 = 0 := by decide
        rw [h0]
        simp [valid_ratio, hw0]
      · rw [if_neg h0]
        have hR : ratio.make R.num 1 = R := by
          rw [ratio_make_int]
          exact Rat.coe_int_num_of_den_eq_one hden
        simp [valid_ratio, ratio_one, hwn, h0, h1, hR]
  · rw [if_neg hden]
    have h0 : R.num ≠ 0 := by
      intro h
      apply hden
      have : R = 0 := Rat.zero_of_num_zero h
      rw [this]
      rfl
    have hne : R.num ≠ (R.den : Int) := by
      intro h
      apply hden
      have hc : Nat.gcd R.num.natAbs R.den = 1 := R.reduced
      rw [h, Int.natAbs_ofNat, Nat.gcd_self] at hc
      exact hc
    have hd0 : (R.den : Int) ≠ 0 := by exact_mod_cast R.den_nz
    have hR : ratio.make R.num (R.den : Int) = R := by
      unfold ratio.make
      exact Rat.num_divInt_den R
    rw [if_neg h0]
    simp [valid_ratio, ratio_one, hwn, hwd, h0, hne, hd0, hR]

/-- When every new exponent is representable in `int`, the power of a pack of elements
with `int` parameters is the power with exact exponents. -/
theorem int_pow_elements_eq (R : ratio) : ∀ (m : unit_magnitude),
    (∀ e ∈ m, int_t.holds (e.exponent * R).num = true ∧
      int_t.holds (((e.exponent * R).den : Nat) : Int) = true) →
    IntExponent.pow_elements R m = pow_elements R m := by
  intro m
  induction m with
  | nil => intro _; rfl
  | cons e es ih =>
    intro h
    obtain ⟨hn, hd⟩ := h e (List.mem_cons_self _ _)
    have ih1 := ih (fun x hx => h x (List.mem_cons_of_mem _ hx))
    unfold IntExponent.pow_elements pow_elements
    rw [int_power_v_or_T_eq e.base _ hn hd, ih1]
    cases power_v_or_T e.base (e.exponent * R) <;> cases pow_elements R es <;> rfl

/-! ### Claims C18 and C19 -/

/-- C18: `pow<65536>` at the positive magnitude `A = pow<65536>(mag<2>) = 2^65536`.  The
new exponent `65536 * 65536 = 2^32` is converted to the `int` parameter of `power_v`,
which gives `0`; the `requires` clause of `power_v` rejects it, so `pow<65536>(A)` has no
value, although `A` is positive and canonical. -/
theorem pow_positive_rejected :
    make_magnitude int_t 2 = some [⟨Base.integral 2, 1⟩] ∧
    IntExponent.pow 65536 1 [⟨Base.integral 2, 1⟩] = some [⟨Base.integral 2, 65536⟩] ∧
    Canonical [⟨Base.integral 2, 65536⟩] ∧
    check_magnitude_is_positive [⟨Base.integral 2, 65536⟩] = true ∧
    int_t.wrap (65536 * 65536) = 0 ∧
    power_v (Base.integral 2) (65536 * 65536) none = none ∧
    IntExponent.pow 65536 1 [⟨Base.integral 2, 65536⟩] = none := by
  decide!

/-- C19: `pow<-1431655765>` at the negative magnitude `A = mag<-8> = -(2^3)`.  The
exponent has the odd numerator `-1431655765` and the odd denominator `1`; the new exponent
of `2`, `3 * -1431655765 = -(2^32 - 1)`, is converted to the `int` parameter of `power_v`,
which gives `1`; the `requires` clause of `power_v` rejects a ratio equal to one, so the
power has no value and is not negative.  With a small exponent of the same parity the
power is returned and is negative: `pow<-1>(mag<-8>) = -(2^-3)`.  Likewise
`pow<65536>` of `-(2^65536)` has no value. -/
theorem pow_negative_rejected :
    make_magnitude int_t (-8) = some [⟨Base.negative_tag, 1⟩, ⟨Base.integral 2, 3⟩] ∧
    (ratio.make (-1431655765) 1).den % 2 = 1 ∧
    Int.tmod (ratio.make (-1431655765) 1).num 2 ≠ 0 ∧
    int_t.holds (-1431655765) = true ∧
    int_t.wrap (3 * -1431655765) = 1 ∧
    power_v (Base.integral 2) (3 * -1431655765) none = none ∧
    IntExponent.pow (-1431655765) 1 [⟨Base.negative_tag, 1⟩, ⟨Base.integral 2, 3⟩] = none ∧
    IntExponent.pow (-1) 1 [⟨Base.negative_tag, 1⟩, ⟨Base.integral 2, 3⟩] =
      some [⟨Base.negative_tag, 1⟩, ⟨Base.integral 2, -3⟩] ∧
    IntExponent.pow 65536 1 [⟨Base.negative_tag, 1⟩, ⟨Base.integral 2, 65536⟩] = none := by
  decide!



/-! ### Claims C32, C33 and C39 -/

/-- C32: `pow<4>` and the four-fold product at `A = pow<1073741824>(mag<2>) = 2^(2^30)`,
with exponents in `power_v`'s `int` parameters.  The exponent of `pow<4>(A)`, `2^32`, is
converted to the `int` `0`, which `power_v` rejects: `pow<4>(A)` has no value.  In the
product the sum `2^31` of `A * A` is converted to `-(2^31)`, the next sum is `-(2^30)`, and
the last sum is `0`, so that `A * A * A * A` is the identity magnitude.  For small
exponents both are returned and equal: `pow<3>(mag<-2>) == mag<-8>`. -/
theorem pow_four_fold_product :
    IntExponent.pow 1073741824 1 [⟨Base.integral 2, 1⟩] =
      some [⟨Base.integral 2, 1073741824⟩] ∧
    Canonical [⟨Base.integral 2, 1073741824⟩] ∧
    IntExponent.pow 4 1 [⟨Base.integral 2, 1073741824⟩] = none ∧
    IntExponent.mul [⟨Base.integral 2, 1073741824⟩] [⟨Base.integral 2, 1073741824⟩] =
      some [⟨Base.integral 2, -2147483648⟩] ∧
    IntExponent.mul [⟨Base.integral 2, -2147483648⟩] [⟨Base.integral 2, 1073741824⟩] =
      some [⟨Base.integral 2, -1073741824⟩] ∧
    IntExponent.mul [⟨Base.integral 2, -1073741824⟩] [⟨Base.integral 2, 1073741824⟩] =
      some [] ∧
    (make_magnitude int_t (-2)).bind (IntExponent.pow 3 1) = make_magnitude int_t (-8) ∧
    (make_magnitude int_t (-2)).bind (fun A =>
      (IntExponent.mul A A).bind (fun P => IntExponent.mul P A)) =
      make_magnitude int_t (-8) := by
  decide!

/-- C33: a root after a power at `A = mag<4> = 2^2` and `n = 2147483647`, with exponents
in `power_v`'s `int` parameters.  The exponent of `pow<n>(A)`, `2 * 2147483647 = 2^32 - 2`,
is converted to the `int` `-2`, so `pow<n>(A)` is `2^-2` and `pow<1, n>(pow<n>(A))` is
`2^(-2/2147483647)`, not `A`.  For a small exponent the root undoes the power:
`pow<1, 2>(pow<2>(mag<4>)) == mag<4>`. -/
theorem pow_root_wraps :
    make_magnitude int_t 4 = some [⟨Base.integral 2, 2⟩] ∧
    int_t.holds 2147483647 = true ∧
    int_t.wrap (2 * 2147483647) = -2 ∧
    IntExponent.pow 2147483647 1 [⟨Base.integral 2, 2⟩] = some [⟨Base.integral 2, -2⟩] ∧
    (IntExponent.pow 2147483647 1 [⟨Base.integral 2, 2⟩]).bind
        (IntExponent.pow 1 2147483647) =
      some [⟨Base.integral 2, -2 / 2147483647⟩] ∧
    (IntExponent.pow 2147483647 1 [⟨Base.integral 2, 2⟩]).bind
        (IntExponent.pow 1 2147483647) ≠ some [⟨Base.integral 2, 2⟩] ∧
    (IntExponent.pow 2 1 [⟨Base.integral 2, 2⟩]).bind (IntExponent.pow 1 2) =
      some [⟨Base.integral 2, 2⟩] := by
  decide!

/-- C39: the power of a product at `A = B = pow<1073741824>(mag<2>) = 2^(2^30)` and
`r = 1/2`, with exponents in `power_v`'s `int` parameters.  All of `pow<r>(A)`,
`pow<r>(B)`, `A * B` and `pow<r>(A * B)` are returned; the exponent sum `2^31` of `A * B`
is converted to the `int` `-(2^31)`, so `pow<r>(A * B)` is `2^(-(2^30))`, while
`pow<r>(A) * pow<r>(B)` is `2^(2^30)`.  For small exponents the two agree:
`pow<1,2>(mag<4> * mag<9>) == pow<1,2>(mag<4>) * pow<1,2>(mag<9>)`. -/
theorem pow_product_wraps :
    IntExponent.pow 1073741824 1 [⟨Base.integral 2, 1⟩] =
      some [⟨Base.integral 2, 1073741824⟩] ∧
    IntExponent.pow 1 2 [⟨Base.integral 2, 1073741824⟩] =
      some [⟨Base.integral 2, 536870912⟩] ∧
    IntExponent.mul [⟨Base.integral 2, 1073741824⟩] [⟨Base.integral 2, 1073741824⟩] =
      some [⟨Base.integral 2, -2147483648⟩] ∧
    IntExponent.pow 1 2 [⟨Base.integral 2, -2147483648⟩] =
      some [⟨Base.integral 2, -1073741824⟩] ∧
    IntExponent.mul [⟨Base.integral 2, 536870912⟩] [⟨Base.integral 2, 536870912⟩] =
      some [⟨Base.integral 2, 1073741824⟩] ∧
    (⟨Base.integral 2, -1073741824⟩ : Element) ≠ ⟨Base.integral 2, 1073741824⟩ ∧
    (IntExponent.mul [⟨Base.integral 2, 2⟩] [⟨Base.integral 3, 2⟩]).bind
        (IntExponent.pow 1 2) =
      (IntExponent.pow 1 2 [⟨Base.integral 2, 2⟩]).bind (fun PA =>
        (IntExponent.pow 1 2 [⟨Base.integral 3, 2⟩]).bind (fun PB =>
          IntExponent.mul PA PB)) := by
  decide!



/-! ### The typed argument of `mag` -/

theorem holds_promote {T : IntRep} (hs : T.is_signed = true) {x : Int}
    (h : T.holds x = true) : T.promote.holds x = true := by
  unfold IntRep.promote
  by_cases hb : T.bits < 32
  · rw [if_pos hb]
    unfold IntRep.holds IntRep.min_value IntRep.max_value at h ⊢
    simp only [hs, if_true, Bool.and_eq_true, decide_eq_true_eq] at h
    have hle : (2 : Int) ^ (T.bits - 1) ≤ 2 ^ (32 - 1) :=
      pow_le_pow_right₀ (by norm_num) (by omega)
    simp only [if_true, Bool.and_eq_true, decide_eq_true_eq]
    constructor <;> omega
  · rw [if_neg hb]
    exact h

theorem promote_bits (T : IntRep) : 0 < T.promote.bits := by
  unfold IntRep.promote
  by_cases hb : T.bits < 32
  · rw [if_pos hb]; decide
  · rw [if_neg hb]; omega

theorem signed_of_holds_neg {T : IntRep} {x : Int} (hx : x < 0) (h : T.holds x = true) :
    T.is_signed = true := by
  cases hs : T.is_signed with
  | true => rfl
  | false =>
    unfold IntRep.holds IntRep.min_value at h
    simp only [hs, Bool.false_eq_true, if_false, Bool.and_eq_true, decide_eq_true_eq] at h
    omega

theorem promote_signed {T : IntRep} (hs : T.is_signed = true) : T.promote.is_signed = true := by
  unfold IntRep.promote
  by_cases hb : T.bits < 32
  · rw [if_pos hb]
  · rw [if_neg hb]; exact hs

/-- Whatever `mag<V>` returns for a typed argument is the factorization of the integer
`V`. -/
theorem make_magnitude_some {T : IntRep} {V : Int} {M : unit_magnitude}
    (h : make_magnitude T V = some M) : mag V = some M := by
  unfold make_magnitude at h
  by_cases hh : T.holds V = true
  · rw [if_pos hh] at h
    by_cases h0 : V = 0
    · rw [if_pos h0] at h; cases h
    · rw [if_neg h0] at h
      unfold mag
      rw [if_neg h0]
      by_cases hneg : V < 0
      · have hs := signed_of_holds_neg hneg hh
        have hp := holds_promote hs hh
        have hw : T.promote.wrap V = V := wrap_of_holds (promote_bits T) hp
        rw [if_pos hneg] at h
        unfold arith_neg at h
        rw [promote_signed hs, if_pos rfl, hw] at h
        by_cases h2 : T.promote.holds (-V) = true
        · rw [if_pos h2, Option.some_bind] at h
          by_cases h3 : (intmax_t.holds (-V) && decide (-V > 0)) = true
          · rw [if_pos h3] at h
            have hnat : (-V).toNat = V.natAbs := by omega
            rw [hnat] at h
            simp only [hneg, if_true] at h ⊢
            exact h
          · rw [if_neg h3] at h; cases h
        · rw [if_neg h2] at h; cases h
      · rw [if_neg hneg, Option.some_bind] at h
        by_cases h3 : (intmax_t.holds V && decide (V > 0)) = true
        · rw [if_pos h3] at h
          have hnat : V.toNat = V.natAbs := by omega
          rw [hnat] at h
          simp only [hneg, if_false] at h ⊢
          exact h
        · rw [if_neg h3] at h; cases h
  · rw [if_neg hh] at h; cases h

/-- For a signed type of at most 64 bits that holds both `V` and `-V`, `mag<V>` with the
typed argument is the factorization of the integer `V`. -/
theorem make_magnitude_eq_mag {T : IntRep} (hs : T.is_signed = true)
    (hb : T.bits ≤ intmax_t.bits) {V : Int} (h0 : V ≠ 0) (h1 : T.holds V = true)
    (h2 : T.holds (-V) = true) : make_magnitude T V = mag V := by
  unfold make_magnitude mag
  rw [if_pos h1, if_neg h0, if_neg h0]
  by_cases hneg : V < 0
  · have hp := holds_promote hs h1
    have hw : T.promote.wrap V = V := wrap_of_holds (promote_bits T) hp
    have hp2 := holds_promote hs h2
    have hm : intmax_t.holds (-V) = true := holds_intmax_of_signed hs hb h2
    have hpos : (-V > 0) := by omega
    have hnat : (-V).toNat = V.natAbs := by omega
    rw [if_pos hneg]
    unfold arith_neg
    rw [promote_signed hs, if_pos rfl, hw, if_pos hp2, Option.some_bind, hm, hnat]
    simp [hpos, hneg]
  · have hm : intmax_t.holds V = true := holds_intmax_of_signed hs hb h1
    have hpos : V > 0 := by omega
    have hnat : V.toNat = V.natAbs := by omega
    rw [if_neg hneg, Option.some_bind, hm, hnat]
    simp [hpos, hneg]

/-! ### Claims C4, C22 and C23 -/

/-- C22: `mag<V>` at the least value of `int` and of `std::intmax_t`.  Zero is rejected,
and so is `mag_ratio<0, D>`; but the nonzero argument `-2147483648` of type `int` is
rejected too, because `make_magnitude` computes `-V` in the type of `V`, where it
overflows; the same number as a 64-bit argument is accepted, and the least 64-bit value
is rejected. -/
theorem make_magnitude_least_value :
    make_magnitude int_t 0 = none ∧ mag_ratio 0 5 = none ∧
    int_t.holds (-2147483648) = true ∧ (-2147483648 : Int) ≠ 0 ∧
    arith_neg int_t.promote (-2147483648) = none ∧
    make_magnitude int_t (-2147483648) = none ∧
    make_magnitude intmax_t (-2147483648) =
      some [⟨Base.negative_tag, 1⟩, ⟨Base.integral 2, 31⟩] ∧
    intmax_t.holds (-9223372036854775808) = true ∧
    make_magnitude intmax_t (-9223372036854775808) = none ∧
    make_magnitude int_t (-8) = some [⟨Base.negative_tag, 1⟩, ⟨Base.integral 2, 3⟩] := by
  decide!

/-- C4: `mag<a * b>` and `mag<a> * mag<b>` at `a = -2` and `b = 1073741824` of type `int`.
The product `a * b = -2147483648` is in the range of `int`, and `mag<a> * mag<b>` is
`-(2^31)`, but `mag<a * b>` has no value: `make_magnitude` computes `-V` in the type of
`V`, where it overflows.  Away from the least value the two agree:
`mag<-6> == mag<-2> * mag<3>`, `mag<-7> == mag<-1> * mag<7>`. -/
theorem make_magnitude_mul_least_value :
    int_t.holds (-2) = true ∧ int_t.holds 1073741824 = true ∧
    arith_mul int_t (-2) 1073741824 = some (-2147483648) ∧
    make_magnitude int_t (-2) = some [⟨Base.negative_tag, 1⟩, ⟨Base.integral 2, 1⟩] ∧
    make_magnitude int_t 1073741824 = some [⟨Base.integral 2, 30⟩] ∧
    IntExponent.mul [⟨Base.negative_tag, 1⟩, ⟨Base.integral 2, 1⟩] [⟨Base.integral 2, 30⟩] =
      some [⟨Base.negative_tag, 1⟩, ⟨Base.integral 2, 31⟩] ∧
    make_magnitude int_t (-2147483648) = none ∧
    (make_magnitude int_t (-2)).bind (fun A =>
      (make_magnitude int_t 3).bind (IntExponent.mul A)) = make_magnitude int_t (-6) ∧
    (make_magnitude int_t (-1)).bind (fun A =>
      (make_magnitude int_t 7).bind (IntExponent.mul A)) = make_magnitude int_t (-7) := by
  decide!

/-- C23: `get_value<int>(mag<N>)` at `N = -2147483648`, the least value of `int`.  `N` is
nonzero and representable in `int`, but `mag<N>` has no value (`make_magnitude` computes
`-N` in the type of `N`, where it overflows), so neither has `get_value<int>(mag<N>)`.
Away from the least value the round trip holds: `-8` and `2^30` in `int`, and
`-128` in the 8-bit type, whose negation is computed in the promoted type `int`. -/
theorem get_value_make_magnitude_least_value :
    int_t.is_signed = true ∧ int_t.holds (-2147483648) = true ∧ (-2147483648 : Int) ≠ 0 ∧
    make_magnitude int_t (-2147483648) = none ∧
    (make_magnitude int_t (-2147483648)).bind (get_value int_t) = none ∧
    (make_magnitude int_t (-8)).bind (get_value int_t) = some (-8) ∧
    (make_magnitude int_t 1073741824).bind (get_value int_t) = some 1073741824 ∧
    (make_magnitude ⟨true, 8⟩ (-128)).bind (get_value ⟨true, 8⟩) = some (-128) := by
  decide!



/-! ### Canonical results with `int` exponent parameters -/

/-- An element `power_v` accepts has the given base and a nonzero exponent. -/
theorem power_v_spec {V : Base} {Num : Int} {Den : Option Int} {e : Element}
    (h : power_v V Num Den = some e) : e.base = V ∧ e.exponent ≠ 0 := by
  unfold power_v at h
  split at h
  · rename_i hc
    cases h
    refine ⟨rfl, ?_⟩
    simp only [Bool.and_eq_true, valid_ratio, decide_eq_true_eq] at hc
    obtain ⟨⟨hn, hd⟩, _⟩ := hc
    apply ratio_make_ne_zero hn
    cases Den with
    | none => simp
    | some d => simpa using hd
  · cases h

theorem int_power_v_or_T_spec {V : Base} {R : ratio} {e : Element}
    (h : IntExponent.power_v_or_T V R = some e) : e.base = V ∧ e.exponent ≠ 0 := by
  unfold IntExponent.power_v_or_T at h
  split at h
  · split at h
    · cases h
      exact ⟨rfl, one_ne_zero⟩
    · exact power_v_spec h
  · exact power_v_spec h

theorem int_multiply_impl_nil_left (n : Nat) (B : unit_magnitude) :
    IntExponent.multiply_impl n [] B = some B := by
  cases n <;> simp [IntExponent.multiply_impl]

theorem int_multiply_impl_nil_right (n : Nat) (A : unit_magnitude) :
    IntExponent.multiply_impl n A [] = some A := by
  cases n <;> cases A <;> simp [IntExponent.multiply_impl]

theorem int_multiply_impl_zero (H H2 : Element) (T T2 : unit_magnitude) :
    IntExponent.multiply_impl 0 (H :: T) (H2 :: T2) = none := by
  simp [IntExponent.multiply_impl]

theorem int_multiply_impl_cons_cons (n : Nat) (H H2 : Element) (T T2 : unit_magnitude) :
    IntExponent.multiply_impl (n + 1) (H :: T) (H2 :: T2) =
      if mag_less H H2 then
        if T.isEmpty then some (H :: H2 :: T2)
        else (IntExponent.multiply_impl n T (H2 :: T2)).bind
          (fun r => IntExponent.multiply_impl n [H] r)
      else if mag_less H2 H then
        (IntExponent.multiply_impl n (H :: T) T2).bind
          (fun r => IntExponent.multiply_impl n [H2] r)
      else if same_base_type H.base H2.base then
        (IntExponent.multiply_impl n T T2).bind (fun partial_product =>
          if H.base = Base.negative_tag then some partial_product
          else if H.exponent + H2.exponent = 0 then some partial_product
          else
            (IntExponent.power_v_or_T H.base (H.exponent + H2.exponent)).bind (fun new_head =>
              if new_head.exponent = 0 then some partial_product
              else IntExponent.multiply_impl n [new_head] partial_product))
      else none := by
  rw [IntExponent.multiply_impl]

theorem int_multiply_impl_prepend (k : Nat) (H : Element) (r : unit_magnitude)
    (h : ∀ y ∈ r, key_lt H y) : IntExponent.multiply_impl (k + 1) [H] r = some (H :: r) := by
  cases r with
  | nil => simp [IntExponent.multiply_impl]
  | cons y r =>
    have hy : key_lt H y := h y (List.mem_cons_self _ _)
    have : mag_less H y = true := by simpa [mag_less] using hy
    simp [IntExponent.multiply_impl, this]

/-- A single element in front of larger ones: whatever the product returns is the
prepended pack. -/
theorem int_multiply_impl_singleton {n : Nat} {H : Element} {r R : unit_magnitude}
    (hr : ∀ y ∈ r, key_lt H y) (h : IntExponent.multiply_impl n [H] r = some R) :
    R = H :: r := by
  cases r with
  | nil =>
    rw [int_multiply_impl_nil_right] at h
    cases h
    rfl
  | cons y r =>
    cases n with
    | zero =>
      rw [int_multiply_impl_zero] at h
      cases h
    | succ k =>
      rw [int_multiply_impl_prepend k H (y :: r) hr] at h
      cases h
      rfl

theorem canonical_singleton {H : Element} (h : H.Valid) : Canonical [H] :=
  canonical_cons.2 ⟨h, fun y hy => absurd hy (List.not_mem_nil y), canonical_nil⟩

theorem bases_within_mono {A B A2 B2 R : unit_magnitude}
    (h : ∀ e ∈ R, ∃ x ∈ A ++ B, x.base = e.base) (hA : ∀ x ∈ A, x ∈ A2)
    (hB : ∀ x ∈ B, x ∈ B2) : ∀ e ∈ R, ∃ x ∈ A2 ++ B2, x.base = e.base := by
  intro e he
  obtain ⟨x, hx, hxe⟩ := h e he
  rcases List.mem_append.1 hx with hx | hx
  · exact ⟨x, List.mem_append.2 (Or.inl (hA x hx)), hxe⟩
  · exact ⟨x, List.mem_append.2 (Or.inr (hB x hx)), hxe⟩

theorem bases_within_cons {A B r : unit_magnitude} {H h : Element}
    (hr : ∀ e ∈ r, ∃ x ∈ A ++ B, x.base = e.base) (hH : ∃ x ∈ A ++ B, x.base = h.base)
    (hh : H = h) : ∀ e ∈ H :: r, ∃ x ∈ A ++ B, x.base = e.base := by
  intro e he
  rcases List.mem_cons.1 he with rfl | he
  · rw [hh]; exact hH
  · exact hr e he

/-- Whatever the product with `int` exponent parameters returns on canonical operands is
canonical, over the bases of the operands. -/
theorem int_multiply_impl_canonical : ∀ (n : Nat) (A B R : unit_magnitude), Canonical A →
    Canonical B → IntExponent.multiply_impl n A B = some R →
    Canonical R ∧ ∀ e ∈ R, ∃ x ∈ A ++ B, x.base = e.base := by
  intro n
  induction n with
  | zero =>
    intro A B R hA hB h
    cases A with
    | nil =>
      rw [int_multiply_impl_nil_left] at h
      cases h
      exact ⟨hB, fun e he => ⟨e, by simpa using he, rfl⟩⟩
    | cons H T =>
      cases B with
      | nil =>
        rw [int_multiply_impl_nil_right] at h
        cases h
        exact ⟨hA, fun e he => ⟨e, by simpa using he, rfl⟩⟩
      | cons H2 T2 =>
        rw [int_multiply_impl_zero] at h
        cases h
  | succ n ih =>
    intro A B R hA hB h
    cases A with
    | nil =>
      rw [int_multiply_impl_nil_left] at h
      cases h
      exact ⟨hB, fun e he => ⟨e, by simpa using he, rfl⟩⟩
    | cons H T =>
      cases B with
      | nil =>
        rw [int_multiply_impl_nil_right] at h
        cases h
        exact ⟨hA, fun e he => ⟨e, by simpa using he, rfl⟩⟩
      | cons H2 T2 =>
        obtain ⟨hHv, hHT, hT⟩ := canonical_cons.1 hA
        obtain ⟨hH2v, hH2T, hT2⟩ := canonical_cons.1 hB
        rw [int_multiply_impl_cons_cons] at h
        by_cases h1 : get_base_value H.base < get_base_value H2.base
        · have hless : mag_less H H2 = true := by simpa [mag_less] using h1
          rw [if_pos hless] at h
          have hHB : ∀ y ∈ H2 :: T2, key_lt H y := by
            intro y hy
            rcases List.mem_cons.1 hy with rfl | hy
            · exact h1
            · exact lt_trans h1 (hH2T y hy)
          cases T with
          | nil =>
            rw [if_pos (by rfl)] at h
            cases h
            refine ⟨canonical_cons.2 ⟨hHv, hHB, hB⟩, ?_⟩
            intro e he
            exact ⟨e, by simpa using he, rfl⟩
          | cons t T =>
            rw [if_neg (by simp)] at h
            obtain ⟨r, hr, hR⟩ := Option.bind_eq_some.1 h
            obtain ⟨hrc, hrb⟩ := ih _ _ _ hT hB hr
            have habove : ∀ y ∈ r, key_lt H y := by
              intro y hy
              obtain ⟨x, hx, hxe⟩ := hrb y hy
              rcases List.mem_append.1 hx with hx | hx
              · exact key_lt_of_base_eq (hHT x hx) hxe
              · exact key_lt_of_base_eq (hHB x hx) hxe
            have hRe := int_multiply_impl_singleton habove hR
            subst hRe
            refine ⟨canonical_cons.2 ⟨hHv, habove, hrc⟩, ?_⟩
            apply bases_within_cons _ ⟨H, by simp, rfl⟩ rfl
            exact bases_within_mono hrb (fun x hx => List.mem_cons_of_mem _ hx) (fun x hx => hx)
        · have hless : mag_less H H2 = false := by simpa [mag_less] using h1
          rw [if_neg (by rw [hless]; simp)] at h
          by_cases h2 : get_base_value H2.base < get_base_value H.base
          · have hless2 : mag_less H2 H = true := by simpa [mag_less] using h2
            rw [if_pos hless2] at h
            have hHA : ∀ y ∈ H :: T, key_lt H2 y := by
              intro y hy
              rcases List.mem_cons.1 hy with rfl | hy
              · exact h2
              · exact lt_trans h2 (hHT y hy)
            obtain ⟨r, hr, hR⟩ := Option.bind_eq_some.1 h
            obtain ⟨hrc, hrb⟩ := ih _ _ _ hA hT2 hr
            have habove : ∀ y ∈ r, key_lt H2 y := by
              intro y hy
              obtain ⟨x, hx, hxe⟩ := hrb y hy
              rcases List.mem_append.1 hx with hx | hx
              · exact key_lt_of_base_eq (hHA x hx) hxe
              · exact key_lt_of_base_eq (hH2T x hx) hxe
            have hRe := int_multiply_impl_singleton habove hR
            subst hRe
            refine ⟨canonical_cons.2 ⟨hH2v, habove, hrc⟩, ?_⟩
            apply bases_within_cons _ ⟨H2, by simp, rfl⟩ rfl
            exact bases_within_mono hrb (fun x hx => hx) (fun x hx => List.mem_cons_of_mem _ hx)
          · have hless2 : mag_less H2 H = false := by simpa [mag_less] using h2
            rw [if_neg (by rw [hless2]; simp)] at h
            have hveq : get_base_value H.base = get_base_value H2.base :=
              le_antisymm (not_lt.1 h2) (not_lt.1 h1)
            by_cases hsame : same_base_type H.base H2.base = true
            · rw [if_pos hsame] at h
              obtain ⟨pp, hpp, hR⟩ := Option.bind_eq_some.1 h
              obtain ⟨hpc, hpb⟩ := ih _ _ _ hT hT2 hpp
              have hpb2 : ∀ e ∈ pp, ∃ x ∈ (H :: T) ++ (H2 :: T2), x.base = e.base :=
                bases_within_mono hpb (fun x hx => List.mem_cons_of_mem _ hx)
                  (fun x hx => List.mem_cons_of_mem _ hx)
              by_cases hs : H.base = Base.negative_tag
              · rw [if_pos hs] at hR
                cases hR
                exact ⟨hpc, hpb2⟩
              · rw [if_neg hs] at hR
                by_cases hsum : H.exponent + H2.exponent = 0
                · rw [if_pos hsum] at hR
                  cases hR
                  exact ⟨hpc, hpb2⟩
                · rw [if_neg hsum] at hR
                  obtain ⟨new_head, hnh, hR2⟩ := Option.bind_eq_some.1 hR
                  obtain ⟨hnb, hne⟩ := int_power_v_or_T_spec hnh
                  rw [if_neg hne] at hR2
                  have habove : ∀ y ∈ pp, key_lt new_head y := by
                    intro y hy
                    obtain ⟨x, hx, hxe⟩ := hpb y hy
                    unfold key_lt
                    rw [hnb, ← hxe]
                    rcases List.mem_append.1 hx with hx | hx
                    · exact hHT x hx
                    · have := hH2T x hx
                      unfold key_lt at this
                      rw [hveq]; exact this
                  have hRe := int_multiply_impl_singleton habove hR2
                  subst hRe
                  have hnv : new_head.Valid :=
                    ⟨by rw [hnb]; exact hHv.1, hne, fun hh => absurd (hnb ▸ hh) hs⟩
                  refine ⟨canonical_cons.2 ⟨hnv, habove, hpc⟩, ?_⟩
                  apply bases_within_cons hpb2 ⟨H, by simp, hnb.symm⟩ rfl
            · rw [if_neg hsame] at h
              cases h

/-- Whatever `operator*` with `int` exponent parameters returns on canonical operands is
canonical. -/
theorem int_mul_canonical {A B R : unit_magnitude} (hA : Canonical A) (hB : Canonical B)
    (h : IntExponent.mul A B = some R) : Canonical R :=
  (int_multiply_impl_canonical _ A B R hA hB h).1

/-- When the sum of the exponents on every common base is representable in `int`, the
product with `int` exponent parameters is the product with exact exponents. -/
theorem int_multiply_impl_eq : ∀ (n : Nat) (A B : unit_magnitude), Canonical A → Canonical B →
    (∀ x ∈ A, ∀ y ∈ B, x.base = y.base → x.base ≠ Base.negative_tag →
      int_representable (x.exponent + y.exponent)) →
    IntExponent.multiply_impl n A B = multiply_impl n A B := by
  intro n
  induction n with
  | zero =>
    intro A B _ _ _
    cases A with
    | nil => rw [int_multiply_impl_nil_left, multiply_impl_nil_left]
    | cons H T =>
      cases B with
      | nil => rw [int_multiply_impl_nil_right, multiply_impl_nil_right]
      | cons H2 T2 =>
        rw [int_multiply_impl_zero]
        simp [multiply_impl]
  | succ n ih =>
    intro A B hA hB hrep
    cases A with
    | nil => rw [int_multiply_impl_nil_left, multiply_impl_nil_left]
    | cons H T =>
      cases B with
      | nil => rw [int_multiply_impl_nil_right, multiply_impl_nil_right]
      | cons H2 T2 =>
        obtain ⟨hHv, hHT, hT⟩ := canonical_cons.1 hA
        obtain ⟨hH2v, hH2T, hT2⟩ := canonical_cons.1 hB
        have hvac : ∀ {h : Element} {r : unit_magnitude}, (∀ y ∈ r, key_lt h y) →
            ∀ x ∈ [h], ∀ y ∈ r, x.base = y.base → x.base ≠ Base.negative_tag →
              int_representable (x.exponent + y.exponent) := by
          intro h r hr x hx y hy hxy _
          rw [List.mem_singleton] at hx
          subst hx
          exact absurd hxy.symm (base_ne_of_key_lt (hr y hy))
        rw [int_multiply_impl_cons_cons, multiply_impl_cons_cons]
        by_cases h1 : get_base_value H.base < get_base_value H2.base
        · have hless : mag_less H H2 = true := by simpa [mag_less] using h1
          rw [if_pos hless, if_pos hless]
          have hHB : ∀ y ∈ H2 :: T2, key_lt H y := by
            intro y hy
            rcases List.mem_cons.1 hy with rfl | hy
            · exact h1
            · exact lt_trans h1 (hH2T y hy)
          cases T with
          | nil => rfl
          | cons t T =>
            have hne : ¬ ((t :: T).isEmpty = true) := by simp
            rw [if_neg hne, if_neg hne]
            have e1 := ih (t :: T) (H2 :: T2) hT hB
              (fun x hx y hy => hrep x (List.mem_cons_of_mem _ hx) y hy)
            rw [← e1]
            cases hr : IntExponent.multiply_impl n (t :: T) (H2 :: T2) with
            | none => rfl
            | some r =>
              obtain ⟨hrc, hrb⟩ := int_multiply_impl_canonical _ _ _ _ hT hB hr
              have habove : ∀ y ∈ r, key_lt H y := by
                intro y hy
                obtain ⟨x, hx, hxe⟩ := hrb y hy
                rcases List.mem_append.1 hx with hx | hx
                · exact key_lt_of_base_eq (hHT x hx) hxe
                · exact key_lt_of_base_eq (hHB x hx) hxe
              simp only [Option.some_bind]
              exact ih [H] r (canonical_singleton hHv) hrc (hvac habove)
        · have hless : mag_less H H2 = false := by simpa [mag_less] using h1
          have hn1 : ¬ (mag_less H H2 = true) := by rw [hless]; simp
          rw [if_neg hn1, if_neg hn1]
          by_cases h2 : get_base_value H2.base < get_base_value H.base
          · have hless2 : mag_less H2 H = true := by simpa [mag_less] using h2
            rw [if_pos hless2, if_pos hless2]
            have hHA : ∀ y ∈ H :: T, key_lt H2 y := by
              intro y hy
              rcases List.mem_cons.1 hy with rfl | hy
              · exact h2
              · exact lt_trans h2 (hHT y hy)
            have e1 := ih (H :: T) T2 hA hT2
              (fun x hx y hy => hrep x hx y (List.mem_cons_of_mem _ hy))
            rw [← e1]
            cases hr : IntExponent.multiply_impl n (H :: T) T2 with
            | none => rfl
            | some r =>
              obtain ⟨hrc, hrb⟩ := int_multiply_impl_canonical _ _ _ _ hA hT2 hr
              have habove : ∀ y ∈ r, key_lt H2 y := by
                intro y hy
                obtain ⟨x, hx, hxe⟩ := hrb y hy
                rcases List.mem_append.1 hx with hx | hx
                · exact key_lt_of_base_eq (hHA x hx) hxe
                · exact key_lt_of_base_eq (hH2T x hx) hxe
              simp only [Option.some_bind]
              exact ih [H2] r (canonical_singleton hH2v) hrc (hvac habove)
          · have hless2 : mag_less H2 H = false := by simpa [mag_less] using h2
            have hn2 : ¬ (mag_less H2 H = true) := by rw [hless2]; simp
            rw [if_neg hn2, if_neg hn2]
            have hveq : get_base_value H.base = get_base_value H2.base :=
              le_antisymm (not_lt.1 h2) (not_lt.1 h1)
            by_cases hsame : same_base_type H.base H2.base = true
            · rw [if_pos hsame, if_pos hsame]
              have hb : H.base = H2.base := same_base_type_eq hsame hveq
              have e1 := ih T T2 hT hT2
                (fun x hx y hy => hrep x (List.mem_cons_of_mem _ hx) y (List.mem_cons_of_mem _ hy))
              rw [← e1]
              cases hpp : IntExponent.multiply_impl n T T2 with
              | none => rfl
              | some pp =>
                obtain ⟨hpc, hpb⟩ := int_multiply_impl_canonical _ _ _ _ hT hT2 hpp
                simp only [Option.some_bind]
                by_cases hs : H.base = Base.negative_tag
                · rw [if_pos hs, if_pos hs]
                · rw [if_neg hs, if_neg hs]
                  by_cases hsum : H.exponent + H2.exponent = 0
                  · rw [if_pos hsum, if_pos hsum]
                  · rw [if_neg hsum, if_neg hsum]
                    have hr := hrep H (List.mem_cons_self _ _) H2 (List.mem_cons_self _ _) hb hs
                    rw [int_power_v_or_T_eq H.base _ hr.1 hr.2]
                    have hnum : (H.exponent + H2.exponent).num ≠ 0 := ratio_num_ne_zero hsum
                    have hpv : power_v_or_T H.base (H.exponent + H2.exponent) =
                        some ⟨H.base, H.exponent + H2.exponent⟩ := by
                      unfold power_v_or_T
                      rw [if_neg hnum]
                    rw [hpv]
                    simp only [Option.some_bind]
                    rw [if_neg hsum, if_neg hsum]
                    have habove : ∀ y ∈ pp,
                        key_lt (⟨H.base, H.exponent + H2.exponent⟩ : Element) y := by
                      intro y hy
                      obtain ⟨x, hx, hxe⟩ := hpb y hy
                      unfold key_lt
                      rw [← hxe]
                      rcases List.mem_append.1 hx with hx | hx
                      · exact hHT x hx
                      · have := hH2T x hx
                        unfold key_lt at this
                        show get_base_value H.base < get_base_value x.base
                        rw [hveq]; exact this
                    exact ih _ pp (canonical_singleton ⟨hHv.1, hsum, fun hh => absurd hh hs⟩)
                      hpc (hvac habove)
            · rw [if_neg hsame, if_neg hsame]

/-- When the sum of the exponents on every common base is representable in `int`,
`operator*` with `int` exponent parameters is the product with exact exponents. -/
theorem int_mul_eq {A B : unit_magnitude} (hA : Canonical A) (hB : Canonical B)
    (hrep : ∀ x ∈ A, ∀ y ∈ B, x.base = y.base → x.base ≠ Base.negative_tag →
      int_representable (x.exponent + y.exponent)) :
    IntExponent.mul A B = mul A B :=
  int_multiply_impl_eq _ A B hA hB hrep

theorem int_mul_singleton {H : Element} {r R : unit_magnitude}
    (hr : ∀ y ∈ r, key_lt H y) (h : IntExponent.mul [H] r = some R) : R = H :: r :=
  int_multiply_impl_singleton hr h

theorem no_sentinel_of_not_tag {H : Element} {Rest : unit_magnitude}
    (hA : Canonical (H :: Rest)) (hneg : ¬ (H.is_negative_tag = true)) :
    has_sentinel (H :: Rest) = false := by
  obtain ⟨hHv, hHT, _⟩ := canonical_cons.1 hA
  have hb : H.base ≠ Base.negative_tag := fun hb => hneg ((is_negative_tag_iff hHv).2 hb)
  rw [has_sentinel_cons, has_sentinel_eq_false_of_above (above_of_key_lt hHv hHT)]
  simp [hb]

/-- Whatever the element-wise power with `int` exponent parameters returns on a canonical
pack without sentinel is canonical, over the same bases. -/
theorem int_pow_elements_canonical (R : ratio) : ∀ (m r : unit_magnitude), Canonical m →
    has_sentinel m = false → IntExponent.pow_elements R m = some r →
    Canonical r ∧ ∀ e ∈ r, ∃ x ∈ m, x.base = e.base := by
  intro m
  induction m with
  | nil =>
    intro r _ _ h
    unfold IntExponent.pow_elements at h
    cases h
    exact ⟨canonical_nil, fun e he => absurd he (List.not_mem_nil e)⟩
  | cons x m ih =>
    intro r hm hs h
    obtain ⟨hxv, hxm, hmc⟩ := canonical_cons.1 hm
    rw [has_sentinel_cons, Bool.or_eq_false_iff] at hs
    have hxb : x.base ≠ Base.negative_tag := by simpa using hs.1
    unfold IntExponent.pow_elements at h
    obtain ⟨x2, hx2, h2⟩ := Option.bind_eq_some.1 h
    obtain ⟨xs, hxs, h3⟩ := Option.bind_eq_some.1 h2
    cases h3
    obtain ⟨hb, hne⟩ := int_power_v_or_T_spec hx2
    obtain ⟨hxsc, hxsb⟩ := ih xs hmc hs.2 hxs
    have habove : ∀ y ∈ xs, key_lt x2 y := by
      intro y hy
      obtain ⟨z, hz, hze⟩ := hxsb y hy
      unfold key_lt
      rw [hb, ← hze]
      exact hxm z hz
    refine ⟨canonical_cons.2 ⟨⟨by rw [hb]; exact hxv.1, hne, fun hh => absurd (hb ▸ hh) hxb⟩,
      habove, hxsc⟩, ?_⟩
    intro e he
    rcases List.mem_cons.1 he with rfl | he
    · exact ⟨x, List.mem_cons_self _ _, hb.symm⟩
    · obtain ⟨z, hz, hze⟩ := hxsb e he
      exact ⟨z, List.mem_cons_of_mem _ hz, hze⟩

theorem int_pow_magnitude_free (Num Den : Int) {l r : unit_magnitude} (hl : Canonical l)
    (hs : has_sentinel l = false) (h : IntExponent.pow_magnitude Num Den l = some r) :
    Canonical r ∧ ∀ e ∈ r, ∃ x ∈ l, x.base = e.base := by
  cases l with
  | nil =>
    unfold IntExponent.pow_magnitude at h
    cases h
    exact ⟨canonical_nil, fun e he => absurd he (List.not_mem_nil e)⟩
  | cons x l =>
    have hx : ¬ (x.is_negative_tag = true) := by
      intro hx
      have := (is_negative_tag_iff (hl.2 x (List.mem_cons_self _ _))).1 hx
      simp [this] at hs
    rw [IntExponent.pow_magnitude] at h
    by_cases hD : Den = 0
    · rw [if_pos hD] at h; cases h
    · rw [if_neg hD, if_neg hx] at h
      exact int_pow_elements_canonical _ _ _ hl hs h

/-- Whatever `pow_magnitude` with `int` exponent parameters returns on a canonical
magnitude is canonical, over the same bases. -/
theorem int_pow_magnitude_canonical (Num Den : Int) {A R : unit_magnitude} (hA : Canonical A)
    (h : IntExponent.pow_magnitude Num Den A = some R) :
    Canonical R ∧ ∀ e ∈ R, ∃ x ∈ A, x.base = e.base := by
  cases A with
  | nil => exact int_pow_magnitude_free Num Den hA rfl h
  | cons H Rest =>
    obtain ⟨hHv, hHT, hT⟩ := canonical_cons.1 hA
    by_cases hneg : H.is_negative_tag = true
    · rw [IntExponent.pow_magnitude] at h
      by_cases hD : Den = 0
      · rw [if_pos hD] at h; cases h
      · rw [if_neg hD, if_pos hneg] at h
        by_cases hodd : (ratio.make Num Den).den % 2 = 1
        · rw [if_pos hodd] at h
          obtain ⟨rp, hrp, h2⟩ := Option.bind_eq_some.1 h
          have hRs : has_sentinel Rest = false :=
            has_sentinel_eq_false_of_above (above_of_key_lt hHv hHT)
          obtain ⟨hrpc, hrpb⟩ := int_pow_magnitude_free Num Den hT hRs hrp
          have hrpb2 : ∀ e ∈ rp, ∃ x ∈ H :: Rest, x.base = e.base := by
            intro e he
            obtain ⟨x, hx, hxe⟩ := hrpb e he
            exact ⟨x, List.mem_cons_of_mem _ hx, hxe⟩
          by_cases hev : Int.tmod (ratio.make Num Den).num 2 = 0
          · rw [if_pos hev] at h2
            cases h2
            exact ⟨hrpc, hrpb2⟩
          · rw [if_neg hev] at h2
            have habove : ∀ y ∈ rp, key_lt H y := by
              intro y hy
              obtain ⟨x, hx, hxe⟩ := hrpb y hy
              exact key_lt_of_base_eq (hHT x hx) hxe
            have hRe := int_mul_singleton habove h2
            subst hRe
            refine ⟨canonical_cons.2 ⟨hHv, habove, hrpc⟩, ?_⟩
            intro e he
            rcases List.mem_cons.1 he with rfl | he
            · exact ⟨e, List.mem_cons_self _ _, rfl⟩
            · exact hrpb2 e he
        · rw [if_neg hodd] at h; cases h
    · exact int_pow_magnitude_free Num Den hA (no_sentinel_of_not_tag hA hneg) h

/-- Whatever `pow<Num, Den>` with `int` exponent parameters returns on a canonical
magnitude is canonical. -/
theorem int_pow_canonical (Num Den : Int) {A R : unit_magnitude} (hA : Canonical A)
    (h : IntExponent.pow Num Den A = some R) : Canonical R := by
  unfold IntExponent.pow at h
  split at h
  · by_cases hN : Num = 0
    · rw [if_pos hN] at h
      cases h
      exact canonical_nil
    · rw [if_neg hN] at h
      exact (int_pow_magnitude_canonical Num Den hA h).1
  · cases h

/-- Whatever `operator/` with `int` exponent parameters returns on canonical operands is
canonical. -/
theorem int_div_canonical {A B Q : unit_magnitude} (hA : Canonical A) (hB : Canonical B)
    (h : IntExponent.div A B = some Q) : Canonical Q := by
  unfold IntExponent.div at h
  obtain ⟨I, hI, h2⟩ := Option.bind_eq_some.1 h
  exact int_mul_canonical hA (int_pow_canonical _ _ hB hI) h2

theorem int_pow_magnitude_free_eq (Num Den : Int) {l : unit_magnitude} (hl : Canonical l)
    (hs : has_sentinel l = false)
    (hrep : ∀ e ∈ l, e.base ≠ Base.negative_tag →
      int_representable (e.exponent * ratio.make Num Den)) :
    IntExponent.pow_magnitude Num Den l = pow_magnitude Num Den l := by
  cases l with
  | nil =>
    unfold IntExponent.pow_magnitude pow_magnitude
    rfl
  | cons x l =>
    have hx : ¬ (x.is_negative_tag = true) := by
      intro hx
      have := (is_negative_tag_iff (hl.2 x (List.mem_cons_self _ _))).1 hx
      simp [this] at hs
    rw [IntExponent.pow_magnitude, pow_magnitude]
    by_cases hD : Den = 0
    · rw [if_pos hD, if_pos hD]
    · rw [if_neg hD, if_neg hx, if_neg hD, if_neg hx]
      apply int_pow_elements_eq
      intro e he
      have hb : e.base ≠ Base.negative_tag := by
        intro hb
        have : has_sentinel (x :: l) = true := (has_sentinel_iff _).2 ⟨e, he, hb⟩
        rw [hs] at this
        cases this
      exact hrep e he hb

/-- When `Num` and `Den` are values of type `int` and every new exponent is representable
in `int`, `pow<Num, Den>` with `int` exponent parameters is the power with exact
exponents. -/
theorem int_pow_eq (Num Den : Int) {A : unit_magnitude} (hA : Canonical A)
    (hN : int_t.holds Num = true) (hD : int_t.holds Den = true)
    (hrep : ∀ e ∈ A, e.base ≠ Base.negative_tag →
      int_representable (e.exponent * ratio.make Num Den)) :
    IntExponent.pow Num Den A = pow Num Den A := by
  unfold IntExponent.pow pow
  rw [hN, hD]
  simp only [Bool.and_self, if_true]
  by_cases hN0 : Num = 0
  · rw [if_pos hN0, if_pos hN0]
  · rw [if_neg hN0, if_neg hN0]
    cases A with
    | nil => exact int_pow_magnitude_free_eq Num Den hA rfl hrep
    | cons H Rest =>
      obtain ⟨hHv, hHT, hT⟩ := canonical_cons.1 hA
      by_cases hneg : H.is_negative_tag = true
      · rw [IntExponent.pow_magnitude, pow_magnitude]
        by_cases hD0 : Den = 0
        · rw [if_pos hD0, if_pos hD0]
        · rw [if_neg hD0, if_pos hneg, if_neg hD0, if_pos hneg]
          by_cases hodd : (ratio.make Num Den).den % 2 = 1
          · rw [if_pos hodd, if_pos hodd]
            have hRs : has_sentinel Rest = false :=
              has_sentinel_eq_false_of_above (above_of_key_lt hHv hHT)
            have e1 := int_pow_magnitude_free_eq Num Den hT hRs
              (fun e he => hrep e (List.mem_cons_of_mem _ he))
            rw [← e1]
            cases hrp : IntExponent.pow_magnitude Num Den Rest with
            | none => rfl
            | some rp =>
              obtain ⟨hrpc, hrpb⟩ := int_pow_magnitude_free Num Den hT hRs hrp
              simp only [Option.some_bind]
              by_cases hev : Int.tmod (ratio.make Num Den).num 2 = 0
              · rw [if_pos hev, if_pos hev]
              · rw [if_neg hev, if_neg hev]
                apply int_mul_eq (canonical_singleton hHv) hrpc
                intro x hx y _ _ hxn
                rw [List.mem_singleton] at hx
                subst hx
                exact absurd ((is_negative_tag_iff hHv).1 hneg) hxn
          · rw [if_neg hodd, if_neg hodd]
      · exact int_pow_magnitude_free_eq Num Den hA (no_sentinel_of_not_tag hA hneg) hrep

/-- When the negated exponents of the divisor and the differences of the exponents on
every common base are representable in `int`, `operator/` with `int` exponent parameters
is the quotient with exact exponents. -/
theorem int_div_eq {A B : unit_magnitude} (hA : Canonical A) (hB : Canonical B)
    (hneg : ∀ y ∈ B, y.base ≠ Base.negative_tag → int_representable (-y.exponent))
    (hrep : ∀ x ∈ A, ∀ y ∈ B, x.base = y.base → x.base ≠ Base.negative_tag →
      int_representable (x.exponent - y.exponent)) :
    IntExponent.div A B = div A B := by
  unfold IntExponent.div div
  have e1 : IntExponent.pow (-1) 1 B = pow (-1) 1 B := by
    apply int_pow_eq (-1) 1 hB (by decide) (by decide)
    intro e he hb
    rw [ratio_make_neg_one, mul_neg_one]
    exact hneg e he hb
  rw [e1]
  obtain ⟨I, hI, hIc, hIb, hIe, _⟩ := inv_spec hB
  rw [hI]
  simp only [Option.some_bind]
  apply int_mul_eq hA hIc
  intro x hx y2 hy2 hxy hxn
  obtain ⟨y, hy, hyb⟩ := hIb y2 hy2
  have hy2n : y2.base ≠ Base.negative_tag := fun hh => hxn (hxy.trans hh)
  have h1 : y2.exponent = - y.exponent := by
    rw [← expo_of_mem hIc.1 hy2, hIe _ hy2n, ← hyb, expo_of_mem hB.1 hy]
  rw [h1, ← sub_eq_add_neg]
  exact hrep x hx y hy (hxy.trans hyb.symm) hxn

/-! ### Claim C15 -/

/-- C15: every operation returns a canonical magnitude on canonical operands.  With the
exponents held in the `int` parameters of `power_v`: whatever `A * B`, `A / B` and
`pow<Num, Den>(A)` return is canonical; over one basis (bases of equal value are the same
base) `A * B` and `A / B` are defined and canonical whenever the new exponents are
representable in `int`, and so is `pow<Num, Den>(A)` for `Den != 0` unless it is an even
root of a negative magnitude.  `numerator(A)`, `denominator(A)`, `abs_magnitude(A)` and
`common_magnitude(A, B)` are defined and canonical.  Whatever `mag<N>` returns is
canonical, and `mag<N>` is defined for every `N != 0` whose type (signed, of at most 64
bits) holds `N` and `-N`; `mag_ratio<N, D>` is defined and canonical for `N != 0`,
`D != 0` when `std::intmax_t` holds them and their negations. -/
theorem operations_canonical (A B : unit_magnitude) (hA : Canonical A) (hB : Canonical B) :
    (∀ R, IntExponent.mul A B = some R → Canonical R) ∧
    (∀ Q, IntExponent.div A B = some Q → Canonical Q) ∧
    (∀ (Num Den : Int) (R : unit_magnitude),
      IntExponent.pow Num Den A = some R → Canonical R) ∧
    (Coherent A B →
      (∀ x ∈ A, ∀ y ∈ B, x.base = y.base → x.base ≠ Base.negative_tag →
        int_representable (x.exponent + y.exponent)) →
      ∃ R, IntExponent.mul A B = some R ∧ Canonical R) ∧
    (Coherent A B →
      (∀ y ∈ B, y.base ≠ Base.negative_tag → int_representable (-y.exponent)) →
      (∀ x ∈ A, ∀ y ∈ B, x.base = y.base → x.base ≠ Base.negative_tag →
        int_representable (x.exponent - y.exponent)) →
      ∃ Q, IntExponent.div A B = some Q ∧ Canonical Q) ∧
    (∀ Num Den : Int, int_t.holds Num = true → int_t.holds Den = true → Den ≠ 0 →
      (has_sentinel A = true → (ratio.make Num Den).den % 2 = 1) →
      (∀ e ∈ A, e.base ≠ Base.negative_tag →
        int_representable (e.exponent * ratio.make Num Den)) →
      ∃ R, IntExponent.pow Num Den A = some R ∧ Canonical R) ∧
    (∃ N, numerator A = some N ∧ Canonical N) ∧
    (∃ D, denominator A = some D ∧ Canonical D) ∧
    Canonical (abs_magnitude A) ∧
    (∃ C, common_magnitude A B = some C ∧ Canonical C) ∧
    (∀ (T : IntRep) (N : Int) (M : unit_magnitude),
      make_magnitude T N = some M → Canonical M) ∧
    (∀ (T : IntRep) (N : Int), T.is_signed = true → T.bits ≤ intmax_t.bits → N ≠ 0 →
      T.holds N = true → T.holds (-N) = true →
      ∃ M, make_magnitude T N = some M ∧ Canonical M) ∧
    (∀ N D : Int, N ≠ 0 → D ≠ 0 → intmax_t.holds N = true → intmax_t.holds (-N) = true →
      intmax_t.holds D = true → intmax_t.holds (-D) = true →
      ∃ M, mag_ratio N D = some M ∧ Canonical M) := by
  refine ⟨fun R h => int_mul_canonical hA hB h, fun Q h => int_div_canonical hA hB h,
    fun Num Den R h => int_pow_canonical Num Den hA h, ?_, ?_, ?_, ?_, ?_,
    (abs_magnitude_spec hA).1, ?_, ?_, ?_, ?_⟩
  · intro hc hrep
    obtain ⟨R, hR, hRp⟩ := mul_spec hA hB hc
    exact ⟨R, by rw [int_mul_eq hA hB hrep]; exact hR, hRp.1⟩
  · intro hc hneg hrep
    obtain ⟨Q, hQ, hQc, _⟩ := div_spec hA hB hc
    exact ⟨Q, by rw [int_div_eq hA hB hneg hrep]; exact hQ, hQc⟩
  · intro Num Den hN hD hD0 hodd hrep
    rw [int_pow_eq Num Den hA hN hD hrep]
    by_cases hN0 : Num = 0
    · subst hN0
      exact ⟨[], pow_zero_num Den A, canonical_nil⟩
    · obtain ⟨I, hI, hIc, _⟩ := pow_spec Num Den hN0 hD0 hA hodd
      exact ⟨I, hI, hIc⟩
  · obtain ⟨N, hN, hNc, _⟩ := numerator_spec hA
    exact ⟨N, hN, hNc⟩
  · obtain ⟨D, hD, hDc, _⟩ := denominator_spec hA
    exact ⟨D, hD, hDc⟩
  · obtain ⟨C, hC, hCc, _⟩ := common_magnitude_total A B hA hB
    exact ⟨C, hC, hCc⟩
  · intro T N M h
    have hm := make_magnitude_some h
    have hN : N ≠ 0 := by
      intro h0
      rw [h0] at hm
      unfold mag at hm
      rw [if_pos rfl] at hm
      cases hm
    obtain ⟨R, hR, hRc, _⟩ := mag_spec hN
    rw [hR] at hm
    cases hm
    exact hRc
  · intro T N hs hb hN h1 h2
    obtain ⟨R, hR, hRc, _⟩ := mag_spec hN
    exact ⟨R, by rw [make_magnitude_eq_mag hs hb hN h1 h2]; exact hR, hRc⟩
  · intro N D hN hD _ _ _ _
    obtain ⟨M, hM, hMc, _⟩ := mag_ratio_spec hN hD
    exact ⟨M, hM, hMc⟩

/-- Witness of C15: `A = -2^(1/2) * pi` and `B = 3^-1 * pi^2`; the product and the
common magnitude are defined and canonical. -/
theorem operations_canonical_witness :
    (∃ R, IntExponent.mul [⟨Base.negative_tag, 1⟩, ⟨Base.integral 2, 1 / 2⟩,
          ⟨Base.constant ⟨0, 3141592653589793 / 1000000000000000⟩, 1⟩]
        [⟨Base.integral 3, -1⟩, ⟨Base.constant ⟨0, 3141592653589793 / 1000000000000000⟩, 2⟩]
          = some R ∧ Canonical R) ∧
    ∃ C, common_magnitude [⟨Base.negative_tag, 1⟩, ⟨Base.integral 2, 1 / 2⟩,
          ⟨Base.constant ⟨0, 3141592653589793 / 1000000000000000⟩, 1⟩]
        [⟨Base.integral 3, -1⟩, ⟨Base.constant ⟨0, 3141592653589793 / 1000000000000000⟩, 2⟩]
          = some C ∧ Canonical C :=
  ⟨(operations_canonical _ _ (by decide!) (by decide!)).2.2.2.1 (by decide!) (by decide!),
    (operations_canonical
      [⟨Base.negative_tag, 1⟩, ⟨Base.integral 2, 1 / 2⟩,
        ⟨Base.constant ⟨0, 3141592653589793 / 1000000000000000⟩, 1⟩]
      [⟨Base.integral 3, -1⟩, ⟨Base.constant ⟨0, 3141592653589793 / 1000000000000000⟩, 2⟩]
      (by decide!) (by decide!)).2.2.2.2.2.2.2.2.2.1⟩

/-- The operations at concrete magnitudes: `mag<6> * mag<-10>`, `mag<6> / mag<4>`,
`pow<1, 2>(mag<12>)`, and the typed constructor at `int{-12}`. -/
theorem operations_canonical_examples :
    make_magnitude int_t (-12) =
      some [⟨Base.negative_tag, 1⟩, ⟨Base.integral 2, 2⟩, ⟨Base.integral 3, 1⟩] ∧
    IntExponent.mul [⟨Base.integral 2, 1⟩, ⟨Base.integral 3, 1⟩]
        [⟨Base.negative_tag, 1⟩, ⟨Base.integral 2, 1⟩, ⟨Base.integral 5, 1⟩] =
      some [⟨Base.negative_tag, 1⟩, ⟨Base.integral 2, 2⟩, ⟨Base.integral 3, 1⟩,
        ⟨Base.integral 5, 1⟩] ∧
    IntExponent.div [⟨Base.integral 2, 1⟩, ⟨Base.integral 3, 1⟩] [⟨Base.integral 2, 2⟩] =
      some [⟨Base.integral 2, -1⟩, ⟨Base.integral 3, 1⟩] ∧
    IntExponent.pow 1 2 [⟨Base.integral 2, 2⟩, ⟨Base.integral 3, 1⟩] =
      some [⟨Base.integral 2, 1⟩, ⟨Base.integral 3, 1 / 2⟩] := by
  decide!



/-! ### The typed constructor and the `int` exponents on their domain -/

/-- Away from the least value of its type, an argument of `mag` is accepted exactly when
it is not zero. -/
theorem make_magnitude_defined_iff {T : IntRep} (hs : T.is_signed = true)
    (hb : T.bits ≤ intmax_t.bits) {V : Int} (h1 : T.holds V = true)
    (h2 : T.holds (-V) = true) : (∃ R, make_magnitude T V = some R) ↔ V ≠ 0 := by
  constructor
  · rintro ⟨R, hR⟩ h0
    have hm := make_magnitude_some hR
    rw [h0] at hm
    unfold mag at hm
    rw [if_pos rfl] at hm
    cases hm
  · intro h0
    obtain ⟨R, hR, _⟩ := mag_spec h0
    exact ⟨R, by rw [make_magnitude_eq_mag hs hb h0 h1 h2]; exact hR⟩

/-- Away from the least value of its type, the value of `mag<N>` is `N`. -/
theorem make_magnitude_round_trip {T : IntRep} (hs : T.is_signed = true)
    (hb : T.bits ≤ intmax_t.bits) {N : Int} (hN : N ≠ 0) (h1 : T.holds N = true)
    (h2 : T.holds (-N) = true) : (make_magnitude T N).bind (get_value T) = some N := by
  obtain ⟨M, hM, hv⟩ := get_value_mag T N hs hb hN h1 (holds_intmax_of_signed hs hb h2)
  rw [make_magnitude_eq_mag hs hb hN h1 h2, hM]
  exact hv

/-- When `Num` and `Den` are values of type `int` and every new exponent is representable
in `int`, `pow<Num, Den>(A)` with `int` exponent parameters is rejected exactly for an
even root of a negative magnitude. -/
theorem int_pow_rejected_iff (Num Den : Int) {A : unit_magnitude} (hD : Den ≠ 0)
    (hA : Canonical A) (hN : int_t.holds Num = true) (hDh : int_t.holds Den = true)
    (hrep : ∀ e ∈ A, e.base ≠ Base.negative_tag →
      int_representable (e.exponent * ratio.make Num Den)) :
    IntExponent.pow Num Den A = none ↔
      (check_magnitude_is_positive A = false ∧ Num ≠ 0 ∧
        (Den.natAbs / Int.gcd Num Den) % 2 = 0) := by
  rw [int_pow_eq Num Den hA hN hDh hrep]
  exact (pow_rejected_iff Num Den A hD hA).1


end MpUnits
